import Mathlib

/-!
# mr-library: ring buffer (`src/src/kservice.c`) and task scheduler (`src/src/task.c`)

A shallow embedding of the byte FIFO `mr_fifo_*` and of the event-driven task
scheduler `mr_task_*`, together with the properties their specification states.
The reload calculation of the timer device (`src/device/timer/timer.c`) and the
AVL tree `mr_avl_*` of `kservice.c` are embedded as well.

Conventions of the embedding.

* A byte is a natural number; a block of memory is a `List Nat`.
* `mr_size_t` values are natural numbers.  Every `a - b` of the ring buffer is
  taken on operands with `b ≤ a` in every well-formed state (`fifo_wf`), which
  is an invariant of all reachable states, so truncated subtraction on `Nat`
  and the unsigned subtraction of the C code agree there; the bound that makes
  the subtraction of `mr_fifo_get_space_size` safe is proved explicitly.
* `struct mr_fifo` is declared in a header that is not part of the sources at
  hand; its fields are the ones the functions use.  The two mirror flags are
  single bits, complemented by `~`, and are modelled as `Bool`.
* A function that writes through a pointer argument returns the new value of
  the pointee next to its C return value.
* A loop whose termination is not evident from its shape takes a `fuel`
  argument and returns `none` when it runs out; that enough fuel gives a result
  is proved where a result is claimed.
* Callbacks are functions of the environment: given the invocations made so
  far and the task they are invoked on, they determine the task functions the
  callback calls, in order.
-/

set_option linter.unusedVariables false

namespace MrLibrary

/-! ## Ring buffer: data model -/

/-- The fields of `struct mr_fifo` used by `kservice.c`. -/
structure mr_fifo where
  read_mirror : Bool
  read_index : Nat
  write_mirror : Bool
  write_index : Nat
  buffer : List Nat
  size : Nat
deriving DecidableEq, Repr

/-- `mr_memcpy(&dst[off], src, src.length)`: overwrite `dst` from offset `off`
with the bytes `src`. -/
def mr_memcpy (dst : List Nat) (off : Nat) (src : List Nat) : List Nat :=
  dst.take off ++ src ++ dst.drop (off + src.length)

/-- `mr_fifo_init(fifo, pool, pool_size)`, kservice.c lines 153-165. -/
def mr_fifo_init (pool : List Nat) (pool_size : Nat) : mr_fifo :=
  { read_index := 0
    write_index := 0
    read_mirror := false
    write_mirror := false
    buffer := pool
    size := pool_size }

/-- `mr_fifo_reset(fifo)`, kservice.c lines 172-181. -/
def mr_fifo_reset (fifo : mr_fifo) : mr_fifo :=
  { fifo with read_index := 0, write_index := 0, read_mirror := false, write_mirror := false }

/-- `mr_fifo_get_data_size(fifo)`, kservice.c lines 190-215. -/
def mr_fifo_get_data_size (fifo : mr_fifo) : Nat :=
  if fifo.read_index = fifo.write_index then
    if fifo.read_mirror = fifo.write_mirror then 0 else fifo.size
  else if fifo.write_index > fifo.read_index then
    fifo.write_index - fifo.read_index
  else
    fifo.size - fifo.read_index + fifo.write_index

/-- `mr_fifo_get_space_size(fifo)`, kservice.c lines 224-229. -/
def mr_fifo_get_space_size (fifo : mr_fifo) : Nat :=
  fifo.size - mr_fifo_get_data_size fifo

/-- `mr_fifo_get_buffer_size(fifo)`, kservice.c lines 238-243. -/
def mr_fifo_get_buffer_size (fifo : mr_fifo) : Nat :=
  fifo.size

/-- `mr_fifo_read(fifo, buffer, size)`, kservice.c lines 254-300.  The result is
the fifo afterwards, the bytes stored into `buffer` (as many as the return
value) and the return value. -/
def mr_fifo_read (fifo : mr_fifo) (size : Nat) : mr_fifo × List Nat × Nat :=
  if size = 0 then (fifo, [], 0)
  else
    let length := mr_fifo_get_data_size fifo
    if length = 0 then (fifo, [], 0)
    else
      let size := if size > length then length else size
      if fifo.size - fifo.read_index > size then
        ({ fifo with read_index := fifo.read_index + size },
          (fifo.buffer.drop fifo.read_index).take size, size)
      else
        ({ fifo with
            read_mirror := !fifo.read_mirror
            read_index := size - (fifo.size - fifo.read_index) },
          (fifo.buffer.drop fifo.read_index).take (fifo.size - fifo.read_index)
            ++ fifo.buffer.take (size - (fifo.size - fifo.read_index)),
          size)

/-- `mr_fifo_write(fifo, buffer, size)`, kservice.c lines 311-355.  The result
is the fifo afterwards and the return value. -/
def mr_fifo_write (fifo : mr_fifo) (buf : List Nat) (size : Nat) : mr_fifo × Nat :=
  if size = 0 then (fifo, 0)
  else
    let length := mr_fifo_get_space_size fifo
    if length = 0 then (fifo, 0)
    else
      let size := if size > length then length else size
      if fifo.size - fifo.write_index > size then
        ({ fifo with
            buffer := mr_memcpy fifo.buffer fifo.write_index (buf.take size)
            write_index := fifo.write_index + size },
          size)
      else
        let buffer1 := mr_memcpy fifo.buffer fifo.write_index
          (buf.take (fifo.size - fifo.write_index))
        let buffer2 := mr_memcpy buffer1 0
          ((buf.drop (fifo.size - fifo.write_index)).take
            (size - (fifo.size - fifo.write_index)))
        ({ fifo with
            buffer := buffer2
            write_mirror := !fifo.write_mirror
            write_index := size - (fifo.size - fifo.write_index) },
          size)

/-- `mr_fifo_write_force(fifo, buffer, size)`, kservice.c lines 366-422. -/
def mr_fifo_write_force (fifo : mr_fifo) (buf : List Nat) (size : Nat) : mr_fifo × Nat :=
  if size = 0 then (fifo, 0)
  else
    let length := mr_fifo_get_space_size fifo
    let buf := if size > fifo.size then buf.drop (size - fifo.size) else buf
    let size := if size > fifo.size then fifo.size else size
    if fifo.size - fifo.write_index > size then
      let write_index := fifo.write_index + size
      ({ fifo with
          buffer := mr_memcpy fifo.buffer fifo.write_index (buf.take size)
          write_index := write_index
          read_index := if size > length then write_index else fifo.read_index },
        size)
    else
      let buffer1 := mr_memcpy fifo.buffer fifo.write_index
        (buf.take (fifo.size - fifo.write_index))
      let buffer2 := mr_memcpy buffer1 0
        ((buf.drop (fifo.size - fifo.write_index)).take
          (size - (fifo.size - fifo.write_index)))
      let write_index := size - (fifo.size - fifo.write_index)
      ({ fifo with
          buffer := buffer2
          write_mirror := !fifo.write_mirror
          write_index := write_index
          read_mirror :=
            if size > length then
              if write_index ≤ fifo.read_index then !fifo.read_mirror else fifo.read_mirror
            else fifo.read_mirror
          read_index := if size > length then write_index else fifo.read_index },
        size)

/-- The unread contents of a fifo: the `mr_fifo_get_data_size` bytes of the
storage starting at `read_index`, continuing at offset 0 after the end of the
storage. -/
def fifo_contents (fifo : mr_fifo) : List Nat :=
  ((fifo.buffer ++ fifo.buffer).drop fifo.read_index).take (mr_fifo_get_data_size fifo)

/-- States reachable from `mr_fifo_init` (on a pool of `pool_size` bytes) by
`mr_fifo_read`, `mr_fifo_write` and `mr_fifo_write_force`. -/
inductive fifo_reachable : mr_fifo → Prop
  | init (pool : List Nat) : fifo_reachable (mr_fifo_init pool pool.length)
  | read (fifo : mr_fifo) (size : Nat) :
      fifo_reachable fifo → fifo_reachable (mr_fifo_read fifo size).1
  | write (fifo : mr_fifo) (buf : List Nat) :
      fifo_reachable fifo → fifo_reachable (mr_fifo_write fifo buf buf.length).1
  | write_force (fifo : mr_fifo) (buf : List Nat) :
      fifo_reachable fifo → fifo_reachable (mr_fifo_write_force fifo buf buf.length).1

/-- The representation invariant of the ring buffer: the storage has `size`
bytes, both indices are inside it, and the mirror flags agree when the write
index is ahead of the read index and differ when it is behind. -/
def fifo_wf (fifo : mr_fifo) : Prop :=
  fifo.buffer.length = fifo.size ∧
  (fifo.size = 0 → fifo.read_index = 0 ∧ fifo.write_index = 0) ∧
  (0 < fifo.size → fifo.read_index < fifo.size ∧ fifo.write_index < fifo.size) ∧
  (fifo.read_index < fifo.write_index → fifo.read_mirror = fifo.write_mirror) ∧
  (fifo.write_index < fifo.read_index → fifo.read_mirror ≠ fifo.write_mirror)

/-! ## Ring buffer: call sequences -/

/-- A call made on a fifo in a write/read scenario. -/
inductive fifo_call where
  | write (buf : List Nat)
  | read (size : Nat)
deriving DecidableEq, Repr

/-- What is observed while running a sequence of calls: the fifo, the bytes
offered to `mr_fifo_write` so far, whether every write returned the full size
it was given, and the bytes returned by `mr_fifo_read` so far. -/
structure fifo_run where
  fifo : mr_fifo
  written : List Nat
  accepted : Bool
  read_out : List Nat
deriving DecidableEq, Repr

/-- Run one call and record its outcome. -/
def fifo_run_call (s : fifo_run) : fifo_call → fifo_run
  | fifo_call.write buf =>
      { fifo := (mr_fifo_write s.fifo buf buf.length).1
        written := s.written ++ buf
        accepted := s.accepted && decide ((mr_fifo_write s.fifo buf buf.length).2 = buf.length)
        read_out := s.read_out }
  | fifo_call.read size =>
      { fifo := (mr_fifo_read s.fifo size).1
        written := s.written
        accepted := s.accepted
        read_out := s.read_out ++ (mr_fifo_read s.fifo size).2.1 }

/-- Run a sequence of calls from left to right. -/
def fifo_run_calls (s : fifo_run) (calls : List fifo_call) : fifo_run :=
  calls.foldl fifo_run_call s

/-- The total number of bytes a sequence of calls offers to `mr_fifo_write`. -/
def fifo_offered : List fifo_call → Nat
  | [] => 0
  | fifo_call.write buf :: calls => buf.length + fifo_offered calls
  | fifo_call.read _ :: calls => fifo_offered calls

/-- The start of a scenario: a fifo freshly initialised on `pool`. -/
def fifo_run_init (pool : List Nat) : fifo_run :=
  { fifo := mr_fifo_init pool pool.length, written := [], accepted := true, read_out := [] }

/-! ## Task scheduler: data model (`src/src/task.c`)

`task.c` is written against declarations of a header that is not part of the
sources at hand: the status codes, the reserved event codes, the ring buffer
entry points `mr_rb_*` and the layout of `struct mr_task`.  They are modelled
below, each one marked as such.  Interrupt masking and the diagnostic output
(`MR_DEBUG_E`) have no effect on the task state and are left out.
-/

/-- Modelled from the spec: the status values returned by the task functions.
`MR_ERR_OK` is success; every other constructor stands for the negated constant
the code returns (`-MR_ERR_GENERIC` is the "not active" failure). -/
inductive mr_err_t where
  | MR_ERR_OK
  | MR_ERR_GENERIC
  | MR_ERR_NO_MEMORY
  | MR_ERR_IO
  | MR_ERR_BUSY
  | MR_ERR_INVALID
deriving DecidableEq, Repr

/-- Modelled from the spec: event code reserved for a timer expiry (codes 252 to
255 are reserved, in the order TIMING, STATE_ENTER, STATE_EXIT, STATE_ACTIVE). -/
def MR_TASK_EVENT_TIMING : Nat := 252

/-- Modelled from the spec: event code reserved for entering a state. -/
def MR_TASK_EVENT_SM_ENTER : Nat := 253

/-- Modelled from the spec: event code reserved for leaving a state. -/
def MR_TASK_EVENT_SM_EXIT : Nat := 254

/-- Modelled from the spec: event code of the synthetic "state active" call. -/
def MR_TASK_EVENT_SM : Nat := 255

/-- The constant `MR_UINT32_MAX`, the largest `mr_uint32_t` value. -/
def MR_UINT32_MAX : Nat := 4294967295

/-- The two timing modes accepted by `mr_task_timing` (its assertion admits no
other flag). -/
inductive mr_task_timing_flag where
  | MR_TASK_TIMING_FLAG_ONESHOT
  | MR_TASK_TIMING_FLAG_PERIODIC
deriving DecidableEq, Repr

/-- Modelled from the spec: `mr_rb_init`, the initialisation of the event
queue's ring buffer; the ring buffer of the sources is `mr_fifo_init`. -/
def mr_rb_init (pool : List Nat) (pool_size : Nat) : mr_fifo :=
  mr_fifo_init pool pool_size

/-- Modelled from the spec: `mr_rb_get_data_size`, the ring buffer's `dataSize`;
the ring buffer of the sources is `mr_fifo_get_data_size`. -/
def mr_rb_get_data_size (rb : mr_fifo) : Nat :=
  mr_fifo_get_data_size rb

/-- Modelled from the spec: `mr_rb_get_buffer_size`, the ring buffer's capacity;
the ring buffer of the sources is `mr_fifo_get_buffer_size`. -/
def mr_rb_get_buffer_size (rb : mr_fifo) : Nat :=
  mr_fifo_get_buffer_size rb

/-- Modelled from the spec: `mr_rb_read`, the ring buffer's `read`; the ring
buffer of the sources is `mr_fifo_read`. -/
def mr_rb_read (rb : mr_fifo) (size : Nat) : mr_fifo × List Nat × Nat :=
  mr_fifo_read rb size

/-- Modelled from the spec: `mr_rb_write`, the ring buffer's `write`; the ring
buffer of the sources is `mr_fifo_write`. -/
def mr_rb_write (rb : mr_fifo) (buf : List Nat) (size : Nat) : mr_fifo × Nat :=
  mr_fifo_write rb buf size

/-- The two bytes of a `mr_uint16_t` object in memory (least significant byte
first), as copied by `mr_memcpy` from `&index_and_event`. -/
def u16_bytes (v : Nat) : List Nat :=
  [v % 256, v / 256 % 256]

/-- The value of a `mr_uint16_t` object whose two bytes in memory are `bytes`. -/
def u16_of_bytes (bytes : List Nat) : Nat :=
  bytes.getD 0 0 + 256 * bytes.getD 1 0

/-- A callback pointer stored in a slot: `MR_NULL`, the sentinel
`err_io_task_cb` of task.c, or a user function (identified by a number). -/
inductive mr_task_cb where
  | null
  | err_io_task_cb
  | user (id : Nat)
deriving DecidableEq, Repr, Inhabited

/-- One entry of the slot table, `struct mr_task_table`: the callback, its
opaque argument and the timing fields.  The list node `timing.run` is
represented by the slot's index being in the task's `run` list. -/
structure mr_task_table where
  cb : mr_task_cb
  args : Nat
  interval : Nat
  timeout : Nat
deriving DecidableEq, Repr, Inhabited

/-- The fields of `struct mr_task` used by task.c.  `run` is the run list from
head to tail, as the indices of the slots whose timing node is linked in. -/
structure mr_task where
  active : Bool
  sm_active : Bool
  usage_max : Nat
  event : Nat
  sm : Nat
  tick : Nat
  queue : mr_fifo
  run : List Nat
  table : List mr_task_table
  table_size : Nat
deriving DecidableEq, Repr

/-- `err_io_task_cb(cb, args)`, task.c lines 17-20. -/
def err_io_task_cb_result : mr_err_t :=
  mr_err_t.MR_ERR_IO

/-! ## Task scheduler: operations -/

/-- `mr_task_add(task, name, table, table_size, queue_size)`, task.c lines
50-101, under its assertion `table_size != 0 && table_size <= MR_UINT8_MAX`.
`memory` is the result of `mr_malloc(queue_size * sizeof(mr_uint16_t))` (`none`
for `MR_NULL`) and `object_add` the result of the registry's `mr_object_add`. -/
def mr_task_add (task : mr_task) (table : List mr_task_table) (table_size queue_size : Nat)
    (memory : Option (List Nat)) (object_add : mr_err_t) : mr_task × mr_err_t :=
  match memory with
  | none => (task, mr_err_t.MR_ERR_NO_MEMORY)
  | some pool =>
      ({ active := false
         sm_active := false
         usage_max := 0
         event := 0
         sm := 0
         tick := 0
         queue := mr_rb_init pool (queue_size * 2)
         run := []
         table :=
           (table.take table_size).map
               (fun slot =>
                 { slot with
                   cb := if slot.cb = mr_task_cb.null then mr_task_cb.err_io_task_cb
                         else slot.cb })
             ++ table.drop table_size
         table_size := table_size },
        object_add)

/-- `mr_task_start(task)`, task.c lines 241-249. -/
def mr_task_start (task : mr_task) : mr_task × mr_err_t :=
  ({ task with active := true }, mr_err_t.MR_ERR_OK)

/-- `mr_task_stop(task)`, task.c lines 258-266. -/
def mr_task_stop (task : mr_task) : mr_task × mr_err_t :=
  ({ task with active := false }, mr_err_t.MR_ERR_OK)

/-- `mr_task_get_event(task)`, task.c lines 484-490. -/
def mr_task_get_event (task : mr_task) : Nat :=
  task.event

/-- The expression `usage * 100 / total` of `mr_task_get_usage`, task.c line
525, for a `total` that is not zero.  The product is a `mr_size_t`, taken as 32
bits wide as in the loop of `mr_task_handle`, and wraps; the quotient is
converted to `mr_uint8_t` when it is returned. -/
def mr_task_usage_rate (usage total : Nat) : Nat :=
  (usage * 100 % 4294967296 / total) % 256

/-- `mr_task_get_usage(task)`, task.c lines 514-526; `none` when the capacity
of the queue is 0 and the function divides by zero. -/
def mr_task_get_usage (task : mr_task) : Option Nat :=
  let usage := mr_rb_get_data_size task.queue
  let total := mr_rb_get_buffer_size task.queue
  if total = 0 then none else some (mr_task_usage_rate usage total)

/-- `mr_task_post_event(task, index, event)`, task.c lines 279-332.  The flag
`MR_CFG_TASK_USAGE` is the configuration switch of lines 327-329.  Where
`mr_task_get_usage` is called the two bytes of the record have just been
stored, so the capacity of the queue is not 0 and the call returns a value. -/
def mr_task_post_event (MR_CFG_TASK_USAGE : Bool) (task : mr_task) (index event : Nat) :
    mr_task × mr_err_t :=
  if index ≥ task.table_size then (task, mr_err_t.MR_ERR_INVALID)
  else if task.active = false then (task, mr_err_t.MR_ERR_GENERIC)
  else
    let index_and_event := ((index <<< 8) ||| event) % 65536
    let written := mr_rb_write task.queue (u16_bytes index_and_event) 2
    let task := { task with queue := written.1 }
    if written.2 ≠ 2 then (task, mr_err_t.MR_ERR_BUSY)
    else if MR_CFG_TASK_USAGE then
      ({ task with usage_max := max task.usage_max ((mr_task_get_usage task).getD 0) },
        mr_err_t.MR_ERR_OK)
    else (task, mr_err_t.MR_ERR_OK)

/-- The insertion loop of `mr_task_timing`, task.c lines 412-426: `index` is
linked in before the first node of the run list whose timeout is greater than
`timeout`, at the tail when there is none. -/
def mr_task_run_insert (table : List mr_task_table) (index timeout : Nat) :
    List Nat → List Nat
  | [] => [index]
  | node :: rest =>
      if timeout < (table.getD node default).timeout then index :: node :: rest
      else node :: mr_task_run_insert table index timeout rest

/-- `mr_task_timing(task, index, tick, flag)`, task.c lines 346-432. -/
def mr_task_timing (task : mr_task) (index tick : Nat) (flag : mr_task_timing_flag) :
    mr_task × mr_err_t :=
  if index ≥ task.table_size then (task, mr_err_t.MR_ERR_INVALID)
  else if task.active = false then (task, mr_err_t.MR_ERR_GENERIC)
  else
    let task := { task with run := task.run.erase index }
    if tick = 0 then (task, mr_err_t.MR_ERR_OK)
    else
      let interval :=
        if flag = mr_task_timing_flag.MR_TASK_TIMING_FLAG_ONESHOT then 0 else tick
      let timeout := (task.tick + tick) % 4294967296
      let table := task.table.set index
        { task.table.getD index default with interval := interval, timeout := timeout }
      ({ task with
          table := table
          run := mr_task_run_insert table index timeout task.run },
        mr_err_t.MR_ERR_OK)

/-- The scan loop of `mr_task_update_tick`, task.c lines 165-187.  After a due
node has been removed the loop variable is back on the list head, so every
iteration examines the first node of the run list.  The slot index computed
from the node is a `mr_uint32_t`; it is converted to `mr_uint8_t` where it is
passed to `mr_task_post_event` and `mr_task_timing`.  `fuel` bounds the number
of iterations; `none` means it was not enough. -/
def mr_task_update_tick_loop (MR_CFG_TASK_USAGE : Bool) (curr_tick : Nat) :
    Nat → mr_task → Option mr_task
  | 0, _ => none
  | fuel + 1, task =>
      match task.run with
      | [] => some task
      | node :: rest =>
          if (curr_tick + 4294967296 - (task.table.getD node default).timeout) % 4294967296
              ≥ MR_UINT32_MAX / 2 then some task
          else
            let task := { task with run := rest }
            let index := node
            let task := (mr_task_post_event MR_CFG_TASK_USAGE task (index % 256)
              MR_TASK_EVENT_TIMING).1
            let task := (mr_task_timing task (index % 256)
              (task.table.getD index default).interval
              mr_task_timing_flag.MR_TASK_TIMING_FLAG_PERIODIC).1
            mr_task_update_tick_loop MR_CFG_TASK_USAGE curr_tick fuel task

/-- `mr_task_update_tick(task, tick)`, task.c lines 147-188, under its assertion
`tick != 0 && tick < MR_UINT32_MAX / 2`. -/
def mr_task_update_tick (MR_CFG_TASK_USAGE : Bool) (fuel : Nat) (task : mr_task) (tick : Nat) :
    Option mr_task :=
  if task.active = false then some task
  else
    let curr_tick := (task.tick + tick) % 4294967296
    mr_task_update_tick_loop MR_CFG_TASK_USAGE curr_tick fuel { task with tick := curr_tick }

/-- `mr_task_transition_state(task, index)`, task.c lines 442-475. -/
def mr_task_transition_state (MR_CFG_TASK_USAGE : Bool) (task : mr_task) (index : Nat) :
    mr_task × mr_err_t :=
  if index ≥ task.table_size then (task, mr_err_t.MR_ERR_INVALID)
  else if task.active = false then (task, mr_err_t.MR_ERR_GENERIC)
  else
    let task :=
      if task.sm_active = true then
        (mr_task_post_event MR_CFG_TASK_USAGE task task.sm MR_TASK_EVENT_SM_EXIT).1
      else task
    let task := { task with sm := index }
    let task := (mr_task_post_event MR_CFG_TASK_USAGE task task.sm MR_TASK_EVENT_SM_ENTER).1
    ({ task with sm_active := true }, mr_err_t.MR_ERR_OK)

/-! ## Task scheduler: dispatch and callbacks -/

/-- A call a callback makes on the task that invoked it; the callback contract
allows a callback to post events, arm or disarm timers and change state from
inside `mr_task_handle`. -/
inductive mr_task_call where
  | post_event (index event : Nat)
  | timing (index tick : Nat) (flag : mr_task_timing_flag)
  | transition_state (index : Nat)
deriving DecidableEq, Repr

/-- A callback invocation made by `mr_task_handle`: the slot, the callback and
argument taken from the slot, and the value of `mr_task_get_event` during the
call. -/
structure mr_task_invocation where
  index : Nat
  cb : mr_task_cb
  args : Nat
  event : Nat
deriving DecidableEq, Repr

/-- The behaviour of the user callbacks: the calls that user function `id`
makes, in order, when it is invoked with `args` on a task in the given state,
after the invocations already made by the current `mr_task_handle`. -/
abbrev mr_task_callbacks :=
  List mr_task_invocation → Nat → Nat → mr_task → List mr_task_call

/-- Perform one call made by a callback.  The arguments are converted to the
parameter types of the task functions (`mr_uint8_t` index and event,
`mr_uint32_t` tick). -/
def mr_task_do_call (MR_CFG_TASK_USAGE : Bool) (task : mr_task) : mr_task_call → mr_task
  | mr_task_call.post_event index event =>
      (mr_task_post_event MR_CFG_TASK_USAGE task (index % 256) (event % 256)).1
  | mr_task_call.timing index tick flag =>
      (mr_task_timing task (index % 256) (tick % 4294967296) flag).1
  | mr_task_call.transition_state index =>
      (mr_task_transition_state MR_CFG_TASK_USAGE task (index % 256)).1

/-- The call `task->table[index].cb(task, task->table[index].args)` of
`mr_task_handle`.  The result is `none` when the table is indexed outside its
bounds or the callback pointer is `MR_NULL`; otherwise the task after the
callback has returned and the record of the invocation. -/
def mr_task_invoke (MR_CFG_TASK_USAGE : Bool) (cbs : mr_task_callbacks)
    (trace : List mr_task_invocation) (task : mr_task) (index : Nat) :
    Option (mr_task × mr_task_invocation) :=
  match task.table.get? index with
  | none => none
  | some slot =>
      match slot.cb with
      | mr_task_cb.null => none
      | mr_task_cb.err_io_task_cb =>
          some (task, ⟨index, slot.cb, slot.args, mr_task_get_event task⟩)
      | mr_task_cb.user id =>
          some ((cbs trace id slot.args task).foldl (mr_task_do_call MR_CFG_TASK_USAGE) task,
            ⟨index, slot.cb, slot.args, mr_task_get_event task⟩)

/-- Lines 215-220 of `mr_task_handle`: read one record from the queue into the
local `index_and_label` (given and returned as its two bytes), decode it and
store the event code.  The result is the task, the bytes of the local, the
decoded slot index and the return value of `mr_rb_read`. -/
def mr_task_handle_fetch (task : mr_task) (index_and_label : List Nat) :
    mr_task × List Nat × Nat × Nat :=
  let read := mr_rb_read task.queue 2
  let index_and_label := read.2.1 ++ index_and_label.drop read.2.1.length
  let value := u16_of_bytes index_and_label
  let index := (value >>> 8) % 256
  ({ task with queue := read.1, event := value &&& 0xFF }, index_and_label, index, read.2.2)

/-- The `while (count != 0)` loop of `mr_task_handle`, task.c lines 213-224.
`count -= ...` is an unsigned subtraction and wraps (32-bit `mr_size_t`) when
more is read than was counted.  `fuel` bounds the number of iterations. -/
def mr_task_handle_loop (MR_CFG_TASK_USAGE : Bool) (cbs : mr_task_callbacks) :
    Nat → Nat → List Nat → mr_task → List mr_task_invocation →
      Option (mr_task × List mr_task_invocation)
  | 0, _, _, _, _ => none
  | fuel + 1, count, index_and_label, task, trace =>
      if count = 0 then some (task, trace)
      else
        let fetched := mr_task_handle_fetch task index_and_label
        let count :=
          if fetched.2.2.2 ≤ count then count - fetched.2.2.2
          else count + 4294967296 - fetched.2.2.2
        match mr_task_invoke MR_CFG_TASK_USAGE cbs trace fetched.1 fetched.2.2.1 with
        | none => none
        | some (task, invocation) =>
            mr_task_handle_loop MR_CFG_TASK_USAGE cbs fuel count fetched.2.1 task
              (trace ++ [invocation])

/-- `mr_task_handle(task)`, task.c lines 195-232.  The result is the task
afterwards and the callback invocations made, in order; `none` when `fuel` was
not enough or a callback could not be called. -/
def mr_task_handle (MR_CFG_TASK_USAGE : Bool) (cbs : mr_task_callbacks) (fuel : Nat)
    (task : mr_task) : Option (mr_task × List mr_task_invocation) :=
  if task.active = false then some (task, [])
  else
    let count := mr_rb_get_data_size task.queue
    match mr_task_handle_loop MR_CFG_TASK_USAGE cbs fuel count [0, 0] task [] with
    | none => none
    | some (task, trace) =>
        if task.sm_active = true then
          let task := { task with event := MR_TASK_EVENT_SM }
          match mr_task_invoke MR_CFG_TASK_USAGE cbs trace task task.sm with
          | none => none
          | some (task, invocation) => some (task, trace ++ [invocation])
        else some (task, trace)

/-- Task states reachable from a successful `mr_task_add` through
`mr_task_start`, `mr_task_stop`, `mr_task_post_event`, `mr_task_timing`,
`mr_task_update_tick`, `mr_task_transition_state` and `mr_task_handle`.
`mr_task_handle` contributes its steps one by one (fetching a
record, exposing the state-machine event), because the callbacks it invokes
call the task functions in between; these calls are the other constructors.
Arguments range over the parameter types of the C functions. -/
inductive task_reachable (MR_CFG_TASK_USAGE : Bool) : mr_task → Prop
  | add (task : mr_task) (table : List mr_task_table) (table_size queue_size : Nat)
      (pool : List Nat) (hsize : table_size ≠ 0 ∧ table_size ≤ 255)
      (htable : table.length = table_size) (hpool : pool.length = queue_size * 2) :
      task_reachable MR_CFG_TASK_USAGE
        (mr_task_add task table table_size queue_size (some pool) mr_err_t.MR_ERR_OK).1
  | start (task : mr_task) :
      task_reachable MR_CFG_TASK_USAGE task →
      task_reachable MR_CFG_TASK_USAGE (mr_task_start task).1
  | stop (task : mr_task) :
      task_reachable MR_CFG_TASK_USAGE task →
      task_reachable MR_CFG_TASK_USAGE (mr_task_stop task).1
  | post_event (task : mr_task) (index event : Nat) (hindex : index < 256)
      (hevent : event < 256) :
      task_reachable MR_CFG_TASK_USAGE task →
      task_reachable MR_CFG_TASK_USAGE (mr_task_post_event MR_CFG_TASK_USAGE task index event).1
  | timing (task : mr_task) (index tick : Nat) (flag : mr_task_timing_flag)
      (hindex : index < 256) (htick : tick < 4294967296) :
      task_reachable MR_CFG_TASK_USAGE task →
      task_reachable MR_CFG_TASK_USAGE (mr_task_timing task index tick flag).1
  | update_tick (task : mr_task) (fuel tick : Nat) (task2 : mr_task)
      (htick : tick ≠ 0 ∧ tick < MR_UINT32_MAX / 2) :
      task_reachable MR_CFG_TASK_USAGE task →
      mr_task_update_tick MR_CFG_TASK_USAGE fuel task tick = some task2 →
      task_reachable MR_CFG_TASK_USAGE task2
  | transition_state (task : mr_task) (index : Nat) (hindex : index < 256) :
      task_reachable MR_CFG_TASK_USAGE task →
      task_reachable MR_CFG_TASK_USAGE
        (mr_task_transition_state MR_CFG_TASK_USAGE task index).1
  | handle_fetch (task : mr_task) (index_and_label : List Nat) :
      task_reachable MR_CFG_TASK_USAGE task →
      task_reachable MR_CFG_TASK_USAGE (mr_task_handle_fetch task index_and_label).1
  | handle_sm (task : mr_task) :
      task_reachable MR_CFG_TASK_USAGE task →
      task_reachable MR_CFG_TASK_USAGE { task with event := MR_TASK_EVENT_SM }

/-- The callback and argument of every slot of a table, in slot order. -/
def task_table_callbacks (table : List mr_task_table) : List (mr_task_cb × Nat) :=
  table.map (fun slot => (slot.cb, slot.args))

/-- The invariant of the event queue: a well-formed ring buffer in a storage of
even size that holds a whole number of 2-byte records, made of bytes, each of
which names a slot below `table_size` (the slot index is the second byte of a
record). -/
def task_queue_inv (queue : mr_fifo) (table_size : Nat) : Prop :=
  fifo_wf queue ∧
  queue.size % 2 = 0 ∧
  mr_fifo_get_data_size queue % 2 = 0 ∧
  (∀ k : Nat, 2 * k + 1 < (fifo_contents queue).length →
    (fifo_contents queue).getD (2 * k + 1) 0 < table_size) ∧
  (∀ byte ∈ fifo_contents queue, byte < 256)

/-- The invariant of the slot table: it has `table_size` entries, between 1 and
255, none with a null callback. -/
def task_table_inv (table : List mr_task_table) (table_size : Nat) : Prop :=
  table_size ≠ 0 ∧ table_size ≤ 255 ∧
  table.length = table_size ∧
  (∀ slot ∈ table, slot.cb ≠ mr_task_cb.null)

/-- The invariant of reachable task states used below: the queue and table
invariants, and the current state names a slot of the table when the state
machine is active. -/
def task_inv (task : mr_task) : Prop :=
  task_queue_inv task.queue task.table_size ∧
  task_table_inv task.table task.table_size ∧
  (task.sm_active = true → task.sm < task.table_size)

/-- The relation between a task before and after the calls made by a callback:
the invariant holds, the task is as active as before, the table keeps its size,
callbacks and arguments, and the queue contents are extended at the tail. -/
def task_callback_step (task task2 : mr_task) : Prop :=
  task_inv task2 ∧
  task2.active = task.active ∧
  task2.table_size = task.table_size ∧
  task_table_callbacks task2.table = task_table_callbacks task.table ∧
  ∃ ext : List Nat, fifo_contents task2.queue = fifo_contents task.queue ++ ext

/-! ## Task scheduler: a concrete task -/

/-- A task object before `mr_task_add`. -/
def task_example_blank : mr_task :=
  { active := false, sm_active := false, usage_max := 0, event := 0, sm := 0, tick := 0
    queue := mr_fifo_init [] 0, run := [], table := [], table_size := 0 }

/-- A table of two slots: a user callback and a slot without callback. -/
def task_example_table : List mr_task_table :=
  [{ cb := mr_task_cb.user 0, args := 10, interval := 0, timeout := 0 },
   { cb := mr_task_cb.null, args := 11, interval := 0, timeout := 0 }]

/-- The example task: added with the two-slot table and a queue of two records,
then started. -/
def task_example : mr_task :=
  (mr_task_start (mr_task_add task_example_blank task_example_table 2 2
    (some [0, 0, 0, 0]) mr_err_t.MR_ERR_OK).1).1

/-- Callbacks that make no call. -/
def task_example_callbacks : mr_task_callbacks :=
  fun _ _ _ _ => []

/-! ## Task scheduler: run list -/

/-- The representation invariant of the run list: a list node is linked in at
most once, and every node belongs to a slot of the table. -/
def task_run_inv (task : mr_task) : Prop :=
  task.run.Nodup ∧ ∀ node ∈ task.run, node < task.table_size

/-- The deadline (`timing.timeout`) stored in slot `node` of a table. -/
def task_deadline (table : List mr_task_table) (node : Nat) : Nat :=
  (table.getD node default).timeout

/-- The distance from the tick `tick` to the deadline `deadline`, both 32-bit
counters: `(deadline - tick) mod 2^32` read as a signed 32-bit number. -/
def task_signed_distance (tick deadline : Nat) : Int :=
  if (deadline + 4294967296 - tick % 4294967296) % 4294967296 < 2147483648 then
    (((deadline + 4294967296 - tick % 4294967296) % 4294967296 : Nat) : Int)
  else
    (((deadline + 4294967296 - tick % 4294967296) % 4294967296 : Nat) : Int) - 4294967296

/-- The run list is in ascending order of the stored deadlines, compared as
unsigned 32-bit values. -/
def task_run_sorted (task : mr_task) : Prop :=
  task.run.Pairwise (fun a b => task_deadline task.table a ≤ task_deadline task.table b)

/-- The signed distances from the current tick to the deadlines of the run
list, from head to tail. -/
def task_run_distances (task : mr_task) : List Int :=
  task.run.map (fun node => task_signed_distance task.tick (task_deadline task.table node))

/-! ## Task scheduler: the dispatch as the specification words it -/

/-- The records held in a sequence of queue bytes, two bytes each, decoded the
way `mr_task_handle` decodes them: the slot index and the event code. -/
def task_queue_records : List Nat → List (Nat × Nat)
  | a :: b :: rest =>
      ((u16_of_bytes [a, b] >>> 8) % 256, u16_of_bytes [a, b] &&& 0xFF)
        :: task_queue_records rest
  | _ => []

/-- The bytes appended to the event queue between a task state and a later
one whose unread contents extend those of the first. -/
def task_queue_appended (task task2 : mr_task) : List Nat :=
  (fifo_contents task2.queue).drop (fifo_contents task.queue).length

/-- Delivery of a snapshot, following the specification: for each record of the
snapshot, in order, the record is taken off the queue, its event code is
exposed as the current event and the callback of its slot is invoked.  The
records are those of the list taken at entry, not what the queue holds by
then.  Next to the task and the invocations made, the result collects what
the invoked callbacks appended to the queue, invocation after invocation. -/
def spec_deliver (MR_CFG_TASK_USAGE : Bool) (cbs : mr_task_callbacks) :
    List (Nat × Nat) → mr_task → List mr_task_invocation → List Nat →
      Option (mr_task × List mr_task_invocation × List Nat)
  | [], task, invoked, posted => some (task, invoked, posted)
  | (index, event) :: records, task, invoked, posted =>
      match mr_task_invoke MR_CFG_TASK_USAGE cbs invoked
          { task with queue := (mr_rb_read task.queue 2).1, event := event } index with
      | none => none
      | some (task2, invocation) =>
          spec_deliver MR_CFG_TASK_USAGE cbs records task2 (invoked ++ [invocation])
            (posted ++ task_queue_appended
              { task with queue := (mr_rb_read task.queue 2).1, event := event } task2)

/-- The dispatch, following the specification: nothing on a stopped task;
otherwise the records queued at entry are the snapshot, the snapshot is
delivered, and then, if the state machine is active, the callback of the
current state is invoked once more with the event code `MR_TASK_EVENT_SM`. -/
def spec_dispatch (MR_CFG_TASK_USAGE : Bool) (cbs : mr_task_callbacks) (task : mr_task) :
    Option (mr_task × List mr_task_invocation × List Nat) :=
  if task.active = false then some (task, [], [])
  else
    match spec_deliver MR_CFG_TASK_USAGE cbs (task_queue_records (fifo_contents task.queue))
        task [] [] with
    | none => none
    | some (task1, invoked, posted) =>
        if task1.sm_active = true then
          match mr_task_invoke MR_CFG_TASK_USAGE cbs invoked
              { task1 with event := MR_TASK_EVENT_SM } task1.sm with
          | none => none
          | some (task2, invocation) =>
              some (task2, invoked ++ [invocation],
                posted ++ task_queue_appended { task1 with event := MR_TASK_EVENT_SM } task2)
        else some (task1, invoked, posted)

/-- Callbacks that never call `mr_task_transition_state`. -/
def mr_task_callbacks_no_transition (cbs : mr_task_callbacks) : Prop :=
  ∀ (invoked : List mr_task_invocation) (id args : Nat) (task : mr_task),
    ∀ call ∈ cbs invoked id args task, ∀ index : Nat,
      call ≠ mr_task_call.transition_state index

/-- A task freshly added and started: `mr_task_add`, with the memory for the
queue and the registration granted, then `mr_task_start`. -/
def task_fresh (task : mr_task) (table : List mr_task_table) (table_size queue_size : Nat)
    (pool : List Nat) : mr_task :=
  (mr_task_start (mr_task_add task table table_size queue_size (some pool)
    mr_err_t.MR_ERR_OK).1).1

/-! ## Task scheduler: more concrete tasks -/

/-- The example task with slot 0 armed periodically, 7 ticks ahead. -/
def task_example_armed : mr_task :=
  (mr_task_timing task_example 0 7 mr_task_timing_flag.MR_TASK_TIMING_FLAG_PERIODIC).1

/-- Callbacks that post event 9 to slot 0 whenever they are invoked. -/
def task_example_repost : mr_task_callbacks :=
  fun _ _ _ _ => [mr_task_call.post_event 0 9]

/-- The example task with event 5 queued for slot 0. -/
def task_example_queued : mr_task :=
  (mr_task_post_event true task_example 0 5).1

/-- The example task in state 0 with an empty queue: after the transition to
state 0, once the dispatch has fetched the record of the transition. -/
def task_example_in_state : mr_task :=
  (mr_task_handle_fetch (mr_task_transition_state true task_example 0).1 [0, 0]).1

/-- Callbacks that change to state 1 when they are invoked with event 5. -/
def task_example_transit : mr_task_callbacks :=
  fun _ _ _ task => if task.event = 5 then [mr_task_call.transition_state 1] else []

/-- The example task with its queue full: events 1 and 2 queued for slot 0. -/
def task_example_full : mr_task :=
  (mr_task_post_event true (mr_task_post_event true task_example 0 1).1 0 2).1

/-- The example task with a queue of three records. -/
def task_example_roomy : mr_task :=
  task_fresh task_example_blank task_example_table 2 3 [0, 0, 0, 0, 0, 0]

/-- The example task ten ticks before its tick wraps: the tick has been
advanced to 4294967286 by two calls of `mr_task_update_tick`. -/
def task_example_late : mr_task :=
  ((mr_task_update_tick true 1 task_example 2147483646).bind
    (fun task => mr_task_update_tick true 1 task 2147483640)).getD task_example

/-- The example task ten ticks before its tick wraps, with slot 0 armed 5
ticks ahead and then slot 1 armed 20 ticks ahead, past the wrap. -/
def task_example_wrap : mr_task :=
  (mr_task_timing
    (mr_task_timing task_example_late 0 5
      mr_task_timing_flag.MR_TASK_TIMING_FLAG_ONESHOT).1 1 20
    mr_task_timing_flag.MR_TASK_TIMING_FLAG_ONESHOT).1

/-- The example task with slot 0 armed 2147483650 ticks ahead. -/
def task_example_far : mr_task :=
  (mr_task_timing task_example 0 2147483650
    mr_task_timing_flag.MR_TASK_TIMING_FLAG_ONESHOT).1

/-- The armed example task at the tick of its deadline, as the scan loop of
`mr_task_update_tick` sees it. -/
def task_example_due : mr_task :=
  { task_example_armed with tick := 7 }

/-! ## Task scheduler: removal and tick sequences -/

/-- `mr_task_remove(task)`, task.c lines 110-139.  `object_remove` is the
result of the registry's `mr_object_remove`.  `mr_rb_init(&task->queue,
MR_NULL, 0)` leaves the queue without storage, and `task->table = MR_NULL`
leaves the task without table. -/
def mr_task_remove (task : mr_task) (object_remove : mr_err_t) : mr_task × mr_err_t :=
  if object_remove ≠ mr_err_t.MR_ERR_OK then (task, object_remove)
  else
    ({ active := false
       sm_active := false
       usage_max := 0
       event := 0
       sm := 0
       tick := 0
       queue := mr_rb_init [] 0
       run := []
       table := []
       table_size := 0 },
      mr_err_t.MR_ERR_OK)

/-- The body of the scan loop of `mr_task_update_tick` for a due node, task.c
lines 175-186: the node is detached (`rest` is the run list without it),
`MR_TASK_EVENT_TIMING` is posted to its slot and the slot is re-armed with its
interval. -/
def mr_task_update_tick_fire (MR_CFG_TASK_USAGE : Bool) (task : mr_task) (node : Nat)
    (rest : List Nat) : mr_task :=
  let task := { task with run := rest }
  let index := node
  let task := (mr_task_post_event MR_CFG_TASK_USAGE task (index % 256)
    MR_TASK_EVENT_TIMING).1
  (mr_task_timing task (index % 256) (task.table.getD index default).interval
    mr_task_timing_flag.MR_TASK_TIMING_FLAG_PERIODIC).1

/-- A sequence of `n` calls `mr_task_update_tick(task, 1)`, each given `fuel`
iterations of the scan loop. -/
def mr_task_unit_ticks (MR_CFG_TASK_USAGE : Bool) (fuel : Nat) : Nat → mr_task → Option mr_task
  | 0, task => some task
  | n + 1, task =>
      (mr_task_unit_ticks MR_CFG_TASK_USAGE fuel n task).bind
        (fun task => mr_task_update_tick MR_CFG_TASK_USAGE fuel task 1)

/-- The records of `count` expiries of slot `index`, as queue bytes. -/
def task_timing_bytes (index : Nat) : Nat → List Nat
  | 0 => []
  | count + 1 => task_timing_bytes index count ++ [MR_TASK_EVENT_TIMING, index]

/-! ## Task scheduler: concrete tasks for the timers -/

/-- The example task at tick 4294967000, reached by two calls of
`mr_task_update_tick`. -/
def task_example_high : mr_task :=
  ((mr_task_update_tick true 1 task_example 2147483646).bind
    (fun task => mr_task_update_tick true 1 task 2147483354)).getD task_example

/-- The example task at tick 4294967000 with both slots armed at this tick:
slot 0 with delay 100 in the given mode, slot 1 with delay 200, one-shot. -/
def task_example_pair (flag : mr_task_timing_flag) : mr_task :=
  (mr_task_timing (mr_task_timing task_example_high 0 100 flag).1 1 200
    mr_task_timing_flag.MR_TASK_TIMING_FLAG_ONESHOT).1

/-- The example task at tick 0 with slot 0 armed 5 ticks ahead and slot 1 armed
20 ticks ahead. -/
def task_example_plain : mr_task :=
  (mr_task_timing
    (mr_task_timing task_example 0 5 mr_task_timing_flag.MR_TASK_TIMING_FLAG_ONESHOT).1
    1 20 mr_task_timing_flag.MR_TASK_TIMING_FLAG_ONESHOT).1

/-- The example task with slot 0 armed periodically with the interval
2147483658. -/
def task_example_huge : mr_task :=
  (mr_task_timing task_example 0 2147483658
    mr_task_timing_flag.MR_TASK_TIMING_FLAG_PERIODIC).1

/-- The example task ten ticks before its tick wraps, with slot 0 armed
periodically with interval 5 and then slot 1 armed 20 ticks ahead, past the
wrap. -/
def task_example_wrap_periodic : mr_task :=
  (mr_task_timing
    (mr_task_timing task_example_late 0 5
      mr_task_timing_flag.MR_TASK_TIMING_FLAG_PERIODIC).1 1 20
    mr_task_timing_flag.MR_TASK_TIMING_FLAG_ONESHOT).1

/-! ## Ring buffer: the storage accesses of the operations -/

/-- The parts of the storage read by `mr_fifo_read(fifo, buffer, size)`: offset
and length of each `mr_memcpy` from `fifo->buffer`, kservice.c lines 282-294. -/
def mr_fifo_read_accesses (fifo : mr_fifo) (size : Nat) : List (Nat × Nat) :=
  if size = 0 then []
  else
    let length := mr_fifo_get_data_size fifo
    if length = 0 then []
    else
      let size := if size > length then length else size
      if fifo.size - fifo.read_index > size then [(fifo.read_index, size)]
      else
        [(fifo.read_index, fifo.size - fifo.read_index),
          (0, size - (fifo.size - fifo.read_index))]

/-- The parts of the storage written by `mr_fifo_write(fifo, buffer, size)`:
offset and length of each `mr_memcpy` to `fifo->buffer`, kservice.c lines
339-349. -/
def mr_fifo_write_accesses (fifo : mr_fifo) (size : Nat) : List (Nat × Nat) :=
  if size = 0 then []
  else
    let length := mr_fifo_get_space_size fifo
    if length = 0 then []
    else
      let size := if size > length then length else size
      if fifo.size - fifo.write_index > size then [(fifo.write_index, size)]
      else
        [(fifo.write_index, fifo.size - fifo.write_index),
          (0, size - (fifo.size - fifo.write_index))]

/-- The parts of the storage written by `mr_fifo_write_force(fifo, buffer,
size)`: offset and length of each `mr_memcpy` to `fifo->buffer`, kservice.c
lines 389-406. -/
def mr_fifo_write_force_accesses (fifo : mr_fifo) (size : Nat) : List (Nat × Nat) :=
  if size = 0 then []
  else
    let size := if size > fifo.size then fifo.size else size
    if fifo.size - fifo.write_index > size then [(fifo.write_index, size)]
    else
      [(fifo.write_index, fifo.size - fifo.write_index),
        (0, size - (fifo.size - fifo.write_index))]

/-! ## Task scheduler: the memory released by a failed `mr_task_add` -/

/-- The argument of the call `mr_free(memory)` that `mr_task_add` makes, task.c
lines 93-98: the memory allocated for the queue, when `mr_object_add` has
returned an error; `none` when the function frees nothing (the allocation has
failed, or the registration has succeeded). -/
def mr_task_add_freed (memory : Option (List Nat)) (object_add : mr_err_t) :
    Option (List Nat) :=
  match memory with
  | none => none
  | some pool => if object_add ≠ mr_err_t.MR_ERR_OK then some pool else none

/-! ## Task scheduler: the insertion point as the specification words it -/

/-- Following the specification, the wraparound comparator: the deadline `a`
is strictly greater than the deadline `d` when `(a - d) mod 2^32`, read as a
signed 32-bit number, is positive. -/
def spec_deadline_greater (a d : Nat) : Bool :=
  decide (0 < (a + 4294967296 - d % 4294967296) % 4294967296 ∧
    (a + 4294967296 - d % 4294967296) % 4294967296 < 2147483648)

/-- Following the specification: the node is inserted before the first node of
the run list whose deadline is strictly greater under the wraparound
comparator, and appended at the tail if there is none. -/
def spec_run_insert (table : List mr_task_table) (index deadline : Nat) : List Nat → List Nat
  | [] => [index]
  | node :: rest =>
      if spec_deadline_greater (table.getD node default).timeout deadline then
        index :: node :: rest
      else node :: spec_run_insert table index deadline rest

/-! ## Task scheduler: sequences of calls -/

/-- A sequence of calls `mr_task_update_tick(task, delta)`, one for each
element of `deltas`, in order, each given `fuel` iterations of the scan loop. -/
def mr_task_update_ticks (MR_CFG_TASK_USAGE : Bool) (fuel : Nat) :
    List Nat → mr_task → Option mr_task
  | [], task => some task
  | delta :: deltas, task =>
      (mr_task_update_tick MR_CFG_TASK_USAGE fuel task delta).bind
        (mr_task_update_ticks MR_CFG_TASK_USAGE fuel deltas)

/-- The nodes of the run list that the due test of `mr_task_update_tick` finds
due at the tick `curr_tick`. -/
def task_run_due (task : mr_task) (curr_tick : Nat) : List Nat :=
  task.run.filter (fun node =>
    decide ((curr_tick + 4294967296 - task_deadline task.table node) % 4294967296
      < 2147483647))

/-- The timers of the run list lie ahead of the tick and stay clear of the wrap
of the 32-bit tick counter for the next `horizon` ticks: the tick does not
reach `2^32` within `horizon` ticks, and every slot of the run list has its
deadline after the tick and at most `2^31 + 1` ticks away, an interval of at
most `2^31 + 1`, and a deadline that stays below `2^32` when the slot is
re-armed within `horizon` ticks. -/
def task_run_ahead (task : mr_task) (horizon : Nat) : Prop :=
  task.tick + horizon < 4294967296 ∧
  ∀ node ∈ task.run,
    task.tick < task_deadline task.table node ∧
    task_deadline task.table node ≤ task.tick + 2147483649 ∧
    task_deadline task.table node < 4294967296 ∧
    (task.table.getD node default).interval ≤ 2147483649 ∧
    task.tick + horizon + (task.table.getD node default).interval < 4294967296

/-- The records for slot `index` among the records held in a sequence of queue
bytes, in order. -/
def task_records_of (index : Nat) (bytes : List Nat) : List (Nat × Nat) :=
  (task_queue_records bytes).filter (fun record => decide (record.1 = index))

/-- A task with two slots and a queue of eight records, started: the example
task with a larger queue. -/
def task_example_wide : mr_task :=
  (mr_task_start (mr_task_add task_example_blank task_example_table 2 8
    (some (List.replicate 16 0)) mr_err_t.MR_ERR_OK).1).1

/-- The example task with its queue full and slot 0 armed in the given mode 5
ticks ahead, at the tick of the deadline, as the scan loop of
`mr_task_update_tick` sees it. -/
def task_example_full_due (flag : mr_task_timing_flag) : mr_task :=
  { (mr_task_timing task_example_full 0 5 flag).1 with tick := 5 }

/-! ## Task scheduler: executions of the task functions and their state machine -/

/-- What an execution of the task functions shows of the state machine, entry
by entry in the order in which it happens. -/
inductive task_sm_event where
  /-- The entry for `mr_task_handle` on an active task, before the loop over
  the queued records. -/
  | dispatch
  /-- The entry for an invocation of slot `index` for a queued record with the
  event code `event`. -/
  | deliver (index event : Nat)
  /-- The entry for the end of the loop over the queued records. -/
  | drained
  /-- The entry for the invocation of slot `index`, the current state, with
  `MR_TASK_EVENT_SM` at the end of `mr_task_handle`. -/
  | active (index : Nat)
  /-- The entry for a call of `mr_task_transition_state` that makes `index` the
  current state; `owed` is the number of records the queue holds when the call
  returns, the last of them being the STATE_ENTER record of this transition, or
  0 when that record was not accepted by the queue. -/
  | transition (index owed : Nat)
deriving DecidableEq, Repr

/-- The entry a call `mr_task_transition_state(task, index)` leaves: none when
the call is rejected (task.c lines 448-459); otherwise the transition, with the
number of records queued at the return when `mr_task_post_event` has accepted
the STATE_ENTER record on line 471 (the code does not look at the value
returned there), and 0 when it has not. -/
def mr_task_transition_log (MR_CFG_TASK_USAGE : Bool) (task : mr_task) (index : Nat) :
    List task_sm_event :=
  if index ≥ task.table_size then []
  else if task.active = false then []
  else
    let task :=
      if task.sm_active = true then
        (mr_task_post_event MR_CFG_TASK_USAGE task task.sm MR_TASK_EVENT_SM_EXIT).1
      else task
    let task := { task with sm := index }
    let posted := mr_task_post_event MR_CFG_TASK_USAGE task task.sm MR_TASK_EVENT_SM_ENTER
    [task_sm_event.transition index
      (if posted.2 = mr_err_t.MR_ERR_OK then mr_rb_get_data_size posted.1.queue / 2 else 0)]

/-- The entries one call on the task leaves, the call being performed by
`mr_task_do_call`: only `mr_task_transition_state` leaves one. -/
def mr_task_call_log (MR_CFG_TASK_USAGE : Bool) (task : mr_task) :
    mr_task_call → List task_sm_event
  | mr_task_call.post_event _ _ => []
  | mr_task_call.timing _ _ _ => []
  | mr_task_call.transition_state index =>
      mr_task_transition_log MR_CFG_TASK_USAGE task (index % 256)

/-- The entries a sequence of calls leaves, each call being made on the task
the calls before it have left. -/
def mr_task_calls_log (MR_CFG_TASK_USAGE : Bool) :
    mr_task → List mr_task_call → List task_sm_event
  | _, [] => []
  | task, call :: calls =>
      mr_task_call_log MR_CFG_TASK_USAGE task call
        ++ mr_task_calls_log MR_CFG_TASK_USAGE (mr_task_do_call MR_CFG_TASK_USAGE task call)
            calls

/-- The calls the callback of slot `index` makes when `mr_task_invoke` invokes
it: those of the user function, none for `err_io_task_cb`. -/
def mr_task_invoke_calls (cbs : mr_task_callbacks) (trace : List mr_task_invocation)
    (task : mr_task) (index : Nat) : List mr_task_call :=
  match task.table.get? index with
  | none => []
  | some slot =>
      match slot.cb with
      | mr_task_cb.null => []
      | mr_task_cb.err_io_task_cb => []
      | mr_task_cb.user id => cbs trace id slot.args task

/-- The entries the loop of `mr_task_handle` leaves: it follows
`mr_task_handle_loop` step by step, and leaves for every iteration the
delivery and then the entries of the calls the callback makes. -/
def mr_task_handle_loop_log (MR_CFG_TASK_USAGE : Bool) (cbs : mr_task_callbacks) :
    Nat → Nat → List Nat → mr_task → List mr_task_invocation → List task_sm_event
  | 0, _, _, _, _ => []
  | fuel + 1, count, index_and_label, task, trace =>
      if count = 0 then []
      else
        let fetched := mr_task_handle_fetch task index_and_label
        let count :=
          if fetched.2.2.2 ≤ count then count - fetched.2.2.2
          else count + 4294967296 - fetched.2.2.2
        match mr_task_invoke MR_CFG_TASK_USAGE cbs trace fetched.1 fetched.2.2.1 with
        | none => []
        | some (task, invocation) =>
            task_sm_event.deliver invocation.index invocation.event
              :: (mr_task_calls_log MR_CFG_TASK_USAGE fetched.1
                    (mr_task_invoke_calls cbs trace fetched.1 fetched.2.2.1)
                  ++ mr_task_handle_loop_log MR_CFG_TASK_USAGE cbs fuel count fetched.2.1 task
                      (trace ++ [invocation]))

/-- The entries `mr_task_handle` leaves: none on a stopped task; otherwise the
start of the dispatch, the entries of the loop, its end and, if the state
machine is active then, the invocation of the current state followed by the
entries of the calls its callback makes. -/
def mr_task_handle_log (MR_CFG_TASK_USAGE : Bool) (cbs : mr_task_callbacks) (fuel : Nat)
    (task : mr_task) : List task_sm_event :=
  if task.active = false then []
  else
    let count := mr_rb_get_data_size task.queue
    task_sm_event.dispatch
      :: (mr_task_handle_loop_log MR_CFG_TASK_USAGE cbs fuel count [0, 0] task []
          ++ task_sm_event.drained
            :: (match mr_task_handle_loop MR_CFG_TASK_USAGE cbs fuel count [0, 0] task [] with
                | none => []
                | some (task, trace) =>
                    if task.sm_active = true then
                      task_sm_event.active task.sm
                        :: mr_task_calls_log MR_CFG_TASK_USAGE
                            { task with event := MR_TASK_EVENT_SM }
                            (mr_task_invoke_calls cbs trace
                              { task with event := MR_TASK_EVENT_SM } task.sm)
                    else []))

/-- A call of the application on a task that has been added: `mr_task_start`,
`mr_task_stop`, one of the calls a callback can make as well
(`mr_task_post_event`, `mr_task_timing`, `mr_task_transition_state`),
`mr_task_update_tick` with the number of iterations granted to its loop, or
`mr_task_handle` with the behaviour of the callbacks during this dispatch. -/
inductive mr_task_api where
  | start
  | stop
  | call (made : mr_task_call)
  | update_tick (fuel tick : Nat)
  | handle (cbs : mr_task_callbacks)

/-- One call of the application: the task afterwards and the entries the call
leaves.  `mr_task_update_tick` is called under its assertion and gives `none`
outside it or when its loop does not end within `fuel` iterations;
`mr_task_handle` is granted one iteration more than there are records in the
queue, which is what its loop needs. -/
def mr_task_api_step (MR_CFG_TASK_USAGE : Bool) (task : mr_task) :
    mr_task_api → Option (mr_task × List task_sm_event)
  | mr_task_api.start => some ((mr_task_start task).1, [])
  | mr_task_api.stop => some ((mr_task_stop task).1, [])
  | mr_task_api.call made =>
      some (mr_task_do_call MR_CFG_TASK_USAGE task made,
        mr_task_call_log MR_CFG_TASK_USAGE task made)
  | mr_task_api.update_tick fuel tick =>
      if tick ≠ 0 ∧ tick < MR_UINT32_MAX / 2 then
        (mr_task_update_tick MR_CFG_TASK_USAGE fuel task tick).map (fun task2 => (task2, []))
      else none
  | mr_task_api.handle cbs =>
      (mr_task_handle MR_CFG_TASK_USAGE cbs (mr_rb_get_data_size task.queue / 2 + 1) task).map
        (fun r => (r.1, mr_task_handle_log MR_CFG_TASK_USAGE cbs
          (mr_rb_get_data_size task.queue / 2 + 1) task))

/-- An execution: the calls of the application one after the other; the task
afterwards and the entries left, in order. -/
def mr_task_run (MR_CFG_TASK_USAGE : Bool) :
    mr_task → List mr_task_api → Option (mr_task × List task_sm_event)
  | task, [] => some (task, [])
  | task, api :: apis =>
      (mr_task_api_step MR_CFG_TASK_USAGE task api).bind (fun r =>
        (mr_task_run MR_CFG_TASK_USAGE r.1 apis).map (fun r2 => (r2.1, r.2 ++ r2.2)))

/-- Every transition of the execution is made outside the loop over the
queued records of `mr_task_handle` (by the application between two dispatches,
or by the callback invoked with `MR_TASK_EVENT_SM`) and has its STATE_ENTER
record accepted by the queue.  `queue_driven` tells whether the entries start
inside that loop. -/
def task_sm_disciplined : Bool → List task_sm_event → Bool
  | _, [] => true
  | _, task_sm_event.dispatch :: log => task_sm_disciplined true log
  | _, task_sm_event.drained :: log => task_sm_disciplined false log
  | queue_driven, task_sm_event.deliver _ _ :: log => task_sm_disciplined queue_driven log
  | queue_driven, task_sm_event.active _ :: log => task_sm_disciplined queue_driven log
  | queue_driven, task_sm_event.transition _ owed :: log =>
      !queue_driven && decide (owed ≠ 0) && task_sm_disciplined queue_driven log

/-- The STATE_ENTER record of the last transition has been delivered to slot
`index`: the last transition (new state and `owed`) has made `index` the
current state, its STATE_ENTER record has been accepted, and of the deliveries
made since the transition the one in the place where the record stood in the
queue is slot `index` with STATE_ENTER. -/
def task_sm_entered (last : Option (Nat × Nat)) (delivered : List (Nat × Nat))
    (index : Nat) : Bool :=
  match last with
  | none => false
  | some (state, owed) =>
      decide (state = index ∧ owed ≠ 0 ∧
        delivered[owed - 1]? = some (index, MR_TASK_EVENT_SM_ENTER))

/-- STATE_ENTER precedes the state call: at every invocation of a slot with
`MR_TASK_EVENT_SM`, the STATE_ENTER record of the last transition has been
delivered to this slot.  `last` is the last transition before the entries (new
state and `owed`) and `delivered` the deliveries made since. -/
def task_sm_enter_first :
    Option (Nat × Nat) → List (Nat × Nat) → List task_sm_event → Bool
  | _, _, [] => true
  | last, delivered, task_sm_event.dispatch :: log => task_sm_enter_first last delivered log
  | last, delivered, task_sm_event.drained :: log => task_sm_enter_first last delivered log
  | last, delivered, task_sm_event.deliver index event :: log =>
      task_sm_enter_first last (delivered ++ [(index, event)]) log
  | _, _, task_sm_event.transition index owed :: log =>
      task_sm_enter_first (some (index, owed)) [] log
  | last, delivered, task_sm_event.active index :: log =>
      task_sm_entered last delivered index && task_sm_enter_first last delivered log

/-- The invocations that the entries of an execution show: slot and event code
of every delivery and of every state call, in order. -/
def task_sm_invocations : List task_sm_event → List (Nat × Nat)
  | [] => []
  | task_sm_event.dispatch :: log => task_sm_invocations log
  | task_sm_event.drained :: log => task_sm_invocations log
  | task_sm_event.deliver index event :: log => (index, event) :: task_sm_invocations log
  | task_sm_event.active index :: log => (index, MR_TASK_EVENT_SM) :: task_sm_invocations log
  | task_sm_event.transition _ _ :: log => task_sm_invocations log

/-- The state of the scan `task_sm_enter_first` agrees with the task: when the
state machine is active, the last transition has made `task.sm` the current
state with its STATE_ENTER record accepted, and in the deliveries made since,
followed by the records still queued, that record stands in place `owed`. -/
def task_sm_inv (task : mr_task) (last : Option (Nat × Nat)) (delivered : List (Nat × Nat)) :
    Prop :=
  task.sm_active = true →
    ∃ owed : Nat, last = some (task.sm, owed) ∧ owed ≠ 0 ∧
      (delivered ++ task_queue_records (fifo_contents task.queue))[owed - 1]?
        = some (task.sm, MR_TASK_EVENT_SM_ENTER)

/-- Callbacks for the example table: the user function of slot 0 changes to
state 1 when it is called with `MR_TASK_EVENT_SM` in state 0, and makes no
call otherwise. -/
def task_example_sm_step : mr_task_callbacks :=
  fun _ _ _ task =>
    if task.event = MR_TASK_EVENT_SM ∧ task.sm = 0 then [mr_task_call.transition_state 1]
    else []

/-- An execution on the example task: it is started, changes to state 0 and
gets event 7 for slot 1 from the application; the first dispatch delivers both
records and calls state 0, whose callback changes to state 1; the second
dispatch delivers the records of that transition and calls state 1. -/
def task_example_sm_calls : List mr_task_api :=
  [mr_task_api.start,
   mr_task_api.call (mr_task_call.transition_state 0),
   mr_task_api.call (mr_task_call.post_event 1 7),
   mr_task_api.handle task_example_sm_step,
   mr_task_api.handle task_example_sm_step]

/-! ## Timer device (`src/device/timer/timer.c`)

`struct mr_timer` is declared in `device/timer/timer.h`; the model keeps the
fields that `mr_timer_timeout_calculate` uses.  All values are `mr_uint32_t`. -/

/-- The fields of `struct mr_timer` used by `mr_timer_timeout_calculate`:
`config.freq`, `information.max_cut`, `reload`, `cycles` and `timeout`. -/
structure mr_timer where
  freq : Nat
  max_cut : Nat
  reload : Nat
  cycles : Nat
  timeout : Nat
deriving DecidableEq, Repr

/-- The loop `for (i = reload_min; i < reload_max; i++)` of
`mr_timer_timeout_calculate`, timer.c lines 48-60.  The first argument after
`count` is the number of iterations left, `reload_max - i`; the result is
`reload_best` when the loop is left.  (`i` is at least `reload_min`, which is
at least 1, so `count / i` divides by a non-zero value.) -/
def mr_timer_reload_loop (count : Nat) : Nat → Nat → Nat → Nat → Nat
  | 0, _, _, reload_best => reload_best
  | left + 1, i, error_min, reload_best =>
      let reload := count / i
      let error := count - reload * i
      if error ≤ 1 then i
      else if error < error_min then mr_timer_reload_loop count left (i + 1) error i
      else mr_timer_reload_loop count left (i + 1) error_min reload_best

/-- `mr_timer_timeout_calculate(timer, timeout)`, timer.c lines 15-67: the
timer afterwards and the value returned; `none` when the function divides by
zero.  No product or sum of the function exceeds the `timeout` argument or
`1000000`, so the 32-bit arithmetic does not wrap. -/
def mr_timer_timeout_calculate (timer : mr_timer) (timeout : Nat) : Option (mr_timer × Nat) :=
  if timer.freq = 0 then none
  else
    let timer_period := 1000000 / timer.freq
    if timer_period = 0 then none
    else
      let count := timeout / timer_period
      let count := if count = 0 then 1 else count
      if count < timer.max_cut then
        some ({ timer with reload := 1, cycles := 1, timeout := count * timer_period }, count)
      else if timer.max_cut = 0 then none
      else if count % timer.max_cut = 0 then
        some ({ timer with
                reload := count / timer.max_cut
                cycles := count / timer.max_cut
                timeout := timer.max_cut * timer_period },
          timer.max_cut)
      else
        let reload_min := count / timer.max_cut + 1
        let reload_max := count / 5
        let error_min := reload_min
        let reload_best :=
          mr_timer_reload_loop count (reload_max - reload_min) reload_min error_min 0
        if reload_best = 0 then none
        else
          some ({ timer with
                  reload := reload_best
                  cycles := reload_best
                  timeout := count / reload_best * timer_period },
            count / reload_best)

/-- A timer counting at 1 MHz whose counter holds 2 counts. -/
def timer_example : mr_timer :=
  { freq := 1000000, max_cut := 2, reload := 0, cycles := 0, timeout := 0 }

/-! ## AVL tree (`src/src/kservice.c`, lines 424-565)

The model keeps the fields of `struct mr_avl` that the functions use.  A
pointer to a node is modelled by the tree below the node, `MR_NULL` by `null`.
The height field is a `mr_int8_t`, the type in which `mr_avl_get_height`
returns it. -/

/-- A tree of `struct mr_avl` nodes: `MR_NULL`, or a node with its `height`,
`value`, `left_child` and `right_child`. -/
inductive mr_avl where
  | null
  | node (height : Int) (value : Nat) (left_child right_child : mr_avl)
deriving DecidableEq, Repr

/-- The conversion of an `int` to `mr_int8_t`. -/
def mr_int8 (x : Int) : Int :=
  (x + 128) % 256 - 128

/-- `mr_avl_get_height(node)`, kservice.c lines 424-432. -/
def mr_avl_get_height : mr_avl → Int
  | mr_avl.null => -1
  | mr_avl.node height _ _ _ => height

/-- `mr_avl_get_balance(node)`, kservice.c lines 434-442. -/
def mr_avl_get_balance : mr_avl → Int
  | mr_avl.null => 0
  | mr_avl.node _ _ left_child right_child =>
      mr_int8 (mr_avl_get_height left_child - mr_avl_get_height right_child)

/-- `mr_avl_left_rotate(&node)`, kservice.c lines 444-458: the new value of
`*node`; `none` when the right child is `MR_NULL` or there is no node. -/
def mr_avl_left_rotate : mr_avl → Option mr_avl
  | mr_avl.node _ value left_child (mr_avl.node _ rvalue rleft rright) =>
      some (mr_avl.node
        (mr_int8 (max
          (mr_avl_get_height (mr_avl.node
            (mr_int8 (max (mr_avl_get_height left_child) (mr_avl_get_height rleft) + 1))
            value left_child rleft))
          (mr_avl_get_height rright) + 1))
        rvalue
        (mr_avl.node
          (mr_int8 (max (mr_avl_get_height left_child) (mr_avl_get_height rleft) + 1))
          value left_child rleft)
        rright)
  | _ => none

/-- `mr_avl_right_rotate(&node)`, kservice.c lines 460-474: the new value of
`*node`; `none` when the left child is `MR_NULL` or there is no node. -/
def mr_avl_right_rotate : mr_avl → Option mr_avl
  | mr_avl.node _ value (mr_avl.node _ lvalue lleft lright) right_child =>
      some (mr_avl.node
        (mr_int8 (max (mr_avl_get_height lleft)
          (mr_avl_get_height (mr_avl.node
            (mr_int8 (max (mr_avl_get_height lright) (mr_avl_get_height right_child) + 1))
            value lright right_child)) + 1))
        lvalue
        lleft
        (mr_avl.node
          (mr_int8 (max (mr_avl_get_height lright) (mr_avl_get_height right_child) + 1))
          value lright right_child))
  | _ => none

/-- `mr_avl_init(node, value)`, kservice.c lines 476-484: the node afterwards. -/
def mr_avl_init (value : Nat) : mr_avl :=
  mr_avl.node 0 value mr_avl.null mr_avl.null

/-- The end of `mr_avl_insert`, kservice.c lines 508-535, after the recursive
call: the height of `*tree` is recomputed and the tree is rotated if it is out
of balance.  `value` is `node->value`.  A test `balance > 1 && ...` reads the
value of the left child only when `balance > 1`, and likewise on the right;
`none` stands for a read through `MR_NULL`. -/
def mr_avl_insert_balance (value : Nat) : mr_avl → Option mr_avl
  | mr_avl.null => none
  | mr_avl.node _ tvalue left_child right_child =>
      let height :=
        mr_int8 (max (mr_avl_get_height left_child) (mr_avl_get_height right_child) + 1)
      let balance := mr_avl_get_balance (mr_avl.node height tvalue left_child right_child)
      if balance > 1 then
        match left_child with
        | mr_avl.null => none
        | mr_avl.node _ lvalue _ _ =>
            if value < lvalue then
              mr_avl_right_rotate (mr_avl.node height tvalue left_child right_child)
            else if value > lvalue then
              (mr_avl_left_rotate left_child).bind
                (fun left2 => mr_avl_right_rotate (mr_avl.node height tvalue left2 right_child))
            else some (mr_avl.node height tvalue left_child right_child)
      else if balance < -1 then
        match right_child with
        | mr_avl.null => none
        | mr_avl.node _ rvalue _ _ =>
            if value > rvalue then
              mr_avl_left_rotate (mr_avl.node height tvalue left_child right_child)
            else if value < rvalue then
              (mr_avl_right_rotate right_child).bind
                (fun right2 => mr_avl_left_rotate (mr_avl.node height tvalue left_child right2))
            else some (mr_avl.node height tvalue left_child right_child)
      else some (mr_avl.node height tvalue left_child right_child)

/-- `mr_avl_insert(&tree, node)`, kservice.c lines 486-536: the new value of
`*tree`; `none` stands for a read through `MR_NULL`.  On an empty tree the
node becomes the tree and the comparison of the node with itself ends the
call. -/
def mr_avl_insert (new_node : mr_avl) : mr_avl → Option mr_avl
  | mr_avl.null =>
      match new_node with
      | mr_avl.null => none
      | mr_avl.node _ _ _ _ => some new_node
  | mr_avl.node height tvalue left_child right_child =>
      match new_node with
      | mr_avl.null => none
      | mr_avl.node _ value _ _ =>
          if value < tvalue then
            (mr_avl_insert new_node left_child).bind
              (fun left2 =>
                mr_avl_insert_balance value (mr_avl.node height tvalue left2 right_child))
          else if value > tvalue then
            (mr_avl_insert new_node right_child).bind
              (fun right2 =>
                mr_avl_insert_balance value (mr_avl.node height tvalue left_child right2))
          else some (mr_avl.node height tvalue left_child right_child)

/-- `mr_avl_find(tree, value)`, kservice.c lines 543-565: the node found, as the
tree below it, or `null`. -/
def mr_avl_find : mr_avl → Nat → mr_avl
  | mr_avl.null, _ => mr_avl.null
  | mr_avl.node height tvalue left_child right_child, value =>
      if tvalue = value then mr_avl.node height tvalue left_child right_child
      else if value < tvalue then mr_avl_find left_child value
      else if value > tvalue then mr_avl_find right_child value
      else mr_avl.null

/-- The values of a tree in symmetric order: left subtree, node, right
subtree. -/
def avl_values : mr_avl → List Nat
  | mr_avl.null => []
  | mr_avl.node _ value left_child right_child =>
      avl_values left_child ++ value :: avl_values right_child

/-- A binary search tree on `value`: at every node the values of the left
subtree are smaller and the values of the right subtree are greater. -/
def avl_bst : mr_avl → Prop
  | mr_avl.null => True
  | mr_avl.node _ value left_child right_child =>
      avl_bst left_child ∧ avl_bst right_child ∧
      (∀ x ∈ avl_values left_child, x < value) ∧
      (∀ x ∈ avl_values right_child, value < x)

/-- The stored heights are correct: every node stores one more than the
greater height of its children, `MR_NULL` counting as -1. -/
def avl_heights : mr_avl → Prop
  | mr_avl.null => True
  | mr_avl.node height _ left_child right_child =>
      avl_heights left_child ∧ avl_heights right_child ∧
      height = max (mr_avl_get_height left_child) (mr_avl_get_height right_child) + 1

/-- The balance factor, height of the left subtree minus height of the right
subtree, is -1, 0 or 1 at every node. -/
def avl_balanced : mr_avl → Prop
  | mr_avl.null => True
  | mr_avl.node _ _ left_child right_child =>
      avl_balanced left_child ∧ avl_balanced right_child ∧
      -1 ≤ mr_avl_get_height left_child - mr_avl_get_height right_child ∧
      mr_avl_get_height left_child - mr_avl_get_height right_child ≤ 1

/-- The number of nodes on the longest path from the root down: the height of
the tree plus one. -/
def avl_rank : mr_avl → Nat
  | mr_avl.null => 0
  | mr_avl.node _ _ left_child right_child =>
      max (avl_rank left_child) (avl_rank right_child) + 1

/-- How a tree looks whose height has just grown by the insertion of `value`:
it is the new node alone, or the side of the root on which `value` lies is
one higher than the other. -/
def avl_grown (value : Nat) : mr_avl → Prop
  | mr_avl.null => False
  | mr_avl.node _ tvalue left_child right_child =>
      (tvalue = value ∧ left_child = mr_avl.null ∧ right_child = mr_avl.null) ∨
      (value < tvalue ∧
        mr_avl_get_height left_child = mr_avl_get_height right_child + 1) ∨
      (tvalue < value ∧
        mr_avl_get_height right_child = mr_avl_get_height left_child + 1)

/-- A tree of three values built by insertion into the empty tree. -/
def avl_example : mr_avl :=
  (((mr_avl_insert (mr_avl_init 10) mr_avl.null).bind
      (mr_avl_insert (mr_avl_init 20))).bind
    (mr_avl_insert (mr_avl_init 30))).getD mr_avl.null

/-! ## Ring buffer: proofs -/

theorem bool_eq_iff_toNat (a b : Bool) : a = b ↔ a.toNat = b.toNat := by
  cases a <;> cases b <;> decide

theorem bool_toNat_not (b : Bool) : (!b).toNat = 1 - b.toNat := by
  cases b <;> rfl

theorem fifo_wf_init (pool : List Nat) : fifo_wf (mr_fifo_init pool pool.length) := by
  simp [fifo_wf, mr_fifo_init]

/-- The four shapes of a well-formed ring buffer, with the mirror flags as numbers. -/
theorem fifo_data_size_cases (f : mr_fifo) (h : fifo_wf f) :
    (f.read_index < f.write_index ∧ f.read_mirror.toNat = f.write_mirror.toNat ∧
        mr_fifo_get_data_size f = f.write_index - f.read_index) ∨
    (f.write_index < f.read_index ∧ f.read_mirror.toNat ≠ f.write_mirror.toNat ∧
        mr_fifo_get_data_size f = f.size - f.read_index + f.write_index) ∨
    (f.read_index = f.write_index ∧ f.read_mirror.toNat = f.write_mirror.toNat ∧
        mr_fifo_get_data_size f = 0) ∨
    (f.read_index = f.write_index ∧ f.read_mirror.toNat ≠ f.write_mirror.toNat ∧
        mr_fifo_get_data_size f = f.size) := by
  obtain ⟨hb, h0, h1, h2, h3⟩ := h
  unfold mr_fifo_get_data_size
  simp only [ne_eq, ← bool_eq_iff_toNat]
  by_cases e : f.read_index = f.write_index
  · by_cases m : f.read_mirror = f.write_mirror
    · simp [e, m]
    · simp [e, m]
  · by_cases l : f.read_index < f.write_index
    · left; simp [e, l, h2 l]
    · right; left
      have l2 : f.write_index < f.read_index := by omega
      simp [e, l, h3 l2, l2]

theorem fifo_data_size_le (f : mr_fifo) (h : fifo_wf f) : mr_fifo_get_data_size f ≤ f.size := by
  have hc := fifo_data_size_cases f h
  obtain ⟨hb, h0, h1, h2, h3⟩ := h
  omega

theorem mr_memcpy_length (dst : List Nat) (off : Nat) (src : List Nat)
    (h : off + src.length ≤ dst.length) : (mr_memcpy dst off src).length = dst.length := by
  simp only [mr_memcpy, List.length_append, List.length_take, List.length_drop]
  omega

theorem mr_memcpy_getElem? (dst : List Nat) (off : Nat) (src : List Nat) (i : Nat)
    (h : off ≤ dst.length) :
    (mr_memcpy dst off src)[i]? =
      if i < off then dst[i]? else if i < off + src.length then src[i - off]? else dst[i]? := by
  simp only [mr_memcpy, List.getElem?_append, List.length_append, List.length_take,
    List.getElem?_take, List.getElem?_drop]
  split_ifs <;> first | rfl | omega | (congr 1; omega)

theorem fifo_contents_getElem? (f : mr_fifo) (j : Nat) :
    (fifo_contents f)[j]? =
      if j < mr_fifo_get_data_size f then
        if f.read_index + j < f.buffer.length then f.buffer[f.read_index + j]?
        else f.buffer[f.read_index + j - f.buffer.length]?
      else none := by
  simp only [fifo_contents, List.getElem?_take, List.getElem?_drop, List.getElem?_append]

theorem fifo_contents_length (f : mr_fifo) (h : fifo_wf f) :
    (fifo_contents f).length = mr_fifo_get_data_size f := by
  have hd := fifo_data_size_le f h
  obtain ⟨hb, h0, h1, h2, h3⟩ := h
  simp only [fifo_contents, List.length_take, List.length_drop, List.length_append]
  omega

/-- What `mr_fifo_write` does to a well-formed buffer, by case. -/
theorem mr_fifo_write_eq (f : mr_fifo) (buf : List Nat) (h : fifo_wf f) (k : Nat)
    (hk : k = min buf.length (f.size - mr_fifo_get_data_size f)) :
    mr_fifo_write f buf buf.length =
      if k = 0 then (f, 0)
      else if f.write_index + k < f.size then
        ({ f with
            buffer := mr_memcpy f.buffer f.write_index (buf.take k)
            write_index := f.write_index + k }, k)
      else
        ({ f with
            buffer := mr_memcpy (mr_memcpy f.buffer f.write_index
                (buf.take (f.size - f.write_index))) 0
              ((buf.drop (f.size - f.write_index)).take (f.write_index + k - f.size))
            write_mirror := !f.write_mirror
            write_index := f.write_index + k - f.size }, k) := by
  have hd := fifo_data_size_le f h
  obtain ⟨hb, h0, h1, h2, h3⟩ := h
  unfold mr_fifo_write mr_fifo_get_space_size
  generalize mr_fifo_get_data_size f = d at *
  by_cases hn : buf.length = 0
  · have : k = 0 := by omega
    simp [hn, this]
  by_cases hs : f.size - d = 0
  · have : k = 0 := by omega
    simp [hn, hs, this]
  have hk2 : (if buf.length > f.size - d then f.size - d else buf.length) = k := by
    split_ifs <;> omega
  have hk0 : k ≠ 0 := by omega
  simp only [hn, hs, if_false, hk2, hk0]
  by_cases hlt : f.write_index + k < f.size
  · have : f.size - f.write_index > k := by omega
    simp only [this, hlt, if_true]
  · have : ¬ f.size - f.write_index > k := by omega
    have e : k - (f.size - f.write_index) = f.write_index + k - f.size := by omega
    simp only [this, hlt, if_false, e]

/-- The storage after the two `mr_memcpy` calls of a write that wraps. -/
theorem mr_memcpy_wrap_getElem? (B buf : List Nat) (wi k i : Nat) (hwi : wi < B.length)
    (hk : k ≤ buf.length) (hkc : k ≤ B.length) (hwrap : B.length ≤ wi + k) :
    (mr_memcpy (mr_memcpy B wi (List.take (B.length - wi) buf)) 0
        (List.take (wi + k - B.length) (List.drop (B.length - wi) buf)))[i]? =
      if i < wi + k - B.length then buf[i + B.length - wi]?
      else if i < wi then B[i]?
      else if i < B.length then buf[i - wi]?
      else none := by
  have hl1 : (mr_memcpy B wi (List.take (B.length - wi) buf)).length = B.length := by
    rw [mr_memcpy_length]
    simp only [List.length_take]; omega
  rw [mr_memcpy_getElem? _ 0 _ _ (Nat.zero_le _), mr_memcpy_getElem? B wi _ _ (by omega)]
  simp only [List.getElem?_take, List.length_take, List.getElem?_drop, List.length_drop]
  split_ifs <;> first | rfl | omega | (congr 1; omega) | (apply List.getElem?_eq_none; omega)

theorem mr_memcpy_wrap_length (B buf : List Nat) (wi k : Nat) (hwi : wi < B.length)
    (hkc : k ≤ B.length) (hwrap : B.length ≤ wi + k) :
    (mr_memcpy (mr_memcpy B wi (List.take (B.length - wi) buf)) 0
        (List.take (wi + k - B.length) (List.drop (B.length - wi) buf))).length = B.length := by
  have hl1 : (mr_memcpy B wi (List.take (B.length - wi) buf)).length = B.length := by
    rw [mr_memcpy_length]
    simp only [List.length_take]; omega
  rw [mr_memcpy_length, hl1]
  simp only [List.length_take, List.length_drop, hl1]; omega

/-- `mr_fifo_write` on a well-formed buffer: invariant, return value, contents. -/
theorem mr_fifo_write_wf_spec (f : mr_fifo) (buf : List Nat) (h : fifo_wf f) :
    fifo_wf (mr_fifo_write f buf buf.length).1 ∧
    (mr_fifo_write f buf buf.length).2
      = min buf.length (f.size - mr_fifo_get_data_size f) ∧
    (mr_fifo_write f buf buf.length).1.size = f.size ∧
    fifo_contents (mr_fifo_write f buf buf.length).1
      = fifo_contents f ++ buf.take (mr_fifo_write f buf buf.length).2 := by
  have hc := fifo_data_size_cases f h
  rw [mr_fifo_write_eq f buf h _ rfl]
  have hlen := fifo_contents_length f h
  generalize hk : min buf.length (f.size - mr_fifo_get_data_size f) = k at *
  obtain ⟨rm, ri, wm, wi, B, c⟩ := f
  have hw := h
  obtain ⟨hb, h0, h1, h2, h3⟩ := hw
  simp only [] at *
  have b1 := Bool.toNat_le rm
  have b2 := Bool.toNat_le wm
  by_cases hk0 : k = 0
  · simp [hk0, h]
  by_cases hlt : wi + k < c
  · simp only [hk0, hlt, if_false, if_true, true_and]
    have hwf : fifo_wf ⟨rm, ri, wm, wi + k, mr_memcpy B wi (List.take k buf), c⟩ := by
      refine ⟨?_, ?_, ?_, ?_, ?_⟩ <;> simp only [bool_eq_iff_toNat, ne_eq]
      · rw [mr_memcpy_length]; exact hb
        simp only [List.length_take]; omega
      all_goals omega
    refine ⟨hwf, ?_⟩
    have hc2 := fifo_data_size_cases _ hwf
    simp only [] at hc2
    apply List.ext_getElem?
    intro j
    rw [fifo_contents_getElem?, List.getElem?_append, fifo_contents_getElem?, hlen]
    generalize mr_fifo_get_data_size ⟨rm, ri, wm, wi + k, mr_memcpy B wi (List.take k buf), c⟩
      = d2 at *
    generalize mr_fifo_get_data_size ⟨rm, ri, wm, wi, B, c⟩ = d at *
    have e1 : d2 = d + k := by omega
    have e2 : ri + d = wi ∨ ri + d = wi + c := by omega
    have e3 : k ≤ buf.length := by omega
    have e4 : ri < c := by omega
    have e5 : d + k ≤ c := by omega
    clear hc hc2 h0 h1 h2 h3 b1 b2 hlen hk hwf h
    subst hb e1
    simp only [mr_memcpy_getElem? B wi _ _ (by omega), mr_memcpy_length B wi (List.take k buf)
      (by simp only [List.length_take]; omega), List.getElem?_take, List.length_take]
    split_ifs <;> first | rfl | omega | (congr 1; omega)
  · simp only [hk0, hlt, if_false, true_and]
    have e3 : k ≤ buf.length := by omega
    have e6 : wi < c := by omega
    have e7 : k ≤ c := by omega
    subst hb
    have hwf : fifo_wf ⟨rm, ri, !wm, wi + k - B.length,
        mr_memcpy (mr_memcpy B wi (List.take (B.length - wi) buf)) 0
          (List.take (wi + k - B.length) (List.drop (B.length - wi) buf)), B.length⟩ := by
      refine ⟨?_, ?_, ?_, ?_, ?_⟩ <;> simp only [bool_eq_iff_toNat, ne_eq, bool_toNat_not]
      · exact mr_memcpy_wrap_length B buf wi k e6 e7 (by omega)
      all_goals omega
    refine ⟨hwf, ?_⟩
    have hc2 := fifo_data_size_cases _ hwf
    simp only [bool_toNat_not] at hc2
    apply List.ext_getElem?
    intro j
    rw [fifo_contents_getElem?, List.getElem?_append, fifo_contents_getElem?, hlen]
    generalize mr_fifo_get_data_size ⟨rm, ri, !wm, wi + k - B.length,
        mr_memcpy (mr_memcpy B wi (List.take (B.length - wi) buf)) 0
          (List.take (wi + k - B.length) (List.drop (B.length - wi) buf)), B.length⟩ = d2 at *
    generalize mr_fifo_get_data_size ⟨rm, ri, wm, wi, B, B.length⟩ = d at *
    have e1 : d2 = d + k := by omega
    have e2 : ri + d = wi ∨ ri + d = wi + B.length := by omega
    have e4 : ri < B.length := by omega
    have e5 : d + k ≤ B.length := by omega
    clear hc hc2 h0 h1 h2 h3 b1 b2 hlen hk hwf h
    subst e1
    simp only [mr_memcpy_wrap_getElem? B buf wi k _ e6 e3 e7 (by omega),
      mr_memcpy_wrap_length B buf wi k e6 e7 (by omega), List.getElem?_take]
    split_ifs <;> first | rfl | omega | (congr 1; omega)

/-- What `mr_fifo_read` does to a well-formed buffer, by case. -/
theorem mr_fifo_read_eq (f : mr_fifo) (n : Nat) (h : fifo_wf f) (k : Nat)
    (hk : k = min n (mr_fifo_get_data_size f)) :
    mr_fifo_read f n =
      if k = 0 then (f, [], 0)
      else if f.read_index + k < f.size then
        ({ f with read_index := f.read_index + k }, (f.buffer.drop f.read_index).take k, k)
      else
        ({ f with
            read_mirror := !f.read_mirror
            read_index := f.read_index + k - f.size },
          (f.buffer.drop f.read_index).take (f.size - f.read_index)
            ++ f.buffer.take (f.read_index + k - f.size), k) := by
  have hd := fifo_data_size_le f h
  obtain ⟨hb, h0, h1, h2, h3⟩ := h
  unfold mr_fifo_read
  generalize mr_fifo_get_data_size f = d at *
  by_cases hn : n = 0
  · have : k = 0 := by omega
    simp [hn, this]
  by_cases hs : d = 0
  · have : k = 0 := by omega
    simp [hn, hs, this]
  have hk2 : (if n > d then d else n) = k := by
    split_ifs <;> omega
  have hk0 : k ≠ 0 := by omega
  simp only [hn, hs, if_false, hk2, hk0]
  by_cases hlt : f.read_index + k < f.size
  · have : f.size - f.read_index > k := by omega
    simp only [this, hlt, if_true]
  · have : ¬ f.size - f.read_index > k := by omega
    have e : k - (f.size - f.read_index) = f.read_index + k - f.size := by omega
    simp only [this, hlt, if_false, e]

/-- `mr_fifo_read` on a well-formed buffer: invariant, return value, bytes
copied out, remaining contents. -/
theorem mr_fifo_read_wf_spec (f : mr_fifo) (n : Nat) (h : fifo_wf f) :
    fifo_wf (mr_fifo_read f n).1 ∧
    (mr_fifo_read f n).2.2 = min n (mr_fifo_get_data_size f) ∧
    (mr_fifo_read f n).1.size = f.size ∧
    (mr_fifo_read f n).2.1 = (fifo_contents f).take (mr_fifo_read f n).2.2 ∧
    fifo_contents (mr_fifo_read f n).1 = (fifo_contents f).drop (mr_fifo_read f n).2.2 := by
  have hc := fifo_data_size_cases f h
  rw [mr_fifo_read_eq f n h _ rfl]
  have hlen := fifo_contents_length f h
  generalize hk : min n (mr_fifo_get_data_size f) = k at *
  obtain ⟨rm, ri, wm, wi, B, c⟩ := f
  have hw := h
  obtain ⟨hb, h0, h1, h2, h3⟩ := hw
  simp only [] at *
  have b1 := Bool.toNat_le rm
  have b2 := Bool.toNat_le wm
  by_cases hk0 : k = 0
  · simp [hk0, h]
  subst hb
  by_cases hlt : ri + k < B.length
  · simp only [hk0, hlt, if_false, if_true, true_and]
    have hwf : fifo_wf ⟨rm, ri + k, wm, wi, B, B.length⟩ := by
      refine ⟨rfl, ?_, ?_, ?_, ?_⟩ <;> simp only [bool_eq_iff_toNat, ne_eq]
      all_goals omega
    refine ⟨hwf, ?_⟩
    have hc2 := fifo_data_size_cases _ hwf
    simp only [] at hc2
    generalize hd2 : mr_fifo_get_data_size ⟨rm, ri + k, wm, wi, B, B.length⟩ = d2 at *
    generalize hd : mr_fifo_get_data_size ⟨rm, ri, wm, wi, B, B.length⟩ = d at *
    have e1 : d2 = d - k := by omega
    have e2 : k ≤ d := by omega
    have e4 : ri < B.length := by omega
    have e5 : d ≤ B.length := by omega
    clear hc hc2 h0 h1 h2 h3 b1 b2 hlen hk hwf h
    subst e1
    constructor
    · apply List.ext_getElem?
      intro j
      simp only [List.getElem?_take, List.getElem?_drop, fifo_contents_getElem?, hd]
      split_ifs <;> first | rfl | omega
    · apply List.ext_getElem?
      intro j
      simp only [List.getElem?_drop, fifo_contents_getElem?, hd, hd2]
      split_ifs <;> first | rfl | omega | (congr 1; omega)
  · simp only [hk0, hlt, if_false, true_and]
    have hwf : fifo_wf ⟨!rm, ri + k - B.length, wm, wi, B, B.length⟩ := by
      refine ⟨rfl, ?_, ?_, ?_, ?_⟩ <;> simp only [bool_eq_iff_toNat, ne_eq, bool_toNat_not]
      all_goals omega
    refine ⟨hwf, ?_⟩
    have hc2 := fifo_data_size_cases _ hwf
    simp only [bool_toNat_not] at hc2
    generalize hd2 : mr_fifo_get_data_size ⟨!rm, ri + k - B.length, wm, wi, B, B.length⟩
      = d2 at *
    generalize hd : mr_fifo_get_data_size ⟨rm, ri, wm, wi, B, B.length⟩ = d at *
    have e1 : d2 = d - k := by omega
    have e2 : k ≤ d := by omega
    have e4 : ri < B.length := by omega
    have e5 : d ≤ B.length := by omega
    clear hc hc2 h0 h1 h2 h3 b1 b2 hlen hk hwf h
    subst e1
    constructor
    · apply List.ext_getElem?
      intro j
      simp only [List.getElem?_take, List.getElem?_drop, fifo_contents_getElem?, hd,
        List.getElem?_append, List.length_take, List.length_drop]
      split_ifs <;> first | rfl | omega | (congr 1; omega)
    · apply List.ext_getElem?
      intro j
      simp only [List.getElem?_drop, fifo_contents_getElem?, hd, hd2]
      split_ifs <;> first | rfl | omega | (congr 1; omega)

/-- What `mr_fifo_write_force` does to a well-formed buffer, by case. -/
theorem mr_fifo_write_force_eq (f : mr_fifo) (buf : List Nat) (h : fifo_wf f) (k : Nat)
    (hk : k = min buf.length f.size) :
    mr_fifo_write_force f buf buf.length =
      if buf.length = 0 then (f, 0)
      else if f.write_index + k < f.size then
        ({ f with
            buffer := mr_memcpy f.buffer f.write_index
              ((buf.drop (buf.length - f.size)).take k)
            write_index := f.write_index + k
            read_index :=
              if k > f.size - mr_fifo_get_data_size f then f.write_index + k
              else f.read_index }, k)
      else
        ({ f with
            buffer := mr_memcpy (mr_memcpy f.buffer f.write_index
                ((buf.drop (buf.length - f.size)).take (f.size - f.write_index))) 0
              (((buf.drop (buf.length - f.size)).drop (f.size - f.write_index)).take
                (f.write_index + k - f.size))
            write_mirror := !f.write_mirror
            write_index := f.write_index + k - f.size
            read_mirror :=
              if k > f.size - mr_fifo_get_data_size f then
                if f.write_index + k - f.size ≤ f.read_index then !f.read_mirror
                else f.read_mirror
              else f.read_mirror
            read_index :=
              if k > f.size - mr_fifo_get_data_size f then f.write_index + k - f.size
              else f.read_index }, k) := by
  have hd := fifo_data_size_le f h
  obtain ⟨hb, h0, h1, h2, h3⟩ := h
  unfold mr_fifo_write_force mr_fifo_get_space_size
  generalize mr_fifo_get_data_size f = d at *
  by_cases hn : buf.length = 0
  · simp [hn]
  have hk2 : (if buf.length > f.size then f.size else buf.length) = k := by
    split_ifs <;> omega
  have hb2 : (if buf.length > f.size then buf.drop (buf.length - f.size) else buf)
      = buf.drop (buf.length - f.size) := by
    split_ifs with hgt
    · rfl
    · have : buf.length - f.size = 0 := by omega
      rw [this, List.drop_zero]
  simp only [hn, if_false, hk2, hb2]
  by_cases hlt : f.write_index + k < f.size
  · have : f.size - f.write_index > k := by omega
    simp only [this, hlt, if_true]
  · have : ¬ f.size - f.write_index > k := by omega
    have e : k - (f.size - f.write_index) = f.write_index + k - f.size := by omega
    simp only [this, hlt, if_false, e]

/-- When the input fits into the free space `mr_fifo_write_force` is `mr_fifo_write`. -/
theorem mr_fifo_write_force_eq_write (f : mr_fifo) (buf : List Nat) (h : fifo_wf f)
    (hfit : buf.length ≤ f.size - mr_fifo_get_data_size f) :
    mr_fifo_write_force f buf buf.length = mr_fifo_write f buf buf.length := by
  rw [mr_fifo_write_force_eq f buf h _ rfl, mr_fifo_write_eq f buf h _ rfl]
  have e1 : min buf.length f.size = buf.length := by omega
  have e2 : min buf.length (f.size - mr_fifo_get_data_size f) = buf.length := by omega
  have e3 : buf.length - f.size = 0 := by omega
  have e4 : ¬ buf.length > f.size - mr_fifo_get_data_size f := by omega
  simp only [e1, e2, e3, e4, List.drop_zero, if_false]

/-- Eviction by a forced write that does not wrap. -/
theorem mr_fifo_write_force_evict_nowrap (rm wm : Bool) (ri wi k : Nat) (B buf : List Nat)
    (h : fifo_wf ⟨rm, ri, wm, wi, B, B.length⟩)
    (hk : k = min buf.length B.length)
    (hlt : wi + k < B.length)
    (hev : k > B.length - mr_fifo_get_data_size ⟨rm, ri, wm, wi, B, B.length⟩) :
    fifo_wf ⟨rm, wi + k, wm, wi + k,
        mr_memcpy B wi ((buf.drop (buf.length - B.length)).take k), B.length⟩ ∧
    mr_fifo_get_data_size ⟨rm, wi + k, wm, wi + k,
        mr_memcpy B wi ((buf.drop (buf.length - B.length)).take k), B.length⟩ = B.length ∧
    fifo_contents ⟨rm, wi + k, wm, wi + k,
        mr_memcpy B wi ((buf.drop (buf.length - B.length)).take k), B.length⟩
      = (fifo_contents ⟨rm, ri, wm, wi, B, B.length⟩ ++ buf).drop
          (mr_fifo_get_data_size ⟨rm, ri, wm, wi, B, B.length⟩ + buf.length - B.length) := by
  have hc := fifo_data_size_cases _ h
  have hlen := fifo_contents_length _ h
  have hw := h
  obtain ⟨hb, h0, h1, h2, h3⟩ := hw
  simp only [] at *
  have b1 := Bool.toNat_le rm
  have b2 := Bool.toNat_le wm
  have hl : (mr_memcpy B wi ((buf.drop (buf.length - B.length)).take k)).length = B.length := by
    rw [mr_memcpy_length]
    simp only [List.length_take, List.length_drop]; omega
  have hwf : fifo_wf ⟨rm, wi + k, wm, wi + k,
      mr_memcpy B wi ((buf.drop (buf.length - B.length)).take k), B.length⟩ := by
    refine ⟨hl, ?_, ?_, ?_, ?_⟩ <;> simp only [bool_eq_iff_toNat, ne_eq]
    all_goals omega
  have hc2 := fifo_data_size_cases _ hwf
  simp only [] at hc2
  refine ⟨hwf, by omega, ?_⟩
  apply List.ext_getElem?
  intro j
  rw [fifo_contents_getElem?, List.getElem?_drop, List.getElem?_append, fifo_contents_getElem?,
    hlen]
  generalize mr_fifo_get_data_size ⟨rm, wi + k, wm, wi + k,
      mr_memcpy B wi ((buf.drop (buf.length - B.length)).take k), B.length⟩ = d2 at *
  generalize mr_fifo_get_data_size ⟨rm, ri, wm, wi, B, B.length⟩ = d at *
  have e1 : d2 = B.length := by omega
  have e2 : ri + d = wi ∨ ri + d = wi + B.length := by omega
  have e4 : ri < B.length := by omega
  have e5 : d ≤ B.length := by omega
  clear hc hc2 h0 h1 h2 h3 b1 b2 hlen hwf h
  subst e1
  simp only [mr_memcpy_getElem? B wi _ _ (by omega), hl, List.getElem?_take,
    List.length_take, List.getElem?_drop, List.length_drop]
  split_ifs <;>
    (first
      | rfl
      | omega
      | (congr 1; omega)
      | (symm; apply List.getElem?_eq_none; omega))

/-- Eviction by a forced write that wraps past the end of the storage. -/
theorem mr_fifo_write_force_evict_wrap (rm wm rm2 : Bool) (ri wi k : Nat) (B buf : List Nat)
    (h : fifo_wf ⟨rm, ri, wm, wi, B, B.length⟩)
    (hpos : 0 < B.length)
    (hk : k = min buf.length B.length)
    (hge : ¬ wi + k < B.length)
    (hev : k > B.length - mr_fifo_get_data_size ⟨rm, ri, wm, wi, B, B.length⟩)
    (hrm2 : rm2 = if wi + k - B.length ≤ ri then !rm else rm) :
    fifo_wf ⟨rm2, wi + k - B.length, !wm, wi + k - B.length,
        mr_memcpy (mr_memcpy B wi
            ((buf.drop (buf.length - B.length)).take (B.length - wi))) 0
          (((buf.drop (buf.length - B.length)).drop (B.length - wi)).take
            (wi + k - B.length)), B.length⟩ ∧
    mr_fifo_get_data_size ⟨rm2, wi + k - B.length, !wm, wi + k - B.length,
        mr_memcpy (mr_memcpy B wi
            ((buf.drop (buf.length - B.length)).take (B.length - wi))) 0
          (((buf.drop (buf.length - B.length)).drop (B.length - wi)).take
            (wi + k - B.length)), B.length⟩ = B.length ∧
    fifo_contents ⟨rm2, wi + k - B.length, !wm, wi + k - B.length,
        mr_memcpy (mr_memcpy B wi
            ((buf.drop (buf.length - B.length)).take (B.length - wi))) 0
          (((buf.drop (buf.length - B.length)).drop (B.length - wi)).take
            (wi + k - B.length)), B.length⟩
      = (fifo_contents ⟨rm, ri, wm, wi, B, B.length⟩ ++ buf).drop
          (mr_fifo_get_data_size ⟨rm, ri, wm, wi, B, B.length⟩ + buf.length - B.length) := by
  have hc := fifo_data_size_cases _ h
  have hlen := fifo_contents_length _ h
  have hw := h
  obtain ⟨hb, h0, h1, h2, h3⟩ := hw
  simp only [] at *
  have b1 := Bool.toNat_le rm
  have b2 := Bool.toNat_le wm
  have e6 : wi < B.length := by omega
  have e7 : k ≤ B.length := by omega
  have e8 : k ≤ (buf.drop (buf.length - B.length)).length := by
    simp only [List.length_drop]; omega
  have hl := mr_memcpy_wrap_length B (buf.drop (buf.length - B.length)) wi k e6 e7 (by omega)
  have hm : (wi + k - B.length ≤ ri ∧ rm2.toNat = 1 - rm.toNat) ∨
      (¬ wi + k - B.length ≤ ri ∧ rm2.toNat = rm.toNat) := by
    split_ifs at hrm2 with hle
    · left; exact ⟨hle, by rw [hrm2]; exact bool_toNat_not rm⟩
    · right; exact ⟨hle, by rw [hrm2]⟩
  clear hrm2
  have hwf : fifo_wf ⟨rm2, wi + k - B.length, !wm, wi + k - B.length,
      mr_memcpy (mr_memcpy B wi
          ((buf.drop (buf.length - B.length)).take (B.length - wi))) 0
        (((buf.drop (buf.length - B.length)).drop (B.length - wi)).take
          (wi + k - B.length)), B.length⟩ := by
    refine ⟨hl, ?_, ?_, ?_, ?_⟩ <;> simp only [bool_eq_iff_toNat, ne_eq, bool_toNat_not]
    all_goals omega
  have hc2 := fifo_data_size_cases _ hwf
  simp only [bool_toNat_not] at hc2
  have e1 : mr_fifo_get_data_size ⟨rm2, wi + k - B.length, !wm, wi + k - B.length,
      mr_memcpy (mr_memcpy B wi
          ((buf.drop (buf.length - B.length)).take (B.length - wi))) 0
        (((buf.drop (buf.length - B.length)).drop (B.length - wi)).take
          (wi + k - B.length)), B.length⟩ = B.length := by
    omega
  refine ⟨hwf, e1, ?_⟩
  apply List.ext_getElem?
  intro j
  rw [fifo_contents_getElem?, List.getElem?_drop, List.getElem?_append, fifo_contents_getElem?,
    hlen, e1]
  generalize mr_fifo_get_data_size ⟨rm, ri, wm, wi, B, B.length⟩ = d at *
  have e2 : ri + d = wi ∨ ri + d = wi + B.length := by omega
  have e4 : ri < B.length := by omega
  have e5 : d ≤ B.length := by omega
  clear hc hc2 h0 h1 h2 h3 b1 b2 hlen hwf h hm e1
  simp only [mr_memcpy_wrap_getElem? B _ wi k _ e6 e8 e7 (by omega), hl,
    List.getElem?_drop, List.length_drop]
  split_ifs <;>
    (first
      | rfl
      | omega
      | (congr 1; omega)
      | (symm; apply List.getElem?_eq_none; omega))

/-- A forced write into an empty buffer of more bytes than the capacity is an
ordinary write of the last `size` bytes of the input. -/
theorem mr_fifo_write_force_empty (f : mr_fifo) (buf : List Nat) (h : fifo_wf f)
    (hd : mr_fifo_get_data_size f = 0) (hpos : 0 < f.size) (hn : f.size < buf.length) :
    mr_fifo_write_force f buf buf.length
      = mr_fifo_write f (buf.drop (buf.length - f.size))
          (buf.drop (buf.length - f.size)).length := by
  have e0 : (buf.drop (buf.length - f.size)).length = f.size := by
    simp only [List.length_drop]; omega
  rw [mr_fifo_write_force_eq f buf h f.size (by omega),
    mr_fifo_write_eq f (buf.drop (buf.length - f.size)) h f.size (by rw [e0, hd]; omega)]
  have e1 : ¬ buf.length = 0 := by omega
  have e2 : ¬ f.size = 0 := by omega
  have e3 : ¬ f.size > f.size - mr_fifo_get_data_size f := by omega
  simp only [e1, e2, e3, if_false]

/-- `mr_fifo_write_force` on a well-formed buffer: invariant, return value,
contents, and fullness after an eviction. -/
theorem mr_fifo_write_force_wf_spec (f : mr_fifo) (buf : List Nat) (h : fifo_wf f) :
    fifo_wf (mr_fifo_write_force f buf buf.length).1 ∧
    (mr_fifo_write_force f buf buf.length).2 = min buf.length f.size ∧
    (mr_fifo_write_force f buf buf.length).1.size = f.size ∧
    fifo_contents (mr_fifo_write_force f buf buf.length).1
      = (fifo_contents f ++ buf).drop
          (mr_fifo_get_data_size f + buf.length
            - min f.size (mr_fifo_get_data_size f + buf.length)) ∧
    (buf.length > f.size - mr_fifo_get_data_size f →
      mr_fifo_get_data_size (mr_fifo_write_force f buf buf.length).1 = f.size) := by
  have hdle := fifo_data_size_le f h
  have hlen := fifo_contents_length f h
  by_cases hfit : buf.length ≤ f.size - mr_fifo_get_data_size f
  · -- the input fits: an ordinary write
    rw [mr_fifo_write_force_eq_write f buf h hfit]
    obtain ⟨w1, w2, w3, w4⟩ := mr_fifo_write_wf_spec f buf h
    refine ⟨w1, by rw [w2]; omega, w3, ?_, by omega⟩
    rw [w4, w2]
    have e1 : min buf.length (f.size - mr_fifo_get_data_size f) = buf.length := by omega
    have e2 : mr_fifo_get_data_size f + buf.length
        - min f.size (mr_fifo_get_data_size f + buf.length) = 0 := by omega
    rw [e1, e2, List.take_length, List.drop_zero]
  by_cases hpos : 0 < f.size
  · by_cases hd0 : mr_fifo_get_data_size f = 0
    · -- empty buffer, input longer than the capacity
      rw [mr_fifo_write_force_empty f buf h hd0 hpos (by omega)]
      have e0 : (buf.drop (buf.length - f.size)).length = f.size := by
        simp only [List.length_drop]; omega
      obtain ⟨w1, w2, w3, w4⟩ := mr_fifo_write_wf_spec f (buf.drop (buf.length - f.size)) h
      have hl2 := fifo_contents_length _ w1
      rw [e0] at w1 w2 w3 w4 hl2 ⊢
      have hnil : fifo_contents f = [] := List.eq_nil_of_length_eq_zero (by omega)
      have e1 : min f.size (f.size - mr_fifo_get_data_size f) = f.size := by omega
      rw [e1] at w2
      refine ⟨w1, by rw [w2]; omega, w3, ?_, ?_⟩
      · rw [w4, w2, hnil, hd0]
        have e3 : 0 + buf.length - min f.size (0 + buf.length) = buf.length - f.size := by omega
        rw [e3, List.nil_append, List.nil_append, List.take_of_length_le (by omega)]
      · intro _
        rw [← hl2, w4, w2, hnil, List.nil_append, List.take_of_length_le (by omega), e0]
    · -- eviction
      have hkev : min buf.length f.size > f.size - mr_fifo_get_data_size f := by omega
      have e1 : ¬ buf.length = 0 := by omega
      have e2 : mr_fifo_get_data_size f + buf.length
          - min f.size (mr_fifo_get_data_size f + buf.length)
          = mr_fifo_get_data_size f + buf.length - f.size := by omega
      rw [mr_fifo_write_force_eq f buf h _ rfl, e2]
      obtain ⟨rm, ri, wm, wi, B, c⟩ := f
      have hb : B.length = c := h.1
      subst hb
      simp only [] at *
      by_cases hlt : wi + min buf.length B.length < B.length
      · obtain ⟨v1, v2, v3⟩ :=
          mr_fifo_write_force_evict_nowrap rm wm ri wi _ B buf h rfl hlt hkev
        simp only [e1, hlt, hkev, if_true, if_false]
        exact ⟨v1, trivial, trivial, v3, fun _ => v2⟩
      · obtain ⟨v1, v2, v3⟩ :=
          mr_fifo_write_force_evict_wrap rm wm _ ri wi _ B buf h hpos rfl hlt hkev rfl
        simp only [e1, hlt, hkev, if_true, if_false]
        exact ⟨v1, trivial, trivial, v3, fun _ => v2⟩
  · -- no storage at all
    have hc0 : f.size = 0 := by omega
    have e1 : ¬ buf.length = 0 := by omega
    rw [mr_fifo_write_force_eq f buf h 0 (by omega)]
    obtain ⟨rm, ri, wm, wi, B, c⟩ := f
    obtain ⟨hb, h0, h1, h2, h3⟩ := h
    simp only [] at *
    subst hc0
    have hB : B = [] := List.eq_nil_of_length_eq_zero hb
    subst hB
    obtain ⟨hr, hw⟩ := h0 rfl
    subst hr hw
    have hnil : fifo_contents ⟨rm, 0, wm, 0, [], 0⟩ = [] :=
      List.eq_nil_of_length_eq_zero (by omega)
    simp only [e1, if_false, Nat.lt_irrefl, mr_memcpy, List.take_nil, List.drop_nil,
      List.append_nil, List.take_zero, gt_iff_lt, Nat.not_lt_zero, Nat.zero_le, Nat.sub_self,
      Nat.add_zero, Nat.zero_add]
    have hwf2 : fifo_wf ⟨rm, 0, !wm, 0, [], 0⟩ := by
      simp [fifo_wf]
    have hd2 := fifo_data_size_le _ hwf2
    have hl2 := fifo_contents_length _ hwf2
    simp only [] at hd2
    have hnil2 : fifo_contents ⟨rm, 0, !wm, 0, [], 0⟩ = [] :=
      List.eq_nil_of_length_eq_zero (by omega)
    refine ⟨hwf2, by omega, trivial, ?_, fun _ => by omega⟩
    rw [hnil2, hnil, List.nil_append]
    symm
    apply List.drop_of_length_le
    omega

/-- Every reachable fifo state satisfies the representation invariant. -/
theorem fifo_reachable_wf (f : mr_fifo) (h : fifo_reachable f) : fifo_wf f := by
  induction h with
  | init pool => exact fifo_wf_init pool
  | read f n _ ih => exact (mr_fifo_read_wf_spec f n ih).1
  | write f buf _ ih => exact (mr_fifo_write_wf_spec f buf ih).1
  | write_force f buf _ ih => exact (mr_fifo_write_force_wf_spec f buf ih).1

/-- Invariant of a scenario run: everything written is either already read
out or still unread in the buffer, in order. -/
theorem fifo_run_calls_inv (calls : List fifo_call) (s : fifo_run) (h : fifo_wf s.fifo)
    (hinv : s.read_out ++ fifo_contents s.fifo = s.written)
    (hroom : s.written.length + fifo_offered calls ≤ s.read_out.length + s.fifo.size)
    (hacc : s.accepted = true) :
    fifo_wf (fifo_run_calls s calls).fifo ∧
    (fifo_run_calls s calls).accepted = true ∧
    (fifo_run_calls s calls).read_out ++ fifo_contents (fifo_run_calls s calls).fifo
      = (fifo_run_calls s calls).written := by
  induction calls generalizing s with
  | nil => exact ⟨h, hacc, hinv⟩
  | cons c calls ih =>
    have hlen := fifo_contents_length s.fifo h
    have hl : s.written.length = s.read_out.length + mr_fifo_get_data_size s.fifo := by
      rw [← hinv, List.length_append, hlen]
    cases c with
    | write buf =>
      obtain ⟨w1, w2, w3, w4⟩ := mr_fifo_write_wf_spec s.fifo buf h
      simp only [fifo_offered] at hroom
      have hfull : (mr_fifo_write s.fifo buf buf.length).2 = buf.length := by
        rw [w2]; omega
      apply ih
      · exact w1
      · simp only [fifo_run_call]
        rw [w4, hfull, List.take_length, ← List.append_assoc, hinv]
      · simp only [fifo_run_call, List.length_append, w3]
        omega
      · simp only [fifo_run_call, hacc, hfull, decide_True, Bool.and_self]
    | read n =>
      obtain ⟨r1, r2, r3, r4, r5⟩ := mr_fifo_read_wf_spec s.fifo n h
      simp only [fifo_offered] at hroom
      apply ih
      · exact r1
      · simp only [fifo_run_call]
        rw [r4, r5, List.append_assoc, List.take_append_drop, hinv]
      · simp only [fifo_run_call, List.length_append, r3]
        omega
      · exact hacc

/-- Claim C1.  Ring-buffer round trip: on a fifo freshly initialised with
`mr_fifo_init` on a pool of any capacity (in particular every capacity of at
least one byte), in every sequence of `mr_fifo_write` and `mr_fifo_read` calls
that offers at most `capacity` bytes to write in total, every write returns the
full size it was given, and the bytes returned by the reads, concatenated, are
an initial segment of the bytes written, concatenated: what is missing is
exactly the unread contents still in the buffer, so the two are equal once the
buffer reports no data. -/
theorem C1_fifo_round_trip (pool : List Nat) (calls : List fifo_call)
    (hroom : fifo_offered calls ≤ pool.length) :
    (fifo_run_calls (fifo_run_init pool) calls).accepted = true ∧
    (fifo_run_calls (fifo_run_init pool) calls).read_out
      <+: (fifo_run_calls (fifo_run_init pool) calls).written ∧
    (fifo_run_calls (fifo_run_init pool) calls).read_out
        ++ fifo_contents (fifo_run_calls (fifo_run_init pool) calls).fifo
      = (fifo_run_calls (fifo_run_init pool) calls).written ∧
    (mr_fifo_get_data_size (fifo_run_calls (fifo_run_init pool) calls).fifo = 0 →
      (fifo_run_calls (fifo_run_init pool) calls).read_out
        = (fifo_run_calls (fifo_run_init pool) calls).written) := by
  have hwf0 : fifo_wf (fifo_run_init pool).fifo := fifo_wf_init pool
  have hinv0 : (fifo_run_init pool).read_out ++ fifo_contents (fifo_run_init pool).fifo
      = (fifo_run_init pool).written := by
    simp [fifo_run_init, fifo_contents, mr_fifo_init, mr_fifo_get_data_size]
  obtain ⟨h1, h2, h3⟩ := fifo_run_calls_inv calls (fifo_run_init pool) hwf0 hinv0
    (by simpa [fifo_run_init, mr_fifo_init] using hroom) rfl
  refine ⟨h2, ⟨_, h3⟩, h3, ?_⟩
  intro hd
  have hlen := fifo_contents_length _ h1
  rw [hd] at hlen
  rw [← h3, List.eq_nil_of_length_eq_zero hlen, List.append_nil]

/-- Witness of claim C1: a fifo of capacity 4; write 3 bytes, read 2, write 1
(which wraps the write index), read the remaining 2. -/
theorem C1_fifo_round_trip_witness :
    (fifo_run_calls (fifo_run_init [0, 0, 0, 0])
        [fifo_call.write [7, 8, 9], fifo_call.read 2, fifo_call.write [5],
          fifo_call.read 4]).accepted = true ∧
    (fifo_run_calls (fifo_run_init [0, 0, 0, 0])
        [fifo_call.write [7, 8, 9], fifo_call.read 2, fifo_call.write [5],
          fifo_call.read 4]).read_out = [7, 8, 9, 5] :=
  ⟨(C1_fifo_round_trip [0, 0, 0, 0]
      [fifo_call.write [7, 8, 9], fifo_call.read 2, fifo_call.write [5], fifo_call.read 4]
      (by decide)).1, by decide⟩

/-- A reachable fifo used by the witnesses: capacity 4, three bytes written, two read. -/
theorem fifo_reachable_example :
    fifo_reachable (mr_fifo_read (mr_fifo_write (mr_fifo_init [0, 0, 0, 0] 4) [7, 8, 9] 3).1 2).1 :=
  fifo_reachable.read _ 2 (fifo_reachable.write _ [7, 8, 9] (fifo_reachable.init [0, 0, 0, 0]))

/-- Claim C2.  In every fifo state reachable from `mr_fifo_init` by read, write
and write_force, with unread contents `D` (the `mr_fifo_get_data_size` bytes
from `read_index` on, wrapping), `mr_fifo_write` of an input of length `n`
returns `k = min n (capacity - |D|)` and leaves the unread contents equal to
`D` followed by the first `k` input bytes: nothing unread is overwritten or
lost, whether or not the write wraps past the end of the storage. -/
theorem C2_fifo_write_appends (f : mr_fifo) (buf : List Nat) (h : fifo_reachable f) :
    (fifo_contents f).length = mr_fifo_get_data_size f ∧
    (mr_fifo_write f buf buf.length).2 = min buf.length (f.size - (fifo_contents f).length) ∧
    fifo_contents (mr_fifo_write f buf buf.length).1
      = fifo_contents f ++ buf.take (mr_fifo_write f buf buf.length).2 := by
  have hwf := fifo_reachable_wf f h
  obtain ⟨_, w2, _, w4⟩ := mr_fifo_write_wf_spec f buf hwf
  have hlen := fifo_contents_length f hwf
  exact ⟨hlen, by rw [w2, hlen], w4⟩

/-- Witness of claim C2: a write of 4 bytes into the example fifo, which holds
one byte and has its write index at 3, wraps and is cut to the 3 free bytes. -/
theorem C2_fifo_write_appends_witness :
    fifo_reachable (mr_fifo_read (mr_fifo_write (mr_fifo_init [0, 0, 0, 0] 4) [7, 8, 9] 3).1 2).1 ∧
    fifo_contents (mr_fifo_write
        (mr_fifo_read (mr_fifo_write (mr_fifo_init [0, 0, 0, 0] 4) [7, 8, 9] 3).1 2).1
        [1, 2, 3, 4] 4).1 = [9, 1, 2, 3] :=
  ⟨fifo_reachable_example,
    ((C2_fifo_write_appends _ [1, 2, 3, 4] fifo_reachable_example).2.2).trans (by decide)⟩

/-- Claim C3.  In every reachable fifo state with unread contents `D`,
`mr_fifo_read` with request size `n` returns `k = min n |D|`, copies out the
first `k` bytes of `D` in order, and leaves `D` without those `k` bytes as the
unread contents; when `k = 0` (empty buffer or `n = 0`) the fifo is unchanged. -/
theorem C3_fifo_read_takes (f : mr_fifo) (n : Nat) (h : fifo_reachable f) :
    (mr_fifo_read f n).2.2 = min n (fifo_contents f).length ∧
    (mr_fifo_read f n).2.1 = (fifo_contents f).take (mr_fifo_read f n).2.2 ∧
    fifo_contents (mr_fifo_read f n).1 = (fifo_contents f).drop (mr_fifo_read f n).2.2 ∧
    ((mr_fifo_read f n).2.2 = 0 → (mr_fifo_read f n).1 = f) := by
  have hwf := fifo_reachable_wf f h
  obtain ⟨_, r2, _, r4, r5⟩ := mr_fifo_read_wf_spec f n hwf
  have hlen := fifo_contents_length f hwf
  refine ⟨by rw [r2, hlen], r4, r5, ?_⟩
  intro hk
  rw [r2] at hk
  rw [mr_fifo_read_eq f n hwf 0 hk.symm]
  rfl

/-- Witness of claim C3: reading 5 bytes from a fifo holding `[9, 1, 2, 3]`
across the end of its storage returns the four bytes in order. -/
theorem C3_fifo_read_takes_witness :
    fifo_reachable (mr_fifo_read (mr_fifo_write (mr_fifo_init [0, 0, 0, 0] 4) [7, 8, 9] 3).1 2).1 ∧
    (mr_fifo_read (mr_fifo_read (mr_fifo_write (mr_fifo_init [0, 0, 0, 0] 4) [7, 8, 9] 3).1 2).1
      5).2.2 = 1 :=
  ⟨fifo_reachable_example,
    ((C3_fifo_read_takes _ 5 fifo_reachable_example).1).trans (by decide)⟩

/-- Claim C4.  `mr_fifo_write_force` never fails: in every reachable fifo state
and for every input of length `n` it returns exactly `min n capacity`, however
much free space there was. -/
theorem C4_fifo_write_force_count (f : mr_fifo) (buf : List Nat) (h : fifo_reachable f) :
    (mr_fifo_write_force f buf buf.length).2 = min buf.length f.size :=
  (mr_fifo_write_force_wf_spec f buf (fifo_reachable_wf f h)).2.1

/-- Witness of claim C4: six bytes forced into the example fifo of capacity 4. -/
theorem C4_fifo_write_force_count_witness :
    fifo_reachable (mr_fifo_read (mr_fifo_write (mr_fifo_init [0, 0, 0, 0] 4) [7, 8, 9] 3).1 2).1 ∧
    (mr_fifo_write_force
        (mr_fifo_read (mr_fifo_write (mr_fifo_init [0, 0, 0, 0] 4) [7, 8, 9] 3).1 2).1
        [1, 2, 3, 4, 5, 6] 6).2 = 4 :=
  ⟨fifo_reachable_example,
    (C4_fifo_write_force_count _ [1, 2, 3, 4, 5, 6] fifo_reachable_example).trans (by decide)⟩

/-- Claim C5.  In every reachable fifo state with unread contents `D`, after
`mr_fifo_write_force` of an input `I` of length `n` the unread contents are
exactly the last `min capacity (|D| + n)` bytes of `D ++ I`; in particular the
newest `min n capacity` bytes of the input are what is readable at the tail,
and when `n` exceeds the free space the buffer reports full. -/
theorem C5_fifo_write_force_contents (f : mr_fifo) (buf : List Nat) (h : fifo_reachable f) :
    fifo_contents (mr_fifo_write_force f buf buf.length).1
      = (fifo_contents f ++ buf).drop
          ((fifo_contents f ++ buf).length
            - min f.size ((fifo_contents f).length + buf.length)) ∧
    (fifo_contents (mr_fifo_write_force f buf buf.length).1).drop
        ((fifo_contents (mr_fifo_write_force f buf buf.length).1).length
          - min buf.length f.size)
      = buf.drop (buf.length - min buf.length f.size) ∧
    (buf.length > f.size - (fifo_contents f).length →
      mr_fifo_get_data_size (mr_fifo_write_force f buf buf.length).1 = f.size) := by
  have hwf := fifo_reachable_wf f h
  obtain ⟨v1, _, _, v4, v5⟩ := mr_fifo_write_force_wf_spec f buf hwf
  have hlen := fifo_contents_length f hwf
  have hdle := fifo_data_size_le f hwf
  have hmain : fifo_contents (mr_fifo_write_force f buf buf.length).1
      = (fifo_contents f ++ buf).drop
          ((fifo_contents f ++ buf).length
            - min f.size ((fifo_contents f).length + buf.length)) := by
    rw [v4, List.length_append, hlen]
  refine ⟨hmain, ?_, by rw [hlen]; exact v5⟩
  rw [hmain, List.drop_drop, List.length_drop, List.length_append, hlen]
  have e : mr_fifo_get_data_size f + buf.length
        - min f.size (mr_fifo_get_data_size f + buf.length)
      + (mr_fifo_get_data_size f + buf.length
          - (mr_fifo_get_data_size f + buf.length
            - min f.size (mr_fifo_get_data_size f + buf.length))
          - min buf.length f.size)
      = (fifo_contents f).length + (buf.length - min buf.length f.size) := by
    omega
  rw [e, List.drop_append]

/-- Witness of claim C5: forcing `[1, 2, 3, 4, 5, 6]` into the example fifo,
which holds `[9]`, leaves the newest four bytes. -/
theorem C5_fifo_write_force_contents_witness :
    fifo_reachable (mr_fifo_read (mr_fifo_write (mr_fifo_init [0, 0, 0, 0] 4) [7, 8, 9] 3).1 2).1 ∧
    fifo_contents (mr_fifo_write_force
        (mr_fifo_read (mr_fifo_write (mr_fifo_init [0, 0, 0, 0] 4) [7, 8, 9] 3).1 2).1
        [1, 2, 3, 4, 5, 6] 6).1 = [3, 4, 5, 6] :=
  ⟨fifo_reachable_example,
    ((C5_fifo_write_force_contents _ [1, 2, 3, 4, 5, 6] fifo_reachable_example).1).trans
      (by decide)⟩

/-- Claim C6.  In every fifo state reachable from `mr_fifo_init` by any
sequence of read, write and write_force, `mr_fifo_get_data_size` is at most
the capacity, so the subtraction in `mr_fifo_get_space_size` does not
underflow, and data size plus space size is the capacity. -/
theorem C6_fifo_data_plus_space (f : mr_fifo) (h : fifo_reachable f) :
    mr_fifo_get_data_size f ≤ f.size ∧
    mr_fifo_get_data_size f + mr_fifo_get_space_size f = f.size := by
  have hd := fifo_data_size_le f (fifo_reachable_wf f h)
  unfold mr_fifo_get_space_size
  omega

/-- Witness of claim C6 on the example fifo. -/
theorem C6_fifo_data_plus_space_witness :
    fifo_reachable (mr_fifo_read (mr_fifo_write (mr_fifo_init [0, 0, 0, 0] 4) [7, 8, 9] 3).1 2).1 ∧
    mr_fifo_get_data_size
        (mr_fifo_read (mr_fifo_write (mr_fifo_init [0, 0, 0, 0] 4) [7, 8, 9] 3).1 2).1
      + mr_fifo_get_space_size
        (mr_fifo_read (mr_fifo_write (mr_fifo_init [0, 0, 0, 0] 4) [7, 8, 9] 3).1 2).1 = 4 :=
  ⟨fifo_reachable_example, (C6_fifo_data_plus_space _ fifo_reachable_example).2⟩

/-- The data size of a well-formed fifo after a write, a read. -/
theorem fifo_data_size_write (f : mr_fifo) (buf : List Nat) (h : fifo_wf f) :
    mr_fifo_get_data_size (mr_fifo_write f buf buf.length).1
      = mr_fifo_get_data_size f + min buf.length (f.size - mr_fifo_get_data_size f) := by
  obtain ⟨w1, w2, _, w4⟩ := mr_fifo_write_wf_spec f buf h
  have hd := fifo_data_size_le f h
  rw [← fifo_contents_length _ w1, w4, w2, List.length_append, fifo_contents_length f h,
    List.length_take]
  omega

theorem fifo_data_size_read (f : mr_fifo) (n : Nat) (h : fifo_wf f) :
    mr_fifo_get_data_size (mr_fifo_read f n).1
      = mr_fifo_get_data_size f - min n (mr_fifo_get_data_size f) := by
  obtain ⟨r1, r2, _, _, r5⟩ := mr_fifo_read_wf_spec f n h
  rw [← fifo_contents_length _ r1, r5, r2, List.length_drop, fifo_contents_length f h]

/-- Claim C7.  Full is distinguished from empty: in every reachable fifo state
with capacity at least 1, when `read_index = write_index` the buffer holds no
byte if the mirror flags are equal and `capacity` bytes if they differ (and
these are the only states holding 0, respectively `capacity`, bytes); writing
exactly the free space leaves `data_size = capacity`, which is not 0, with
equal indices and differing mirror flags, and a further `mr_fifo_write`
returns 0; reading all the data leaves `data_size = 0`. -/
theorem C7_fifo_full_or_empty (f : mr_fifo) (h : fifo_reachable f) (hc : 1 ≤ f.size) :
    (f.read_index = f.write_index →
      (f.read_mirror = f.write_mirror →
        mr_fifo_get_data_size f = 0 ∧ fifo_contents f = []) ∧
      (f.read_mirror ≠ f.write_mirror →
        mr_fifo_get_data_size f = f.size ∧ (fifo_contents f).length = f.size)) ∧
    (mr_fifo_get_data_size f = 0 →
      f.read_index = f.write_index ∧ f.read_mirror = f.write_mirror) ∧
    (mr_fifo_get_data_size f = f.size →
      f.read_index = f.write_index ∧ f.read_mirror ≠ f.write_mirror) ∧
    (∀ buf : List Nat, buf.length = mr_fifo_get_space_size f →
      mr_fifo_get_data_size (mr_fifo_write f buf buf.length).1 = f.size ∧
      mr_fifo_get_data_size (mr_fifo_write f buf buf.length).1 ≠ 0 ∧
      (mr_fifo_write f buf buf.length).1.read_index
        = (mr_fifo_write f buf buf.length).1.write_index ∧
      (mr_fifo_write f buf buf.length).1.read_mirror
        ≠ (mr_fifo_write f buf buf.length).1.write_mirror ∧
      ∀ buf2 : List Nat,
        (mr_fifo_write (mr_fifo_write f buf buf.length).1 buf2 buf2.length).2 = 0) ∧
    mr_fifo_get_data_size (mr_fifo_read f (mr_fifo_get_data_size f)).1 = 0 := by
  have hwf := fifo_reachable_wf f h
  have hlen := fifo_contents_length f hwf
  have hd := fifo_data_size_le f hwf
  have shape : ∀ g : mr_fifo, fifo_wf g → 1 ≤ g.size →
      (mr_fifo_get_data_size g = 0 → g.read_index = g.write_index ∧ g.read_mirror = g.write_mirror) ∧
      (mr_fifo_get_data_size g = g.size →
        g.read_index = g.write_index ∧ g.read_mirror ≠ g.write_mirror) := by
    intro g hg hgc
    have hcs := fifo_data_size_cases g hg
    obtain ⟨_, _, h1, _, _⟩ := hg
    simp only [bool_eq_iff_toNat, ne_eq]
    constructor <;> intro _ <;> omega
  refine ⟨?_, (shape f hwf hc).1, (shape f hwf hc).2, ?_, ?_⟩
  · intro hidx
    constructor
    · intro hm
      have e : mr_fifo_get_data_size f = 0 := by
        unfold mr_fifo_get_data_size
        rw [if_pos hidx, if_pos hm]
      exact ⟨e, List.eq_nil_of_length_eq_zero (by rw [hlen, e])⟩
    · intro hm
      have e : mr_fifo_get_data_size f = f.size := by
        unfold mr_fifo_get_data_size
        rw [if_pos hidx, if_neg hm]
      exact ⟨e, by rw [hlen, e]⟩
  · intro buf hbuf
    unfold mr_fifo_get_space_size at hbuf
    obtain ⟨w1, _, w3, _⟩ := mr_fifo_write_wf_spec f buf hwf
    have e := fifo_data_size_write f buf hwf
    have efull : mr_fifo_get_data_size (mr_fifo_write f buf buf.length).1
        = (mr_fifo_write f buf buf.length).1.size := by
      rw [e, w3]; omega
    have hs := (shape _ w1 (by rw [w3]; exact hc)).2 efull
    refine ⟨by rw [efull, w3], by rw [efull, w3]; omega, hs.1, hs.2, ?_⟩
    intro buf2
    rw [(mr_fifo_write_wf_spec _ buf2 w1).2.1, efull]
    omega
  · rw [fifo_data_size_read f _ hwf]
    omega

/-- Witness of claim C7 on the example fifo: after writing its three free
bytes a further write is refused. -/
theorem C7_fifo_full_or_empty_witness :
    fifo_reachable (mr_fifo_read (mr_fifo_write (mr_fifo_init [0, 0, 0, 0] 4) [7, 8, 9] 3).1 2).1 ∧
    1 ≤ (mr_fifo_read (mr_fifo_write (mr_fifo_init [0, 0, 0, 0] 4) [7, 8, 9] 3).1 2).1.size ∧
    (mr_fifo_write (mr_fifo_write
        (mr_fifo_read (mr_fifo_write (mr_fifo_init [0, 0, 0, 0] 4) [7, 8, 9] 3).1 2).1
        [1, 2, 3] 3).1 [4] 1).2 = 0 :=
  ⟨fifo_reachable_example, by decide,
    ((C7_fifo_full_or_empty _ fifo_reachable_example (by decide)).2.2.2.1 [1, 2, 3]
      (by decide)).2.2.2.2 [4]⟩

/-! ## Task scheduler: proofs -/

/-- The record built by `mr_task_post_event` from an 8-bit index and event. -/
theorem index_and_event_eq (index event : Nat) (hi : index < 256) (he : event < 256) :
    ((index <<< 8) ||| event) % 65536 = index * 256 + event := by
  have h1 : index <<< 8 ||| event = index <<< 8 + event := by
    rw [Nat.shiftLeft_eq, Nat.mul_comm]
    exact (Nat.mul_add_lt_is_or (by omega : event < 2 ^ 8) index).symm
  rw [h1, Nat.shiftLeft_eq]
  omega

theorem u16_bytes_index_and_event (index event : Nat) (hi : index < 256) (he : event < 256) :
    u16_bytes (((index <<< 8) ||| event) % 65536) = [event, index] := by
  rw [index_and_event_eq index event hi he]
  simp only [u16_bytes]
  congr 1
  · omega
  · congr 1
    omega

/-- Decoding as in `mr_task_handle` the two bytes of a record. -/
theorem u16_decode (index event : Nat) (hi : index < 256) (he : event < 256) :
    (u16_of_bytes [event, index] >>> 8) % 256 = index ∧
    u16_of_bytes [event, index] &&& 0xFF = event := by
  have hv : u16_of_bytes [event, index] = event + 256 * index := by
    simp [u16_of_bytes]
  rw [hv, Nat.shiftRight_eq_div_pow]
  have h255 : (0xFF : Nat) = 2 ^ 8 - 1 := by norm_num
  rw [h255, Nat.and_pow_two_sub_one_eq_mod]
  constructor <;> omega

/-- Writing one record into a queue that satisfies the queue invariant: either
there is room for it and it is appended whole, or the queue is full and
nothing changes. -/
theorem task_queue_write_record (queue : mr_fifo) (table_size v : Nat)
    (h : task_queue_inv queue table_size) :
    (2 ≤ mr_fifo_get_space_size queue ∧
      (mr_rb_write queue (u16_bytes v) 2).2 = 2 ∧
      fifo_contents (mr_rb_write queue (u16_bytes v) 2).1
        = fifo_contents queue ++ u16_bytes v) ∨
    (mr_fifo_get_space_size queue = 0 ∧
      (mr_rb_write queue (u16_bytes v) 2).2 = 0 ∧
      (mr_rb_write queue (u16_bytes v) 2).1 = queue) := by
  obtain ⟨hwf, hs, hd, _, _⟩ := h
  have hdle := fifo_data_size_le queue hwf
  have hl : (u16_bytes v).length = 2 := rfl
  obtain ⟨_, w2, _, w4⟩ := mr_fifo_write_wf_spec queue (u16_bytes v) hwf
  rw [hl] at w2 w4
  unfold mr_rb_write mr_fifo_get_space_size
  by_cases hroom : 2 ≤ queue.size - mr_fifo_get_data_size queue
  · left
    have e : min 2 (queue.size - mr_fifo_get_data_size queue) = 2 := by omega
    rw [e] at w2
    refine ⟨hroom, w2, ?_⟩
    rw [w4, w2]
    rfl
  · right
    have e0 : queue.size - mr_fifo_get_data_size queue = 0 := by omega
    refine ⟨e0, by rw [w2, e0]; rfl, ?_⟩
    have := mr_fifo_write_eq queue (u16_bytes v) hwf 0 (by rw [hl, e0]; rfl)
    rw [hl] at this
    rw [this]
    rfl

/-- The queue invariant is kept when a record naming a valid slot is written. -/
theorem task_queue_inv_write (queue : mr_fifo) (table_size index event : Nat)
    (h : task_queue_inv queue table_size) (hi : index < table_size) (hi2 : index < 256)
    (he : event < 256) :
    task_queue_inv (mr_rb_write queue (u16_bytes (((index <<< 8) ||| event) % 65536)) 2).1
        table_size ∧
    (mr_rb_write queue (u16_bytes (((index <<< 8) ||| event) % 65536)) 2).1.size
      = queue.size := by
  have hcase := task_queue_write_record queue table_size (((index <<< 8) ||| event) % 65536) h
  obtain ⟨hwf, hs, hd, hrec, hbyte⟩ := h
  have hl : (u16_bytes (((index <<< 8) ||| event) % 65536)).length = 2 := rfl
  obtain ⟨w1, _, w3, _⟩ := mr_fifo_write_wf_spec queue
    (u16_bytes (((index <<< 8) ||| event) % 65536)) hwf
  rw [hl] at w1 w3
  have hlen := fifo_contents_length queue hwf
  simp only [mr_rb_write] at hcase ⊢
  rcases hcase with ⟨_, _, hc⟩ | ⟨_, _, hq⟩
  · have hlen2 := fifo_contents_length _ w1
    rw [hc, List.length_append, hl, hlen] at hlen2
    refine ⟨⟨w1, by rw [w3]; exact hs, by omega, ?_, ?_⟩, w3⟩
    · intro k hk
      rw [hc] at hk ⊢
      rw [List.length_append, hl, hlen] at hk
      by_cases hold : 2 * k + 1 < (fifo_contents queue).length
      · rw [List.getD_append _ _ _ _ hold]
        exact hrec k hold
      · rw [List.getD_append_right _ _ _ _ (by omega),
          u16_bytes_index_and_event index event hi2 he]
        have e : 2 * k + 1 - (fifo_contents queue).length = 1 := by omega
        rw [e]
        exact hi
    · intro byte hmem
      rw [hc, List.mem_append] at hmem
      rcases hmem with hold | hnew
      · exact hbyte byte hold
      · rw [u16_bytes_index_and_event index event hi2 he] at hnew
        simp only [List.mem_cons, List.mem_singleton, List.not_mem_nil, or_false] at hnew
        rcases hnew with rfl | rfl
        · exact he
        · exact hi2
  · rw [hq]
    exact ⟨⟨hwf, hs, hd, hrec, hbyte⟩, rfl⟩

/-- The queue invariant is kept when a record is read, and a non-empty queue
gives up a whole record. -/
theorem task_queue_inv_read (queue : mr_fifo) (table_size : Nat)
    (h : task_queue_inv queue table_size) :
    task_queue_inv (mr_rb_read queue 2).1 table_size ∧
    (mr_rb_read queue 2).1.size = queue.size ∧
    (mr_rb_read queue 2).2.2 = min 2 (mr_fifo_get_data_size queue) ∧
    (mr_rb_read queue 2).2.1 = (fifo_contents queue).take (mr_rb_read queue 2).2.2 ∧
    fifo_contents (mr_rb_read queue 2).1
      = (fifo_contents queue).drop (mr_rb_read queue 2).2.2 := by
  obtain ⟨hwf, hs, hd, hrec, hbyte⟩ := h
  obtain ⟨r1, r2, r3, r4, r5⟩ := mr_fifo_read_wf_spec queue 2 hwf
  have hlen := fifo_contents_length queue hwf
  have hlen2 := fifo_contents_length _ r1
  unfold mr_rb_read
  refine ⟨⟨r1, by rw [r3]; exact hs, ?_, ?_, ?_⟩, r3, r2, r4, r5⟩
  · rw [← hlen2, r5, r2, List.length_drop, hlen]
    omega
  · intro k hk
    rw [r5, r2] at hk ⊢
    rw [List.length_drop, hlen] at hk
    by_cases hd0 : mr_fifo_get_data_size queue = 0
    · omega
    · have e : min 2 (mr_fifo_get_data_size queue) = 2 := by omega
      rw [e] at hk ⊢
      have := hrec (k + 1) (by rw [hlen]; omega)
      rw [List.getD_eq_getElem?_getD, List.getElem?_drop]
      rw [List.getD_eq_getElem?_getD] at this
      have e2 : 2 + (2 * k + 1) = 2 * (k + 1) + 1 := by omega
      rw [e2]
      exact this
  · intro byte hmem
    rw [r5] at hmem
    exact hbyte byte (List.mem_of_mem_drop hmem)

theorem mr_task_post_event_invalid (cfg : Bool) (task : mr_task) (index event : Nat)
    (h : index ≥ task.table_size) :
    mr_task_post_event cfg task index event = (task, mr_err_t.MR_ERR_INVALID) := by
  unfold mr_task_post_event
  rw [if_pos h]

theorem mr_task_post_event_stopped (cfg : Bool) (task : mr_task) (index event : Nat)
    (h : index < task.table_size) (hs : task.active = false) :
    mr_task_post_event cfg task index event = (task, mr_err_t.MR_ERR_GENERIC) := by
  unfold mr_task_post_event
  rw [if_neg (by omega), if_pos hs]

/-- What `mr_task_post_event` does on an active task with a valid index. -/
theorem mr_task_post_event_active (cfg : Bool) (task : mr_task) (index event : Nat)
    (h : index < task.table_size) (ha : task.active = true) :
    mr_task_post_event cfg task index event =
      if (mr_rb_write task.queue (u16_bytes (((index <<< 8) ||| event) % 65536)) 2).2 ≠ 2 then
        ({ task with
            queue := (mr_rb_write task.queue
              (u16_bytes (((index <<< 8) ||| event) % 65536)) 2).1 },
          mr_err_t.MR_ERR_BUSY)
      else
        ({ task with
            queue := (mr_rb_write task.queue
              (u16_bytes (((index <<< 8) ||| event) % 65536)) 2).1
            usage_max :=
              if cfg = true then
                max task.usage_max
                  ((mr_task_get_usage { task with
                    queue := (mr_rb_write task.queue
                      (u16_bytes (((index <<< 8) ||| event) % 65536)) 2).1 }).getD 0)
              else task.usage_max },
          mr_err_t.MR_ERR_OK) := by
  unfold mr_task_post_event
  rw [if_neg (by omega), if_neg (by rw [ha]; decide)]
  cases cfg <;> simp

/-- The fields `mr_task_post_event` never changes. -/
theorem mr_task_post_event_fields (cfg : Bool) (task : mr_task) (index event : Nat) :
    (mr_task_post_event cfg task index event).1.active = task.active ∧
    (mr_task_post_event cfg task index event).1.sm_active = task.sm_active ∧
    (mr_task_post_event cfg task index event).1.sm = task.sm ∧
    (mr_task_post_event cfg task index event).1.event = task.event ∧
    (mr_task_post_event cfg task index event).1.tick = task.tick ∧
    (mr_task_post_event cfg task index event).1.run = task.run ∧
    (mr_task_post_event cfg task index event).1.table = task.table ∧
    (mr_task_post_event cfg task index event).1.table_size = task.table_size := by
  by_cases h : index < task.table_size
  · by_cases ha : task.active = true
    · rw [mr_task_post_event_active cfg task index event h ha]
      by_cases hw : (mr_rb_write task.queue
          (u16_bytes (((index <<< 8) ||| event) % 65536)) 2).2 ≠ 2
      · rw [if_pos hw]
        exact ⟨rfl, rfl, rfl, rfl, rfl, rfl, rfl, rfl⟩
      · rw [if_neg hw]
        exact ⟨rfl, rfl, rfl, rfl, rfl, rfl, rfl, rfl⟩
    · rw [mr_task_post_event_stopped cfg task index event h (by simpa using ha)]
      exact ⟨rfl, rfl, rfl, rfl, rfl, rfl, rfl, rfl⟩
  · rw [mr_task_post_event_invalid cfg task index event (by omega)]
    exact ⟨rfl, rfl, rfl, rfl, rfl, rfl, rfl, rfl⟩

/-- The queue after `mr_task_post_event`: untouched, or one record further. -/
theorem mr_task_post_event_queue (cfg : Bool) (task : mr_task) (index event : Nat) :
    (mr_task_post_event cfg task index event).1.queue = task.queue ∨
    (index < task.table_size ∧ task.active = true ∧
      (mr_task_post_event cfg task index event).1.queue
        = (mr_rb_write task.queue (u16_bytes (((index <<< 8) ||| event) % 65536)) 2).1) := by
  by_cases h : index < task.table_size
  · by_cases ha : task.active = true
    · right
      refine ⟨h, ha, ?_⟩
      rw [mr_task_post_event_active cfg task index event h ha]
      split_ifs <;> rfl
    · left
      rw [mr_task_post_event_stopped cfg task index event h (by simpa using ha)]
  · left
    rw [mr_task_post_event_invalid cfg task index event (by omega)]

/-- `mr_task_post_event` keeps the task invariant. -/
theorem task_inv_post_event (cfg : Bool) (task : mr_task) (index event : Nat)
    (h : task_inv task) (he : event < 256) :
    task_inv (mr_task_post_event cfg task index event).1 := by
  obtain ⟨f1, f2, f3, f4, f5, f6, f7, f8⟩ := mr_task_post_event_fields cfg task index event
  obtain ⟨hq, ht, hsm⟩ := h
  refine ⟨?_, by rw [f7, f8]; exact ht, by rw [f2, f3, f8]; exact hsm⟩
  rw [f8]
  rcases mr_task_post_event_queue cfg task index event with e | ⟨hi, _, e⟩
  · rw [e]; exact hq
  · rw [e]
    exact (task_queue_inv_write task.queue task.table_size index event hq hi
      (by have := ht.2.1; omega) he).1

/-- The unread queue contents after `mr_task_post_event` extend those before. -/
theorem mr_task_post_event_contents (cfg : Bool) (task : mr_task) (index event : Nat)
    (h : task_inv task) :
    ∃ ext : List Nat,
      fifo_contents (mr_task_post_event cfg task index event).1.queue
        = fifo_contents task.queue ++ ext := by
  rcases mr_task_post_event_queue cfg task index event with e | ⟨_, _, e⟩
  · exact ⟨[], by rw [e, List.append_nil]⟩
  · rw [e]
    rcases task_queue_write_record task.queue task.table_size
      (((index <<< 8) ||| event) % 65536) h.1 with ⟨_, _, hc⟩ | ⟨_, _, hq⟩
    · exact ⟨_, hc⟩
    · exact ⟨[], by rw [hq, List.append_nil]⟩

/-- Rewriting the timing fields of a slot leaves every callback and argument. -/
theorem task_table_callbacks_set (table : List mr_task_table) (index interval timeout : Nat) :
    task_table_callbacks (table.set index
        { table.getD index default with interval := interval, timeout := timeout })
      = task_table_callbacks table := by
  unfold task_table_callbacks
  rw [List.map_set]
  apply List.ext_getElem?
  intro j
  rw [List.getElem?_set]
  by_cases hj : index = j
  · subst hj
    rw [if_pos rfl, List.length_map]
    by_cases hl : index < table.length
    · rw [if_pos hl, List.getElem?_map, List.getD_eq_getElem?_getD,
        List.getElem?_eq_getElem hl]
      rfl
    · rw [if_neg hl, List.getElem?_map, List.getElem?_eq_none (by omega)]
      rfl
  · rw [if_neg hj]

/-- The table invariant only depends on the length and the callbacks. -/
theorem task_table_inv_of_callbacks (table table2 : List mr_task_table) (table_size : Nat)
    (h : task_table_inv table table_size)
    (hcb : task_table_callbacks table2 = task_table_callbacks table) :
    task_table_inv table2 table_size := by
  obtain ⟨h1, h2, h3, h4⟩ := h
  have hlen : table2.length = table.length := by
    have := congrArg List.length hcb
    simpa [task_table_callbacks] using this
  refine ⟨h1, h2, by rw [hlen]; exact h3, ?_⟩
  intro slot hslot hnull
  have hm : (slot.cb, slot.args) ∈ task_table_callbacks table2 :=
    List.mem_map.mpr ⟨slot, hslot, rfl⟩
  rw [hcb] at hm
  obtain ⟨slot0, hs0, he⟩ := List.mem_map.mp hm
  have : slot0.cb = slot.cb := congrArg Prod.fst he
  exact h4 slot0 hs0 (by rw [this, hnull])

/-- The fields `mr_task_timing` never changes, and the callbacks of the table. -/
theorem mr_task_timing_fields (task : mr_task) (index tick : Nat) (flag : mr_task_timing_flag) :
    (mr_task_timing task index tick flag).1.active = task.active ∧
    (mr_task_timing task index tick flag).1.sm_active = task.sm_active ∧
    (mr_task_timing task index tick flag).1.sm = task.sm ∧
    (mr_task_timing task index tick flag).1.event = task.event ∧
    (mr_task_timing task index tick flag).1.tick = task.tick ∧
    (mr_task_timing task index tick flag).1.usage_max = task.usage_max ∧
    (mr_task_timing task index tick flag).1.queue = task.queue ∧
    (mr_task_timing task index tick flag).1.table_size = task.table_size ∧
    task_table_callbacks (mr_task_timing task index tick flag).1.table
      = task_table_callbacks task.table := by
  unfold mr_task_timing
  by_cases h1 : index ≥ task.table_size
  · rw [if_pos h1]
    exact ⟨rfl, rfl, rfl, rfl, rfl, rfl, rfl, rfl, rfl⟩
  rw [if_neg h1]
  by_cases h2 : task.active = false
  · rw [if_pos h2]
    exact ⟨rfl, rfl, rfl, rfl, rfl, rfl, rfl, rfl, rfl⟩
  rw [if_neg h2]
  by_cases h3 : tick = 0
  · rw [if_pos h3]
    exact ⟨rfl, rfl, rfl, rfl, rfl, rfl, rfl, rfl, rfl⟩
  rw [if_neg h3]
  exact ⟨rfl, rfl, rfl, rfl, rfl, rfl, rfl, rfl, task_table_callbacks_set _ _ _ _⟩

/-- `mr_task_timing` keeps the task invariant. -/
theorem task_inv_timing (task : mr_task) (index tick : Nat) (flag : mr_task_timing_flag)
    (h : task_inv task) : task_inv (mr_task_timing task index tick flag).1 := by
  obtain ⟨_, f2, f3, _, _, _, f7, f8, f9⟩ := mr_task_timing_fields task index tick flag
  obtain ⟨hq, ht, hsm⟩ := h
  refine ⟨by rw [f7, f8]; exact hq, ?_, by rw [f2, f3, f8]; exact hsm⟩
  rw [f8]
  exact task_table_inv_of_callbacks _ _ _ ht f9

/-- The fields `mr_task_transition_state` never changes. -/
theorem mr_task_transition_state_fields (cfg : Bool) (task : mr_task) (index : Nat) :
    (mr_task_transition_state cfg task index).1.active = task.active ∧
    (mr_task_transition_state cfg task index).1.table = task.table ∧
    (mr_task_transition_state cfg task index).1.table_size = task.table_size := by
  unfold mr_task_transition_state
  by_cases h1 : index ≥ task.table_size
  · rw [if_pos h1]
    exact ⟨rfl, rfl, rfl⟩
  rw [if_neg h1]
  by_cases h2 : task.active = false
  · rw [if_pos h2]
    exact ⟨rfl, rfl, rfl⟩
  rw [if_neg h2]
  simp only []
  by_cases h3 : task.sm_active = true
  · rw [if_pos h3]
    obtain ⟨a1, _, _, _, _, _, a7, a8⟩ := mr_task_post_event_fields cfg
      { (mr_task_post_event cfg task task.sm MR_TASK_EVENT_SM_EXIT).1 with sm := index }
      index MR_TASK_EVENT_SM_ENTER
    obtain ⟨b1, _, _, _, _, _, b7, b8⟩ := mr_task_post_event_fields cfg task task.sm
      MR_TASK_EVENT_SM_EXIT
    simp only [] at a1 a7 a8
    exact ⟨a1.trans b1, a7.trans b7, a8.trans b8⟩
  · rw [if_neg h3]
    obtain ⟨a1, _, _, _, _, _, a7, a8⟩ := mr_task_post_event_fields cfg
      { task with sm := index } index MR_TASK_EVENT_SM_ENTER
    exact ⟨a1, a7, a8⟩

/-- Changing only the state-machine fields, to a valid slot, keeps the invariant. -/
theorem task_inv_set_sm (task : mr_task) (index : Nat) (active : Bool) (h : task_inv task)
    (hi : active = true → index < task.table_size) :
    task_inv { task with sm := index, sm_active := active } :=
  ⟨h.1, h.2.1, hi⟩

/-- `mr_task_transition_state` keeps the task invariant and appends to the queue. -/
theorem task_inv_transition_state (cfg : Bool) (task : mr_task) (index : Nat)
    (h : task_inv task) :
    task_inv (mr_task_transition_state cfg task index).1 ∧
    ∃ ext : List Nat,
      fifo_contents (mr_task_transition_state cfg task index).1.queue
        = fifo_contents task.queue ++ ext := by
  unfold mr_task_transition_state
  by_cases h1 : index ≥ task.table_size
  · rw [if_pos h1]
    exact ⟨h, [], by rw [List.append_nil]⟩
  rw [if_neg h1]
  by_cases h2 : task.active = false
  · rw [if_pos h2]
    exact ⟨h, [], by rw [List.append_nil]⟩
  rw [if_neg h2]
  simp only []
  have hexit : task_inv (if task.sm_active = true then
        (mr_task_post_event cfg task task.sm MR_TASK_EVENT_SM_EXIT).1 else task) ∧
      (if task.sm_active = true then
        (mr_task_post_event cfg task task.sm MR_TASK_EVENT_SM_EXIT).1 else task).table_size
          = task.table_size ∧
      ∃ ext : List Nat,
        fifo_contents (if task.sm_active = true then
          (mr_task_post_event cfg task task.sm MR_TASK_EVENT_SM_EXIT).1 else task).queue
          = fifo_contents task.queue ++ ext := by
    by_cases h3 : task.sm_active = true
    · rw [if_pos h3]
      exact ⟨task_inv_post_event cfg task _ _ h (by decide),
        (mr_task_post_event_fields cfg task _ _).2.2.2.2.2.2.2,
        mr_task_post_event_contents cfg task _ _ h⟩
    · rw [if_neg h3]
      exact ⟨h, rfl, [], by rw [List.append_nil]⟩
  generalize (if task.sm_active = true then
    (mr_task_post_event cfg task task.sm MR_TASK_EVENT_SM_EXIT).1 else task) = task1 at hexit
  obtain ⟨i1, s1, ext1, c1⟩ := hexit
  have i2 : task_inv { task1 with sm := index } :=
    ⟨i1.1, i1.2.1, fun _ => by show index < task1.table_size; rw [s1]; omega⟩
  have i3 := task_inv_post_event cfg { task1 with sm := index } index MR_TASK_EVENT_SM_ENTER i2
    (by decide)
  obtain ⟨ext2, c2⟩ := mr_task_post_event_contents cfg { task1 with sm := index } index
    MR_TASK_EVENT_SM_ENTER i2
  obtain ⟨_, _, f3, _, _, _, _, f8⟩ := mr_task_post_event_fields cfg
    { task1 with sm := index } index MR_TASK_EVENT_SM_ENTER
  refine ⟨⟨i3.1, i3.2.1, fun _ => ?_⟩, ext1 ++ ext2, ?_⟩
  · show (mr_task_post_event cfg { task1 with sm := index } index MR_TASK_EVENT_SM_ENTER).1.sm
      < (mr_task_post_event cfg { task1 with sm := index } index
          MR_TASK_EVENT_SM_ENTER).1.table_size
    rw [f3, f8]
    show index < task1.table_size
    rw [s1]; omega
  · show fifo_contents (mr_task_post_event cfg { task1 with sm := index } index
      MR_TASK_EVENT_SM_ENTER).1.queue = _
    rw [c2]
    show fifo_contents task1.queue ++ ext2 = _
    rw [c1, List.append_assoc]

/-- The scan loop of `mr_task_update_tick` keeps the task invariant. -/
theorem task_inv_update_tick_loop (cfg : Bool) (curr_tick fuel : Nat) (task task2 : mr_task)
    (h : task_inv task)
    (hr : mr_task_update_tick_loop cfg curr_tick fuel task = some task2) :
    task_inv task2 := by
  induction fuel generalizing task with
  | zero => simp [mr_task_update_tick_loop] at hr
  | succ fuel ih =>
    unfold mr_task_update_tick_loop at hr
    cases hrun : task.run with
    | nil =>
      rw [hrun] at hr
      simp only [Option.some.injEq] at hr
      rw [← hr]; exact h
    | cons node rest =>
      rw [hrun] at hr
      simp only [] at hr
      split_ifs at hr with hdue
      · simp only [Option.some.injEq] at hr
        rw [← hr]; exact h
      · refine ih _ ?_ hr
        apply task_inv_timing
        apply task_inv_post_event _ _ _ _ _ (by decide)
        exact ⟨h.1, h.2.1, h.2.2⟩

/-- `mr_task_update_tick` keeps the task invariant. -/
theorem task_inv_update_tick (cfg : Bool) (fuel : Nat) (task task2 : mr_task) (tick : Nat)
    (h : task_inv task) (hr : mr_task_update_tick cfg fuel task tick = some task2) :
    task_inv task2 := by
  unfold mr_task_update_tick at hr
  split_ifs at hr with ha
  · simp only [Option.some.injEq] at hr
    rw [← hr]; exact h
  · exact task_inv_update_tick_loop cfg _ fuel
      { task with tick := (task.tick + tick) % 4294967296 } task2 ⟨h.1, h.2.1, h.2.2⟩ hr

/-- A successful `mr_task_add` establishes the task invariant. -/
theorem task_inv_add (task : mr_task) (table : List mr_task_table) (table_size queue_size : Nat)
    (pool : List Nat) (hsize : table_size ≠ 0 ∧ table_size ≤ 255)
    (htable : table.length = table_size) (hpool : pool.length = queue_size * 2) :
    task_inv (mr_task_add task table table_size queue_size (some pool) mr_err_t.MR_ERR_OK).1 := by
  have hq : mr_rb_init pool (queue_size * 2) = mr_fifo_init pool pool.length := by
    rw [hpool]; rfl
  have hwf := fifo_wf_init pool
  have hd : mr_fifo_get_data_size (mr_fifo_init pool pool.length) = 0 := by
    simp [mr_fifo_get_data_size, mr_fifo_init]
  have hlen := fifo_contents_length _ hwf
  rw [hd] at hlen
  refine ⟨?_, ⟨hsize.1, hsize.2, ?_, ?_⟩, fun hsm => by simp [mr_task_add] at hsm⟩
  · show task_queue_inv (mr_rb_init pool (queue_size * 2)) table_size
    rw [hq]
    refine ⟨hwf, ?_, by rw [hd], ?_, ?_⟩
    · show pool.length % 2 = 0
      omega
    · intro k hk
      omega
    · intro byte hmem
      rw [List.eq_nil_of_length_eq_zero hlen] at hmem
      simp at hmem
  · simp only [mr_task_add, List.length_append, List.length_map, List.length_take,
      List.length_drop]
    omega
  · intro slot hslot
    simp only [mr_task_add, List.mem_append, List.mem_map] at hslot
    rcases hslot with ⟨slot0, _, rfl⟩ | hdrop
    · simp only []
      split_ifs with hnull
      · decide
      · exact hnull
    · rw [List.drop_of_length_le (by omega)] at hdrop
      simp at hdrop

/-- Fetching a record in `mr_task_handle` keeps the task invariant. -/
theorem task_inv_handle_fetch (task : mr_task) (index_and_label : List Nat)
    (h : task_inv task) : task_inv (mr_task_handle_fetch task index_and_label).1 :=
  ⟨(task_queue_inv_read task.queue task.table_size h.1).1, h.2.1, h.2.2⟩

/-- Every reachable task state satisfies the task invariant. -/
theorem task_reachable_inv (cfg : Bool) (task : mr_task) (h : task_reachable cfg task) :
    task_inv task := by
  induction h with
  | add task table table_size queue_size pool hsize htable hpool =>
    exact task_inv_add task table table_size queue_size pool hsize htable hpool
  | start task _ ih => exact ⟨ih.1, ih.2.1, ih.2.2⟩
  | stop task _ ih => exact ⟨ih.1, ih.2.1, ih.2.2⟩
  | post_event task index event _ hevent _ ih => exact task_inv_post_event cfg task index event ih hevent
  | timing task index tick flag _ _ _ ih => exact task_inv_timing task index tick flag ih
  | update_tick task fuel tick task2 _ _ hr ih => exact task_inv_update_tick cfg fuel task task2 tick ih hr
  | transition_state task index _ _ ih => exact (task_inv_transition_state cfg task index ih).1
  | handle_fetch task index_and_label _ ih => exact task_inv_handle_fetch task index_and_label ih
  | handle_sm task _ ih => exact ⟨ih.1, ih.2.1, ih.2.2⟩

theorem task_callback_step_refl (task : mr_task) (h : task_inv task) :
    task_callback_step task task :=
  ⟨h, rfl, rfl, rfl, [], by rw [List.append_nil]⟩

theorem task_callback_step_trans (task task2 task3 : mr_task)
    (h12 : task_callback_step task task2) (h23 : task_callback_step task2 task3) :
    task_callback_step task task3 := by
  obtain ⟨_, a2, a3, a4, e1, a5⟩ := h12
  obtain ⟨b1, b2, b3, b4, e2, b5⟩ := h23
  exact ⟨b1, b2.trans a2, b3.trans a3, b4.trans a4, e1 ++ e2,
    by rw [b5, a5, List.append_assoc]⟩

/-- A call made by a callback is a callback step. -/
theorem task_callback_step_do_call (cfg : Bool) (task : mr_task) (call : mr_task_call)
    (h : task_inv task) : task_callback_step task (mr_task_do_call cfg task call) := by
  cases call with
  | post_event index event =>
    obtain ⟨f1, _, _, _, _, _, f7, f8⟩ :=
      mr_task_post_event_fields cfg task (index % 256) (event % 256)
    exact ⟨task_inv_post_event cfg task _ _ h (Nat.mod_lt _ (by decide)), f1, f8,
      by simp only [mr_task_do_call]; rw [f7], mr_task_post_event_contents cfg task _ _ h⟩
  | timing index tick flag =>
    obtain ⟨f1, _, _, _, _, _, f7, f8, f9⟩ :=
      mr_task_timing_fields task (index % 256) (tick % 4294967296) flag
    exact ⟨task_inv_timing task _ _ flag h, f1, f8, f9, [],
      by simp only [mr_task_do_call]; rw [f7, List.append_nil]⟩
  | transition_state index =>
    obtain ⟨f1, f2, f3⟩ := mr_task_transition_state_fields cfg task (index % 256)
    obtain ⟨i1, i2⟩ := task_inv_transition_state cfg task (index % 256) h
    exact ⟨i1, f1, f3, by simp only [mr_task_do_call]; rw [f2], i2⟩

/-- The calls made by one callback invocation are a callback step. -/
theorem task_callback_step_calls (cfg : Bool) (calls : List mr_task_call) (task : mr_task)
    (h : task_inv task) :
    task_callback_step task (calls.foldl (mr_task_do_call cfg) task) := by
  induction calls generalizing task with
  | nil => exact task_callback_step_refl task h
  | cons call calls ih =>
    have h1 := task_callback_step_do_call cfg task call h
    exact task_callback_step_trans _ _ _ h1 (ih _ h1.1)

/-- Under the invariant, invoking the callback of a valid slot succeeds; the
invocation carries the slot's callback and argument and the current event. -/
theorem mr_task_invoke_some (cfg : Bool) (cbs : mr_task_callbacks)
    (trace : List mr_task_invocation) (task : mr_task) (index : Nat)
    (h : task_inv task) (hi : index < task.table_size) :
    ∃ task2 : mr_task,
      mr_task_invoke cfg cbs trace task index
        = some (task2, ⟨index, (task.table.getD index default).cb,
            (task.table.getD index default).args, task.event⟩) ∧
      task_callback_step task task2 := by
  have hinv := h
  obtain ⟨_, ⟨_, _, hlen, hcb⟩, _⟩ := h
  have hlt : index < task.table.length := by omega
  have hget : task.table.get? index = some (task.table.getD index default) := by
    rw [List.get?_eq_getElem?, List.getD_eq_getElem?_getD, List.getElem?_eq_getElem hlt]
    rfl
  have hmem : task.table.getD index default ∈ task.table := by
    rw [List.getD_eq_getElem?_getD, List.getElem?_eq_getElem hlt]
    exact List.getElem_mem hlt
  have hnn := hcb _ hmem
  unfold mr_task_invoke
  rw [hget]
  simp only []
  cases hc : (task.table.getD index default).cb with
  | null => exact absurd hc hnn
  | err_io_task_cb =>
    exact ⟨task, rfl, task_callback_step_refl task hinv⟩
  | user id =>
    exact ⟨_, rfl, task_callback_step_calls cfg _ task hinv⟩

/-- Fetching from a queue whose unread contents start with the bytes `a, b`
reads exactly this record and decodes it to slot `b` and event `a`. -/
theorem mr_task_handle_fetch_record (task : mr_task) (index_and_label : List Nat)
    (a b : Nat) (rest : List Nat) (h : task_inv task)
    (hc : fifo_contents task.queue = a :: b :: rest) :
    (mr_task_handle_fetch task index_and_label).2.2.2 = 2 ∧
    (mr_task_handle_fetch task index_and_label).2.2.1 = b ∧
    (mr_task_handle_fetch task index_and_label).1.event = a ∧
    b < task.table_size ∧
    fifo_contents (mr_task_handle_fetch task index_and_label).1.queue = rest ∧
    (mr_task_handle_fetch task index_and_label).1.table = task.table ∧
    (mr_task_handle_fetch task index_and_label).1.table_size = task.table_size ∧
    (mr_task_handle_fetch task index_and_label).1.active = task.active := by
  obtain ⟨hq, ht, _⟩ := h
  obtain ⟨_, _, r3, r4, r5⟩ := task_queue_inv_read task.queue task.table_size hq
  obtain ⟨hwf, _, _, hrec, hbyte⟩ := hq
  have hlen := fifo_contents_length task.queue hwf
  rw [hc] at hlen
  simp only [List.length_cons] at hlen
  have e2 : (mr_rb_read task.queue 2).2.2 = 2 := by rw [r3]; omega
  rw [e2, hc] at r4 r5
  have hb : b < task.table_size := by
    have := hrec 0 (by rw [hc]; simp only [List.length_cons]; omega)
    rw [hc] at this
    exact this
  have ha : a < 256 := hbyte a (by rw [hc]; exact List.mem_cons_self _ _)
  have hb2 : b < 256 := by have := ht.2.1; omega
  have hial : (mr_rb_read task.queue 2).2.1
      ++ index_and_label.drop (mr_rb_read task.queue 2).2.1.length
      = a :: b :: index_and_label.drop 2 := by
    rw [r4]; rfl
  have hv : u16_of_bytes (a :: b :: index_and_label.drop 2) = u16_of_bytes [a, b] := by
    simp [u16_of_bytes]
  obtain ⟨d1, d2⟩ := u16_decode b a hb2 ha
  unfold mr_task_handle_fetch
  simp only [hial, hv]
  exact ⟨e2, d1, d2, hb, r5, trivial, trivial, trivial⟩

/-- The dispatch loop terminates: on a task satisfying the invariant, with an
even `count` of at most the queued bytes and more fuel than records to read, it
returns, the invocations made so far stay at the head of the trace, and the
result is a callback step away from the start except for the consumed records. -/
theorem mr_task_handle_loop_some (cfg : Bool) (cbs : mr_task_callbacks) (fuel : Nat) :
    ∀ (count : Nat) (index_and_label : List Nat) (task : mr_task)
      (trace : List mr_task_invocation),
      task_inv task → count % 2 = 0 → count ≤ (fifo_contents task.queue).length →
      count / 2 < fuel →
      ∃ (task2 : mr_task) (more : List mr_task_invocation),
        mr_task_handle_loop cfg cbs fuel count index_and_label task trace
          = some (task2, trace ++ more) ∧
        task_inv task2 ∧ task2.active = task.active ∧
        task2.table_size = task.table_size ∧
        task_table_callbacks task2.table = task_table_callbacks task.table := by
  induction fuel with
  | zero => intro count _ _ _ _ _ _ hf; omega
  | succ fuel ih =>
    intro count ial task trace hinv hev hle hf
    unfold mr_task_handle_loop
    by_cases h0 : count = 0
    · rw [if_pos h0]
      exact ⟨task, [], by rw [List.append_nil], hinv, rfl, rfl, rfl⟩
    rw [if_neg h0]
    obtain ⟨a, b, rest, hc⟩ : ∃ a b rest, fifo_contents task.queue = a :: b :: rest := by
      match hcs : fifo_contents task.queue with
      | [] => rw [hcs] at hle; simp only [List.length_nil] at hle; omega
      | [_] => rw [hcs] at hle; simp only [List.length_singleton] at hle; omega
      | a :: b :: rest => exact ⟨a, b, rest, rfl⟩
    obtain ⟨g1, g2, _, g4, g5, g6, g7, g8⟩ := mr_task_handle_fetch_record task ial a b rest hinv hc
    have hinv1 := task_inv_handle_fetch task ial hinv
    obtain ⟨task2, hinvoke, hstep⟩ := mr_task_invoke_some cfg cbs trace
      (mr_task_handle_fetch task ial).1 b hinv1 (by rw [g7]; exact g4)
    generalize (⟨b, ((mr_task_handle_fetch task ial).1.table.getD b default).cb,
      ((mr_task_handle_fetch task ial).1.table.getD b default).args,
      (mr_task_handle_fetch task ial).1.event⟩ : mr_task_invocation) = invocation at hinvoke
    simp only [g1, g2, hinvoke]
    have hcnt : (if 2 ≤ count then count - 2 else count + 4294967296 - 2) = count - 2 := by
      rw [if_pos (by omega)]
    rw [hcnt]
    obtain ⟨s1, s2, s3, s4, ext, s5⟩ := hstep
    obtain ⟨task3, more, l1, l2, l3, l4, l5⟩ := ih (count - 2)
      (mr_task_handle_fetch task ial).2.1 task2 (trace ++ [invocation]) s1 (by omega)
      (by rw [s5, g5, List.length_append]; rw [hc] at hle
          simp only [List.length_cons] at hle; omega)
      (by omega)
    refine ⟨task3, invocation :: more, ?_, l2, ?_, ?_, ?_⟩
    · rw [l1, List.append_assoc]
      rfl
    · rw [l3, s2, g8]
    · rw [l4, s3, g7]
    · rw [l5, s4, g6]

/-- Tables with the same callbacks give the same callback and argument by slot. -/
theorem task_table_getD_of_callbacks (table table2 : List mr_task_table) (index : Nat)
    (h : task_table_callbacks table2 = task_table_callbacks table) :
    (table2.getD index default).cb = (table.getD index default).cb ∧
    (table2.getD index default).args = (table.getD index default).args := by
  have hg := congrArg (fun l => l[index]?) h
  simp only [task_table_callbacks, List.getElem?_map] at hg
  rw [List.getD_eq_getElem?_getD, List.getD_eq_getElem?_getD]
  cases h2 : table2[index]? with
  | none =>
    cases h1 : table[index]? with
    | none => exact ⟨rfl, rfl⟩
    | some s1 => rw [h1, h2] at hg; simp at hg
  | some s2 =>
    cases h1 : table[index]? with
    | none => rw [h1, h2] at hg; simp at hg
    | some s1 =>
      rw [h1, h2] at hg
      simp only [Option.map_some', Option.some.injEq, Prod.mk.injEq] at hg
      exact hg

/-- One iteration of the dispatch loop on a queue whose contents start with the
record `a, b`: the record is consumed, slot `b` is invoked with event `a`, and
the loop goes on with two bytes less to read. -/
theorem mr_task_handle_loop_step (cfg : Bool) (cbs : mr_task_callbacks) (fuel count : Nat)
    (index_and_label : List Nat) (task : mr_task) (trace : List mr_task_invocation)
    (a b : Nat) (rest : List Nat) (h : task_inv task) (hcount : 2 ≤ count)
    (hc : fifo_contents task.queue = a :: b :: rest) :
    ∃ (task2 : mr_task) (index_and_label2 : List Nat),
      mr_task_handle_loop cfg cbs (fuel + 1) count index_and_label task trace
        = mr_task_handle_loop cfg cbs fuel (count - 2) index_and_label2 task2
            (trace ++ [⟨b, (task.table.getD b default).cb,
              (task.table.getD b default).args, a⟩]) ∧
      task_inv task2 ∧ task2.active = task.active ∧
      task2.table_size = task.table_size ∧
      task_table_callbacks task2.table = task_table_callbacks task.table ∧
      ∃ ext : List Nat, fifo_contents task2.queue = rest ++ ext := by
  obtain ⟨g1, g2, g3, g4, g5, g6, g7, g8⟩ :=
    mr_task_handle_fetch_record task index_and_label a b rest h hc
  have hinv1 := task_inv_handle_fetch task index_and_label h
  obtain ⟨task2, hinvoke, s1, s2, s3, s4, ext, s5⟩ := mr_task_invoke_some cfg cbs trace
    (mr_task_handle_fetch task index_and_label).1 b hinv1 (by rw [g7]; exact g4)
  rw [g3, g6] at hinvoke
  refine ⟨task2, (mr_task_handle_fetch task index_and_label).2.1, ?_, s1, by rw [s2, g8],
    by rw [s3, g7], by rw [s4, g6], ext, by rw [s5, g5]⟩
  have h0 : ¬ count = 0 := by omega
  have hcnt : (if 2 ≤ count then count - 2 else count + 4294967296 - 2) = count - 2 := by
    rw [if_pos hcount]
  rw [mr_task_handle_loop, if_neg h0]
  simp only [g1, g2, hinvoke, hcnt]

/-- The dispatch loop reaches a queued record: when the unread contents are
`m` records, then the record `e, i`, then anything, and the count covers the
record, the loop returns and its `m`-th new invocation is slot `i` with event
`e`. -/
theorem mr_task_handle_loop_reaches (cfg : Bool) (cbs : mr_task_callbacks) (m : Nat) :
    ∀ (fuel count : Nat) (index_and_label : List Nat) (task : mr_task)
      (trace : List mr_task_invocation) (before after : List Nat) (e i : Nat),
      task_inv task → count % 2 = 0 → count ≤ (fifo_contents task.queue).length →
      count / 2 < fuel →
      fifo_contents task.queue = before ++ e :: i :: after →
      before.length = 2 * m → 2 * m + 2 ≤ count →
      ∃ (task2 : mr_task) (trace2 : List mr_task_invocation),
        mr_task_handle_loop cfg cbs fuel count index_and_label task trace
          = some (task2, trace2) ∧
        trace2[trace.length + m]?
          = some ⟨i, (task.table.getD i default).cb, (task.table.getD i default).args, e⟩ ∧
        task_inv task2 ∧ task2.active = task.active ∧
        task2.table_size = task.table_size ∧
        task_table_callbacks task2.table = task_table_callbacks task.table := by
  induction m with
  | zero =>
    intro fuel count ial task trace before after e i hinv hev hle hf hc hb hcount
    have hnil : before = [] := List.eq_nil_of_length_eq_zero hb
    subst hnil
    rw [List.nil_append] at hc
    obtain ⟨fuel, rfl⟩ : ∃ f, fuel = f + 1 := ⟨fuel - 1, by omega⟩
    obtain ⟨task1, ial1, hstep, s1, s2, s3, s4, ext, s5⟩ :=
      mr_task_handle_loop_step cfg cbs fuel count ial task trace e i after hinv (by omega) hc
    obtain ⟨task2, more, l1, l2, l3, l4, l5⟩ := mr_task_handle_loop_some cfg cbs fuel
      (count - 2) ial1 task1 (trace ++ [⟨i, (task.table.getD i default).cb,
        (task.table.getD i default).args, e⟩]) s1 (by omega)
      (by rw [s5, List.length_append]; rw [hc] at hle
          simp only [List.length_cons] at hle; omega)
      (by omega)
    refine ⟨task2, _, hstep.trans l1, ?_, l2, l3.trans s2, l4.trans s3, l5.trans s4⟩
    rw [List.append_assoc, Nat.add_zero, List.getElem?_append_right (Nat.le_refl _),
      Nat.sub_self, List.singleton_append, List.getElem?_cons_zero]
  | succ m ih =>
    intro fuel count ial task trace before after e i hinv hev hle hf hc hb hcount
    obtain ⟨a, b, before2, rfl⟩ : ∃ a b before2, before = a :: b :: before2 := by
      match before, hb with
      | [], hb => simp only [List.length_nil] at hb; omega
      | [_], hb => simp only [List.length_singleton] at hb; omega
      | a :: b :: before2, _ => exact ⟨a, b, before2, rfl⟩
    simp only [List.length_cons] at hb
    obtain ⟨fuel, rfl⟩ : ∃ f, fuel = f + 1 := ⟨fuel - 1, by omega⟩
    obtain ⟨task1, ial1, hstep, s1, s2, s3, s4, ext, s5⟩ :=
      mr_task_handle_loop_step cfg cbs fuel count ial task trace a b
        (before2 ++ e :: i :: after) hinv (by omega) hc
    obtain ⟨task2, trace2, l1, l2, l3, l4, l5, l6⟩ := ih fuel (count - 2) ial1 task1
      (trace ++ [⟨b, (task.table.getD b default).cb, (task.table.getD b default).args, a⟩])
      before2 (after ++ ext) e i s1 (by omega)
      (by rw [s5, List.length_append]; rw [hc] at hle
          simp only [List.length_cons, List.cons_append] at hle; omega)
      (by omega)
      (by rw [s5, List.append_assoc]; rfl)
      (by omega) (by omega)
    obtain ⟨c1, c2⟩ := task_table_getD_of_callbacks task.table task1.table i s4
    refine ⟨task2, trace2, hstep.trans l1, ?_, l3, l4.trans s2, l5.trans s3, l6.trans s4⟩
    rw [← c1, ← c2, ← l2, List.length_append, List.length_singleton]
    congr 1
    omega

/-- `mr_task_handle` reaches a queued record: on an active task satisfying the
invariant whose queue holds `m` records and then the record `e, i`, with more
fuel than queued records, the call returns and its `m`-th invocation is slot
`i` with event `e`. -/
theorem mr_task_handle_reaches (cfg : Bool) (cbs : mr_task_callbacks) (fuel m : Nat)
    (task : mr_task) (before after : List Nat) (e i : Nat)
    (h : task_inv task) (ha : task.active = true)
    (hc : fifo_contents task.queue = before ++ e :: i :: after)
    (hb : before.length = 2 * m)
    (hf : mr_fifo_get_data_size task.queue / 2 < fuel) :
    ∃ (task2 : mr_task) (invocations : List mr_task_invocation),
      mr_task_handle cfg cbs fuel task = some (task2, invocations) ∧
      invocations[m]? = some ⟨i, (task.table.getD i default).cb,
        (task.table.getD i default).args, e⟩ := by
  have hlen := fifo_contents_length task.queue h.1.1
  have hlc : (fifo_contents task.queue).length = 2 * m + 2 + after.length := by
    rw [hc, List.length_append, hb]
    simp only [List.length_cons]
    omega
  obtain ⟨task1, trace1, l1, l2, l3, _, _, _⟩ := mr_task_handle_loop_reaches cfg cbs m fuel
    (mr_rb_get_data_size task.queue) [0, 0] task [] before after e i h h.1.2.2.1
    (by rw [hlen]; exact Nat.le_refl _) hf hc hb (by unfold mr_rb_get_data_size; omega)
  rw [List.length_nil, Nat.zero_add] at l2
  unfold mr_task_handle
  rw [if_neg (by rw [ha]; decide)]
  simp only [l1]
  by_cases hsm : task1.sm_active = true
  · rw [if_pos hsm]
    have hinv1 : task_inv { task1 with event := MR_TASK_EVENT_SM } := ⟨l3.1, l3.2.1, l3.2.2⟩
    obtain ⟨task2, hinvoke, _⟩ := mr_task_invoke_some cfg cbs trace1
      { task1 with event := MR_TASK_EVENT_SM } task1.sm hinv1 (l3.2.2 hsm)
    simp only [hinvoke]
    refine ⟨task2, _, rfl, ?_⟩
    have hm : m < trace1.length := by
      by_contra hge
      rw [List.getElem?_eq_none (by omega)] at l2
      exact Option.noConfusion l2
    rw [List.getElem?_append_left hm]
    exact l2
  · rw [if_neg hsm]
    exact ⟨task1, trace1, rfl, l2⟩

/-- The calls of a callback lead from reachable states to reachable states. -/
theorem task_reachable_calls (cfg : Bool) (calls : List mr_task_call) (task : mr_task)
    (h : task_reachable cfg task) :
    task_reachable cfg (calls.foldl (mr_task_do_call cfg) task) := by
  induction calls generalizing task with
  | nil => exact h
  | cons call calls ih =>
    apply ih
    cases call with
    | post_event index event =>
      exact task_reachable.post_event task _ _ (Nat.mod_lt _ (by decide))
        (Nat.mod_lt _ (by decide)) h
    | timing index tick flag =>
      exact task_reachable.timing task _ _ flag (Nat.mod_lt _ (by decide))
        (Nat.mod_lt _ (by decide)) h
    | transition_state index =>
      exact task_reachable.transition_state task _ (Nat.mod_lt _ (by decide)) h

/-- A callback invocation leads from reachable states to reachable states. -/
theorem task_reachable_invoke (cfg : Bool) (cbs : mr_task_callbacks)
    (trace : List mr_task_invocation) (task task2 : mr_task) (index : Nat)
    (invocation : mr_task_invocation) (h : task_reachable cfg task)
    (hr : mr_task_invoke cfg cbs trace task index = some (task2, invocation)) :
    task_reachable cfg task2 := by
  unfold mr_task_invoke at hr
  cases hg : task.table.get? index with
  | none => rw [hg] at hr; exact Option.noConfusion hr
  | some slot =>
    rw [hg] at hr
    simp only [] at hr
    cases hcb : slot.cb with
    | null => rw [hcb] at hr; exact Option.noConfusion hr
    | err_io_task_cb =>
      rw [hcb] at hr
      simp only [Option.some.injEq, Prod.mk.injEq] at hr
      rw [← hr.1]; exact h
    | user id =>
      rw [hcb] at hr
      simp only [Option.some.injEq, Prod.mk.injEq] at hr
      rw [← hr.1]
      exact task_reachable_calls cfg _ task h

/-- The dispatch loop leads from reachable states to reachable states. -/
theorem task_reachable_handle_loop (cfg : Bool) (cbs : mr_task_callbacks) (fuel : Nat) :
    ∀ (count : Nat) (index_and_label : List Nat) (task : mr_task)
      (trace : List mr_task_invocation) (task2 : mr_task) (trace2 : List mr_task_invocation),
      task_reachable cfg task →
      mr_task_handle_loop cfg cbs fuel count index_and_label task trace = some (task2, trace2) →
      task_reachable cfg task2 := by
  induction fuel with
  | zero =>
    intro count ial task trace task2 trace2 _ hr
    simp [mr_task_handle_loop] at hr
  | succ fuel ih =>
    intro count ial task trace task2 trace2 h hr
    unfold mr_task_handle_loop at hr
    split_ifs at hr with h0
    · simp only [Option.some.injEq, Prod.mk.injEq] at hr
      rw [← hr.1]; exact h
    · simp only [] at hr
      cases hinv : mr_task_invoke cfg cbs trace (mr_task_handle_fetch task ial).1
          (mr_task_handle_fetch task ial).2.2.1 with
      | none => rw [hinv] at hr; exact Option.noConfusion hr
      | some res =>
        obtain ⟨task1, invocation⟩ := res
        rw [hinv] at hr
        simp only [] at hr
        exact ih _ _ task1 _ task2 trace2
          (task_reachable_invoke cfg cbs trace _ task1 _ invocation
            (task_reachable.handle_fetch task ial h) hinv) hr

/-- `mr_task_handle` leads from reachable states to reachable states: the
step-wise description of the dispatch in `task_reachable` covers every run of
the function. -/
theorem task_reachable_handle (cfg : Bool) (cbs : mr_task_callbacks) (fuel : Nat)
    (task task2 : mr_task) (trace : List mr_task_invocation) (h : task_reachable cfg task)
    (hr : mr_task_handle cfg cbs fuel task = some (task2, trace)) :
    task_reachable cfg task2 := by
  unfold mr_task_handle at hr
  split_ifs at hr with ha
  · simp only [Option.some.injEq, Prod.mk.injEq] at hr
    rw [← hr.1]; exact h
  · simp only [] at hr
    cases hl : mr_task_handle_loop cfg cbs fuel (mr_rb_get_data_size task.queue) [0, 0] task []
      with
    | none => rw [hl] at hr; exact Option.noConfusion hr
    | some res =>
      obtain ⟨task1, trace1⟩ := res
      rw [hl] at hr
      simp only [] at hr
      have h1 := task_reachable_handle_loop cfg cbs fuel _ _ task [] task1 trace1 h hl
      split_ifs at hr with hsm
      · cases hinv : mr_task_invoke cfg cbs trace1 { task1 with event := MR_TASK_EVENT_SM }
            task1.sm with
        | none => rw [hinv] at hr; exact Option.noConfusion hr
        | some res2 =>
          obtain ⟨task3, invocation⟩ := res2
          rw [hinv] at hr
          simp only [Option.some.injEq, Prod.mk.injEq] at hr
          rw [← hr.1]
          exact task_reachable_invoke cfg cbs trace1 _ task3 _ invocation
            (task_reachable.handle_sm task1 h1) hinv
      · simp only [Option.some.injEq, Prod.mk.injEq] at hr
        rw [← hr.1]; exact h1

/-- The example task is reachable, under either setting of the usage switch. -/
theorem task_example_reachable (cfg : Bool) : task_reachable cfg task_example :=
  task_reachable.start _
    (task_reachable.add task_example_blank task_example_table 2 2 [0, 0, 0, 0]
      (by decide) (by decide) (by decide))

/-- Claim C8.  `mr_task_post_event` rejects bad calls without side effects: for
every task state, an index not below `table_size` gives the INVALID status
(`-MR_ERR_INVALID`), and otherwise a stopped task gives the not-active failure
(`-MR_ERR_GENERIC` in the code); in both cases the task that results is the
task given, so the event queue, the usage peak and every other field are
unchanged. -/
theorem C8_post_event_rejects (cfg : Bool) (task : mr_task) (index event : Nat) :
    (index ≥ task.table_size →
      mr_task_post_event cfg task index event = (task, mr_err_t.MR_ERR_INVALID)) ∧
    (index < task.table_size → task.active = false →
      mr_task_post_event cfg task index event = (task, mr_err_t.MR_ERR_GENERIC)) :=
  ⟨mr_task_post_event_invalid cfg task index event,
    mr_task_post_event_stopped cfg task index event⟩

/-- Witness of claim C8: index 2 on the two-slot example task, and index 1 on
the example task after `mr_task_stop`. -/
theorem C8_post_event_rejects_witness :
    2 ≥ task_example.table_size ∧
    mr_task_post_event true task_example 2 7 = (task_example, mr_err_t.MR_ERR_INVALID) ∧
    1 < (mr_task_stop task_example).1.table_size ∧
    (mr_task_stop task_example).1.active = false ∧
    mr_task_post_event true (mr_task_stop task_example).1 1 7
      = ((mr_task_stop task_example).1, mr_err_t.MR_ERR_GENERIC) :=
  ⟨by decide, (C8_post_event_rejects true task_example 2 7).1 (by decide), by decide, rfl,
    (C8_post_event_rejects true (mr_task_stop task_example).1 1 7).2 (by decide) rfl⟩

/-- Claim C9.  In every task state reachable from a successful add,
`mr_task_post_event` with a valid index on an active task returns BUSY exactly
when the queue cannot hold one more whole 2-byte record; in that case the whole
task, and with it the queue contents, is unchanged (no half record is written,
no queued record is touched); in the other case it returns OK. -/
theorem C9_post_event_busy (cfg : Bool) (task : mr_task) (index event : Nat)
    (h : task_reachable cfg task) (hi : index < task.table_size) (ha : task.active = true) :
    ((mr_task_post_event cfg task index event).2 = mr_err_t.MR_ERR_BUSY ↔
      mr_fifo_get_space_size task.queue < 2) ∧
    ((mr_task_post_event cfg task index event).2 = mr_err_t.MR_ERR_BUSY →
      (mr_task_post_event cfg task index event).1 = task ∧
      fifo_contents (mr_task_post_event cfg task index event).1.queue
        = fifo_contents task.queue) ∧
    ((mr_task_post_event cfg task index event).2 ≠ mr_err_t.MR_ERR_BUSY →
      (mr_task_post_event cfg task index event).2 = mr_err_t.MR_ERR_OK) := by
  have hinv := task_reachable_inv cfg task h
  rw [mr_task_post_event_active cfg task index event hi ha]
  rcases task_queue_write_record task.queue task.table_size
    (((index <<< 8) ||| event) % 65536) hinv.1 with ⟨hroom, hw, _⟩ | ⟨hfull, hw, hq⟩
  · rw [if_neg (by rw [hw]; exact fun hne => hne rfl)]
    have hne : mr_err_t.MR_ERR_OK ≠ mr_err_t.MR_ERR_BUSY := by decide
    refine ⟨⟨fun hb => ?_, fun hlt => ?_⟩, fun hb => ?_, fun _ => rfl⟩
    · exact absurd hb hne
    · omega
    · exact absurd hb hne
  · rw [if_pos (by rw [hw]; decide), hq]
    exact ⟨⟨fun _ => by omega, fun _ => rfl⟩, fun _ => ⟨rfl, rfl⟩, fun hne => absurd rfl hne⟩

/-- Witness of claim C9: the example task after two posts has a full queue,
and a third post is refused with BUSY. -/
theorem C9_post_event_busy_witness :
    task_reachable true
      (mr_task_post_event true (mr_task_post_event true task_example 1 7).1 0 200).1 ∧
    (mr_task_post_event true
      (mr_task_post_event true (mr_task_post_event true task_example 1 7).1 0 200).1 0 3).2
      = mr_err_t.MR_ERR_BUSY :=
  ⟨task_reachable.post_event _ 0 200 (by decide) (by decide)
      (task_reachable.post_event _ 1 7 (by decide) (by decide) (task_example_reachable true)),
    ((C9_post_event_busy true
      (mr_task_post_event true (mr_task_post_event true task_example 1 7).1 0 200).1 0 3
      (task_reachable.post_event _ 0 200 (by decide) (by decide)
        (task_reachable.post_event _ 1 7 (by decide) (by decide)
          (task_example_reachable true)))
      (by decide) (by decide)).1).mpr (by decide)⟩

/-- Claim C10.  Event record round trip: in every reachable task state, for
every slot index `i < table_size` and event code `e` in 0..255, on an active
task whose queue has room for a record, `mr_task_post_event` returns OK and
appends one 2-byte record to the queue; decoding that record as
`mr_task_handle` does (`value >> 8`, `value & 0xFF`) gives back `i` and `e`;
and the next `mr_task_handle`, whatever the callbacks do, returns (given fuel
for the queued records) and invokes, after one invocation for each record
queued before, the callback of slot `i` with `mr_task_get_event` equal to `e`. -/
theorem C10_event_record_round_trip (cfg : Bool) (task : mr_task) (index event : Nat)
    (h : task_reachable cfg task) (ha : task.active = true) (hi : index < task.table_size)
    (he : event < 256) (hroom : 2 ≤ mr_fifo_get_space_size task.queue) :
    (mr_task_post_event cfg task index event).2 = mr_err_t.MR_ERR_OK ∧
    fifo_contents (mr_task_post_event cfg task index event).1.queue
      = fifo_contents task.queue ++ u16_bytes (((index <<< 8) ||| event) % 65536) ∧
    (u16_of_bytes (u16_bytes (((index <<< 8) ||| event) % 65536)) >>> 8) % 256 = index ∧
    u16_of_bytes (u16_bytes (((index <<< 8) ||| event) % 65536)) &&& 0xFF = event ∧
    ∀ (cbs : mr_task_callbacks) (fuel : Nat),
      mr_fifo_get_data_size (mr_task_post_event cfg task index event).1.queue / 2 < fuel →
      ∃ (task2 : mr_task) (invocations : List mr_task_invocation),
        mr_task_handle cfg cbs fuel (mr_task_post_event cfg task index event).1
          = some (task2, invocations) ∧
        invocations[(fifo_contents task.queue).length / 2]?
          = some ⟨index, (task.table.getD index default).cb,
              (task.table.getD index default).args, event⟩ := by
  have hinv := task_reachable_inv cfg task h
  have hi2 : index < 256 := by have := hinv.2.1.2.1; omega
  have hbytes := u16_bytes_index_and_event index event hi2 he
  obtain ⟨d1, d2⟩ := u16_decode index event hi2 he
  have hinv2 := task_inv_post_event cfg task index event hinv he
  obtain ⟨f1, _, _, _, _, _, f7, _⟩ := mr_task_post_event_fields cfg task index event
  have hq : (mr_task_post_event cfg task index event).1.queue
      = (mr_rb_write task.queue (u16_bytes (((index <<< 8) ||| event) % 65536)) 2).1 := by
    rw [mr_task_post_event_active cfg task index event hi ha]
    split_ifs <;> rfl
  rcases task_queue_write_record task.queue task.table_size
    (((index <<< 8) ||| event) % 65536) hinv.1 with ⟨_, hw, hc⟩ | ⟨hfull, _, _⟩
  · have hcont : fifo_contents (mr_task_post_event cfg task index event).1.queue
        = fifo_contents task.queue ++ u16_bytes (((index <<< 8) ||| event) % 65536) := by
      rw [hq, hc]
    refine ⟨?_, hcont, by rw [hbytes]; exact d1, by rw [hbytes]; exact d2, ?_⟩
    · rw [mr_task_post_event_active cfg task index event hi ha,
        if_neg (by rw [hw]; exact fun hne => hne rfl)]
    · intro cbs fuel hf
      have hlen := fifo_contents_length task.queue hinv.1.1
      have heven := hinv.1.2.2.1
      obtain ⟨task2, invocations, r1, r2⟩ := mr_task_handle_reaches cfg cbs fuel
        ((fifo_contents task.queue).length / 2) (mr_task_post_event cfg task index event).1
        (fifo_contents task.queue) [] event index hinv2 (by rw [f1]; exact ha)
        (by rw [hcont, hbytes]) (by omega) hf
      rw [f7] at r2
      exact ⟨task2, invocations, r1, r2⟩
  · omega

/-- Witness of claim C10: on the example task with one record queued, posting
event 7 to slot 1 and dispatching invokes, second, slot 1 (whose callback is
the sentinel installed by `mr_task_add`) with event 7. -/
theorem C10_event_record_round_trip_witness :
    task_reachable true (mr_task_post_event true task_example 0 200).1 ∧
    ∃ (task2 : mr_task) (invocations : List mr_task_invocation),
      mr_task_handle true task_example_callbacks 3
          (mr_task_post_event true (mr_task_post_event true task_example 0 200).1 1 7).1
        = some (task2, invocations) ∧
      invocations[1]? = some ⟨1, mr_task_cb.err_io_task_cb, 11, 7⟩ :=
  ⟨task_reachable.post_event _ 0 200 (by decide) (by decide) (task_example_reachable true),
    (C10_event_record_round_trip true (mr_task_post_event true task_example 0 200).1 1 7
      (task_reachable.post_event _ 0 200 (by decide) (by decide) (task_example_reachable true))
      (by decide) (by decide) (by decide) (by decide)).2.2.2.2 task_example_callbacks 3
      (by decide)⟩

/-! ## Task scheduler: timing proofs -/

/-- The insertion loop puts the node after the longest initial stretch of nodes
whose timeout is not greater than the new one. -/
theorem mr_task_run_insert_eq (table : List mr_task_table) (index timeout : Nat)
    (run : List Nat) :
    mr_task_run_insert table index timeout run =
      run.takeWhile (fun node => decide (¬ timeout < (table.getD node default).timeout))
        ++ index :: run.dropWhile
            (fun node => decide (¬ timeout < (table.getD node default).timeout)) := by
  induction run with
  | nil => rfl
  | cons node rest ih =>
    unfold mr_task_run_insert
    by_cases h : timeout < (table.getD node default).timeout
    · rw [if_pos h, List.takeWhile_cons_of_neg (by simpa using h),
        List.dropWhile_cons_of_neg (by simpa using h)]
      rfl
    · rw [if_neg h, ih, List.takeWhile_cons_of_pos (by simpa using h),
        List.dropWhile_cons_of_pos (by simpa using h)]
      rfl

/-- The inserted run list is the old one with the node added in the middle. -/
theorem mr_task_run_insert_perm (table : List mr_task_table) (index timeout : Nat)
    (run : List Nat) :
    (mr_task_run_insert table index timeout run).Perm (index :: run) := by
  rw [mr_task_run_insert_eq]
  refine List.perm_middle.trans ?_
  rw [List.takeWhile_append_dropWhile]

/-- Removing the inserted node gives back the list it was inserted into. -/
theorem mr_task_run_insert_erase (table : List mr_task_table) (index timeout : Nat)
    (run : List Nat) (h : index ∉ run) :
    (mr_task_run_insert table index timeout run).erase index = run := by
  rw [mr_task_run_insert_eq]
  have hnot : index ∉ run.takeWhile
      (fun node => decide (¬ timeout < (table.getD node default).timeout)) :=
    fun hm => h ((List.takeWhile_sublist _).subset hm)
  rw [List.erase_append_right _ hnot, List.erase_cons_head, List.takeWhile_append_dropWhile]

/-- `mr_task_timing` with tick 0 on an active task and a valid index. -/
theorem mr_task_timing_disarm (task : mr_task) (index : Nat) (flag : mr_task_timing_flag)
    (hi : index < task.table_size) (ha : task.active = true) :
    mr_task_timing task index 0 flag
      = ({ task with run := task.run.erase index }, mr_err_t.MR_ERR_OK) := by
  unfold mr_task_timing
  rw [if_neg (by omega), if_neg (by rw [ha]; decide)]
  rfl

/-- `mr_task_timing` with a non-zero tick on an active task and a valid index. -/
theorem mr_task_timing_arm (task : mr_task) (index tick : Nat) (flag : mr_task_timing_flag)
    (hi : index < task.table_size) (ha : task.active = true) (ht : tick ≠ 0) :
    mr_task_timing task index tick flag
      = ({ task with
            table := task.table.set index
              { task.table.getD index default with
                interval :=
                  if flag = mr_task_timing_flag.MR_TASK_TIMING_FLAG_ONESHOT then 0 else tick
                timeout := (task.tick + tick) % 4294967296 }
            run := mr_task_run_insert
              (task.table.set index
                { task.table.getD index default with
                  interval :=
                    if flag = mr_task_timing_flag.MR_TASK_TIMING_FLAG_ONESHOT then 0 else tick
                  timeout := (task.tick + tick) % 4294967296 })
              index ((task.tick + tick) % 4294967296) (task.run.erase index) },
          mr_err_t.MR_ERR_OK) := by
  unfold mr_task_timing
  rw [if_neg (by omega), if_neg (by rw [ha]; decide)]
  simp only []
  rw [if_neg ht]

/-- The run list after `mr_task_timing`, in every case. -/
theorem mr_task_timing_run (task : mr_task) (index tick : Nat) (flag : mr_task_timing_flag) :
    (mr_task_timing task index tick flag).1.run = task.run ∨
    (index < task.table_size ∧
      (mr_task_timing task index tick flag).1.run = task.run.erase index) ∨
    (index < task.table_size ∧
      ∃ table timeout, (mr_task_timing task index tick flag).1.run
        = mr_task_run_insert table index timeout (task.run.erase index)) := by
  by_cases hi : index < task.table_size
  · by_cases ha : task.active = true
    · by_cases ht : tick = 0
      · subst ht
        rw [mr_task_timing_disarm task index flag hi ha]
        exact Or.inr (Or.inl ⟨hi, rfl⟩)
      · rw [mr_task_timing_arm task index tick flag hi ha ht]
        exact Or.inr (Or.inr ⟨hi, _, _, rfl⟩)
    · left
      unfold mr_task_timing
      rw [if_neg (by omega), if_pos (by simpa using ha)]
  · left
    unfold mr_task_timing
    rw [if_pos (by omega)]

/-- `mr_task_timing` keeps the run-list invariant. -/
theorem task_run_inv_timing (task : mr_task) (index tick : Nat) (flag : mr_task_timing_flag)
    (h : task_run_inv task) : task_run_inv (mr_task_timing task index tick flag).1 := by
  obtain ⟨hnd, hlt⟩ := h
  have hts := (mr_task_timing_fields task index tick flag).2.2.2.2.2.2.2.1
  unfold task_run_inv
  rw [hts]
  rcases mr_task_timing_run task index tick flag with e | ⟨_, e⟩ | ⟨hi, table, timeout, e⟩
  · rw [e]; exact ⟨hnd, hlt⟩
  · rw [e]
    exact ⟨hnd.erase index, fun node hm => hlt node (List.mem_of_mem_erase hm)⟩
  · rw [e]
    have hp := mr_task_run_insert_perm table index timeout (task.run.erase index)
    refine ⟨hp.nodup_iff.mpr (List.nodup_cons.mpr ⟨?_, hnd.erase index⟩), ?_⟩
    · exact fun hm => (List.Nodup.mem_erase_iff hnd).mp hm |>.1 rfl
    · intro node hm
      rcases List.mem_cons.mp (hp.mem_iff.mp hm) with rfl | hm2
      · exact hi
      · exact hlt node (List.mem_of_mem_erase hm2)

/-- `mr_task_post_event` keeps the run-list invariant. -/
theorem task_run_inv_post_event (cfg : Bool) (task : mr_task) (index event : Nat)
    (h : task_run_inv task) : task_run_inv (mr_task_post_event cfg task index event).1 := by
  obtain ⟨_, _, _, _, _, f6, _, f8⟩ := mr_task_post_event_fields cfg task index event
  unfold task_run_inv
  rw [f6, f8]
  exact h

/-- The fields `mr_task_transition_state` does not change besides those of
`mr_task_transition_state_fields`. -/
theorem mr_task_transition_state_run (cfg : Bool) (task : mr_task) (index : Nat) :
    (mr_task_transition_state cfg task index).1.run = task.run ∧
    (mr_task_transition_state cfg task index).1.tick = task.tick ∧
    (mr_task_transition_state cfg task index).1.event = task.event := by
  unfold mr_task_transition_state
  by_cases h1 : index ≥ task.table_size
  · rw [if_pos h1]
    exact ⟨rfl, rfl, rfl⟩
  rw [if_neg h1]
  by_cases h2 : task.active = false
  · rw [if_pos h2]
    exact ⟨rfl, rfl, rfl⟩
  rw [if_neg h2]
  simp only []
  by_cases h3 : task.sm_active = true
  · rw [if_pos h3]
    obtain ⟨_, _, _, a4, a5, a6, _, _⟩ := mr_task_post_event_fields cfg
      { (mr_task_post_event cfg task task.sm MR_TASK_EVENT_SM_EXIT).1 with sm := index }
      index MR_TASK_EVENT_SM_ENTER
    obtain ⟨_, _, _, b4, b5, b6, _, _⟩ := mr_task_post_event_fields cfg task task.sm
      MR_TASK_EVENT_SM_EXIT
    simp only [] at a4 a5 a6
    exact ⟨a6.trans b6, a5.trans b5, a4.trans b4⟩
  · rw [if_neg h3]
    obtain ⟨_, _, _, a4, a5, a6, _, _⟩ := mr_task_post_event_fields cfg
      { task with sm := index } index MR_TASK_EVENT_SM_ENTER
    exact ⟨a6, a5, a4⟩

/-- The scan loop of `mr_task_update_tick` keeps the run-list invariant. -/
theorem task_run_inv_update_tick_loop (cfg : Bool) (curr_tick fuel : Nat)
    (task task2 : mr_task) (h : task_run_inv task)
    (hr : mr_task_update_tick_loop cfg curr_tick fuel task = some task2) :
    task_run_inv task2 := by
  induction fuel generalizing task with
  | zero => simp [mr_task_update_tick_loop] at hr
  | succ fuel ih =>
    unfold mr_task_update_tick_loop at hr
    cases hrun : task.run with
    | nil =>
      rw [hrun] at hr
      simp only [Option.some.injEq] at hr
      rw [← hr]; exact h
    | cons node rest =>
      rw [hrun] at hr
      simp only [] at hr
      split_ifs at hr with hdue
      · simp only [Option.some.injEq] at hr
        rw [← hr]; exact h
      · refine ih _ ?_ hr
        apply task_run_inv_timing
        apply task_run_inv_post_event
        obtain ⟨hnd, hlt⟩ := h
        rw [hrun] at hnd hlt
        exact ⟨(List.nodup_cons.mp hnd).2, fun n hn => hlt n (List.mem_cons_of_mem _ hn)⟩

/-- Every reachable task state satisfies the run-list invariant. -/
theorem task_reachable_run_inv (cfg : Bool) (task : mr_task) (h : task_reachable cfg task) :
    task_run_inv task := by
  induction h with
  | add task table table_size queue_size pool hsize htable hpool =>
    exact ⟨List.nodup_nil, fun node hn => absurd hn (List.not_mem_nil node)⟩
  | start task _ ih => exact ih
  | stop task _ ih => exact ih
  | post_event task index event _ _ _ ih => exact task_run_inv_post_event cfg task index event ih
  | timing task index tick flag _ _ _ ih => exact task_run_inv_timing task index tick flag ih
  | update_tick task fuel tick task2 _ _ hr ih =>
    unfold mr_task_update_tick at hr
    split_ifs at hr with ha
    · simp only [Option.some.injEq] at hr
      rw [← hr]; exact ih
    · exact task_run_inv_update_tick_loop cfg _ fuel
        { task with tick := (task.tick + tick) % 4294967296 } task2 ih hr
  | transition_state task index _ _ ih =>
    obtain ⟨_, _, f3⟩ := mr_task_transition_state_fields cfg task index
    obtain ⟨r1, _, _⟩ := mr_task_transition_state_run cfg task index
    unfold task_run_inv
    rw [r1, f3]
    exact ih
  | handle_fetch task index_and_label _ ih => exact ih
  | handle_sm task _ ih => exact ih

theorem table_getD_set_self (table : List mr_task_table) (index : Nat) (slot : mr_task_table)
    (h : index < table.length) : (table.set index slot).getD index default = slot := by
  rw [List.getD_eq_getElem?_getD, List.getElem?_set_self h]
  rfl

theorem table_getD_set_ne (table : List mr_task_table) (index node : Nat)
    (slot : mr_task_table) (h : index ≠ node) :
    (table.set index slot).getD node default = table.getD node default := by
  rw [List.getD_eq_getElem?_getD, List.getD_eq_getElem?_getD, List.getElem?_set_ne h]

/-- On a list sorted by `f`, the initial stretch of elements with `f` at most a
bound is all of them, and the rest is all the elements above the bound. -/
theorem takeWhile_dropWhile_of_sorted (f : Nat → Nat) (bound : Nat) (l : List Nat)
    (h : l.Pairwise (fun a b => f a ≤ f b)) :
    l.takeWhile (fun n => decide (¬ bound < f n)) = l.filter (fun n => decide (¬ bound < f n)) ∧
    l.dropWhile (fun n => decide (¬ bound < f n)) = l.filter (fun n => decide (bound < f n)) := by
  induction l with
  | nil => exact ⟨rfl, rfl⟩
  | cons a l ih =>
    obtain ⟨ha, hl⟩ := List.pairwise_cons.mp h
    obtain ⟨ih1, ih2⟩ := ih hl
    by_cases hgt : bound < f a
    · have hall : ∀ b ∈ l, bound < f b := fun b hb => Nat.lt_of_lt_of_le hgt (ha b hb)
      have e1 : l.filter (fun n => decide (¬ bound < f n)) = [] := by
        rw [List.filter_eq_nil_iff]
        intro b hb
        simpa using hall b hb
      have e2 : l.filter (fun n => decide (bound < f n)) = l := by
        rw [List.filter_eq_self]
        intro b hb
        simpa using hall b hb
      simp only [List.takeWhile_cons, List.dropWhile_cons, List.filter_cons, hgt,
        not_true_eq_false, decide_False, decide_True, if_true, if_false, e1, e2,
        Bool.false_eq_true, and_self]
    · simp only [List.takeWhile_cons, List.dropWhile_cons, List.filter_cons, hgt,
        not_false_eq_true, decide_False, decide_True, if_true, if_false, ih1, ih2,
        Bool.false_eq_true, and_self]

/-- The insertion loop only looks at the timeouts of the nodes of the list. -/
theorem mr_task_run_insert_congr (table table2 : List mr_task_table) (index timeout : Nat)
    (run : List Nat)
    (h : ∀ node ∈ run, (table2.getD node default).timeout = (table.getD node default).timeout) :
    mr_task_run_insert table2 index timeout run = mr_task_run_insert table index timeout run := by
  induction run with
  | nil => rfl
  | cons node rest ih =>
    unfold mr_task_run_insert
    rw [h node (List.mem_cons_self _ _), ih (fun n hn => h n (List.mem_cons_of_mem _ hn))]

/-- Arming on a task with well-formed table and run list: the run list is the
old one without the slot, with the slot inserted by deadline order, computed
from the deadlines the other slots already had. -/
theorem mr_task_timing_arm_run (task : mr_task) (index tick : Nat) (flag : mr_task_timing_flag)
    (hrun : task_run_inv task) (hi : index < task.table_size) (ha : task.active = true)
    (ht : tick ≠ 0) :
    (mr_task_timing task index tick flag).1.run
      = mr_task_run_insert task.table index ((task.tick + tick) % 4294967296)
          (task.run.erase index) := by
  rw [mr_task_timing_arm task index tick flag hi ha ht]
  simp only []
  apply mr_task_run_insert_congr
  intro node hn
  have hne : index ≠ node := fun e => hrun.1.not_mem_erase (e ▸ hn)
  rw [table_getD_set_ne _ _ _ _ hne]

/-- Arming on a task whose run list is in ascending deadline order: the new
node comes after every existing node with a deadline of at most the new one. -/
theorem mr_task_timing_arm_sorted_run (task : mr_task) (index tick : Nat)
    (flag : mr_task_timing_flag) (hrun : task_run_inv task) (hs : task_run_sorted task)
    (hi : index < task.table_size) (ha : task.active = true) (ht : tick ≠ 0) :
    (mr_task_timing task index tick flag).1.run
      = (task.run.erase index).filter
          (fun node => decide (¬ (task.tick + tick) % 4294967296
            < task_deadline task.table node))
        ++ index :: (task.run.erase index).filter
          (fun node => decide ((task.tick + tick) % 4294967296
            < task_deadline task.table node)) := by
  have hsl : (task.run.erase index).Pairwise
      (fun a b => task_deadline task.table a ≤ task_deadline task.table b) :=
    List.Pairwise.sublist (List.erase_sublist index task.run) hs
  obtain ⟨e1, e2⟩ := takeWhile_dropWhile_of_sorted (task_deadline task.table)
    ((task.tick + tick) % 4294967296) (task.run.erase index) hsl
  rw [mr_task_timing_arm_run task index tick flag hrun hi ha ht, mr_task_run_insert_eq]
  exact congrArg₂ (fun a b => a ++ index :: b) e1 e2

/-- `mr_task_timing` keeps the run list in ascending deadline order. -/
theorem task_run_sorted_timing (task : mr_task) (index tick : Nat) (flag : mr_task_timing_flag)
    (hinv : task_inv task) (hrun : task_run_inv task) (hs : task_run_sorted task) :
    task_run_sorted (mr_task_timing task index tick flag).1 := by
  by_cases hi : index < task.table_size
  swap
  · unfold mr_task_timing
    rw [if_pos (by omega)]
    exact hs
  by_cases ha : task.active = true
  swap
  · unfold mr_task_timing
    rw [if_neg (by omega), if_pos (by simpa using ha)]
    exact hs
  have hsl : (task.run.erase index).Pairwise
      (fun a b => task_deadline task.table a ≤ task_deadline task.table b) :=
    List.Pairwise.sublist (List.erase_sublist index task.run) hs
  by_cases ht : tick = 0
  · subst ht
    rw [mr_task_timing_disarm task index flag hi ha]
    exact hsl
  have hlen : index < task.table.length := by have := hinv.2.1.2.2.1; omega
  have hr := mr_task_timing_arm_sorted_run task index tick flag hrun hs hi ha ht
  have hnot : index ∉ task.run.erase index := hrun.1.not_mem_erase
  unfold task_run_sorted
  rw [hr]
  have htab : (mr_task_timing task index tick flag).1.table
      = task.table.set index
          { task.table.getD index default with
            interval :=
              if flag = mr_task_timing_flag.MR_TASK_TIMING_FLAG_ONESHOT then 0 else tick
            timeout := (task.tick + tick) % 4294967296 } := by
    rw [mr_task_timing_arm task index tick flag hi ha ht]
  have hself : task_deadline (mr_task_timing task index tick flag).1.table index
      = (task.tick + tick) % 4294967296 := by
    unfold task_deadline
    rw [htab, table_getD_set_self _ _ _ hlen]
  have hother : ∀ node ∈ task.run.erase index,
      task_deadline (mr_task_timing task index tick flag).1.table node
        = task_deadline task.table node := by
    intro node hn
    unfold task_deadline
    have hne : index ≠ node := by
      intro e
      subst e
      exact hnot hn
    rw [htab, table_getD_set_ne _ _ _ _ hne]
  generalize (mr_task_timing task index tick flag).1.table = table2 at hself hother
  generalize (task.tick + tick) % 4294967296 = D at hself hother hr
  have hmemL : ∀ a ∈ (task.run.erase index).filter
      (fun node => decide (¬ D < task_deadline task.table node)),
      a ∈ task.run.erase index ∧ task_deadline task.table a ≤ D := by
    intro a hm
    have := List.mem_filter.mp hm
    exact ⟨this.1, by simpa using this.2⟩
  have hmemR : ∀ b ∈ (task.run.erase index).filter
      (fun node => decide (D < task_deadline task.table node)),
      b ∈ task.run.erase index ∧ D < task_deadline task.table b := by
    intro b hm
    have := List.mem_filter.mp hm
    exact ⟨this.1, by simpa using this.2⟩
  rw [List.pairwise_append]
  refine ⟨?_, ?_, ?_⟩
  · refine List.Pairwise.imp_of_mem ?_ (List.Pairwise.sublist (List.filter_sublist _) hsl)
    intro a b ha hb hab
    rw [hother a (hmemL a ha).1, hother b (hmemL b hb).1]
    exact hab
  · rw [List.pairwise_cons]
    constructor
    · intro b hb
      rw [hself, hother b (hmemR b hb).1]
      exact Nat.le_of_lt (hmemR b hb).2
    · refine List.Pairwise.imp_of_mem ?_ (List.Pairwise.sublist (List.filter_sublist _) hsl)
      intro a b ha hb hab
      rw [hother a (hmemR a ha).1, hother b (hmemR b hb).1]
      exact hab
  · intro a ha b hb
    rcases List.mem_cons.mp hb with rfl | hb2
    · rw [hself, hother a (hmemL a ha).1]
      exact (hmemL a ha).2
    · rw [hother a (hmemL a ha).1, hother b (hmemR b hb2).1]
      exact Nat.le_trans (hmemL a ha).2 (Nat.le_of_lt (hmemR b hb2).2)

/-- The scan loop of `mr_task_update_tick` keeps the run list in ascending
deadline order. -/
theorem task_run_sorted_update_tick_loop (cfg : Bool) (curr_tick fuel : Nat)
    (task task2 : mr_task) (hinv : task_inv task) (hrun : task_run_inv task)
    (hs : task_run_sorted task)
    (hr : mr_task_update_tick_loop cfg curr_tick fuel task = some task2) :
    task_run_sorted task2 := by
  induction fuel generalizing task with
  | zero => simp [mr_task_update_tick_loop] at hr
  | succ fuel ih =>
    unfold mr_task_update_tick_loop at hr
    cases hrn : task.run with
    | nil =>
      rw [hrn] at hr
      simp only [Option.some.injEq] at hr
      rw [← hr]; exact hs
    | cons node rest =>
      rw [hrn] at hr
      simp only [] at hr
      split_ifs at hr with hdue
      · simp only [Option.some.injEq] at hr
        rw [← hr]; exact hs
      · have hinv1 : task_inv { task with run := rest } := ⟨hinv.1, hinv.2.1, hinv.2.2⟩
        have hrun1 : task_run_inv { task with run := rest } := by
          obtain ⟨hnd, hlt⟩ := hrun
          rw [hrn] at hnd hlt
          exact ⟨(List.nodup_cons.mp hnd).2, fun n hn => hlt n (List.mem_cons_of_mem _ hn)⟩
        have hs1 : task_run_sorted { task with run := rest } := by
          unfold task_run_sorted at hs ⊢
          rw [hrn] at hs
          exact (List.pairwise_cons.mp hs).2
        obtain ⟨_, _, _, _, _, f6, f7, _⟩ := mr_task_post_event_fields cfg
          { task with run := rest } (node % 256) MR_TASK_EVENT_TIMING
        have hs2 : task_run_sorted (mr_task_post_event cfg { task with run := rest }
            (node % 256) MR_TASK_EVENT_TIMING).1 := by
          unfold task_run_sorted
          rw [f6, f7]
          exact hs1
        refine ih _ ?_ ?_ ?_ hr
        · exact task_inv_timing _ _ _ _ (task_inv_post_event cfg _ _ _ hinv1 (by decide))
        · exact task_run_inv_timing _ _ _ _ (task_run_inv_post_event cfg _ _ _ hrun1)
        · exact task_run_sorted_timing _ _ _ _
            (task_inv_post_event cfg _ _ _ hinv1 (by decide))
            (task_run_inv_post_event cfg _ _ _ hrun1) hs2

/-- In every reachable task state the run list is in ascending order of the
stored deadlines, compared as unsigned values. -/
theorem task_reachable_run_sorted (cfg : Bool) (task : mr_task) (h : task_reachable cfg task) :
    task_run_sorted task := by
  induction h with
  | add task table table_size queue_size pool hsize htable hpool => exact List.Pairwise.nil
  | start task _ ih => exact ih
  | stop task _ ih => exact ih
  | post_event task index event _ _ _ ih =>
    obtain ⟨_, _, _, _, _, f6, f7, _⟩ := mr_task_post_event_fields cfg task index event
    unfold task_run_sorted
    rw [f6, f7]
    exact ih
  | timing task index tick flag _ _ hreach ih =>
    exact task_run_sorted_timing task index tick flag (task_reachable_inv cfg task hreach)
      (task_reachable_run_inv cfg task hreach) ih
  | update_tick task fuel tick task2 _ hreach hr ih =>
    unfold mr_task_update_tick at hr
    split_ifs at hr with ha
    · simp only [Option.some.injEq] at hr
      rw [← hr]; exact ih
    · have hinv := task_reachable_inv cfg task hreach
      exact task_run_sorted_update_tick_loop cfg _ fuel
        { task with tick := (task.tick + tick) % 4294967296 } task2
        ⟨hinv.1, hinv.2.1, hinv.2.2⟩ (task_reachable_run_inv cfg task hreach) ih hr
  | transition_state task index _ _ ih =>
    obtain ⟨_, f2, _⟩ := mr_task_transition_state_fields cfg task index
    obtain ⟨r1, _, _⟩ := mr_task_transition_state_run cfg task index
    unfold task_run_sorted
    rw [r1, f2]
    exact ih
  | handle_fetch task index_and_label _ ih => exact ih
  | handle_sm task _ ih => exact ih

/-- The armed example task is reachable. -/
theorem task_example_armed_reachable (cfg : Bool) : task_reachable cfg task_example_armed :=
  task_reachable.timing _ 0 7 _ (by decide) (by decide) (task_example_reachable cfg)

/-- Claim C16.  Arming: in every reachable task state, for an active task, a
valid slot index `i`, a delay `d ≠ 0` and either mode, `mr_task_timing` returns
OK; afterwards slot `i` is in the run list exactly once, the entries of the
other slots and their order are as before (a previous entry of slot `i` is
replaced), the timeout of slot `i` is `(tick + d) mod 2^32`, its interval is
`d` for PERIODIC and 0 for ONESHOT, and the timing fields of the other slots
are untouched. -/
theorem C16_timing_arms (cfg : Bool) (task : mr_task) (index tick : Nat)
    (flag : mr_task_timing_flag) (h : task_reachable cfg task) (ha : task.active = true)
    (hi : index < task.table_size) (ht : tick ≠ 0) :
    (mr_task_timing task index tick flag).2 = mr_err_t.MR_ERR_OK ∧
    (mr_task_timing task index tick flag).1.run.count index = 1 ∧
    (mr_task_timing task index tick flag).1.run.filter (fun node => node != index)
      = task.run.filter (fun node => node != index) ∧
    ((mr_task_timing task index tick flag).1.table.getD index default).timeout
      = (task.tick + tick) % 4294967296 ∧
    ((mr_task_timing task index tick flag).1.table.getD index default).interval
      = (if flag = mr_task_timing_flag.MR_TASK_TIMING_FLAG_PERIODIC then tick else 0) ∧
    (∀ node : Nat, node ≠ index →
      (mr_task_timing task index tick flag).1.table.getD node default
        = task.table.getD node default) := by
  have hinv := task_reachable_inv cfg task h
  have hrun := task_reachable_run_inv cfg task h
  have hlen : index < task.table.length := by have := hinv.2.1.2.2.1; omega
  have hr := mr_task_timing_arm_run task index tick flag hrun hi ha ht
  have hnot : index ∉ task.run.erase index := hrun.1.not_mem_erase
  have hperm := mr_task_run_insert_perm task.table index ((task.tick + tick) % 4294967296)
    (task.run.erase index)
  have hnd : (mr_task_timing task index tick flag).1.run.Nodup := by
    rw [hr]
    exact hperm.nodup_iff.mpr (List.nodup_cons.mpr ⟨hnot, hrun.1.erase index⟩)
  have herase : (mr_task_timing task index tick flag).1.run.erase index
      = task.run.erase index := by
    rw [hr]
    exact mr_task_run_insert_erase _ _ _ _ hnot
  refine ⟨?_, ?_, ?_, ?_, ?_, ?_⟩
  · rw [mr_task_timing_arm task index tick flag hi ha ht]
  · rw [hr, hperm.count_eq, List.count_cons_self, List.count_eq_zero_of_not_mem hnot]
  · rw [← hnd.erase_eq_filter, ← hrun.1.erase_eq_filter, herase]
  · rw [mr_task_timing_arm task index tick flag hi ha ht]
    simp only []
    rw [table_getD_set_self _ _ _ hlen]
  · rw [mr_task_timing_arm task index tick flag hi ha ht]
    simp only []
    rw [table_getD_set_self _ _ _ hlen]
    cases flag <;> simp
  · intro node hne
    rw [mr_task_timing_arm task index tick flag hi ha ht]
    simp only []
    rw [table_getD_set_ne _ _ _ _ (fun e => hne e.symm)]

/-- Witness of claim C16: on the example task with slot 0 armed, arming slot 1
five ticks ahead as a one-shot timer. -/
theorem C16_timing_arms_witness :
    task_reachable true task_example_armed ∧
    (mr_task_timing task_example_armed 1 5
      mr_task_timing_flag.MR_TASK_TIMING_FLAG_ONESHOT).1.run.count 1 = 1 ∧
    (mr_task_timing task_example_armed 1 5
      mr_task_timing_flag.MR_TASK_TIMING_FLAG_ONESHOT).1.run = [1, 0] :=
  ⟨task_example_armed_reachable true,
    (C16_timing_arms true task_example_armed 1 5 mr_task_timing_flag.MR_TASK_TIMING_FLAG_ONESHOT
      (task_example_armed_reachable true) (by decide) (by decide) (by decide)).2.1,
    by decide⟩

/-- The insertion point of `mr_task_timing` in the order of the stored
timeouts as plain unsigned numbers, the comparison of task.c line 417.  When a
slot is armed with the timeout `D` (on a reachable, active task, with a valid
index and a non-zero delay), the node is linked in immediately before the
first node of the existing run list whose stored timeout is greater than `D`
as an unsigned number, and at the tail when there is none; the existing
entries keep their order; and, the run list of a reachable state being in
ascending order of the stored timeouts, the new node comes after all existing
entries with a stored timeout of at most `D` and before all others. -/
theorem mr_task_timing_insertion_raw (cfg : Bool) (task : mr_task) (index tick : Nat)
    (flag : mr_task_timing_flag) (h : task_reachable cfg task) (ha : task.active = true)
    (hi : index < task.table_size) (ht : tick ≠ 0) :
    (mr_task_timing task index tick flag).1.run
      = (task.run.erase index).takeWhile
          (fun node => decide (¬ (task.tick + tick) % 4294967296
            < task_deadline task.table node))
        ++ index :: (task.run.erase index).dropWhile
          (fun node => decide (¬ (task.tick + tick) % 4294967296
            < task_deadline task.table node)) ∧
    (∀ node ∈ (task.run.erase index).takeWhile
        (fun node => decide (¬ (task.tick + tick) % 4294967296
          < task_deadline task.table node)),
      task_deadline task.table node ≤ (task.tick + tick) % 4294967296) ∧
    (∀ node : Nat, ((task.run.erase index).dropWhile
        (fun node => decide (¬ (task.tick + tick) % 4294967296
          < task_deadline task.table node))).head? = some node →
      (task.tick + tick) % 4294967296 < task_deadline task.table node) ∧
    ((∀ node ∈ task.run.erase index,
        task_deadline task.table node ≤ (task.tick + tick) % 4294967296) →
      (mr_task_timing task index tick flag).1.run = task.run.erase index ++ [index]) ∧
    (mr_task_timing task index tick flag).1.run.erase index = task.run.erase index ∧
    (mr_task_timing task index tick flag).1.run
      = (task.run.erase index).filter
          (fun node => decide (¬ (task.tick + tick) % 4294967296
            < task_deadline task.table node))
        ++ index :: (task.run.erase index).filter
          (fun node => decide ((task.tick + tick) % 4294967296
            < task_deadline task.table node)) := by
  have hrun := task_reachable_run_inv cfg task h
  have hr := mr_task_timing_arm_run task index tick flag hrun hi ha ht
  have hnot : index ∉ task.run.erase index := hrun.1.not_mem_erase
  have heq := mr_task_run_insert_eq task.table index ((task.tick + tick) % 4294967296)
    (task.run.erase index)
  have hmain : (mr_task_timing task index tick flag).1.run
      = (task.run.erase index).takeWhile
          (fun node => decide (¬ (task.tick + tick) % 4294967296
            < task_deadline task.table node))
        ++ index :: (task.run.erase index).dropWhile
          (fun node => decide (¬ (task.tick + tick) % 4294967296
            < task_deadline task.table node)) := by
    rw [hr, heq]
    rfl
  refine ⟨hmain, ?_, ?_, ?_, ?_, ?_⟩
  · intro node hn
    have := List.mem_takeWhile_imp hn
    simp only [decide_eq_true_eq, not_lt] at this
    exact this
  · intro node hn
    have := List.head?_dropWhile_not
      (fun node => decide (¬ (task.tick + tick) % 4294967296 < task_deadline task.table node))
      (task.run.erase index)
    rw [hn] at this
    simpa using this
  · intro hall
    rw [hmain]
    have e1 : (task.run.erase index).takeWhile
        (fun node => decide (¬ (task.tick + tick) % 4294967296
          < task_deadline task.table node)) = task.run.erase index := by
      rw [List.takeWhile_eq_self_iff]
      intro node hn
      simpa using hall node hn
    have e2 : (task.run.erase index).dropWhile
        (fun node => decide (¬ (task.tick + tick) % 4294967296
          < task_deadline task.table node)) = [] := by
      rw [List.dropWhile_eq_nil_iff]
      intro node hn
      simpa using hall node hn
    rw [e1, e2]
  · rw [hr]
    exact mr_task_run_insert_erase _ _ _ _ hnot
  · exact mr_task_timing_arm_sorted_run task index tick flag hrun
      (task_reachable_run_sorted cfg task h) hi ha ht

/-- Claim C19.  Disarm is idempotent: in every reachable task state, for an
active task and a valid slot `i`, `mr_task_timing(i, 0, mode)` returns OK and
changes nothing but the run list, from which slot `i` is removed while all
other entries keep their order; it changes nothing at all when the slot was
already detached; and a second call leaves the state reached by the first. -/
theorem C19_timing_disarm (cfg : Bool) (task : mr_task) (index : Nat)
    (flag flag2 : mr_task_timing_flag) (h : task_reachable cfg task)
    (ha : task.active = true) (hi : index < task.table_size) :
    mr_task_timing task index 0 flag
      = ({ task with run := task.run.filter (fun node => node != index) },
          mr_err_t.MR_ERR_OK) ∧
    index ∉ (mr_task_timing task index 0 flag).1.run ∧
    (index ∉ task.run → (mr_task_timing task index 0 flag).1 = task) ∧
    mr_task_timing (mr_task_timing task index 0 flag).1 index 0 flag2
      = ((mr_task_timing task index 0 flag).1, mr_err_t.MR_ERR_OK) := by
  have hrun := task_reachable_run_inv cfg task h
  have hd := mr_task_timing_disarm task index flag hi ha
  have hnot : index ∉ task.run.erase index := hrun.1.not_mem_erase
  refine ⟨by rw [hd, hrun.1.erase_eq_filter], by rw [hd]; exact hnot, ?_, ?_⟩
  · intro hn
    rw [hd, List.erase_of_not_mem hn]
  · rw [hd]
    simp only []
    rw [mr_task_timing_disarm { task with run := task.run.erase index } index flag2 hi ha]
    simp only []
    rw [List.erase_of_not_mem hnot]

/-- Witness of claim C19: disarming slot 0 of the armed example task empties
the run list, and disarming it again changes nothing. -/
theorem C19_timing_disarm_witness :
    task_reachable true task_example_armed ∧
    (mr_task_timing task_example_armed 0 0
      mr_task_timing_flag.MR_TASK_TIMING_FLAG_ONESHOT).1.run = [] ∧
    mr_task_timing (mr_task_timing task_example_armed 0 0
        mr_task_timing_flag.MR_TASK_TIMING_FLAG_ONESHOT).1 0 0
        mr_task_timing_flag.MR_TASK_TIMING_FLAG_PERIODIC
      = ((mr_task_timing task_example_armed 0 0
          mr_task_timing_flag.MR_TASK_TIMING_FLAG_ONESHOT).1, mr_err_t.MR_ERR_OK) :=
  ⟨task_example_armed_reachable true, by decide,
    (C19_timing_disarm true task_example_armed 0 mr_task_timing_flag.MR_TASK_TIMING_FLAG_ONESHOT
      mr_task_timing_flag.MR_TASK_TIMING_FLAG_PERIODIC (task_example_armed_reachable true)
      (by decide) (by decide)).2.2.2⟩

/-! ## Task scheduler: the dispatch loop and the snapshot -/

/-- The records of queue bytes that start with the bytes `a, b`. -/
theorem task_queue_records_cons (a b : Nat) (rest : List Nat) (ha : a < 256) (hb : b < 256) :
    task_queue_records (a :: b :: rest) = (b, a) :: task_queue_records rest := by
  obtain ⟨d1, d2⟩ := u16_decode b a hb ha
  rw [task_queue_records, d1, d2]

/-- The number of records of an even number of queue bytes. -/
theorem task_queue_records_length (n : Nat) :
    ∀ bytes : List Nat, bytes.length = 2 * n → (task_queue_records bytes).length = n := by
  induction n with
  | zero =>
    intro bytes hl
    have : bytes = [] := List.eq_nil_of_length_eq_zero hl
    subst this
    rfl
  | succ n ih =>
    intro bytes hl
    match bytes, hl with
    | [], hl => simp only [List.length_nil] at hl; omega
    | [_], hl => simp only [List.length_singleton] at hl; omega
    | a :: b :: rest, hl =>
      simp only [List.length_cons] at hl
      rw [task_queue_records, List.length_cons, ih rest (by omega)]

/-- Fetching from a queue whose unread contents start with the bytes `a, b`:
the whole result. -/
theorem mr_task_handle_fetch_eq (task : mr_task) (index_and_label : List Nat)
    (a b : Nat) (rest : List Nat) (h : task_inv task)
    (hc : fifo_contents task.queue = a :: b :: rest) :
    mr_task_handle_fetch task index_and_label
      = ({ task with queue := (mr_rb_read task.queue 2).1, event := a },
          a :: b :: index_and_label.drop 2, b, 2) := by
  obtain ⟨hq, ht, _⟩ := h
  obtain ⟨_, _, r3, r4, r5⟩ := task_queue_inv_read task.queue task.table_size hq
  obtain ⟨hwf, _, _, hrec, hbyte⟩ := hq
  have hlen := fifo_contents_length task.queue hwf
  rw [hc] at hlen
  simp only [List.length_cons] at hlen
  have e2 : (mr_rb_read task.queue 2).2.2 = 2 := by rw [r3]; omega
  rw [e2, hc] at r4 r5
  have hb : b < task.table_size := by
    have := hrec 0 (by rw [hc]; simp only [List.length_cons]; omega)
    rw [hc] at this
    exact this
  have ha : a < 256 := hbyte a (by rw [hc]; exact List.mem_cons_self _ _)
  have hb2 : b < 256 := by have := ht.2.1; omega
  have hial : (mr_rb_read task.queue 2).2.1
      ++ index_and_label.drop (mr_rb_read task.queue 2).2.1.length
      = a :: b :: index_and_label.drop 2 := by
    rw [r4]; rfl
  have hv : u16_of_bytes (a :: b :: index_and_label.drop 2) = u16_of_bytes [a, b] := by
    simp [u16_of_bytes]
  obtain ⟨d1, d2⟩ := u16_decode b a hb2 ha
  unfold mr_task_handle_fetch
  simp only [hial, hv, d1, d2, e2]

/-- The bytes appended between a state and one whose contents extend it. -/
theorem task_queue_appended_eq (task task2 : mr_task) (ext : List Nat)
    (h : fifo_contents task2.queue = fifo_contents task.queue ++ ext) :
    task_queue_appended task task2 = ext := by
  unfold task_queue_appended
  rw [h, List.drop_left]

/-- One iteration of the dispatch loop on a queue whose contents start with the
record `a, b`, with the callback invocation left explicit. -/
theorem mr_task_handle_loop_unfold (cfg : Bool) (cbs : mr_task_callbacks) (fuel count : Nat)
    (index_and_label : List Nat) (task : mr_task) (trace : List mr_task_invocation)
    (a b : Nat) (rest : List Nat) (h : task_inv task) (hcount : 2 ≤ count)
    (hc : fifo_contents task.queue = a :: b :: rest) :
    mr_task_handle_loop cfg cbs (fuel + 1) count index_and_label task trace
      = (mr_task_invoke cfg cbs trace
          { task with queue := (mr_rb_read task.queue 2).1, event := a } b).bind
          (fun r => mr_task_handle_loop cfg cbs fuel (count - 2)
            (a :: b :: index_and_label.drop 2) r.1 (trace ++ [r.2])) := by
  have h0 : ¬ count = 0 := by omega
  rw [mr_task_handle_loop, if_neg h0, mr_task_handle_fetch_eq task index_and_label a b rest h hc]
  simp only [if_pos hcount]
  generalize mr_task_invoke cfg cbs trace
    { task with queue := (mr_rb_read task.queue 2).1, event := a } b = r
  cases r <;> rfl

/-- The state in which the callback of a fetched record runs. -/
theorem task_fetched_spec (task : mr_task) (a b : Nat) (rest : List Nat) (h : task_inv task)
    (hc : fifo_contents task.queue = a :: b :: rest) :
    task_inv { task with queue := (mr_rb_read task.queue 2).1, event := a } ∧
    b < task.table_size ∧ a < 256 ∧ b < 256 ∧
    fifo_contents (mr_rb_read task.queue 2).1 = rest := by
  have hf := mr_task_handle_fetch_eq task [0, 0] a b rest h hc
  have hinv := task_inv_handle_fetch task [0, 0] h
  obtain ⟨_, _, _, g4, g5, _, _, _⟩ := mr_task_handle_fetch_record task [0, 0] a b rest h hc
  rw [hf] at hinv g5
  have ha : a < 256 := h.1.2.2.2.2 a (by rw [hc]; exact List.mem_cons_self _ _)
  have hb : b < 256 := by have := h.2.1.2.1; omega
  exact ⟨hinv, g4, ha, hb, g5⟩

/-- The dispatch loop of the code delivers the snapshot: on a task satisfying
the invariant whose queue holds the `count` bytes `snapshot` followed by
anything, with more fuel than records in the snapshot, the loop computes what
the delivery of the records of `snapshot` computes. -/
theorem mr_task_handle_loop_eq_deliver (cfg : Bool) (cbs : mr_task_callbacks) (fuel : Nat) :
    ∀ (snapshot : List Nat) (count : Nat) (index_and_label : List Nat) (task : mr_task)
      (trace : List mr_task_invocation) (posted later : List Nat),
      task_inv task → fifo_contents task.queue = snapshot ++ later →
      snapshot.length = count → count % 2 = 0 → count / 2 < fuel →
      mr_task_handle_loop cfg cbs fuel count index_and_label task trace
        = (spec_deliver cfg cbs (task_queue_records snapshot) task trace posted).map
            (fun r => (r.1, r.2.1)) := by
  induction fuel with
  | zero => intro _ count _ _ _ _ _ _ _ _ _ hf; omega
  | succ fuel ih =>
    intro snapshot count ial task trace posted later hinv hc hl hev hf
    match snapshot, hl with
    | [], hl =>
      simp only [List.length_nil] at hl
      subst hl
      rw [mr_task_handle_loop, if_pos rfl]
      rfl
    | [_], hl =>
      simp only [List.length_singleton] at hl
      omega
    | a :: b :: snapshot2, hl =>
      simp only [List.length_cons] at hl
      have hc2 : fifo_contents task.queue = a :: b :: (snapshot2 ++ later) := hc
      obtain ⟨i1, i2, i3, i4, i5⟩ := task_fetched_spec task a b _ hinv hc2
      rw [mr_task_handle_loop_unfold cfg cbs fuel count ial task trace a b _ hinv (by omega) hc2,
        task_queue_records_cons a b snapshot2 i3 i4, spec_deliver]
      obtain ⟨task2, hinvoke, s1, _, _, _, ext, s5⟩ := mr_task_invoke_some cfg cbs trace
        { task with queue := (mr_rb_read task.queue 2).1, event := a } b i1 i2
      rw [hinvoke]
      simp only [Option.some_bind]
      exact ih snapshot2 (count - 2) _ task2 _ _ (later ++ ext) s1
        (by rw [s5]; simp only []; rw [i5, List.append_assoc]) (by omega) (by omega) (by omega)

/-- What the delivery of a snapshot computes: on a task satisfying the
invariant whose queue holds the bytes `snapshot` (a whole number of records)
followed by `later`, the delivery succeeds; it makes one invocation per record
of the snapshot, in order, each with the callback and argument of the record's
slot and the record's event code; and the queue is left with `later` followed
by what the callbacks appended. -/
theorem spec_deliver_spec (cfg : Bool) (cbs : mr_task_callbacks) (n : Nat) :
    ∀ (snapshot : List Nat) (task : mr_task) (trace : List mr_task_invocation)
      (posted later : List Nat),
      task_inv task → fifo_contents task.queue = snapshot ++ later →
      snapshot.length = 2 * n →
      ∃ (task2 : mr_task) (more : List mr_task_invocation) (appended : List Nat),
        spec_deliver cfg cbs (task_queue_records snapshot) task trace posted
          = some (task2, trace ++ more, posted ++ appended) ∧
        more.map (fun v => (v.index, v.event)) = task_queue_records snapshot ∧
        (∀ v ∈ more, v.cb = (task.table.getD v.index default).cb ∧
          v.args = (task.table.getD v.index default).args) ∧
        fifo_contents task2.queue = later ++ appended ∧
        task_inv task2 ∧ task2.active = task.active ∧
        task2.table_size = task.table_size ∧
        task_table_callbacks task2.table = task_table_callbacks task.table := by
  induction n with
  | zero =>
    intro snapshot task trace posted later hinv hc hl
    have : snapshot = [] := List.eq_nil_of_length_eq_zero hl
    subst this
    refine ⟨task, [], [], ?_, rfl, ?_, ?_, hinv, rfl, rfl, rfl⟩
    · rw [List.append_nil, List.append_nil]; rfl
    · intro v hv; exact absurd hv (List.not_mem_nil v)
    · rw [hc, List.append_nil, List.nil_append]
  | succ n ih =>
    intro snapshot task trace posted later hinv hc hl
    match snapshot, hl with
    | [], hl => simp only [List.length_nil] at hl; omega
    | [_], hl => simp only [List.length_singleton] at hl; omega
    | a :: b :: snapshot2, hl =>
      simp only [List.length_cons] at hl
      have hc2 : fifo_contents task.queue = a :: b :: (snapshot2 ++ later) := hc
      obtain ⟨i1, i2, i3, i4, i5⟩ := task_fetched_spec task a b _ hinv hc2
      rw [task_queue_records_cons a b snapshot2 i3 i4, spec_deliver]
      obtain ⟨task2, hinvoke, s1, s2, s3, s4, ext, s5⟩ := mr_task_invoke_some cfg cbs trace
        { task with queue := (mr_rb_read task.queue 2).1, event := a } b i1 i2
      rw [hinvoke]
      simp only []
      have happ := task_queue_appended_eq
        { task with queue := (mr_rb_read task.queue 2).1, event := a } task2 ext s5
      rw [happ]
      simp only [] at s5 s2 s3 s4
      rw [i5] at s5
      obtain ⟨task3, more, appended, d1, d2, d3, d4, d5, d6, d7, d8⟩ :=
        ih snapshot2 task2 (trace ++ [⟨b, (task.table.getD b default).cb,
          (task.table.getD b default).args, a⟩]) (posted ++ ext) (later ++ ext) s1
          (by rw [s5, List.append_assoc]) (by omega)
      refine ⟨task3, ⟨b, (task.table.getD b default).cb, (task.table.getD b default).args, a⟩
        :: more, ext ++ appended, ?_, ?_, ?_, ?_, d5, d6.trans s2, d7.trans s3, d8.trans s4⟩
      · rw [d1, List.append_assoc, List.append_assoc]
        rfl
      · rw [List.map_cons, d2]
      · intro v hv
        rcases List.mem_cons.mp hv with rfl | hm
        · exact ⟨rfl, rfl⟩
        · obtain ⟨c1, c2⟩ := task_table_getD_of_callbacks task.table task2.table v.index s4
          obtain ⟨m1, m2⟩ := d3 v hm
          exact ⟨m1.trans c1, m2.trans c2⟩
      · rw [d4, List.append_assoc]

/-- The dispatch loop of `mr_task_handle`, started as the function starts it:
with more fuel than queued records it returns, having delivered the snapshot
of the records queued at entry. -/
theorem mr_task_handle_loop_snapshot (cfg : Bool) (cbs : mr_task_callbacks) (fuel : Nat)
    (task : mr_task) (h : task_inv task) (hf : mr_rb_get_data_size task.queue / 2 < fuel) :
    ∃ (task1 : mr_task) (queue_driven : List mr_task_invocation) (posted : List Nat),
      mr_task_handle_loop cfg cbs fuel (mr_rb_get_data_size task.queue) [0, 0] task []
        = some (task1, queue_driven) ∧
      spec_deliver cfg cbs (task_queue_records (fifo_contents task.queue)) task [] []
        = some (task1, queue_driven, posted) ∧
      queue_driven.map (fun v => (v.index, v.event))
        = task_queue_records (fifo_contents task.queue) ∧
      (∀ v ∈ queue_driven, v.cb = (task.table.getD v.index default).cb ∧
        v.args = (task.table.getD v.index default).args) ∧
      queue_driven.length = mr_rb_get_data_size task.queue / 2 ∧
      fifo_contents task1.queue = posted ∧
      task_inv task1 ∧ task1.active = task.active ∧
      task1.table_size = task.table_size ∧
      task_table_callbacks task1.table = task_table_callbacks task.table := by
  have hlen := fifo_contents_length task.queue h.1.1
  have hev : mr_fifo_get_data_size task.queue % 2 = 0 := h.1.2.2.1
  have hl2 : (fifo_contents task.queue).length = 2 * (mr_rb_get_data_size task.queue / 2) := by
    unfold mr_rb_get_data_size; omega
  obtain ⟨task1, more, appended, d1, d2, d3, d4, d5, d6, d7, d8⟩ :=
    spec_deliver_spec cfg cbs (mr_rb_get_data_size task.queue / 2) (fifo_contents task.queue)
      task [] [] [] h (by rw [List.append_nil]) hl2
  simp only [List.nil_append] at d1 d4
  have hloop := mr_task_handle_loop_eq_deliver cfg cbs fuel (fifo_contents task.queue)
    (mr_rb_get_data_size task.queue) [0, 0] task [] [] [] h (by rw [List.append_nil])
    hlen (by unfold mr_rb_get_data_size; exact hev) hf
  rw [d1] at hloop
  refine ⟨task1, more, appended, hloop, d1, d2, d3, ?_, d4, d5, d6, d7, d8⟩
  have := congrArg List.length d2
  rw [List.length_map, task_queue_records_length _ _ hl2] at this
  exact this

/-- The function `mr_task_handle` computes the dispatch of the specification:
on a task satisfying the invariant, with more fuel than queued records, the
task afterwards and the invocations made are those of `spec_dispatch`. -/
theorem mr_task_handle_eq_dispatch (cfg : Bool) (cbs : mr_task_callbacks) (fuel : Nat)
    (task : mr_task) (h : task_inv task) (hf : mr_rb_get_data_size task.queue / 2 < fuel) :
    mr_task_handle cfg cbs fuel task
      = (spec_dispatch cfg cbs task).map (fun r => (r.1, r.2.1)) := by
  unfold mr_task_handle spec_dispatch
  by_cases ha : task.active = false
  · rw [if_pos ha, if_pos ha]
    rfl
  rw [if_neg ha, if_neg ha]
  obtain ⟨task1, queue_driven, posted, l1, l2, _⟩ :=
    mr_task_handle_loop_snapshot cfg cbs fuel task h hf
  simp only [l1, l2]
  by_cases hsm : task1.sm_active = true
  · rw [if_pos hsm, if_pos hsm]
    generalize mr_task_invoke cfg cbs queue_driven { task1 with event := MR_TASK_EVENT_SM }
      task1.sm = r
    cases r with
    | none => rfl
    | some p => rfl
  · rw [if_neg hsm, if_neg hsm]
    rfl

/-- The state-machine call that ends a dispatch: after the snapshot has been
delivered, leaving the task `task1` with the invocations `queue_driven` made,
`mr_task_handle` and the dispatch of the specification invoke the callback of
the current state once with `MR_TASK_EVENT_SM` if the state machine is active,
and nothing more if it is not. -/
theorem mr_task_handle_sm_call (cfg : Bool) (cbs : mr_task_callbacks) (fuel : Nat)
    (task task1 : mr_task) (queue_driven : List mr_task_invocation) (posted : List Nat)
    (ha : task.active = true) (h1 : task_inv task1)
    (hq : fifo_contents task1.queue = posted)
    (hl : mr_task_handle_loop cfg cbs fuel (mr_rb_get_data_size task.queue) [0, 0] task []
      = some (task1, queue_driven))
    (hd : spec_deliver cfg cbs (task_queue_records (fifo_contents task.queue)) task [] []
      = some (task1, queue_driven, posted)) :
    (task1.sm_active = true →
      ∃ (task2 : mr_task) (ext : List Nat),
        mr_task_handle cfg cbs fuel task
          = some (task2, queue_driven ++ [⟨task1.sm, (task1.table.getD task1.sm default).cb,
              (task1.table.getD task1.sm default).args, MR_TASK_EVENT_SM⟩]) ∧
        spec_dispatch cfg cbs task
          = some (task2, queue_driven ++ [⟨task1.sm, (task1.table.getD task1.sm default).cb,
              (task1.table.getD task1.sm default).args, MR_TASK_EVENT_SM⟩], posted ++ ext) ∧
        fifo_contents task2.queue = posted ++ ext ∧
        task_callback_step { task1 with event := MR_TASK_EVENT_SM } task2) ∧
    (¬ task1.sm_active = true →
      mr_task_handle cfg cbs fuel task = some (task1, queue_driven) ∧
      spec_dispatch cfg cbs task = some (task1, queue_driven, posted)) := by
  have hna : ¬ task.active = false := by rw [ha]; decide
  constructor
  · intro hsm
    have hinv1 : task_inv { task1 with event := MR_TASK_EVENT_SM } := ⟨h1.1, h1.2.1, h1.2.2⟩
    obtain ⟨task2, hinvoke, hstep⟩ := mr_task_invoke_some cfg cbs queue_driven
      { task1 with event := MR_TASK_EVENT_SM } task1.sm hinv1 (h1.2.2 hsm)
    obtain ⟨_, _, _, _, ext, s5⟩ := id hstep
    have happ := task_queue_appended_eq { task1 with event := MR_TASK_EVENT_SM } task2 ext s5
    refine ⟨task2, ext, ?_, ?_, by rw [s5]; simp only []; rw [hq], hstep⟩
    · unfold mr_task_handle
      rw [if_neg hna]
      simp only [hl, if_pos hsm, hinvoke]
    · unfold spec_dispatch
      rw [if_neg hna]
      simp only [hd, if_pos hsm, hinvoke, happ]
  · intro hsm
    constructor
    · unfold mr_task_handle
      rw [if_neg hna]
      simp only [hl, if_neg hsm]
    · unfold spec_dispatch
      rw [if_neg hna]
      simp only [hd, if_neg hsm]

/-- The example task with a record queued is reachable. -/
theorem task_example_queued_reachable : task_reachable true task_example_queued :=
  task_reachable.post_event _ 0 5 (by decide) (by decide) (task_example_reachable true)

/-- The example task in state 0 with an empty queue is reachable. -/
theorem task_example_in_state_reachable : task_reachable true task_example_in_state :=
  task_reachable.handle_fetch _ [0, 0]
    (task_reachable.transition_state _ 0 (by decide) (task_example_reachable true))

/-- Claim C11.  Dispatch snapshot semantics: in every reachable state of an
active task, whatever the callbacks do, `mr_task_handle` returns (given fuel
for the records queued at entry) and computes exactly the dispatch of the
specification, `spec_dispatch`, which delivers the snapshot of the records
queued at entry.  With `n` records queued at entry, the first `n` invocations
are, in queue order, one for each of these records: the callback and argument
of the record's slot with the record's event code.  At most one invocation
follows, and it carries `MR_TASK_EVENT_SM`: no record posted during the call
is delivered in it.  When the call returns, the queue holds exactly what the
callbacks posted during the call, in the order in which they posted it. -/
theorem C11_dispatch_snapshot (cfg : Bool) (cbs : mr_task_callbacks) (fuel : Nat)
    (task : mr_task) (h : task_reachable cfg task) (ha : task.active = true)
    (hf : mr_rb_get_data_size task.queue / 2 < fuel) :
    ∃ (task2 : mr_task) (invoked : List mr_task_invocation) (posted : List Nat),
      mr_task_handle cfg cbs fuel task = some (task2, invoked) ∧
      spec_dispatch cfg cbs task = some (task2, invoked, posted) ∧
      (task_queue_records (fifo_contents task.queue)).length
        = mr_rb_get_data_size task.queue / 2 ∧
      (invoked.take (mr_rb_get_data_size task.queue / 2)).map (fun v => (v.index, v.event))
        = task_queue_records (fifo_contents task.queue) ∧
      (∀ v ∈ invoked.take (mr_rb_get_data_size task.queue / 2),
        v.cb = (task.table.getD v.index default).cb ∧
        v.args = (task.table.getD v.index default).args) ∧
      (invoked.drop (mr_rb_get_data_size task.queue / 2)).length ≤ 1 ∧
      (∀ v ∈ invoked.drop (mr_rb_get_data_size task.queue / 2), v.event = MR_TASK_EVENT_SM) ∧
      fifo_contents task2.queue = posted := by
  have hinv := task_reachable_inv cfg task h
  obtain ⟨task1, queue_driven, posted1, l1, l2, l3, l4, l5, l6, l7, _⟩ :=
    mr_task_handle_loop_snapshot cfg cbs fuel task hinv hf
  obtain ⟨hsm1, hsm2⟩ := mr_task_handle_sm_call cfg cbs fuel task task1 queue_driven posted1
    ha l7 l6 l1 l2
  have hrl : (task_queue_records (fifo_contents task.queue)).length
      = mr_rb_get_data_size task.queue / 2 := by
    rw [← l3, List.length_map, l5]
  by_cases hsm : task1.sm_active = true
  · obtain ⟨task2, ext, r1, r2, r3, _⟩ := hsm1 hsm
    refine ⟨task2, _, posted1 ++ ext, r1, r2, hrl, ?_, ?_, ?_, ?_, r3⟩
    · rw [← l5, List.take_left]; exact l3
    · rw [← l5, List.take_left]; exact l4
    · rw [← l5, List.drop_left]; exact Nat.le_refl _
    · rw [← l5, List.drop_left]
      intro v hv
      rw [List.mem_singleton] at hv
      rw [hv]
  · obtain ⟨r1, r2⟩ := hsm2 hsm
    refine ⟨task1, queue_driven, posted1, r1, r2, hrl, ?_, ?_, ?_, ?_, l6⟩
    · rw [← l5, List.take_length]; exact l3
    · rw [← l5, List.take_length]; exact l4
    · rw [← l5, List.drop_length]; exact Nat.zero_le _
    · rw [← l5, List.drop_length]
      intro v hv
      exact absurd hv (List.not_mem_nil v)

/-- Witness of claim C11: the example task with event 5 queued for slot 0,
whose callback posts event 9 to slot 0 whenever it is invoked.  One dispatch
invokes slot 0 once, with event 5, and returns with the re-posted record in
the queue. -/
theorem C11_dispatch_snapshot_witness :
    task_reachable true task_example_queued ∧
    task_example_queued.active = true ∧
    mr_rb_get_data_size task_example_queued.queue / 2 < 2 ∧
    (mr_task_handle true task_example_repost 2 task_example_queued).map
        (fun r => (r.2, fifo_contents r.1.queue))
      = some ([⟨0, mr_task_cb.user 0, 10, 5⟩], [9, 0]) ∧
    ∃ (task2 : mr_task) (invoked : List mr_task_invocation) (posted : List Nat),
      mr_task_handle true task_example_repost 2 task_example_queued = some (task2, invoked) ∧
      spec_dispatch true task_example_repost task_example_queued
        = some (task2, invoked, posted) ∧
      (task_queue_records (fifo_contents task_example_queued.queue)).length
        = mr_rb_get_data_size task_example_queued.queue / 2 ∧
      (invoked.take (mr_rb_get_data_size task_example_queued.queue / 2)).map
          (fun v => (v.index, v.event))
        = task_queue_records (fifo_contents task_example_queued.queue) ∧
      (∀ v ∈ invoked.take (mr_rb_get_data_size task_example_queued.queue / 2),
        v.cb = (task_example_queued.table.getD v.index default).cb ∧
        v.args = (task_example_queued.table.getD v.index default).args) ∧
      (invoked.drop (mr_rb_get_data_size task_example_queued.queue / 2)).length ≤ 1 ∧
      (∀ v ∈ invoked.drop (mr_rb_get_data_size task_example_queued.queue / 2),
        v.event = MR_TASK_EVENT_SM) ∧
      fifo_contents task2.queue = posted :=
  ⟨task_example_queued_reachable, by decide, by decide, by decide,
    C11_dispatch_snapshot true task_example_repost 2 task_example_queued
      task_example_queued_reachable (by decide) (by decide)⟩

/-- Claim C12.  STATE_ACTIVE call: in every reachable state of an active task,
whatever the callbacks do, the loop of `mr_task_handle` over the records
queued at entry returns (given fuel for these records), one invocation per
record, leaving a task `task1`.  If the state machine is active then,
`mr_task_handle` makes exactly one more invocation, after all of these: the
callback and argument of slot `task1.sm`, the current state, with
`mr_task_get_event` equal to `MR_TASK_EVENT_SM`; this holds whatever records
the queue held, also when it was empty.  If the state machine is not active
then, the invocations of `mr_task_handle` are those of the loop and no more. -/
theorem C12_state_active_call (cfg : Bool) (cbs : mr_task_callbacks) (fuel : Nat)
    (task : mr_task) (h : task_reachable cfg task) (ha : task.active = true)
    (hf : mr_rb_get_data_size task.queue / 2 < fuel) :
    ∃ (task1 : mr_task) (queue_driven : List mr_task_invocation),
      mr_task_handle_loop cfg cbs fuel (mr_rb_get_data_size task.queue) [0, 0] task []
        = some (task1, queue_driven) ∧
      queue_driven.length = mr_rb_get_data_size task.queue / 2 ∧
      (task1.sm_active = true →
        task1.sm < task1.table_size ∧
        ∃ task2 : mr_task,
          mr_task_handle cfg cbs fuel task
            = some (task2, queue_driven ++ [⟨task1.sm, (task1.table.getD task1.sm default).cb,
                (task1.table.getD task1.sm default).args, MR_TASK_EVENT_SM⟩]) ∧
          (task1.table.getD task1.sm default).cb = (task.table.getD task1.sm default).cb ∧
          (task1.table.getD task1.sm default).args = (task.table.getD task1.sm default).args) ∧
      (task1.sm_active = false →
        mr_task_handle cfg cbs fuel task = some (task1, queue_driven)) := by
  have hinv := task_reachable_inv cfg task h
  obtain ⟨task1, queue_driven, posted1, l1, l2, l3, l4, l5, l6, l7, _, _, l10⟩ :=
    mr_task_handle_loop_snapshot cfg cbs fuel task hinv hf
  obtain ⟨hsm1, hsm2⟩ := mr_task_handle_sm_call cfg cbs fuel task task1 queue_driven posted1
    ha l7 l6 l1 l2
  refine ⟨task1, queue_driven, l1, l5, ?_, ?_⟩
  · intro hsm
    obtain ⟨task2, ext, r1, _, _, _⟩ := hsm1 hsm
    exact ⟨l7.2.2 hsm, task2, r1, task_table_getD_of_callbacks task.table task1.table _ l10⟩
  · intro hsm
    exact (hsm2 (by rw [hsm]; decide)).1

/-- Witness of claim C12: the example task in state 0 with an empty queue.  The
dispatch makes one call, for the current state, with `MR_TASK_EVENT_SM`. -/
theorem C12_state_active_call_witness :
    task_reachable true task_example_in_state ∧
    task_example_in_state.active = true ∧
    mr_rb_get_data_size task_example_in_state.queue / 2 < 1 ∧
    fifo_contents task_example_in_state.queue = [] ∧
    (mr_task_handle true task_example_callbacks 1 task_example_in_state).map (fun r => r.2)
      = some [⟨0, mr_task_cb.user 0, 10, MR_TASK_EVENT_SM⟩] ∧
    ∃ (task1 : mr_task) (queue_driven : List mr_task_invocation),
      mr_task_handle_loop true task_example_callbacks 1
          (mr_rb_get_data_size task_example_in_state.queue) [0, 0] task_example_in_state []
        = some (task1, queue_driven) ∧
      queue_driven.length = mr_rb_get_data_size task_example_in_state.queue / 2 ∧
      (task1.sm_active = true →
        task1.sm < task1.table_size ∧
        ∃ task2 : mr_task,
          mr_task_handle true task_example_callbacks 1 task_example_in_state
            = some (task2, queue_driven ++ [⟨task1.sm, (task1.table.getD task1.sm default).cb,
                (task1.table.getD task1.sm default).args, MR_TASK_EVENT_SM⟩]) ∧
          (task1.table.getD task1.sm default).cb
            = (task_example_in_state.table.getD task1.sm default).cb ∧
          (task1.table.getD task1.sm default).args
            = (task_example_in_state.table.getD task1.sm default).args) ∧
      (task1.sm_active = false →
        mr_task_handle true task_example_callbacks 1 task_example_in_state
          = some (task1, queue_driven)) :=
  ⟨task_example_in_state_reachable, by decide, by decide, by decide, by decide,
    C12_state_active_call true task_example_callbacks 1 task_example_in_state
      task_example_in_state_reachable (by decide) (by decide)⟩

/-! ## Task scheduler: state transitions -/

/-- The records of queue bytes put after a whole number of records. -/
theorem task_queue_records_append (n : Nat) :
    ∀ bytes more : List Nat, bytes.length = 2 * n →
      task_queue_records (bytes ++ more) = task_queue_records bytes ++ task_queue_records more := by
  induction n with
  | zero =>
    intro bytes more hl
    have : bytes = [] := List.eq_nil_of_length_eq_zero hl
    subst this
    rfl
  | succ n ih =>
    intro bytes more hl
    match bytes, hl with
    | [], hl => simp only [List.length_nil] at hl; omega
    | [_], hl => simp only [List.length_singleton] at hl; omega
    | a :: b :: rest, hl =>
      simp only [List.length_cons] at hl
      rw [List.cons_append, List.cons_append, task_queue_records, task_queue_records,
        ih rest more (by omega), List.cons_append]

/-- The usage of a task is that of its queue. -/
theorem mr_task_get_usage_eq (task : mr_task) :
    mr_task_get_usage task
      = if task.queue.size = 0 then none
        else some (mr_task_usage_rate (mr_fifo_get_data_size task.queue) task.queue.size) :=
  rfl

/-- The usage rate is at most 100, so the conversion to 8 bits keeps it. -/
theorem mr_task_usage_rate_le (d size : Nat) (h : d ≤ size) :
    mr_task_usage_rate d size = d * 100 % 4294967296 / size ∧
    mr_task_usage_rate d size ≤ 100 := by
  have hb : d * 100 % 4294967296 / size ≤ 100 := by
    rcases Nat.eq_zero_or_pos size with h0 | hpos
    · subst h0; simp
    · refine Nat.div_le_of_le_mul ?_
      have := Nat.mod_le (d * 100) 4294967296
      nlinarith
  unfold mr_task_usage_rate
  rw [Nat.mod_eq_of_lt (by omega)]
  exact ⟨rfl, hb⟩

/-- Without wrap of the product the usage rate is the quotient `d * 100 / size`. -/
theorem mr_task_usage_rate_exact (d size : Nat) (h : d ≤ size) (hw : d * 100 < 4294967296) :
    mr_task_usage_rate d size = d * 100 / size := by
  rw [(mr_task_usage_rate_le d size h).1, Nat.mod_eq_of_lt hw]

/-- The usage grows with the amount of queued data, as long as the product
does not wrap. -/
theorem task_usage_mono (d1 d2 size : Nat) (h12 : d1 ≤ d2) (h2 : d2 ≤ size)
    (hw : d2 * 100 < 4294967296) :
    mr_task_usage_rate d1 size ≤ mr_task_usage_rate d2 size := by
  rw [mr_task_usage_rate_exact d1 size (by omega) (by omega),
    mr_task_usage_rate_exact d2 size h2 hw]
  exact Nat.div_le_div_right (Nat.mul_le_mul_right 100 h12)

/-- Posting an event on an active task whose queue has room for a record: the
whole result. -/
theorem mr_task_post_event_room (cfg : Bool) (task : mr_task) (index event : Nat)
    (h : task_inv task) (hi : index < task.table_size) (ha : task.active = true)
    (he : event < 256) (hroom : 2 ≤ mr_fifo_get_space_size task.queue) :
    ∃ queue2 : mr_fifo,
      mr_task_post_event cfg task index event
        = ({ task with
              queue := queue2
              usage_max :=
                if cfg = true then
                  max task.usage_max
                    (mr_task_usage_rate (mr_fifo_get_data_size queue2) queue2.size)
                else task.usage_max },
            mr_err_t.MR_ERR_OK) ∧
      fifo_contents queue2 = fifo_contents task.queue ++ [event, index] ∧
      queue2.size = task.queue.size ∧
      mr_fifo_get_data_size queue2 = mr_fifo_get_data_size task.queue + 2 ∧
      fifo_wf queue2 := by
  have hi2 : index < 256 := by have := h.2.1.2.1; omega
  have hbytes := u16_bytes_index_and_event index event hi2 he
  obtain ⟨w1, w2⟩ := task_queue_inv_write task.queue task.table_size index event h.1 hi hi2 he
  rcases task_queue_write_record task.queue task.table_size
    (((index <<< 8) ||| event) % 65536) h.1 with ⟨_, hw, hc⟩ | ⟨hfull, _, _⟩
  · refine ⟨(mr_rb_write task.queue (u16_bytes (((index <<< 8) ||| event) % 65536)) 2).1,
      ?_, by rw [hc, hbytes], w2, ?_, w1.1⟩
    · have hsz : ¬ (mr_rb_write task.queue
          (u16_bytes (((index <<< 8) ||| event) % 65536)) 2).1.size = 0 := by
        rw [w2]
        unfold mr_fifo_get_space_size at hroom
        omega
      rw [mr_task_post_event_active cfg task index event hi ha,
        if_neg (by rw [hw]; exact fun hne => hne rfl), mr_task_get_usage_eq]
      simp only []
      rw [if_neg hsz]
      rfl
    · have l1 := fifo_contents_length _ w1.1
      have l2 := fifo_contents_length _ h.1.1
      rw [hc, List.length_append, l2] at l1
      rw [← l1]
      rfl
  · omega

/-- What `mr_task_transition_state` does on an active task, with a valid index,
when no state machine is active and the queue has room for a record. -/
theorem mr_task_transition_state_enter (cfg : Bool) (task : mr_task) (index : Nat)
    (h : task_inv task) (hi : index < task.table_size) (ha : task.active = true)
    (hsm : task.sm_active = false) (hroom : 2 ≤ mr_fifo_get_space_size task.queue) :
    ∃ queue2 : mr_fifo,
      mr_task_transition_state cfg task index
        = ({ task with
              queue := queue2
              usage_max :=
                if cfg = true then
                  max task.usage_max
                    (mr_task_usage_rate (mr_fifo_get_data_size queue2) queue2.size)
                else task.usage_max
              sm := index
              sm_active := true },
            mr_err_t.MR_ERR_OK) ∧
      fifo_contents queue2 = fifo_contents task.queue ++ [MR_TASK_EVENT_SM_ENTER, index] ∧
      queue2.size = task.queue.size ∧
      mr_fifo_get_data_size queue2 = mr_fifo_get_data_size task.queue + 2 := by
  have hinv2 : task_inv { task with sm := index } := ⟨h.1, h.2.1, fun _ => hi⟩
  obtain ⟨queue2, p1, p2, p3, p4, _⟩ := mr_task_post_event_room cfg { task with sm := index }
    index MR_TASK_EVENT_SM_ENTER hinv2 hi ha (by decide) hroom
  simp only [] at p1
  refine ⟨queue2, ?_, p2, p3, p4⟩
  unfold mr_task_transition_state
  rw [if_neg (by omega), if_neg (by rw [ha]; decide), if_neg (by rw [hsm]; decide)]
  simp only []
  rw [p1]

/-- What `mr_task_transition_state` does on an active task, with a valid index,
when a state machine is active and the queue has room for two records.  The
usage peak takes in the usage after each of the two records. -/
theorem mr_task_transition_state_exit_enter (cfg : Bool) (task : mr_task) (index : Nat)
    (h : task_inv task) (hi : index < task.table_size) (ha : task.active = true)
    (hsm : task.sm_active = true) (hroom : 4 ≤ mr_fifo_get_space_size task.queue) :
    ∃ queue2 : mr_fifo,
      mr_task_transition_state cfg task index
        = ({ task with
              queue := queue2
              usage_max :=
                if cfg = true then
                  max
                    (max task.usage_max
                      (mr_task_usage_rate (mr_fifo_get_data_size task.queue + 2)
                        task.queue.size))
                    (mr_task_usage_rate (mr_fifo_get_data_size queue2) queue2.size)
                else task.usage_max
              sm := index
              sm_active := true },
            mr_err_t.MR_ERR_OK) ∧
      fifo_contents queue2
        = fifo_contents task.queue ++ [MR_TASK_EVENT_SM_EXIT, task.sm]
            ++ [MR_TASK_EVENT_SM_ENTER, index] ∧
      queue2.size = task.queue.size ∧
      mr_fifo_get_data_size queue2 = mr_fifo_get_data_size task.queue + 4 ∧
      fifo_wf queue2 ∧
      (mr_task_post_event cfg task task.sm MR_TASK_EVENT_SM_EXIT).1.queue.size
        = task.queue.size ∧
      mr_fifo_get_data_size (mr_task_post_event cfg task task.sm MR_TASK_EVENT_SM_EXIT).1.queue
        = mr_fifo_get_data_size task.queue + 2 := by
  obtain ⟨queue1, p1, p2, p3, p4, _⟩ := mr_task_post_event_room cfg task task.sm
    MR_TASK_EVENT_SM_EXIT h (h.2.2 hsm) ha (by decide) (by omega)
  have hinv1 := task_inv_post_event cfg task task.sm MR_TASK_EVENT_SM_EXIT h (by decide)
  rw [p1] at hinv1
  simp only [] at hinv1
  rw [p4, p3] at p1
  generalize hu1 : (if cfg = true then
      max task.usage_max
        (mr_task_usage_rate (mr_fifo_get_data_size task.queue + 2) task.queue.size)
    else task.usage_max) = usage1 at p1 hinv1
  have hinv2 : task_inv { task with queue := queue1, usage_max := usage1, sm := index } :=
    ⟨hinv1.1, hinv1.2.1, fun _ => hi⟩
  have hroom2 : 2 ≤ mr_fifo_get_space_size queue1 := by
    unfold mr_fifo_get_space_size at hroom ⊢
    omega
  obtain ⟨queue2, q1, q2, q3, q4, q5⟩ := mr_task_post_event_room cfg
    { task with queue := queue1, usage_max := usage1, sm := index } index
    MR_TASK_EVENT_SM_ENTER hinv2 hi ha (by decide) hroom2
  simp only [] at q1 q2 q3 q4
  refine ⟨queue2, ?_, by rw [q2, p2], by rw [q3, p3], by rw [q4, p4], q5,
    by rw [p1]; exact p3, by rw [p1]; exact p4⟩
  unfold mr_task_transition_state
  rw [if_neg (by omega), if_neg (by rw [ha]; decide)]
  rw [if_pos hsm]
  simp only []
  rw [p1]
  simp only []
  rw [q1]
  have hmax : (if cfg = true then
        max usage1 (mr_task_usage_rate (mr_fifo_get_data_size queue2) queue2.size)
      else usage1)
      = (if cfg = true then
          max
            (max task.usage_max
              (mr_task_usage_rate (mr_fifo_get_data_size task.queue + 2) task.queue.size))
            (mr_task_usage_rate (mr_fifo_get_data_size queue2) queue2.size)
        else task.usage_max) := by
    by_cases hc : cfg = true
    · rw [if_pos hc] at hu1
      rw [if_pos hc, if_pos hc, ← hu1]
    · rw [if_neg hc] at hu1
      rw [if_neg hc, if_neg hc, hu1]
  simp only [hmax]

/-- A call other than a state transition leaves the state machine as it is. -/
theorem mr_task_do_call_sm (cfg : Bool) (task : mr_task) (call : mr_task_call)
    (h : ∀ index : Nat, call ≠ mr_task_call.transition_state index) :
    (mr_task_do_call cfg task call).sm = task.sm ∧
    (mr_task_do_call cfg task call).sm_active = task.sm_active := by
  cases call with
  | post_event index event =>
    obtain ⟨_, f2, f3, _⟩ := mr_task_post_event_fields cfg task (index % 256) (event % 256)
    exact ⟨f3, f2⟩
  | timing index tick flag =>
    obtain ⟨_, f2, f3, _⟩ := mr_task_timing_fields task (index % 256) (tick % 4294967296) flag
    exact ⟨f3, f2⟩
  | transition_state index => exact absurd rfl (h index)

/-- Calls other than state transitions leave the state machine as it is. -/
theorem mr_task_calls_sm (cfg : Bool) (calls : List mr_task_call) (task : mr_task)
    (h : ∀ call ∈ calls, ∀ index : Nat, call ≠ mr_task_call.transition_state index) :
    (calls.foldl (mr_task_do_call cfg) task).sm = task.sm ∧
    (calls.foldl (mr_task_do_call cfg) task).sm_active = task.sm_active := by
  induction calls generalizing task with
  | nil => exact ⟨rfl, rfl⟩
  | cons call calls ih =>
    obtain ⟨a1, a2⟩ := mr_task_do_call_sm cfg task call (h call (List.mem_cons_self _ _))
    obtain ⟨b1, b2⟩ := ih (mr_task_do_call cfg task call)
      (fun c hc => h c (List.mem_cons_of_mem _ hc))
    exact ⟨b1.trans a1, b2.trans a2⟩

/-- Invoking a callback that makes no state transition leaves the state
machine as it is. -/
theorem mr_task_invoke_sm (cfg : Bool) (cbs : mr_task_callbacks)
    (trace : List mr_task_invocation) (task task2 : mr_task) (index : Nat)
    (invocation : mr_task_invocation) (hcb : mr_task_callbacks_no_transition cbs)
    (hr : mr_task_invoke cfg cbs trace task index = some (task2, invocation)) :
    task2.sm = task.sm ∧ task2.sm_active = task.sm_active := by
  unfold mr_task_invoke at hr
  cases hg : task.table.get? index with
  | none => rw [hg] at hr; exact Option.noConfusion hr
  | some slot =>
    rw [hg] at hr
    simp only [] at hr
    cases hc : slot.cb with
    | null => rw [hc] at hr; exact Option.noConfusion hr
    | err_io_task_cb =>
      rw [hc] at hr
      simp only [Option.some.injEq, Prod.mk.injEq] at hr
      rw [← hr.1]; exact ⟨rfl, rfl⟩
    | user id =>
      rw [hc] at hr
      simp only [Option.some.injEq, Prod.mk.injEq] at hr
      rw [← hr.1]
      exact mr_task_calls_sm cfg _ task (hcb trace id slot.args task)

/-- Delivering a snapshot to callbacks that make no state transition leaves
the state machine as it is. -/
theorem spec_deliver_sm (cfg : Bool) (cbs : mr_task_callbacks)
    (hcb : mr_task_callbacks_no_transition cbs) (records : List (Nat × Nat)) :
    ∀ (task : mr_task) (trace : List mr_task_invocation) (posted : List Nat)
      (r : mr_task × List mr_task_invocation × List Nat),
      spec_deliver cfg cbs records task trace posted = some r →
      r.1.sm = task.sm ∧ r.1.sm_active = task.sm_active := by
  induction records with
  | nil =>
    intro task trace posted r hr
    simp only [spec_deliver, Option.some.injEq] at hr
    rw [← hr]; exact ⟨rfl, rfl⟩
  | cons record records ih =>
    intro task trace posted r hr
    obtain ⟨index, event⟩ := record
    rw [spec_deliver] at hr
    cases hinv : mr_task_invoke cfg cbs trace
        { task with queue := (mr_rb_read task.queue 2).1, event := event } index with
    | none => rw [hinv] at hr; exact Option.noConfusion hr
    | some res =>
      obtain ⟨task2, invocation⟩ := res
      rw [hinv] at hr
      simp only [] at hr
      obtain ⟨a1, a2⟩ := mr_task_invoke_sm cfg cbs trace _ task2 index invocation hcb hinv
      obtain ⟨b1, b2⟩ := ih task2 _ _ r hr
      exact ⟨b1.trans a1, b2.trans a2⟩

/-- An invocation is determined by its slot, event, callback and argument. -/
theorem mr_task_invocation_eq (v : mr_task_invocation) (index event : Nat) (cb : mr_task_cb)
    (args : Nat) (h1 : (v.index, v.event) = (index, event)) (h2 : v.cb = cb)
    (h3 : v.args = args) : v = ⟨index, cb, args, event⟩ := by
  obtain ⟨i, c, a, e⟩ := v
  simp only [Prod.mk.injEq] at h1
  simp only [] at h2 h3
  rw [h1.1, h1.2, h2, h3]

/-- The invocations made for a snapshot, from the records and the table. -/
theorem task_invocations_of_records (table : List mr_task_table) :
    ∀ (invoked : List mr_task_invocation) (records : List (Nat × Nat)),
      invoked.map (fun v => (v.index, v.event)) = records →
      (∀ v ∈ invoked, v.cb = (table.getD v.index default).cb ∧
        v.args = (table.getD v.index default).args) →
      invoked = records.map (fun r =>
        ⟨r.1, (table.getD r.1 default).cb, (table.getD r.1 default).args, r.2⟩) := by
  intro invoked
  induction invoked with
  | nil =>
    intro records hm _
    rw [List.map_nil] at hm
    rw [← hm]; rfl
  | cons v invoked ih =>
    intro records hm hcb
    match records, hm with
    | [], hm => simp at hm
    | r :: records, hm =>
      rw [List.map_cons, List.cons.injEq] at hm
      obtain ⟨c1, c2⟩ := hcb v (List.mem_cons_self _ _)
      have hi : v.index = r.1 := congrArg Prod.fst hm.1
      rw [List.map_cons, ← ih records hm.2 (fun w hw => hcb w (List.mem_cons_of_mem _ hw))]
      congr 1
      apply mr_task_invocation_eq v r.1 r.2 _ _ hm.1
      · rw [c1, hi]
      · rw [c2, hi]

/-- The invocations of `mr_task_handle` when the callbacks make no state
transition and the state machine is active: one per record queued at entry,
in queue order, then the call for the current state. -/
theorem mr_task_handle_no_transition (cfg : Bool) (cbs : mr_task_callbacks) (fuel : Nat)
    (task : mr_task) (h : task_inv task) (ha : task.active = true)
    (hsm : task.sm_active = true) (hcb : mr_task_callbacks_no_transition cbs)
    (hf : mr_rb_get_data_size task.queue / 2 < fuel) :
    ∃ task2 : mr_task,
      mr_task_handle cfg cbs fuel task
        = some (task2,
            (task_queue_records (fifo_contents task.queue)).map (fun r =>
              (⟨r.1, (task.table.getD r.1 default).cb, (task.table.getD r.1 default).args,
                r.2⟩ : mr_task_invocation))
            ++ [⟨task.sm, (task.table.getD task.sm default).cb,
                (task.table.getD task.sm default).args, MR_TASK_EVENT_SM⟩]) := by
  obtain ⟨task1, queue_driven, posted1, l1, l2, l3, l4, l5, l6, l7, _, _, l10⟩ :=
    mr_task_handle_loop_snapshot cfg cbs fuel task h hf
  obtain ⟨hsm1, _⟩ := mr_task_handle_sm_call cfg cbs fuel task task1 queue_driven posted1
    ha l7 l6 l1 l2
  obtain ⟨s1, s2⟩ := spec_deliver_sm cfg cbs hcb _ task [] [] _ l2
  simp only [] at s1 s2
  obtain ⟨task2, _, r1, _⟩ := hsm1 (by rw [s2]; exact hsm)
  obtain ⟨c1, c2⟩ := task_table_getD_of_callbacks task.table task1.table task.sm l10
  rw [s1, c1, c2, task_invocations_of_records task.table queue_driven _ l3 l4] at r1
  exact ⟨task2, r1⟩

/-- A freshly added and started task: it is reachable and active, its queue is
empty with room for `queue_size` records, and no state machine is active. -/
theorem task_fresh_spec (cfg : Bool) (task : mr_task) (table : List mr_task_table)
    (table_size queue_size : Nat) (pool : List Nat)
    (hsize : table_size ≠ 0 ∧ table_size ≤ 255) (htable : table.length = table_size)
    (hpool : pool.length = queue_size * 2) :
    task_reachable cfg (task_fresh task table table_size queue_size pool) ∧
    (task_fresh task table table_size queue_size pool).active = true ∧
    (task_fresh task table table_size queue_size pool).sm_active = false ∧
    (task_fresh task table table_size queue_size pool).table_size = table_size ∧
    fifo_contents (task_fresh task table table_size queue_size pool).queue = [] ∧
    mr_fifo_get_data_size (task_fresh task table table_size queue_size pool).queue = 0 ∧
    (task_fresh task table table_size queue_size pool).queue.size = queue_size * 2 := by
  have hr : task_reachable cfg (task_fresh task table table_size queue_size pool) :=
    task_reachable.start _ (task_reachable.add task table table_size queue_size pool hsize
      htable hpool)
  have hinv := task_reachable_inv cfg _ hr
  have hd : mr_fifo_get_data_size (task_fresh task table table_size queue_size pool).queue
      = 0 := by
    simp [task_fresh, mr_task_start, mr_task_add, mr_rb_init, mr_fifo_init,
      mr_fifo_get_data_size]
  have hlen := fifo_contents_length _ hinv.1.1
  rw [hd] at hlen
  exact ⟨hr, rfl, rfl, rfl, List.eq_nil_of_length_eq_zero hlen, hd, rfl⟩

/-- What `mr_task_transition_state` does on an active task satisfying the
invariant, with a valid index, when the queue has room for the records it
posts: the queue contents and records afterwards, and the fields of the task. -/
theorem mr_task_transition_state_room (cfg : Bool) (task : mr_task) (index : Nat)
    (h : task_inv task) (ha : task.active = true) (hi : index < task.table_size)
    (hroom : (if task.sm_active = true then 4 else 2) ≤ mr_fifo_get_space_size task.queue) :
    fifo_contents (mr_task_transition_state cfg task index).1.queue
      = fifo_contents task.queue
          ++ (if task.sm_active = true then [MR_TASK_EVENT_SM_EXIT, task.sm] else [])
          ++ [MR_TASK_EVENT_SM_ENTER, index] ∧
    task_queue_records (fifo_contents (mr_task_transition_state cfg task index).1.queue)
      = task_queue_records (fifo_contents task.queue)
          ++ (if task.sm_active = true then [(task.sm, MR_TASK_EVENT_SM_EXIT)] else [])
          ++ [(index, MR_TASK_EVENT_SM_ENTER)] ∧
    (mr_task_transition_state cfg task index).1.sm = index ∧
    (mr_task_transition_state cfg task index).1.sm_active = true ∧
    (mr_task_transition_state cfg task index).1.active = true ∧
    (mr_task_transition_state cfg task index).1.table = task.table ∧
    (mr_task_transition_state cfg task index).1.table_size = task.table_size ∧
    (mr_task_transition_state cfg task index).1.queue.size = task.queue.size ∧
    mr_fifo_get_data_size (mr_task_transition_state cfg task index).1.queue
      = mr_fifo_get_data_size task.queue + (if task.sm_active = true then 4 else 2) := by
  have hlen := fifo_contents_length task.queue h.1.1
  have hev : mr_fifo_get_data_size task.queue % 2 = 0 := h.1.2.2.1
  have hl2 : (fifo_contents task.queue).length = 2 * (mr_fifo_get_data_size task.queue / 2) := by
    omega
  have hi2 : index < 256 := by have := h.2.1.2.1; omega
  have henter : task_queue_records [MR_TASK_EVENT_SM_ENTER, index]
      = [(index, MR_TASK_EVENT_SM_ENTER)] :=
    task_queue_records_cons _ _ [] (by decide) hi2
  by_cases hsm : task.sm_active = true
  · rw [if_pos hsm] at hroom
    obtain ⟨queue2, e, c, c2, c3, _⟩ :=
      mr_task_transition_state_exit_enter cfg task index h hi ha hsm hroom
    have hs2 : task.sm < 256 := by have := h.2.1.2.1; have := h.2.2 hsm; omega
    have hexit : task_queue_records [MR_TASK_EVENT_SM_EXIT, task.sm, MR_TASK_EVENT_SM_ENTER, index]
        = [(task.sm, MR_TASK_EVENT_SM_EXIT), (index, MR_TASK_EVENT_SM_ENTER)] := by
      rw [task_queue_records_cons _ _ _ (by decide) hs2, henter]
    rw [e, if_pos hsm, if_pos hsm, if_pos hsm]
    simp only []
    refine ⟨c, ?_, trivial, trivial, ha, trivial, trivial, c2, c3⟩
    rw [c, List.append_assoc, task_queue_records_append _ _ _ hl2, List.append_assoc]
    congr 1
  · rw [if_neg hsm] at hroom
    obtain ⟨queue2, e, c, c2, c3⟩ :=
      mr_task_transition_state_enter cfg task index h hi ha (by simpa using hsm) hroom
    rw [e, if_neg hsm, if_neg hsm, if_neg hsm]
    simp only []
    refine ⟨by rw [c, List.append_nil], ?_, trivial, trivial, ha, trivial, trivial, c2, c3⟩
    rw [c, task_queue_records_append _ _ _ hl2, henter, List.append_nil]

/-- Claim C13, as the code has it.  In every reachable state of an active
task, `mr_task_transition_state` with a valid index, when the queue has room
for the records it posts (one, or two if a state machine is active), returns
OK and appends to the event queue, after all records already queued: only
ENTER(new) if no state machine was active, EXIT(old state) followed by
ENTER(new) if one was.  Afterwards `sm` is the new index and `sm_active` is
set.  Apart from the queue, `sm` and `sm_active`, the one field that can
change is `usage_max`: it is unchanged when `MR_CFG_TASK_USAGE` is disabled,
and when it is enabled it is raised to the usage of the queue after each
record posted, if that is higher.  The usage after the EXIT record is not
above the usage after the transition unless the 32-bit product `usage * 100`
wraps; so for a queue of less than 42949673 bytes `usage_max` becomes the
greater of its old value and the usage of the queue after the transition. -/
theorem C13_transition_state_appends (cfg : Bool) (task : mr_task) (index : Nat)
    (h : task_reachable cfg task) (ha : task.active = true) (hi : index < task.table_size)
    (hroom : (if task.sm_active = true then 4 else 2) ≤ mr_fifo_get_space_size task.queue) :
    (mr_task_transition_state cfg task index).2 = mr_err_t.MR_ERR_OK ∧
    fifo_contents (mr_task_transition_state cfg task index).1.queue
      = fifo_contents task.queue
          ++ (if task.sm_active = true then [MR_TASK_EVENT_SM_EXIT, task.sm] else [])
          ++ [MR_TASK_EVENT_SM_ENTER, index] ∧
    task_queue_records (fifo_contents (mr_task_transition_state cfg task index).1.queue)
      = task_queue_records (fifo_contents task.queue)
          ++ (if task.sm_active = true then [(task.sm, MR_TASK_EVENT_SM_EXIT)] else [])
          ++ [(index, MR_TASK_EVENT_SM_ENTER)] ∧
    (mr_task_transition_state cfg task index).1.sm = index ∧
    (mr_task_transition_state cfg task index).1.sm_active = true ∧
    (mr_task_transition_state cfg task index).1
      = { task with
          queue := (mr_task_transition_state cfg task index).1.queue
          usage_max := (mr_task_transition_state cfg task index).1.usage_max
          sm := index
          sm_active := true } ∧
    ∃ usage_after : Nat,
      mr_task_get_usage (mr_task_transition_state cfg task index).1 = some usage_after ∧
      (task.sm_active = false →
        (mr_task_transition_state cfg task index).1.usage_max
          = (if cfg = true then max task.usage_max usage_after else task.usage_max)) ∧
      (task.sm_active = true →
        ∃ usage_exit : Nat,
          mr_task_get_usage (mr_task_post_event cfg task task.sm MR_TASK_EVENT_SM_EXIT).1
            = some usage_exit ∧
          (mr_task_transition_state cfg task index).1.usage_max
            = (if cfg = true then max (max task.usage_max usage_exit) usage_after
              else task.usage_max)) ∧
      (task.queue.size * 100 < 4294967296 →
        (mr_task_transition_state cfg task index).1.usage_max
          = (if cfg = true then max task.usage_max usage_after else task.usage_max)) := by
  have hinv := task_reachable_inv cfg task h
  have hlen := fifo_contents_length task.queue hinv.1.1
  have hev : mr_fifo_get_data_size task.queue % 2 = 0 := hinv.1.2.2.1
  have hl2 : (fifo_contents task.queue).length = 2 * (mr_fifo_get_data_size task.queue / 2) := by
    omega
  have hi2 : index < 256 := by have := hinv.2.1.2.1; omega
  have henter : task_queue_records [MR_TASK_EVENT_SM_ENTER, index]
      = [(index, MR_TASK_EVENT_SM_ENTER)] :=
    task_queue_records_cons _ _ [] (by decide) hi2
  by_cases hsm : task.sm_active = true
  · rw [if_pos hsm] at hroom
    obtain ⟨queue2, e, c, c2, c3, c4, c5, c6⟩ :=
      mr_task_transition_state_exit_enter cfg task index hinv hi ha hsm hroom
    have hs2 : task.sm < 256 := by have := hinv.2.1.2.1; have := hinv.2.2 hsm; omega
    have hexit : task_queue_records [MR_TASK_EVENT_SM_EXIT, task.sm, MR_TASK_EVENT_SM_ENTER, index]
        = [(task.sm, MR_TASK_EVENT_SM_EXIT), (index, MR_TASK_EVENT_SM_ENTER)] := by
      rw [task_queue_records_cons _ _ _ (by decide) hs2, henter]
    have hle2 := fifo_data_size_le queue2 c4
    have hsz : ¬ task.queue.size = 0 := by
      unfold mr_fifo_get_space_size at hroom; omega
    have hu_exit : mr_task_get_usage (mr_task_post_event cfg task task.sm MR_TASK_EVENT_SM_EXIT).1
        = some (mr_task_usage_rate (mr_fifo_get_data_size task.queue + 2) task.queue.size) := by
      rw [mr_task_get_usage_eq, c5, c6, if_neg hsz]
    rw [e, if_pos hsm, if_pos hsm]
    simp only []
    refine ⟨trivial, c, ?_, trivial, trivial, trivial,
      mr_task_usage_rate (mr_fifo_get_data_size queue2) queue2.size, ?_, ?_, ?_, ?_⟩
    · rw [c, List.append_assoc, task_queue_records_append _ _ _ hl2, List.append_assoc]
      congr 1
    · rw [mr_task_get_usage_eq]
      simp only []
      rw [if_neg (by rw [c2]; exact hsz)]
    · intro hf
      rw [hsm] at hf
      exact absurd hf (by decide)
    · intro _
      exact ⟨_, hu_exit, rfl⟩
    · intro hw
      have hmono := task_usage_mono (mr_fifo_get_data_size task.queue + 2)
        (mr_fifo_get_data_size queue2) queue2.size (by omega) hle2 (by omega)
      rw [c2] at hmono ⊢
      by_cases hc : cfg = true
      · rw [if_pos hc, if_pos hc, max_assoc, max_eq_right hmono]
      · rw [if_neg hc, if_neg hc]
  · rw [if_neg hsm] at hroom
    obtain ⟨queue2, e, c, c2, c3⟩ :=
      mr_task_transition_state_enter cfg task index hinv hi ha (by simpa using hsm) hroom
    have hsz : ¬ task.queue.size = 0 := by
      unfold mr_fifo_get_space_size at hroom; omega
    rw [e, if_neg hsm, if_neg hsm]
    simp only []
    refine ⟨trivial, by rw [c, List.append_nil], ?_, trivial, trivial, trivial,
      mr_task_usage_rate (mr_fifo_get_data_size queue2) queue2.size, ?_, ?_, ?_, ?_⟩
    · rw [c, task_queue_records_append _ _ _ hl2, henter, List.append_nil]
    · rw [mr_task_get_usage_eq]
      simp only []
      rw [if_neg (by rw [c2]; exact hsz)]
    · intro _; rfl
    · intro ht
      exact absurd ht hsm
    · intro _; rfl

/-- Witness of claim C13: the example task in state 0, changing to state 1;
the usage after the EXIT record is 50, after the transition 100. -/
theorem C13_transition_state_appends_witness :
    task_reachable true task_example_in_state ∧
    task_example_in_state.active = true ∧
    1 < task_example_in_state.table_size ∧
    (if task_example_in_state.sm_active = true then 4 else 2)
      ≤ mr_fifo_get_space_size task_example_in_state.queue ∧
    fifo_contents (mr_task_transition_state true task_example_in_state 1).1.queue
      = fifo_contents task_example_in_state.queue
          ++ (if task_example_in_state.sm_active = true
              then [MR_TASK_EVENT_SM_EXIT, task_example_in_state.sm] else [])
          ++ [MR_TASK_EVENT_SM_ENTER, 1] ∧
    mr_task_get_usage (mr_task_transition_state true task_example_in_state 1).1 = some 100 ∧
    (mr_task_transition_state true task_example_in_state 1).1.usage_max = 100 :=
  ⟨task_example_in_state_reachable, by decide, by decide, by decide,
    (C13_transition_state_appends true task_example_in_state 1
      task_example_in_state_reachable (by decide) (by decide) (by decide)).2.1,
    by decide, by decide⟩

/-- Counterexample to claim C13 as stated: with `MR_CFG_TASK_USAGE` enabled, a
transition of the example task (reachable, active, queue empty) to state 0
raises `usage_max` from 0 to 50, so more than the queue, `sm` and `sm_active`
changes. -/
theorem C13_usage_max_changes :
    task_reachable true task_example ∧
    task_example.active = true ∧
    0 < task_example.table_size ∧
    task_example.sm_active = false ∧
    2 ≤ mr_fifo_get_space_size task_example.queue ∧
    task_example.usage_max = 0 ∧
    (mr_task_transition_state true task_example 0).1.usage_max = 50 ∧
    (mr_task_transition_state true task_example 0).1
      ≠ { task_example with
          queue := (mr_task_transition_state true task_example 0).1.queue
          sm := 0
          sm_active := true } :=
  ⟨task_example_reachable true, by decide, by decide, by decide, by decide, by decide,
    by decide, by decide⟩

/-- The callbacks that make no call make no state transition. -/
theorem task_example_callbacks_no_transition :
    mr_task_callbacks_no_transition task_example_callbacks := by
  intro _ _ _ _ call hc
  exact absurd hc (List.not_mem_nil call)

/-- Claim C14.  Transition scenario: for every task freshly added with a
table of `table_size` slots and a queue of at least 3 records and started,
for all valid slots `A` and `B`, after `mr_task_transition_state(A)` then
`mr_task_transition_state(B)` with no dispatch in between, a single
`mr_task_handle` with callbacks that make no state transition (so also with
callbacks that post nothing) returns, given fuel for the three queued records,
and invokes in this exact order: `A` with STATE_ENTER, `A` with STATE_EXIT, `B`
with STATE_ENTER, then `B` once with `MR_TASK_EVENT_SM`, and nothing else; each
invocation is made with the callback and argument of its slot. -/
theorem C14_transition_scenario (cfg : Bool) (cbs : mr_task_callbacks) (fuel : Nat)
    (task : mr_task) (table : List mr_task_table) (table_size queue_size : Nat)
    (pool : List Nat) (A B : Nat)
    (hsize : table_size ≠ 0 ∧ table_size ≤ 255) (htable : table.length = table_size)
    (hpool : pool.length = queue_size * 2) (hq : 3 ≤ queue_size)
    (hA : A < table_size) (hB : B < table_size)
    (hcb : mr_task_callbacks_no_transition cbs) (hf : 3 < fuel) :
    ∃ task2 : mr_task,
      mr_task_handle cfg cbs fuel
          (mr_task_transition_state cfg
            (mr_task_transition_state cfg
              (task_fresh task table table_size queue_size pool) A).1 B).1
        = some (task2,
            [⟨A, ((task_fresh task table table_size queue_size pool).table.getD A default).cb,
                ((task_fresh task table table_size queue_size pool).table.getD A default).args,
                MR_TASK_EVENT_SM_ENTER⟩,
             ⟨A, ((task_fresh task table table_size queue_size pool).table.getD A default).cb,
                ((task_fresh task table table_size queue_size pool).table.getD A default).args,
                MR_TASK_EVENT_SM_EXIT⟩,
             ⟨B, ((task_fresh task table table_size queue_size pool).table.getD B default).cb,
                ((task_fresh task table table_size queue_size pool).table.getD B default).args,
                MR_TASK_EVENT_SM_ENTER⟩,
             ⟨B, ((task_fresh task table table_size queue_size pool).table.getD B default).cb,
                ((task_fresh task table table_size queue_size pool).table.getD B default).args,
                MR_TASK_EVENT_SM⟩]) := by
  obtain ⟨hr0, a0, s0, t0, c0, d0, z0⟩ :=
    task_fresh_spec cfg task table table_size queue_size pool hsize htable hpool
  generalize task_fresh task table table_size queue_size pool = task0 at *
  have hinv0 := task_reachable_inv cfg task0 hr0
  have hA2 : A < 256 := by omega
  have hB2 : B < 256 := by omega
  obtain ⟨_, rA, smA, saA, aA, tA, tsA, zA, dA⟩ :=
    mr_task_transition_state_room cfg task0 A hinv0 a0 (by omega)
      (by rw [s0]; simp only [Bool.false_eq_true, if_false]
          unfold mr_fifo_get_space_size; omega)
  have hrA : task_reachable cfg (mr_task_transition_state cfg task0 A).1 :=
    task_reachable.transition_state task0 A hA2 hr0
  rw [s0] at rA dA
  simp only [Bool.false_eq_true, if_false, List.append_nil] at rA dA
  rw [c0] at rA
  generalize (mr_task_transition_state cfg task0 A).1 = taskA at *
  have hinvA := task_reachable_inv cfg taskA hrA
  obtain ⟨_, rB, smB, saB, aB, tB, tsB, zB, dB⟩ :=
    mr_task_transition_state_room cfg taskA B hinvA aA (by omega)
      (by rw [saA]; simp only [if_true]
          unfold mr_fifo_get_space_size; omega)
  have hrB : task_reachable cfg (mr_task_transition_state cfg taskA B).1 :=
    task_reachable.transition_state taskA B hB2 hrA
  rw [saA, smA] at rB
  rw [saA] at dB
  simp only [if_true] at rB dB
  rw [rA] at rB
  generalize (mr_task_transition_state cfg taskA B).1 = taskB at *
  have hinvB := task_reachable_inv cfg taskB hrB
  obtain ⟨task2, r⟩ := mr_task_handle_no_transition cfg cbs fuel taskB hinvB aB saB hcb
    (by unfold mr_rb_get_data_size; omega)
  rw [rB, smB, tB, tA] at r
  exact ⟨task2, r⟩

/-- Witness of claim C14: the example task with a queue of three records,
changing to state 0 and then to state 1; the second slot has the sentinel
callback installed by `mr_task_add`. -/
theorem C14_transition_scenario_witness :
    ∃ task2 : mr_task,
      mr_task_handle true task_example_callbacks 4
          (mr_task_transition_state true
            (mr_task_transition_state true
              (task_fresh task_example_blank task_example_table 2 3 [0, 0, 0, 0, 0, 0]) 0).1
            1).1
        = some (task2,
            [⟨0, ((task_fresh task_example_blank task_example_table 2 3
                  [0, 0, 0, 0, 0, 0]).table.getD 0 default).cb,
                ((task_fresh task_example_blank task_example_table 2 3
                  [0, 0, 0, 0, 0, 0]).table.getD 0 default).args,
                MR_TASK_EVENT_SM_ENTER⟩,
             ⟨0, ((task_fresh task_example_blank task_example_table 2 3
                  [0, 0, 0, 0, 0, 0]).table.getD 0 default).cb,
                ((task_fresh task_example_blank task_example_table 2 3
                  [0, 0, 0, 0, 0, 0]).table.getD 0 default).args,
                MR_TASK_EVENT_SM_EXIT⟩,
             ⟨1, ((task_fresh task_example_blank task_example_table 2 3
                  [0, 0, 0, 0, 0, 0]).table.getD 1 default).cb,
                ((task_fresh task_example_blank task_example_table 2 3
                  [0, 0, 0, 0, 0, 0]).table.getD 1 default).args,
                MR_TASK_EVENT_SM_ENTER⟩,
             ⟨1, ((task_fresh task_example_blank task_example_table 2 3
                  [0, 0, 0, 0, 0, 0]).table.getD 1 default).cb,
                ((task_fresh task_example_blank task_example_table 2 3
                  [0, 0, 0, 0, 0, 0]).table.getD 1 default).args,
                MR_TASK_EVENT_SM⟩]) :=
  C14_transition_scenario true task_example_callbacks 4 task_example_blank task_example_table
    2 3 [0, 0, 0, 0, 0, 0] 0 1 (by decide) (by decide) (by decide) (by decide) (by decide)
    (by decide) task_example_callbacks_no_transition (by decide)

/-- The example task ten ticks before the wrap is reachable. -/
theorem task_example_late_reachable : task_reachable true task_example_late :=
  task_reachable.update_tick { task_example with tick := 2147483646 } 1 2147483640 _
    (by decide)
    (task_reachable.update_tick task_example 1 2147483646 _ (by decide)
      (task_example_reachable true) (by decide))
    (by decide)

/-- Claim C17, evaluated at its failing input.  The example task, ten ticks
before the tick wraps (tick 4294967286), with slot 0 armed 5 ticks ahead
(deadline 4294967291) and then slot 1 armed 20 ticks ahead (deadline 10, past
the wrap), is reachable by `mr_task_timing` and `mr_task_update_tick` alone.
Its run list is slot 1 then slot 0: the signed distances to the deadlines are
20 then 5, not in ascending order.  Six ticks later slot 0 is overdue, and
`mr_task_update_tick` stops at slot 1 without expiring it. -/
theorem C17_run_list_wraparound_order :
    task_reachable true task_example_wrap ∧
    task_example_wrap.tick = 4294967286 ∧
    task_example_wrap.run = [1, 0] ∧
    task_example_wrap.run.map (task_deadline task_example_wrap.table) = [10, 4294967291] ∧
    task_run_distances task_example_wrap = [20, 5] ∧
    ¬ (task_run_distances task_example_wrap).Pairwise (fun a b => a ≤ b) ∧
    mr_task_update_tick true 3 task_example_wrap 6
      = some { task_example_wrap with tick := 4294967292 } :=
  ⟨task_reachable.timing _ 1 20 _ (by decide) (by decide)
      (task_reachable.timing _ 0 5 _ (by decide) (by decide) task_example_late_reachable),
    by decide, by decide, by decide, by decide, by decide, by decide⟩

/-- Claim C18, evaluated at its failing input.  The example task, ten ticks
before the tick wraps (tick 4294967286), with slot 0 armed 5 ticks ahead: the
run list is slot 0 with the deadline 4294967291.  Slot 1 is armed 20 ticks
ahead, so its deadline is `(4294967286 + 20) mod 2^32 = 10`.  Under the
wraparound comparator the deadline of slot 0 is not strictly greater than 10
(it is 15 ticks earlier), so there is no node to insert before and the
insertion point of the specification is the tail: slot 0, slot 1.
`mr_task_timing` links slot 1 in before slot 0, because it compares the stored
values and `10 < 4294967291`.  Away from the wrap, at tick 0, the same two
calls put slot 1 behind slot 0. -/
theorem C18_insertion_point_at_wrap :
    task_reachable true
      (mr_task_timing task_example_late 0 5 mr_task_timing_flag.MR_TASK_TIMING_FLAG_ONESHOT).1 ∧
    (mr_task_timing task_example_late 0 5
      mr_task_timing_flag.MR_TASK_TIMING_FLAG_ONESHOT).1.tick = 4294967286 ∧
    (mr_task_timing task_example_late 0 5
      mr_task_timing_flag.MR_TASK_TIMING_FLAG_ONESHOT).1.run = [0] ∧
    task_deadline (mr_task_timing task_example_late 0 5
      mr_task_timing_flag.MR_TASK_TIMING_FLAG_ONESHOT).1.table 0 = 4294967291 ∧
    (4294967286 + 20) % 4294967296 = 10 ∧
    spec_deadline_greater 4294967291 10 = false ∧
    spec_deadline_greater 10 4294967291 = true ∧
    spec_run_insert (mr_task_timing task_example_late 0 5
      mr_task_timing_flag.MR_TASK_TIMING_FLAG_ONESHOT).1.table 1 10 [0] = [0, 1] ∧
    (mr_task_timing
      (mr_task_timing task_example_late 0 5
        mr_task_timing_flag.MR_TASK_TIMING_FLAG_ONESHOT).1
      1 20 mr_task_timing_flag.MR_TASK_TIMING_FLAG_ONESHOT).1.run = [1, 0] ∧
    (mr_task_timing
      (mr_task_timing task_example 0 5 mr_task_timing_flag.MR_TASK_TIMING_FLAG_ONESHOT).1
      1 20 mr_task_timing_flag.MR_TASK_TIMING_FLAG_ONESHOT).1.run = [0, 1] :=
  ⟨task_reachable.timing _ 0 5 _ (by decide) (by decide) task_example_late_reachable,
    by decide, by decide, by decide, by decide, by decide, by decide, by decide, by decide,
    by decide⟩

/-- Claim C20, as the code has it.  Due test: when the scan loop of
`mr_task_update_tick` examines the head `node` of the run list, with deadline
`A`, at the updated tick `T`, on an active task satisfying the invariants of
reachable states, it treats the node as due exactly when
`(T - A) mod 2^32 < 2^31 - 1` (`MR_UINT32_MAX / 2`; the difference is computed
as `(T + 2^32 - A) mod 2^32`).  A due node is detached, the event
`MR_TASK_EVENT_TIMING` is posted to its slot (appended to the queue when
there is room), the slot is re-armed with its interval, and the scan goes on;
otherwise the scan stops and leaves the task as it is. -/
theorem C20_due_test (cfg : Bool) (task : mr_task) (curr_tick fuel node : Nat)
    (rest : List Nat) (hinv : task_inv task) (hri : task_run_inv task)
    (ha : task.active = true) (hrun : task.run = node :: rest) :
    ((curr_tick + 4294967296 - task_deadline task.table node) % 4294967296 < 2147483647 →
      mr_task_update_tick_loop cfg curr_tick (fuel + 1) task
        = mr_task_update_tick_loop cfg curr_tick fuel
            (mr_task_timing
              (mr_task_post_event cfg { task with run := rest } node MR_TASK_EVENT_TIMING).1
              node (task.table.getD node default).interval
              mr_task_timing_flag.MR_TASK_TIMING_FLAG_PERIODIC).1 ∧
      node ∉ rest ∧
      (mr_task_post_event cfg { task with run := rest } node MR_TASK_EVENT_TIMING).1.run
        = rest ∧
      (2 ≤ mr_fifo_get_space_size task.queue →
        fifo_contents
            (mr_task_post_event cfg { task with run := rest } node MR_TASK_EVENT_TIMING).1.queue
          = fifo_contents task.queue ++ [MR_TASK_EVENT_TIMING, node])) ∧
    (¬ (curr_tick + 4294967296 - task_deadline task.table node) % 4294967296 < 2147483647 →
      mr_task_update_tick_loop cfg curr_tick (fuel + 1) task = some task) := by
  obtain ⟨hnd, hlt⟩ := hri
  rw [hrun] at hnd hlt
  have hn : node < task.table_size := hlt node (List.mem_cons_self _ _)
  have hn2 : node % 256 = node := Nat.mod_eq_of_lt (by have := hinv.2.1.2.1; omega)
  have hmax : MR_UINT32_MAX / 2 = 2147483647 := by decide
  constructor
  · intro hdue
    refine ⟨?_, (List.nodup_cons.mp hnd).1,
      (mr_task_post_event_fields cfg _ node MR_TASK_EVENT_TIMING).2.2.2.2.2.1, ?_⟩
    · rw [mr_task_update_tick_loop, hrun]
      simp only []
      unfold task_deadline at hdue
      rw [if_neg (by rw [hmax]; omega), hn2,
        (mr_task_post_event_fields cfg { task with run := rest } node
          MR_TASK_EVENT_TIMING).2.2.2.2.2.2.1]
    · intro hroom
      have hinv2 : task_inv { task with run := rest } := ⟨hinv.1, hinv.2.1, hinv.2.2⟩
      obtain ⟨queue2, p1, p2, _⟩ := mr_task_post_event_room cfg { task with run := rest } node
        MR_TASK_EVENT_TIMING hinv2 hn ha (by decide) hroom
      rw [p1]
      exact p2
  · intro hnot
    rw [mr_task_update_tick_loop, hrun]
    simp only []
    unfold task_deadline at hnot
    rw [if_pos (by rw [hmax]; omega)]

/-- Witness of claim C20: the armed example task at the tick of its deadline;
the head of the run list, slot 0, is due. -/
theorem C20_due_test_witness :
    task_inv task_example_due ∧ task_run_inv task_example_due ∧
    task_example_due.active = true ∧ task_example_due.run = [0] ∧
    (7 + 4294967296 - task_deadline task_example_due.table 0) % 4294967296 < 2147483647 ∧
    ((7 + 4294967296 - task_deadline task_example_due.table 0) % 4294967296 < 2147483647 →
      mr_task_update_tick_loop true 7 (1 + 1) task_example_due
        = mr_task_update_tick_loop true 7 1
            (mr_task_timing
              (mr_task_post_event true { task_example_due with run := [] } 0
                MR_TASK_EVENT_TIMING).1
              0 (task_example_due.table.getD 0 default).interval
              mr_task_timing_flag.MR_TASK_TIMING_FLAG_PERIODIC).1 ∧
      0 ∉ ([] : List Nat) ∧
      (mr_task_post_event true { task_example_due with run := [] } 0
          MR_TASK_EVENT_TIMING).1.run = [] ∧
      (2 ≤ mr_fifo_get_space_size task_example_due.queue →
        fifo_contents
            (mr_task_post_event true { task_example_due with run := [] } 0
              MR_TASK_EVENT_TIMING).1.queue
          = fifo_contents task_example_due.queue ++ [MR_TASK_EVENT_TIMING, 0])) ∧
    (¬ (7 + 4294967296 - task_deadline task_example_due.table 0) % 4294967296 < 2147483647 →
      mr_task_update_tick_loop true 7 (1 + 1) task_example_due = some task_example_due) :=
  ⟨⟨(task_reachable_inv true _ (task_example_armed_reachable true)).1,
      (task_reachable_inv true _ (task_example_armed_reachable true)).2.1,
      (task_reachable_inv true _ (task_example_armed_reachable true)).2.2⟩,
    ⟨(task_reachable_run_inv true task_example_armed (task_example_armed_reachable true)).1,
      (task_reachable_run_inv true task_example_armed (task_example_armed_reachable true)).2⟩,
    by decide, by decide, by decide,
    C20_due_test true task_example_due 7 1 0 []
      ⟨(task_reachable_inv true _ (task_example_armed_reachable true)).1,
        (task_reachable_inv true _ (task_example_armed_reachable true)).2.1,
        (task_reachable_inv true _ (task_example_armed_reachable true)).2.2⟩
      ⟨(task_reachable_run_inv true task_example_armed (task_example_armed_reachable true)).1,
      (task_reachable_run_inv true task_example_armed (task_example_armed_reachable true)).2⟩
      (by decide) (by decide)⟩

/-- Counterexample to claim C20 as stated: the example task with slot 0 armed
2147483650 ticks ahead, one tick later.  The difference `(T - A) mod 2^32` is
2147483647, below `2^31`, and `mr_task_update_tick` does not treat the node as
due: the run list and the queue are as before. -/
theorem C20_not_due_at_half_range :
    task_reachable true task_example_far ∧
    task_example_far.active = true ∧
    task_example_far.tick = 0 ∧
    task_example_far.run = [0] ∧
    task_deadline task_example_far.table 0 = 2147483650 ∧
    (1 + 4294967296 - task_deadline task_example_far.table 0) % 4294967296 = 2147483647 ∧
    (1 + 4294967296 - task_deadline task_example_far.table 0) % 4294967296 < 2147483648 ∧
    mr_task_update_tick true 2 task_example_far 1 = some { task_example_far with tick := 1 } :=
  ⟨task_reachable.timing _ 0 2147483650 _ (by decide) (by decide) (task_example_reachable true),
    by decide, by decide, by decide, by decide, by decide, by decide, by decide⟩

/-! ## Task scheduler: table lookups, registration and removal -/

/-- The records of queue bytes that name valid slots at the odd positions name
valid slots. -/
theorem task_queue_records_valid (table_size n : Nat) :
    ∀ bytes : List Nat, bytes.length = 2 * n →
      (∀ k : Nat, 2 * k + 1 < bytes.length → bytes.getD (2 * k + 1) 0 < table_size) →
      (∀ byte ∈ bytes, byte < 256) →
      ∀ r ∈ task_queue_records bytes, r.1 < table_size ∧ r.2 < 256 := by
  induction n with
  | zero =>
    intro bytes hl _ _ r hr
    have : bytes = [] := List.eq_nil_of_length_eq_zero hl
    subst this
    simp [task_queue_records] at hr
  | succ n ih =>
    intro bytes hl hrec hbyte r hr
    match bytes, hl, hrec, hbyte, hr with
    | [], hl, _, _, _ => simp only [List.length_nil] at hl; omega
    | [_], hl, _, _, _ => simp only [List.length_singleton] at hl; omega
    | a :: b :: rest, hl, hrec, hbyte, hr =>
      simp only [List.length_cons] at hl
      have ha : a < 256 := hbyte a (List.mem_cons_self _ _)
      have hb : b < 256 := hbyte b (List.mem_cons_of_mem _ (List.mem_cons_self _ _))
      have hb2 : b < table_size := by
        have := hrec 0 (by simp only [List.length_cons]; omega)
        simpa using this
      rw [task_queue_records_cons a b rest ha hb, List.mem_cons] at hr
      rcases hr with rfl | hr
      · exact ⟨hb2, ha⟩
      · refine ih rest (by omega) ?_ ?_ r hr
        · intro k hk
          have := hrec (k + 1) (by simp only [List.length_cons]; omega)
          have e : 2 * (k + 1) + 1 = (2 * k + 1) + 1 + 1 := by omega
          rw [e, List.getD_cons_succ, List.getD_cons_succ] at this
          exact this
        · intro byte hm
          exact hbyte byte (List.mem_cons_of_mem _ (List.mem_cons_of_mem _ hm))

/-- Under the task invariant every queued record names a slot of the table and
carries an 8-bit event code. -/
theorem task_inv_records_valid (task : mr_task) (h : task_inv task) :
    ∀ r ∈ task_queue_records (fifo_contents task.queue),
      r.1 < task.table_size ∧ r.2 < 256 := by
  obtain ⟨⟨hwf, _, hev, hrec, hbyte⟩, _, _⟩ := h
  have hlen := fifo_contents_length task.queue hwf
  exact task_queue_records_valid task.table_size (mr_fifo_get_data_size task.queue / 2)
    (fifo_contents task.queue) (by omega) hrec hbyte

/-- The slot `index` of the table installed by `mr_task_add`. -/
theorem mr_task_add_slot (task : mr_task) (table : List mr_task_table)
    (table_size queue_size : Nat) (pool : List Nat) (object_add : mr_err_t) (index : Nat)
    (htable : table.length = table_size) (hi : index < table_size) :
    (mr_task_add task table table_size queue_size (some pool) object_add).1.table.getD
        index default
      = { table.getD index default with
          cb := if (table.getD index default).cb = mr_task_cb.null
                then mr_task_cb.err_io_task_cb else (table.getD index default).cb } := by
  have hlt : index < table.length := by omega
  simp only [mr_task_add]
  rw [List.take_of_length_le (by omega), List.drop_of_length_le (by omega), List.append_nil,
    List.getD_eq_getElem?_getD, List.getD_eq_getElem?_getD, List.getElem?_map,
    List.getElem?_eq_getElem hlt]
  rfl

/-- Claim C24.  While the task is stopped, `mr_task_update_tick` and
`mr_task_handle` are no-ops: for every task state with `active` disabled,
every `delta` and all callbacks, `mr_task_update_tick` returns at once with
the task unchanged (tick counter, run list, slot timing state, event queue,
current event, state-machine fields and all), and `mr_task_handle` returns at
once with the task unchanged and no callback invoked. -/
theorem C24_stopped_no_op (cfg : Bool) (cbs : mr_task_callbacks) (fuel : Nat) (task : mr_task)
    (delta : Nat) (hs : task.active = false) :
    mr_task_update_tick cfg fuel task delta = some task ∧
    mr_task_handle cfg cbs fuel task = some (task, []) := by
  constructor
  · rw [mr_task_update_tick, if_pos hs]
  · rw [mr_task_handle, if_pos hs]

/-- Witness of claim C24: the example task, armed and then stopped, with a tick
that passes the deadline. -/
theorem C24_stopped_no_op_witness :
    (mr_task_stop task_example_armed).1.active = false ∧
    (mr_task_stop task_example_armed).1.run = [0] ∧
    mr_task_update_tick true 0 (mr_task_stop task_example_armed).1 100
      = some (mr_task_stop task_example_armed).1 ∧
    mr_task_handle true task_example_repost 0 (mr_task_stop task_example_armed).1
      = some ((mr_task_stop task_example_armed).1, []) :=
  ⟨by decide, by decide,
    C24_stopped_no_op true task_example_repost 0 (mr_task_stop task_example_armed).1 100
      (by decide)⟩

/-- Claim C25.  `mr_task_timing` and `mr_task_transition_state` validate before
acting: for every task state, each returns INVALID when
`index >= table_size`, otherwise the not-active failure (`-MR_ERR_GENERIC`)
when the task is stopped; in both failure cases the task is returned as it
was, so the run list, the slot timing fields, the event queue, `sm` and
`sm_active` are unchanged. -/
theorem C25_timing_transition_validate (cfg : Bool) (task : mr_task) (index tick : Nat)
    (flag : mr_task_timing_flag) :
    (task.table_size ≤ index →
      mr_task_timing task index tick flag = (task, mr_err_t.MR_ERR_INVALID) ∧
      mr_task_transition_state cfg task index = (task, mr_err_t.MR_ERR_INVALID)) ∧
    (index < task.table_size → task.active = false →
      mr_task_timing task index tick flag = (task, mr_err_t.MR_ERR_GENERIC) ∧
      mr_task_transition_state cfg task index = (task, mr_err_t.MR_ERR_GENERIC)) := by
  constructor
  · intro hi
    constructor
    · rw [mr_task_timing, if_pos hi]
    · rw [mr_task_transition_state, if_pos hi]
  · intro hi hs
    constructor
    · rw [mr_task_timing, if_neg (by omega), if_pos hs]
    · rw [mr_task_transition_state, if_neg (by omega), if_pos hs]

/-- Witness of claim C25: slot 5 of the two-slot example task, and slot 0 of the
armed example task once stopped. -/
theorem C25_timing_transition_validate_witness :
    (mr_task_timing task_example 5 3 mr_task_timing_flag.MR_TASK_TIMING_FLAG_ONESHOT
        = (task_example, mr_err_t.MR_ERR_INVALID) ∧
      mr_task_transition_state true task_example 5 = (task_example, mr_err_t.MR_ERR_INVALID)) ∧
    (mr_task_timing (mr_task_stop task_example_armed).1 0 3
          mr_task_timing_flag.MR_TASK_TIMING_FLAG_ONESHOT
        = ((mr_task_stop task_example_armed).1, mr_err_t.MR_ERR_GENERIC) ∧
      mr_task_transition_state true (mr_task_stop task_example_armed).1 0
        = ((mr_task_stop task_example_armed).1, mr_err_t.MR_ERR_GENERIC)) :=
  ⟨(C25_timing_transition_validate true task_example 5 3
      mr_task_timing_flag.MR_TASK_TIMING_FLAG_ONESHOT).1 (by decide),
    (C25_timing_transition_validate true (mr_task_stop task_example_armed).1 0 3
      mr_task_timing_flag.MR_TASK_TIMING_FLAG_ONESHOT).2 (by decide) (by decide)⟩

/-- Claim C26.  Table lookups are always in bounds: in every task state
reachable from a successful add via start, stop, post_event, timing,
update_tick, transition_state and handle, every 2-byte record in the event
queue decodes to a slot index below `table_size`, the table has `table_size`
entries, and `sm_active` implies `sm < table_size`; hence `mr_task_handle`,
whatever the callbacks do, returns (given fuel for the queued records) and
every invocation it makes is of a slot below `table_size`. -/
theorem C26_table_lookups_in_bounds (cfg : Bool) (task : mr_task)
    (h : task_reachable cfg task) :
    (∀ r ∈ task_queue_records (fifo_contents task.queue), r.1 < task.table_size) ∧
    (task.sm_active = true → task.sm < task.table_size) ∧
    task.table.length = task.table_size ∧
    ∀ (cbs : mr_task_callbacks) (fuel : Nat),
      mr_rb_get_data_size task.queue / 2 < fuel →
      ∃ (task2 : mr_task) (invoked : List mr_task_invocation),
        mr_task_handle cfg cbs fuel task = some (task2, invoked) ∧
        ∀ v ∈ invoked, v.index < task.table_size := by
  have hinv := task_reachable_inv cfg task h
  have hrec := task_inv_records_valid task hinv
  refine ⟨fun r hr => (hrec r hr).1, hinv.2.2, hinv.2.1.2.2.1, ?_⟩
  intro cbs fuel hf
  by_cases ha : task.active = true
  · obtain ⟨task1, queue_driven, posted1, l1, l2, l3, l4, l5, l6, l7, _, l9, _⟩ :=
      mr_task_handle_loop_snapshot cfg cbs fuel task hinv hf
    obtain ⟨hsm1, hsm2⟩ := mr_task_handle_sm_call cfg cbs fuel task task1 queue_driven posted1
      ha l7 l6 l1 l2
    have hq : ∀ v ∈ queue_driven, v.index < task.table_size := by
      intro v hv
      have hm : (v.index, v.event) ∈ task_queue_records (fifo_contents task.queue) := by
        rw [← l3]
        exact List.mem_map_of_mem (fun v => (v.index, v.event)) hv
      exact (hrec _ hm).1
    by_cases hsm : task1.sm_active = true
    · obtain ⟨task2, _, r1, _, _, _⟩ := hsm1 hsm
      refine ⟨task2, _, r1, ?_⟩
      intro v hv
      rcases List.mem_append.mp hv with hv | hv
      · exact hq v hv
      · rw [List.mem_singleton] at hv
        rw [hv, ← l9]
        exact l7.2.2 hsm
    · exact ⟨task1, queue_driven, (hsm2 hsm).1, hq⟩
  · refine ⟨task, [], ?_, fun v hv => absurd hv (List.not_mem_nil v)⟩
    rw [mr_task_handle, if_pos (by simpa using ha)]

/-- Witness of claim C26: the example task with a record queued; the dispatch
invokes slot 0 only. -/
theorem C26_table_lookups_in_bounds_witness :
    task_reachable true task_example_queued ∧
    task_queue_records (fifo_contents task_example_queued.queue) = [(0, 5)] ∧
    (∀ r ∈ task_queue_records (fifo_contents task_example_queued.queue),
      r.1 < task_example_queued.table_size) ∧
    (task_example_queued.sm_active = true →
      task_example_queued.sm < task_example_queued.table_size) ∧
    task_example_queued.table.length = task_example_queued.table_size ∧
    ∀ (cbs : mr_task_callbacks) (fuel : Nat),
      mr_rb_get_data_size task_example_queued.queue / 2 < fuel →
      ∃ (task2 : mr_task) (invoked : List mr_task_invocation),
        mr_task_handle true cbs fuel task_example_queued = some (task2, invoked) ∧
        ∀ v ∈ invoked, v.index < task_example_queued.table_size :=
  ⟨task_example_queued_reachable, by decide,
    C26_table_lookups_in_bounds true task_example_queued task_example_queued_reachable⟩

/-- Claim C28.  Null-callback guard: after `mr_task_add` on a table of
`table_size` slots, every slot of the table has a non-null callback: a slot
that had no callback has the sentinel `err_io_task_cb`, whose result is the IO
failure (`-MR_ERR_IO`) whatever its arguments; a slot that had a callback
keeps it; the argument and the timing fields of every slot are unchanged.  So
invoking the callback of a slot, as the dispatch does, never goes through a
null pointer. -/
theorem C28_null_callback_guard (cfg : Bool) (cbs : mr_task_callbacks)
    (invoked : List mr_task_invocation) (task : mr_task) (table : List mr_task_table)
    (table_size queue_size : Nat) (pool : List Nat) (object_add : mr_err_t) (index : Nat)
    (htable : table.length = table_size) (hi : index < table_size) :
    ((mr_task_add task table table_size queue_size (some pool) object_add).1.table.getD
        index default).cb ≠ mr_task_cb.null ∧
    ((table.getD index default).cb = mr_task_cb.null →
      ((mr_task_add task table table_size queue_size (some pool) object_add).1.table.getD
          index default).cb = mr_task_cb.err_io_task_cb) ∧
    ((table.getD index default).cb ≠ mr_task_cb.null →
      (mr_task_add task table table_size queue_size (some pool) object_add).1.table.getD
          index default = table.getD index default) ∧
    ((mr_task_add task table table_size queue_size (some pool) object_add).1.table.getD
        index default).args = (table.getD index default).args ∧
    ((mr_task_add task table table_size queue_size (some pool) object_add).1.table.getD
        index default).interval = (table.getD index default).interval ∧
    ((mr_task_add task table table_size queue_size (some pool) object_add).1.table.getD
        index default).timeout = (table.getD index default).timeout ∧
    err_io_task_cb_result = mr_err_t.MR_ERR_IO ∧
    (mr_task_invoke cfg cbs invoked
      (mr_task_add task table table_size queue_size (some pool) object_add).1
      index).isSome = true := by
  have hslot := mr_task_add_slot task table table_size queue_size pool object_add index
    htable hi
  have hlen : (mr_task_add task table table_size queue_size (some pool)
      object_add).1.table.length = table_size := by
    simp only [mr_task_add, List.length_append, List.length_map, List.length_take,
      List.length_drop]
    omega
  have hget : (mr_task_add task table table_size queue_size (some pool)
      object_add).1.table.get? index
      = some ((mr_task_add task table table_size queue_size (some pool)
          object_add).1.table.getD index default) := by
    rw [List.get?_eq_getElem?, List.getD_eq_getElem?_getD,
      List.getElem?_eq_getElem (by omega)]
    rfl
  have hnn : ((mr_task_add task table table_size queue_size (some pool)
      object_add).1.table.getD index default).cb ≠ mr_task_cb.null := by
    rw [hslot]
    simp only []
    split_ifs with hn
    · decide
    · exact hn
  refine ⟨hnn, ?_, ?_, by rw [hslot], by rw [hslot], by rw [hslot], rfl, ?_⟩
  · intro hn
    rw [hslot]
    simp only []
    rw [if_pos hn]
  · intro hn
    rw [hslot]
    simp only []
    rw [if_neg hn]
  · unfold mr_task_invoke
    rw [hget]
    simp only []
    cases hc : ((mr_task_add task table table_size queue_size (some pool)
        object_add).1.table.getD index default).cb with
    | null => exact absurd hc hnn
    | err_io_task_cb => rfl
    | user id => rfl

/-- Witness of claim C28: slot 1 of the example table, which has no callback. -/
theorem C28_null_callback_guard_witness :
    task_example_table.length = 2 ∧
    (task_example_table.getD 1 default).cb = mr_task_cb.null ∧
    ((mr_task_add task_example_blank task_example_table 2 2 (some [0, 0, 0, 0])
        mr_err_t.MR_ERR_OK).1.table.getD 1 default).cb ≠ mr_task_cb.null ∧
    ((task_example_table.getD 1 default).cb = mr_task_cb.null →
      ((mr_task_add task_example_blank task_example_table 2 2 (some [0, 0, 0, 0])
          mr_err_t.MR_ERR_OK).1.table.getD 1 default).cb = mr_task_cb.err_io_task_cb) ∧
    ((task_example_table.getD 1 default).cb ≠ mr_task_cb.null →
      (mr_task_add task_example_blank task_example_table 2 2 (some [0, 0, 0, 0])
          mr_err_t.MR_ERR_OK).1.table.getD 1 default = task_example_table.getD 1 default) ∧
    ((mr_task_add task_example_blank task_example_table 2 2 (some [0, 0, 0, 0])
        mr_err_t.MR_ERR_OK).1.table.getD 1 default).args
      = (task_example_table.getD 1 default).args ∧
    ((mr_task_add task_example_blank task_example_table 2 2 (some [0, 0, 0, 0])
        mr_err_t.MR_ERR_OK).1.table.getD 1 default).interval
      = (task_example_table.getD 1 default).interval ∧
    ((mr_task_add task_example_blank task_example_table 2 2 (some [0, 0, 0, 0])
        mr_err_t.MR_ERR_OK).1.table.getD 1 default).timeout
      = (task_example_table.getD 1 default).timeout ∧
    err_io_task_cb_result = mr_err_t.MR_ERR_IO ∧
    (mr_task_invoke true task_example_callbacks []
      (mr_task_add task_example_blank task_example_table 2 2 (some [0, 0, 0, 0])
        mr_err_t.MR_ERR_OK).1 1).isSome = true :=
  ⟨by decide, by decide,
    C28_null_callback_guard true task_example_callbacks [] task_example_blank
      task_example_table 2 2 [0, 0, 0, 0] mr_err_t.MR_ERR_OK 1 (by decide) (by decide)⟩

/-- Claim C29, as the code has it.  Failures of `mr_task_add`.  When the
allocation fails the function returns NO_MEMORY, the task is as before the
call and nothing is freed.  When the registry refuses the object, the error of
the registry is the result and the memory allocated for the queue is handed
to `mr_free` (which a successful call does not do); but the call is not
undone: the fields `active`, `sm_active`, `usage_max`, `event`, `sm` and `tick`
are reset, the run list is empty, the table and its size are set as by a
successful call, and the slots of the table that had no callback have the
sentinel. -/
theorem C29_add_failure (task : mr_task) (table : List mr_task_table)
    (table_size queue_size : Nat) (pool : List Nat) (object_add : mr_err_t)
    (hfail : object_add ≠ mr_err_t.MR_ERR_OK) :
    mr_task_add task table table_size queue_size none object_add
      = (task, mr_err_t.MR_ERR_NO_MEMORY) ∧
    mr_task_add_freed none object_add = none ∧
    (mr_task_add task table table_size queue_size (some pool) object_add).2 = object_add ∧
    mr_task_add_freed (some pool) object_add = some pool ∧
    mr_task_add_freed (some pool) mr_err_t.MR_ERR_OK = none ∧
    (mr_task_add task table table_size queue_size (some pool) object_add).1.active = false ∧
    (mr_task_add task table table_size queue_size (some pool) object_add).1.sm_active
      = false ∧
    (mr_task_add task table table_size queue_size (some pool) object_add).1.usage_max = 0 ∧
    (mr_task_add task table table_size queue_size (some pool) object_add).1.event = 0 ∧
    (mr_task_add task table table_size queue_size (some pool) object_add).1.sm = 0 ∧
    (mr_task_add task table table_size queue_size (some pool) object_add).1.tick = 0 ∧
    (mr_task_add task table table_size queue_size (some pool) object_add).1.run = [] ∧
    (mr_task_add task table table_size queue_size (some pool) object_add).1.table_size
      = table_size ∧
    (mr_task_add task table table_size queue_size (some pool) object_add).1.table
      = (mr_task_add task table table_size queue_size (some pool)
          mr_err_t.MR_ERR_OK).1.table ∧
    ∀ slot ∈ (mr_task_add task table table_size queue_size (some pool)
        object_add).1.table.take table_size, slot.cb ≠ mr_task_cb.null := by
  refine ⟨rfl, rfl, rfl, ?_, ?_, rfl, rfl, rfl, rfl, rfl, rfl, rfl, rfl, rfl, ?_⟩
  · simp only [mr_task_add_freed]
    rw [if_pos hfail]
  · simp [mr_task_add_freed]
  · intro slot hs
    simp only [mr_task_add] at hs
    have hsub := List.mem_of_mem_take hs
    rw [List.mem_append] at hsub
    rcases hsub with hm | hd
    · rw [List.mem_map] at hm
      obtain ⟨slot0, _, rfl⟩ := hm
      simp only []
      split_ifs with hnull
      · decide
      · exact hnull
    · by_cases hle : table.length ≤ table_size
      · rw [List.drop_of_length_le hle] at hd
        exact absurd hd (List.not_mem_nil slot)
      · rw [List.take_append_of_le_length (by
          rw [List.length_map, List.length_take]; omega)] at hs
        have hm := List.mem_of_mem_take hs
        rw [List.mem_map] at hm
        obtain ⟨slot0, _, rfl⟩ := hm
        simp only []
        split_ifs with hnull
        · decide
        · exact hnull

/-- Witness of claim C29: `mr_task_add` on the blank example task with the
registry refusing the object: the memory is freed and slot 1 has the sentinel. -/
theorem C29_add_failure_witness :
    mr_err_t.MR_ERR_GENERIC ≠ mr_err_t.MR_ERR_OK ∧
    mr_task_add_freed (some [0, 0, 0, 0]) mr_err_t.MR_ERR_GENERIC = some [0, 0, 0, 0] ∧
    (mr_task_add task_example_blank task_example_table 2 2 (some [0, 0, 0, 0])
        mr_err_t.MR_ERR_GENERIC).1.table.map (fun slot => slot.cb)
      = [mr_task_cb.user 0, mr_task_cb.err_io_task_cb] :=
  ⟨by decide,
    (C29_add_failure task_example_blank task_example_table 2 2 [0, 0, 0, 0]
      mr_err_t.MR_ERR_GENERIC (by decide)).2.2.2.1,
    by decide⟩

/-- Counterexample to claim C29 as stated: `mr_task_add` on the blank example
task with the example table, the memory granted and the registry refusing the
object.  The error is returned, and the task is not as before: the table has
the sentinel in slot 1, and the queue, which had no storage, describes 4 bytes
of storage, the very memory that has been handed to `mr_free`.
(`mr_task_remove`, which frees the storage of the queue as well, initialises
the queue anew with no storage.) -/
theorem C29_add_failure_not_atomic :
    (mr_task_add task_example_blank task_example_table 2 2 (some [0, 0, 0, 0])
        mr_err_t.MR_ERR_GENERIC).2 = mr_err_t.MR_ERR_GENERIC ∧
    (mr_task_add task_example_blank task_example_table 2 2 (some [0, 0, 0, 0])
        mr_err_t.MR_ERR_GENERIC).1 ≠ task_example_blank ∧
    task_example_table.map (fun slot => slot.cb) = [mr_task_cb.user 0, mr_task_cb.null] ∧
    (mr_task_add task_example_blank task_example_table 2 2 (some [0, 0, 0, 0])
        mr_err_t.MR_ERR_GENERIC).1.table.map (fun slot => slot.cb)
      = [mr_task_cb.user 0, mr_task_cb.err_io_task_cb] ∧
    mr_rb_get_buffer_size task_example_blank.queue = 0 ∧
    mr_rb_get_buffer_size
        (mr_task_add task_example_blank task_example_table 2 2 (some [0, 0, 0, 0])
          mr_err_t.MR_ERR_GENERIC).1.queue = 4 ∧
    (mr_task_add task_example_blank task_example_table 2 2 (some [0, 0, 0, 0])
        mr_err_t.MR_ERR_GENERIC).1.queue.buffer = [0, 0, 0, 0] ∧
    mr_task_add_freed (some [0, 0, 0, 0]) mr_err_t.MR_ERR_GENERIC = some [0, 0, 0, 0] ∧
    (mr_task_remove
        (mr_task_add task_example_blank task_example_table 2 2 (some [0, 0, 0, 0])
          mr_err_t.MR_ERR_OK).1 mr_err_t.MR_ERR_OK).1.queue = mr_rb_init [] 0 :=
  ⟨by decide, by decide, by decide, by decide, by decide, by decide, by decide, by decide,
    by decide⟩

/-- Claim C30.  `mr_task_remove`: when the registry removal succeeds it returns
OK and resets the task to its initial values: inactive, state machine
inactive, `sm`, `event`, `tick` and usage peak 0, the queue empty with capacity
0, the run list empty, no table and `table_size` 0.  When the registry removal
fails it returns that error and leaves every field of the task unchanged. -/
theorem C30_remove (task : mr_task) (object_remove : mr_err_t) :
    (mr_task_remove task mr_err_t.MR_ERR_OK).2 = mr_err_t.MR_ERR_OK ∧
    (mr_task_remove task mr_err_t.MR_ERR_OK).1
      = { active := false, sm_active := false, usage_max := 0, event := 0, sm := 0, tick := 0,
          queue := mr_rb_init [] 0, run := [], table := [], table_size := 0 } ∧
    fifo_contents (mr_task_remove task mr_err_t.MR_ERR_OK).1.queue = [] ∧
    mr_rb_get_data_size (mr_task_remove task mr_err_t.MR_ERR_OK).1.queue = 0 ∧
    mr_rb_get_buffer_size (mr_task_remove task mr_err_t.MR_ERR_OK).1.queue = 0 ∧
    (object_remove ≠ mr_err_t.MR_ERR_OK →
      mr_task_remove task object_remove = (task, object_remove)) := by
  refine ⟨rfl, rfl, rfl, rfl, rfl, ?_⟩
  intro he
  rw [mr_task_remove, if_pos he]

/-- Witness of claim C30: removing the example task with a record queued, with
the registry accepting and with the registry refusing the removal. -/
theorem C30_remove_witness :
    mr_err_t.MR_ERR_GENERIC ≠ mr_err_t.MR_ERR_OK ∧
    (mr_task_remove task_example_queued mr_err_t.MR_ERR_OK).1.table_size = 0 ∧
    mr_task_remove task_example_queued mr_err_t.MR_ERR_GENERIC
      = (task_example_queued, mr_err_t.MR_ERR_GENERIC) :=
  ⟨by decide, by decide,
    (C30_remove task_example_queued mr_err_t.MR_ERR_GENERIC).2.2.2.2.2 (by decide)⟩

/-! ## Task scheduler: the scan loop of `mr_task_update_tick` -/

/-- The scan loop on an empty run list. -/
theorem mr_task_update_tick_loop_nil (cfg : Bool) (curr_tick fuel : Nat) (task : mr_task)
    (hrun : task.run = []) :
    mr_task_update_tick_loop cfg curr_tick (fuel + 1) task = some task := by
  rw [mr_task_update_tick_loop, hrun]

/-- The scan loop on a run list whose head is not due. -/
theorem mr_task_update_tick_loop_not_due (cfg : Bool) (curr_tick fuel : Nat) (task : mr_task)
    (node : Nat) (rest : List Nat) (hrun : task.run = node :: rest)
    (hnot : 2147483647
      ≤ (curr_tick + 4294967296 - task_deadline task.table node) % 4294967296) :
    mr_task_update_tick_loop cfg curr_tick (fuel + 1) task = some task := by
  have hmax : MR_UINT32_MAX / 2 = 2147483647 := by decide
  rw [mr_task_update_tick_loop, hrun]
  simp only []
  unfold task_deadline at hnot
  rw [if_pos (by rw [hmax]; exact hnot)]

/-- The scan loop on a run list whose head is due. -/
theorem mr_task_update_tick_loop_due (cfg : Bool) (curr_tick fuel : Nat) (task : mr_task)
    (node : Nat) (rest : List Nat) (hrun : task.run = node :: rest)
    (hdue : (curr_tick + 4294967296 - task_deadline task.table node) % 4294967296
      < 2147483647) :
    mr_task_update_tick_loop cfg curr_tick (fuel + 1) task
      = mr_task_update_tick_loop cfg curr_tick fuel
          (mr_task_update_tick_fire cfg task node rest) := by
  have hmax : MR_UINT32_MAX / 2 = 2147483647 := by decide
  rw [mr_task_update_tick_loop, hrun]
  simp only []
  unfold task_deadline at hdue
  rw [if_neg (by rw [hmax]; omega)]
  rfl

/-- What firing the head of the run list does, on an active task satisfying
the invariants. -/
theorem mr_task_update_tick_fire_spec (cfg : Bool) (task : mr_task) (node : Nat)
    (rest : List Nat) (hinv : task_inv task) (hri : task_run_inv task)
    (ha : task.active = true) (hrun : task.run = node :: rest) :
    task_inv (mr_task_update_tick_fire cfg task node rest) ∧
    task_run_inv (mr_task_update_tick_fire cfg task node rest) ∧
    (mr_task_update_tick_fire cfg task node rest).active = true ∧
    (mr_task_update_tick_fire cfg task node rest).tick = task.tick ∧
    (mr_task_update_tick_fire cfg task node rest).table_size = task.table_size ∧
    node ∉ rest ∧ node < task.table_size ∧
    ((task.table.getD node default).interval = 0 →
      (mr_task_update_tick_fire cfg task node rest).table = task.table ∧
      (mr_task_update_tick_fire cfg task node rest).run = rest) ∧
    ((task.table.getD node default).interval ≠ 0 →
      (mr_task_update_tick_fire cfg task node rest).table
        = task.table.set node
            { task.table.getD node default with
              timeout := (task.tick + (task.table.getD node default).interval)
                % 4294967296 } ∧
      (mr_task_update_tick_fire cfg task node rest).run
        = mr_task_run_insert (mr_task_update_tick_fire cfg task node rest).table node
            ((task.tick + (task.table.getD node default).interval) % 4294967296) rest) ∧
    (mr_task_update_tick_fire cfg task node rest).queue
      = (mr_task_post_event cfg { task with run := rest } node MR_TASK_EVENT_TIMING).1.queue ∧
    (mr_task_update_tick_fire cfg task node rest).sm = task.sm ∧
    (mr_task_update_tick_fire cfg task node rest).sm_active = task.sm_active ∧
    (mr_task_update_tick_fire cfg task node rest).event = task.event := by
  obtain ⟨hnd, hlt⟩ := hri
  rw [hrun] at hnd hlt
  have hn : node < task.table_size := hlt node (List.mem_cons_self _ _)
  have hn2 : node % 256 = node := Nat.mod_eq_of_lt (by have := hinv.2.1.2.1; omega)
  have hnr : node ∉ rest := (List.nodup_cons.mp hnd).1
  have hinv1 : task_inv { task with run := rest } := ⟨hinv.1, hinv.2.1, hinv.2.2⟩
  have hri1 : task_run_inv { task with run := rest } :=
    ⟨(List.nodup_cons.mp hnd).2, fun n hm => hlt n (List.mem_cons_of_mem _ hm)⟩
  obtain ⟨f1, f2, f3, f4, f5, f6, f7, f8⟩ :=
    mr_task_post_event_fields cfg { task with run := rest } node MR_TASK_EVENT_TIMING
  have hinv2 := task_inv_post_event cfg { task with run := rest } node MR_TASK_EVENT_TIMING
    hinv1 (by decide)
  have hri2 := task_run_inv_post_event cfg { task with run := rest } node
    MR_TASK_EVENT_TIMING hri1
  generalize hpost : (mr_task_post_event cfg { task with run := rest } node
    MR_TASK_EVENT_TIMING).1 = posted at *
  simp only [] at f1 f2 f3 f4 f5 f6 f7 f8
  have hfire : mr_task_update_tick_fire cfg task node rest
      = (mr_task_timing posted node (task.table.getD node default).interval
          mr_task_timing_flag.MR_TASK_TIMING_FLAG_PERIODIC).1 := by
    unfold mr_task_update_tick_fire
    simp only [hn2]
    rw [hpost, f7]
  obtain ⟨g1, g2, g3, g4, g5, g6, g7, g8, g9⟩ := mr_task_timing_fields posted node
    (task.table.getD node default).interval mr_task_timing_flag.MR_TASK_TIMING_FLAG_PERIODIC
  rw [hfire]
  refine ⟨task_inv_timing _ _ _ _ hinv2, task_run_inv_timing _ _ _ _ hri2,
    by rw [g1, f1]; exact ha, by rw [g5, f5], by rw [g8, f8], hnr, hn, ?_, ?_, g7,
    by rw [g3, f3], by rw [g2, f2], by rw [g4, f4]⟩
  · intro hp
    rw [hp, mr_task_timing_disarm posted node _ (by rw [f8]; exact hn) (by rw [f1]; exact ha)]
    simp only []
    rw [f7, f6]
    exact ⟨rfl, List.erase_of_not_mem hnr⟩
  · intro hp
    rw [mr_task_timing_arm posted node _ _ (by rw [f8]; exact hn) (by rw [f1]; exact ha) hp]
    simp only []
    rw [f7, f6, f5, List.erase_of_not_mem hnr]
    simp only [if_neg (by decide : ¬ mr_task_timing_flag.MR_TASK_TIMING_FLAG_PERIODIC
      = mr_task_timing_flag.MR_TASK_TIMING_FLAG_ONESHOT)]
    constructor <;> first | rfl | trivial

/-- Induction along the scan loop: a property of active tasks satisfying the
invariants that every firing of a due head keeps holds when the loop
returns. -/
theorem mr_task_update_tick_loop_induct (cfg : Bool) (curr_tick : Nat) (P : mr_task → Prop)
    (hstep : ∀ (task : mr_task) (node : Nat) (rest : List Nat),
      task_inv task → task_run_inv task → task.active = true → task.run = node :: rest →
      (curr_tick + 4294967296 - task_deadline task.table node) % 4294967296 < 2147483647 →
      P task → P (mr_task_update_tick_fire cfg task node rest)) (fuel : Nat) :
    ∀ (task task2 : mr_task), task_inv task → task_run_inv task → task.active = true →
      P task → mr_task_update_tick_loop cfg curr_tick fuel task = some task2 →
      P task2 ∧ task_inv task2 ∧ task_run_inv task2 ∧ task2.active = true := by
  induction fuel with
  | zero =>
    intro task task2 _ _ _ _ hr
    simp [mr_task_update_tick_loop] at hr
  | succ fuel ih =>
    intro task task2 hinv hri ha hP hr
    cases hrun : task.run with
    | nil =>
      rw [mr_task_update_tick_loop_nil cfg curr_tick fuel task hrun] at hr
      simp only [Option.some.injEq] at hr
      rw [← hr]; exact ⟨hP, hinv, hri, ha⟩
    | cons node rest =>
      by_cases hdue : (curr_tick + 4294967296 - task_deadline task.table node) % 4294967296
          < 2147483647
      · rw [mr_task_update_tick_loop_due cfg curr_tick fuel task node rest hrun hdue] at hr
        obtain ⟨s1, s2, s3, _⟩ := mr_task_update_tick_fire_spec cfg task node rest hinv hri
          ha hrun
        exact ih _ task2 s1 s2 s3 (hstep task node rest hinv hri ha hrun hdue hP) hr
      · rw [mr_task_update_tick_loop_not_due cfg curr_tick fuel task node rest hrun
          (by omega)] at hr
        simp only [Option.some.injEq] at hr
        rw [← hr]; exact ⟨hP, hinv, hri, ha⟩

/-- Posting an event on an active task to a valid slot appends the record, or
leaves the queue as it is when the queue is full. -/
theorem mr_task_post_event_cases (cfg : Bool) (task : mr_task) (index event : Nat)
    (h : task_inv task) (hi : index < task.table_size) (ha : task.active = true)
    (he : event < 256) :
    (2 ≤ mr_fifo_get_space_size task.queue ∧
      (mr_task_post_event cfg task index event).2 = mr_err_t.MR_ERR_OK ∧
      fifo_contents (mr_task_post_event cfg task index event).1.queue
        = fifo_contents task.queue ++ [event, index] ∧
      mr_fifo_get_space_size (mr_task_post_event cfg task index event).1.queue + 2
        = mr_fifo_get_space_size task.queue) ∨
    (mr_fifo_get_space_size task.queue = 0 ∧
      (mr_task_post_event cfg task index event).2 = mr_err_t.MR_ERR_BUSY ∧
      (mr_task_post_event cfg task index event).1 = task) := by
  by_cases hroom : 2 ≤ mr_fifo_get_space_size task.queue
  · left
    obtain ⟨queue2, p1, p2, p3, p4, _⟩ :=
      mr_task_post_event_room cfg task index event h hi ha he hroom
    rw [p1]
    refine ⟨hroom, rfl, p2, ?_⟩
    show mr_fifo_get_space_size queue2 + 2 = _
    unfold mr_fifo_get_space_size at hroom ⊢
    rw [p3, p4]
    omega
  · right
    rcases task_queue_write_record task.queue task.table_size
      (((index <<< 8) ||| event) % 65536) h.1 with ⟨h2, _, _⟩ | ⟨hfull, hw, hq⟩
    · exact absurd h2 hroom
    · rw [mr_task_post_event_active cfg task index event hi ha, if_pos (by rw [hw]; decide), hq]
      exact ⟨hfull, rfl, rfl⟩

/-- A slot that is in the run list with a non-zero interval `p` and the
deadline `curr_tick + p` is in this state when the scan loop returns. -/
theorem mr_task_update_tick_loop_rearmed (cfg : Bool) (curr_tick fuel : Nat)
    (task task2 : mr_task) (s p : Nat) (hinv : task_inv task) (hri : task_run_inv task)
    (ha : task.active = true) (htick : task.tick = curr_tick) (hs : s ∈ task.run)
    (hint : (task.table.getD s default).interval = p) (hp : p ≠ 0)
    (hto : task_deadline task.table s = (curr_tick + p) % 4294967296)
    (hr : mr_task_update_tick_loop cfg curr_tick fuel task = some task2) :
    task2.tick = curr_tick ∧ s ∈ task2.run ∧ (task2.table.getD s default).interval = p ∧
    task_deadline task2.table s = (curr_tick + p) % 4294967296 := by
  refine (mr_task_update_tick_loop_induct cfg curr_tick
    (fun t => t.tick = curr_tick ∧ s ∈ t.run ∧ (t.table.getD s default).interval = p ∧
      task_deadline t.table s = (curr_tick + p) % 4294967296)
    ?_ fuel task task2 hinv hri ha ⟨htick, hs, hint, hto⟩ hr).1
  intro t node rest tinv tri ta trun _ ⟨pt, ps, pi, pd⟩
  obtain ⟨_, _, _, f4, _, f6, f7, f8, f9, _⟩ :=
    mr_task_update_tick_fire_spec cfg t node rest tinv tri ta trun
  have hlen : t.table.length = t.table_size := tinv.2.1.2.2.1
  rw [trun] at ps
  by_cases hns : node = s
  · subst hns
    obtain ⟨e1, e2⟩ := f9 (by rw [pi]; exact hp)
    refine ⟨by rw [f4, pt], ?_, ?_, ?_⟩
    · rw [e2]
      exact (mr_task_run_insert_perm _ _ _ _).mem_iff.mpr (List.mem_cons_self _ _)
    · rw [e1, table_getD_set_self _ _ _ (by omega)]
      exact pi
    · unfold task_deadline
      rw [e1, table_getD_set_self _ _ _ (by omega)]
      simp only []
      rw [pt, pi]
  · have hsr : s ∈ rest := by
      rcases List.mem_cons.mp ps with e | hm
      · exact absurd e.symm hns
      · exact hm
    by_cases hz : (t.table.getD node default).interval = 0
    · obtain ⟨e1, e2⟩ := f8 hz
      refine ⟨by rw [f4, pt], by rw [e2]; exact hsr, by rw [e1]; exact pi,
        by rw [e1]; exact pd⟩
    · obtain ⟨e1, e2⟩ := f9 hz
      refine ⟨by rw [f4, pt], ?_, ?_, ?_⟩
      · rw [e2]
        exact (mr_task_run_insert_perm _ _ _ _).mem_iff.mpr (List.mem_cons_of_mem _ hsr)
      · rw [e1, table_getD_set_ne _ _ _ _ hns]
        exact pi
      · unfold task_deadline
        rw [e1, table_getD_set_ne _ _ _ _ hns]
        exact pd

/-- A slot that is not in the run list is not in it when the scan loop
returns; its timing fields are as before, and no record posted by the loop is
for it. -/
theorem mr_task_update_tick_loop_detached (cfg : Bool) (curr_tick fuel : Nat)
    (task task2 : mr_task) (s : Nat) (hinv : task_inv task) (hri : task_run_inv task)
    (ha : task.active = true) (hs : s ∉ task.run)
    (hr : mr_task_update_tick_loop cfg curr_tick fuel task = some task2) :
    s ∉ task2.run ∧ task2.table.getD s default = task.table.getD s default ∧
    ∃ ext : List Nat, fifo_contents task2.queue = fifo_contents task.queue ++ ext ∧
      ext.length % 2 = 0 ∧
      ∀ r ∈ task_queue_records ext, r.1 ≠ s ∧ r.2 = MR_TASK_EVENT_TIMING := by
  refine (mr_task_update_tick_loop_induct cfg curr_tick
    (fun t => s ∉ t.run ∧ t.table.getD s default = task.table.getD s default ∧
      ∃ ext : List Nat, fifo_contents t.queue = fifo_contents task.queue ++ ext ∧
        ext.length % 2 = 0 ∧
        ∀ r ∈ task_queue_records ext, r.1 ≠ s ∧ r.2 = MR_TASK_EVENT_TIMING)
    ?_ fuel task task2 hinv hri ha ⟨hs, rfl, [], by rw [List.append_nil], rfl, ?_⟩ hr).1
  · intro t node rest tinv tri ta trun _ ⟨ps, pe, ext, pc, pl, pr⟩
    obtain ⟨_, _, _, _, _, f6, f7, f8, f9, f10, _⟩ :=
      mr_task_update_tick_fire_spec cfg t node rest tinv tri ta trun
    have hns : node ≠ s := by
      intro e
      apply ps
      rw [trun, e]
      exact List.mem_cons_self _ _
    have hsr : s ∉ rest := fun hm => ps (by rw [trun]; exact List.mem_cons_of_mem _ hm)
    have hn2 : node < 256 := by have := tinv.2.1.2.1; omega
    have hq : ∃ ext2 : List Nat,
        fifo_contents (mr_task_update_tick_fire cfg t node rest).queue
          = fifo_contents task.queue ++ ext2 ∧ ext2.length % 2 = 0 ∧
        ∀ r ∈ task_queue_records ext2, r.1 ≠ s ∧ r.2 = MR_TASK_EVENT_TIMING := by
      rw [f10]
      have hinv1 : task_inv { t with run := rest } := ⟨tinv.1, tinv.2.1, tinv.2.2⟩
      rcases mr_task_post_event_cases cfg { t with run := rest } node MR_TASK_EVENT_TIMING
        hinv1 f7 ta (by decide) with ⟨_, _, c, _⟩ | ⟨_, _, c⟩
      · refine ⟨ext ++ [MR_TASK_EVENT_TIMING, node], ?_, ?_, ?_⟩
        · rw [c]
          show fifo_contents t.queue ++ _ = _
          rw [pc, List.append_assoc]
        · rw [List.length_append]
          simp only [List.length_cons, List.length_nil]
          omega
        · intro r hm
          rw [task_queue_records_append (ext.length / 2) ext _ (by omega),
            task_queue_records_cons _ _ [] (by decide) hn2, List.mem_append] at hm
          rcases hm with hm | hm
          · exact pr r hm
          · simp only [task_queue_records, List.mem_singleton] at hm
            rw [hm]
            exact ⟨hns, rfl⟩
      · rw [c]
        exact ⟨ext, pc, pl, pr⟩
    by_cases hz : (t.table.getD node default).interval = 0
    · obtain ⟨e1, e2⟩ := f8 hz
      exact ⟨by rw [e2]; exact hsr, by rw [e1]; exact pe, hq⟩
    · obtain ⟨e1, e2⟩ := f9 hz
      refine ⟨?_, by rw [e1, table_getD_set_ne _ _ _ _ hns]; exact pe, hq⟩
      rw [e2]
      intro hm
      rcases List.mem_cons.mp ((mr_task_run_insert_perm _ _ _ _).mem_iff.mp hm) with e | hm2
      · exact hns e.symm
      · exact hsr hm2
  · intro r hm
    simp [task_queue_records] at hm

/-- The tick of a task after the scan loop is the tick before. -/
theorem mr_task_update_tick_loop_tick (cfg : Bool) (curr_tick fuel : Nat)
    (task task2 : mr_task) (hinv : task_inv task) (hri : task_run_inv task)
    (ha : task.active = true)
    (hr : mr_task_update_tick_loop cfg curr_tick fuel task = some task2) :
    task2.tick = task.tick := by
  refine (mr_task_update_tick_loop_induct cfg curr_tick (fun t => t.tick = task.tick)
    ?_ fuel task task2 hinv hri ha rfl hr).1
  intro t node rest tinv tri ta trun _ pt
  rw [(mr_task_update_tick_fire_spec cfg t node rest tinv tri ta trun).2.2.2.1, pt]

/-- The tick counter of a reachable task is a 32-bit value. -/
theorem task_reachable_tick_lt (cfg : Bool) (task : mr_task) (h : task_reachable cfg task) :
    task.tick < 4294967296 := by
  induction h with
  | add task table table_size queue_size pool hsize htable hpool =>
    show 0 < 4294967296
    decide
  | start task _ ih => exact ih
  | stop task _ ih => exact ih
  | post_event task index event _ _ _ ih =>
    rw [(mr_task_post_event_fields cfg task index event).2.2.2.2.1]; exact ih
  | timing task index tick flag _ _ _ ih =>
    rw [(mr_task_timing_fields task index tick flag).2.2.2.2.1]; exact ih
  | update_tick task fuel tick task2 _ hreach hr ih =>
    unfold mr_task_update_tick at hr
    split_ifs at hr with ha
    · simp only [Option.some.injEq] at hr
      rw [← hr]; exact ih
    · have hinv := task_reachable_inv cfg task hreach
      have hri := task_reachable_run_inv cfg task hreach
      have := mr_task_update_tick_loop_tick cfg _ fuel
        { task with tick := (task.tick + tick) % 4294967296 } task2
        ⟨hinv.1, hinv.2.1, hinv.2.2⟩ ⟨hri.1, hri.2⟩ (by simpa using ha) hr
      rw [this]
      exact Nat.mod_lt _ (by decide)
  | transition_state task index _ _ ih =>
    rw [(mr_task_transition_state_run cfg task index).2.1]; exact ih
  | handle_fetch task index_and_label _ ih => exact ih
  | handle_sm task _ ih => exact ih

/-! ## Task scheduler: unit ticks with one armed slot -/

/-- Quotient and remainder of a successor. -/
theorem succ_div_mod (n p : Nat) (hp : 0 < p) :
    (n % p + 1 < p → (n + 1) / p = n / p ∧ (n + 1) % p = n % p + 1) ∧
    (n % p + 1 = p → (n + 1) / p = n / p + 1 ∧ (n + 1) % p = 0) := by
  have hdm := Nat.div_add_mod n p
  constructor
  · intro h
    exact (Nat.div_mod_unique hp).mpr ⟨by omega, h⟩
  · intro h
    refine (Nat.div_mod_unique hp).mpr ⟨?_, hp⟩
    rw [Nat.mul_succ]
    omega

/-- One unit tick on an active task whose run list holds the single slot `s`,
periodic with interval `p` of at most `2^31 + 1`, due in `r` ticks, `1 ≤ r ≤ p`:
with `r ≥ 2` only the tick advances; with `r = 1` the slot expires, the event
is posted and the slot is re-armed `p` ticks ahead. -/
theorem mr_task_update_tick_single (cfg : Bool) (task : mr_task) (s p r : Nat)
    (hinv : task_inv task) (ha : task.active = true) (hrun : task.run = [s])
    (hs : s < task.table_size) (hint : (task.table.getD s default).interval = p)
    (hp2 : p ≤ 2147483649) (ht : task.tick < 4294967296)
    (hD : task_deadline task.table s = (task.tick + r) % 4294967296)
    (hr1 : 1 ≤ r) (hr2 : r ≤ p) :
    ∃ task2 : mr_task,
      mr_task_update_tick cfg 2 task 1 = some task2 ∧
      task_inv task2 ∧ task2.active = true ∧ task2.run = [s] ∧
      task2.table_size = task.table_size ∧
      (task2.table.getD s default).interval = p ∧
      task2.tick = (task.tick + 1) % 4294967296 ∧
      (2 ≤ r →
        task_deadline task2.table s = (task2.tick + (r - 1)) % 4294967296 ∧
        task2.queue = task.queue) ∧
      (r = 1 →
        task_deadline task2.table s = (task2.tick + p) % 4294967296 ∧
        (2 ≤ mr_fifo_get_space_size task.queue →
          fifo_contents task2.queue = fifo_contents task.queue ++ [MR_TASK_EVENT_TIMING, s] ∧
          mr_fifo_get_space_size task2.queue + 2 = mr_fifo_get_space_size task.queue)) := by
  have hna : ¬ task.active = false := by rw [ha]; decide
  have hinv1 : task_inv { task with tick := (task.tick + 1) % 4294967296 } :=
    ⟨hinv.1, hinv.2.1, hinv.2.2⟩
  have hri1 : task_run_inv { task with tick := (task.tick + 1) % 4294967296 } := by
    refine ⟨?_, ?_⟩
    · show task.run.Nodup
      rw [hrun]; exact List.nodup_singleton s
    · intro node hm
      have hm2 : node ∈ task.run := hm
      rw [hrun, List.mem_singleton] at hm2
      rw [hm2]; exact hs
  rw [mr_task_update_tick, if_neg hna]
  simp only []
  by_cases hr : 2 ≤ r
  · rw [mr_task_update_tick_loop_not_due cfg _ 1
      { task with tick := (task.tick + 1) % 4294967296 } s [] hrun
      (by show 2147483647 ≤ (_ + 4294967296 - task_deadline task.table s) % 4294967296
          rw [hD]; omega)]
    refine ⟨_, rfl, hinv1, ha, hrun, rfl, hint, rfl, ?_, ?_⟩
    · intro _
      refine ⟨?_, rfl⟩
      show task_deadline task.table s = _
      rw [hD]
      show (task.tick + r) % 4294967296 = ((task.tick + 1) % 4294967296 + (r - 1)) % 4294967296
      omega
    · intro h1; omega
  · have hr1e : r = 1 := by omega
    subst hr1e
    have hdue : ((task.tick + 1) % 4294967296 + 4294967296
        - task_deadline ({ task with tick := (task.tick + 1) % 4294967296 } : mr_task).table s)
        % 4294967296 < 2147483647 := by
      show (_ + 4294967296 - task_deadline task.table s) % 4294967296 < 2147483647
      rw [hD]; omega
    rw [mr_task_update_tick_loop_due cfg _ 1
      { task with tick := (task.tick + 1) % 4294967296 } s [] hrun hdue]
    obtain ⟨f1, f2, f3, f4, f5, _, _, _, f9, f10, _⟩ := mr_task_update_tick_fire_spec cfg
      { task with tick := (task.tick + 1) % 4294967296 } s [] hinv1 hri1 ha hrun
    have hp0 : (task.table.getD s default).interval ≠ 0 := by rw [hint]; omega
    obtain ⟨e1, e2⟩ := f9 hp0
    have hlen : task.table.length = task.table_size := hinv.2.1.2.2.1
    simp only [] at e1 e2 f4 f5 f10
    have erun : (mr_task_update_tick_fire cfg
        { task with tick := (task.tick + 1) % 4294967296 } s []).run = [s] := by
      rw [e2]; rfl
    have edl : task_deadline (mr_task_update_tick_fire cfg
        { task with tick := (task.tick + 1) % 4294967296 } s []).table s
        = ((task.tick + 1) % 4294967296 + p) % 4294967296 := by
      unfold task_deadline
      rw [e1, table_getD_set_self _ _ _ (by omega)]
      simp only []
      rw [hint]
    have eint : ((mr_task_update_tick_fire cfg
        { task with tick := (task.tick + 1) % 4294967296 } s []).table.getD s
          default).interval = p := by
      rw [e1, table_getD_set_self _ _ _ (by omega)]
      exact hint
    rw [mr_task_update_tick_loop_not_due cfg _ 0 _ s [] erun (by rw [edl]; omega)]
    refine ⟨_, rfl, f1, f3, erun, f5, eint, f4, fun h2 => by omega, fun _ => ⟨?_, ?_⟩⟩
    · rw [edl, f4]
    · intro hroom
      rw [f10]
      rcases mr_task_post_event_cases cfg
        { task with tick := (task.tick + 1) % 4294967296, run := [] } s MR_TASK_EVENT_TIMING
        ⟨hinv.1, hinv.2.1, hinv.2.2⟩ hs ha (by decide) with ⟨_, _, c1, c2⟩ | ⟨hfull, _, _⟩
      · exact ⟨c1, c2⟩
      · have hfull2 : mr_fifo_get_space_size task.queue = 0 := hfull
        omega

/-- Unit ticks with one armed slot: on an active task whose run list holds the
single slot `s`, periodic with interval `p`, `1 ≤ p ≤ 2^31 + 1`, just armed (its
deadline is `p` ticks ahead), `n` calls `mr_task_update_tick(task, 1)` return;
afterwards the tick has advanced by `n`, the slot is alone in the run list
with interval `p` and is due in `p - n mod p` ticks, and `n / p` records
`MR_TASK_EVENT_TIMING` for the slot have been appended to the queue, provided
the queue had room for them. -/
theorem mr_task_unit_ticks_single (cfg : Bool) (task : mr_task) (s p : Nat)
    (hinv : task_inv task) (ha : task.active = true) (hrun : task.run = [s])
    (hs : s < task.table_size) (hint : (task.table.getD s default).interval = p)
    (hp1 : 1 ≤ p) (hp2 : p ≤ 2147483649) (ht : task.tick < 4294967296)
    (hD : task_deadline task.table s = (task.tick + p) % 4294967296) (n : Nat) :
    2 * (n / p) ≤ mr_fifo_get_space_size task.queue →
    ∃ task2 : mr_task,
      mr_task_unit_ticks cfg 2 n task = some task2 ∧
      task_inv task2 ∧ task2.active = true ∧ task2.run = [s] ∧
      task2.table_size = task.table_size ∧
      (task2.table.getD s default).interval = p ∧
      task2.tick = (task.tick + n) % 4294967296 ∧
      task_deadline task2.table s = (task2.tick + (p - n % p)) % 4294967296 ∧
      fifo_contents task2.queue = fifo_contents task.queue ++ task_timing_bytes s (n / p) ∧
      mr_fifo_get_space_size task2.queue + 2 * (n / p) = mr_fifo_get_space_size task.queue := by
  induction n with
  | zero =>
    intro _
    refine ⟨task, rfl, hinv, ha, hrun, rfl, hint, ?_, ?_, ?_, ?_⟩
    · rw [Nat.add_zero, Nat.mod_eq_of_lt ht]
    · rw [Nat.zero_mod, Nat.sub_zero]; exact hD
    · rw [Nat.zero_div]
      show _ = _ ++ []
      rw [List.append_nil]
    · rw [Nat.zero_div, Nat.mul_zero, Nat.add_zero]
  | succ n ih =>
    intro hroom
    have hdiv : n / p ≤ (n + 1) / p := Nat.div_le_div_right (Nat.le_succ n)
    obtain ⟨tn, r1, r2, r3, r4, r5, r6, r7, r8, r9, r10⟩ := ih (by omega)
    have hmod : n % p < p := Nat.mod_lt n (by omega)
    obtain ⟨hc1, hc2⟩ := succ_div_mod n p (by omega)
    have htn : tn.tick < 4294967296 := by rw [r7]; exact Nat.mod_lt _ (by decide)
    obtain ⟨t2, u1, u2, u3, u4, u5, u6, u7, u8, u9⟩ := mr_task_update_tick_single cfg tn s p
      (p - n % p) r2 r3 r4 (by rw [r5]; exact hs) r6 hp2 htn r8 (by omega) (by omega)
    refine ⟨t2, ?_, u2, u3, u4, u5.trans r5, u6, ?_, ?_, ?_, ?_⟩
    · rw [mr_task_unit_ticks, r1]
      exact u1
    · rw [u7, r7]; omega
    · by_cases hlt : n % p + 1 < p
      · obtain ⟨_, em⟩ := hc1 hlt
        have e : p - n % p - 1 = p - (n % p + 1) := by omega
        rw [(u8 (by omega)).1, em, e]
      · obtain ⟨_, em⟩ := hc2 (by omega)
        rw [(u9 (by omega)).1, em, Nat.sub_zero]
    · by_cases hlt : n % p + 1 < p
      · obtain ⟨ed, _⟩ := hc1 hlt
        rw [(u8 (by omega)).2, ed]
        exact r9
      · obtain ⟨ed, _⟩ := hc2 (by omega)
        rw [ed] at hroom ⊢
        rw [((u9 (by omega)).2 (by omega)).1, r9, List.append_assoc]
        rfl
    · by_cases hlt : n % p + 1 < p
      · obtain ⟨ed, _⟩ := hc1 hlt
        rw [(u8 (by omega)).2, ed]
        exact r10
      · obtain ⟨ed, _⟩ := hc2 (by omega)
        rw [ed] at hroom ⊢
        have := ((u9 (by omega)).2 (by omega)).2
        omega

/-- Arming a slot periodically on an active task with an empty run list. -/
theorem mr_task_timing_arm_alone (task : mr_task) (s p : Nat) (hinv : task_inv task)
    (ha : task.active = true) (hrun : task.run = []) (hs : s < task.table_size)
    (hp : p ≠ 0) :
    task_inv (mr_task_timing task s p mr_task_timing_flag.MR_TASK_TIMING_FLAG_PERIODIC).1 ∧
    (mr_task_timing task s p mr_task_timing_flag.MR_TASK_TIMING_FLAG_PERIODIC).1.active
      = true ∧
    (mr_task_timing task s p mr_task_timing_flag.MR_TASK_TIMING_FLAG_PERIODIC).1.run = [s] ∧
    (mr_task_timing task s p mr_task_timing_flag.MR_TASK_TIMING_FLAG_PERIODIC).1.table_size
      = task.table_size ∧
    ((mr_task_timing task s p mr_task_timing_flag.MR_TASK_TIMING_FLAG_PERIODIC).1.table.getD
      s default).interval = p ∧
    (mr_task_timing task s p mr_task_timing_flag.MR_TASK_TIMING_FLAG_PERIODIC).1.tick
      = task.tick ∧
    task_deadline
        (mr_task_timing task s p mr_task_timing_flag.MR_TASK_TIMING_FLAG_PERIODIC).1.table s
      = (task.tick + p) % 4294967296 ∧
    (mr_task_timing task s p mr_task_timing_flag.MR_TASK_TIMING_FLAG_PERIODIC).1.queue
      = task.queue := by
  have hlen : task.table.length = task.table_size := hinv.2.1.2.2.1
  have hi := task_inv_timing task s p mr_task_timing_flag.MR_TASK_TIMING_FLAG_PERIODIC hinv
  rw [mr_task_timing_arm task s p _ hs ha hp] at hi ⊢
  refine ⟨hi, ha, ?_, rfl, ?_, rfl, ?_, rfl⟩
  · show mr_task_run_insert _ s _ (task.run.erase s) = [s]
    rw [hrun]; rfl
  · show ((task.table.set s _).getD s default).interval = p
    rw [table_getD_set_self _ _ _ (by omega)]
    rfl
  · show ((task.table.set s _).getD s default).timeout = _
    rw [table_getD_set_self _ _ _ (by omega)]

/-- The example task at tick 4294967000 is reachable. -/
theorem task_example_high_reachable : task_reachable true task_example_high :=
  task_reachable.update_tick { task_example with tick := 2147483646 } 1 2147483354 _
    (by decide)
    (task_reachable.update_tick task_example 1 2147483646 _ (by decide)
      (task_example_reachable true) (by decide))
    (by decide)

/-- The example task with both slots armed at tick 4294967000 is reachable. -/
theorem task_example_pair_reachable (flag : mr_task_timing_flag) :
    task_reachable true (task_example_pair flag) :=
  task_reachable.timing _ 1 200 _ (by decide) (by decide)
    (task_reachable.timing _ 0 100 flag (by decide) (by decide) task_example_high_reachable)

/-- The example task armed before the wrap is reachable. -/
theorem task_example_wrap_reachable : task_reachable true task_example_wrap :=
  task_reachable.timing _ 1 20 _ (by decide) (by decide)
    (task_reachable.timing _ 0 5 _ (by decide) (by decide) task_example_late_reachable)

/-- Claim C21, evaluated at its failing input.  The example task (queue of two
records, empty) at tick 4294967000, with slot 0 armed periodically with delay
100 and slot 1 armed with delay 200 at this tick: neither deadline overflows,
and neither does the tick advanced by 250.  `mr_task_update_tick(250)` posts
one event, for slot 0, and returns with slot 1 overdue in the run list behind
slot 0, which was re-armed with the deadline 4294967350 mod 2^32 = 54.  With
slot 0 armed one-shot the same call posts the two events in order. -/
theorem C21_fire_order_periodic_at_wrap :
    task_reachable true (task_example_pair mr_task_timing_flag.MR_TASK_TIMING_FLAG_PERIODIC) ∧
    (task_example_pair mr_task_timing_flag.MR_TASK_TIMING_FLAG_PERIODIC).active = true ∧
    (task_example_pair mr_task_timing_flag.MR_TASK_TIMING_FLAG_PERIODIC).tick
      = 4294967000 ∧
    (task_example_pair mr_task_timing_flag.MR_TASK_TIMING_FLAG_PERIODIC).run = [0, 1] ∧
    (task_example_pair mr_task_timing_flag.MR_TASK_TIMING_FLAG_PERIODIC).run.map
        (task_deadline (task_example_pair
          mr_task_timing_flag.MR_TASK_TIMING_FLAG_PERIODIC).table)
      = [4294967100, 4294967200] ∧
    fifo_contents (task_example_pair mr_task_timing_flag.MR_TASK_TIMING_FLAG_PERIODIC).queue
      = [] ∧
    mr_rb_get_buffer_size
        (task_example_pair mr_task_timing_flag.MR_TASK_TIMING_FLAG_PERIODIC).queue = 4 ∧
    (mr_task_update_tick true 3
        (task_example_pair mr_task_timing_flag.MR_TASK_TIMING_FLAG_PERIODIC) 250).map
        (fun task => (task.tick, task.run, task.run.map (task_deadline task.table),
          fifo_contents task.queue))
      = some (4294967250, [0, 1], [54, 4294967200], [MR_TASK_EVENT_TIMING, 0]) ∧
    (mr_task_update_tick true 3
        (task_example_pair mr_task_timing_flag.MR_TASK_TIMING_FLAG_ONESHOT) 250).map
        (fun task => (task.tick, task.run, fifo_contents task.queue))
      = some (4294967250, [], [MR_TASK_EVENT_TIMING, 0, MR_TASK_EVENT_TIMING, 1]) :=
  ⟨task_example_pair_reachable _, by decide, by decide, by decide, by decide, by decide,
    by decide, by decide, by decide⟩

/-- Claim C22, evaluated at its failing input.  The example task ten ticks
before the wrap (tick 4294967286) with slot 0 armed 5 ticks ahead and slot 1
armed 20 ticks ahead, past the wrap.  Advancing by 6 ticks passes the deadline
of slot 0 and posts nothing.  Advancing by 30 ticks, across the wrap, posts
the event of slot 1 before the event of slot 0.  Away from the boundary (tick
0) the same arming and the same advance post slot 0 before slot 1. -/
theorem C22_wraparound_fire_order :
    task_reachable true task_example_wrap ∧
    task_example_wrap.active = true ∧
    task_example_wrap.tick = 4294967286 ∧
    task_example_wrap.run.map (task_deadline task_example_wrap.table)
      = [10, 4294967291] ∧
    (mr_task_update_tick true 3 task_example_wrap 6).map
        (fun task => (task.tick, task.run, fifo_contents task.queue))
      = some (4294967292, [1, 0], []) ∧
    (mr_task_update_tick true 3 task_example_wrap 30).map
        (fun task => (task.tick, task.run, fifo_contents task.queue))
      = some (20, [], [MR_TASK_EVENT_TIMING, 1, MR_TASK_EVENT_TIMING, 0]) ∧
    task_example_plain.tick = 0 ∧
    (mr_task_update_tick true 3 task_example_plain 30).map
        (fun task => (task.tick, task.run, fifo_contents task.queue))
      = some (30, [], [MR_TASK_EVENT_TIMING, 0, MR_TASK_EVENT_TIMING, 1]) :=
  ⟨task_example_wrap_reachable, by decide, by decide, by decide, by decide, by decide,
    by decide, by decide⟩

/-! ## Whole records, index ranges, forced writes that fit, run-list order -/

/-- Claim C32.  In every reachable task state the event queue holds an even
number of bytes and has an even number of free bytes.  Hence the 2-byte write of
`mr_task_post_event` stores both bytes or none (and then leaves the queue as it
was), and a 2-byte read from a non-empty queue returns 2.  Inside
`mr_task_handle` every read returns 2: the loop starts with `count` equal to
the number of queued bytes, and whenever `count` is even, not zero and at most
the number of queued bytes, the read of the next record returns 2 and after the
callback of the record `count - 2` is again at most the number of queued
bytes, in a reachable state. -/
theorem C32_whole_records (cfg : Bool) (task : mr_task) (h : task_reachable cfg task) :
    mr_fifo_get_data_size task.queue % 2 = 0 ∧
    mr_fifo_get_space_size task.queue % 2 = 0 ∧
    (∀ v : Nat, (mr_rb_write task.queue (u16_bytes v) 2).2 = 2 ∨
      ((mr_rb_write task.queue (u16_bytes v) 2).2 = 0 ∧
        (mr_rb_write task.queue (u16_bytes v) 2).1 = task.queue)) ∧
    (mr_fifo_get_data_size task.queue ≠ 0 → (mr_rb_read task.queue 2).2.2 = 2) ∧
    (∀ (count : Nat) (index_and_label : List Nat), count ≠ 0 → count % 2 = 0 →
      count ≤ mr_rb_get_data_size task.queue →
      (mr_task_handle_fetch task index_and_label).2.2.2 = 2 ∧
      ∀ (cbs : mr_task_callbacks) (trace : List mr_task_invocation) (task2 : mr_task)
        (invocation : mr_task_invocation),
        mr_task_invoke cfg cbs trace (mr_task_handle_fetch task index_and_label).1
            (mr_task_handle_fetch task index_and_label).2.2.1 = some (task2, invocation) →
        task_reachable cfg task2 ∧ count - 2 ≤ mr_rb_get_data_size task2.queue) := by
  have hinv := task_reachable_inv cfg task h
  obtain ⟨hwf, hs, hd, _, _⟩ := id hinv.1
  have hle := fifo_data_size_le task.queue hwf
  have hlen := fifo_contents_length task.queue hwf
  obtain ⟨_, _, r3, _, _⟩ := task_queue_inv_read task.queue task.table_size hinv.1
  refine ⟨hd, by unfold mr_fifo_get_space_size; omega, ?_, ?_, ?_⟩
  · intro v
    rcases task_queue_write_record task.queue task.table_size v hinv.1 with ⟨_, w, _⟩ | ⟨_, w1, w2⟩
    · exact Or.inl w
    · exact Or.inr ⟨w1, w2⟩
  · intro hne
    rw [r3]; omega
  · intro count index_and_label hc0 hc2 hcle
    have hcle2 : count ≤ mr_fifo_get_data_size task.queue := hcle
    cases hcont : fifo_contents task.queue with
    | nil => rw [hcont] at hlen; simp only [List.length_nil] at hlen; omega
    | cons a tail =>
      cases tail with
      | nil => rw [hcont] at hlen; simp only [List.length_cons, List.length_nil] at hlen; omega
      | cons b rest =>
        obtain ⟨g1, g2, g3, g4, g5, g6, g7, g8⟩ :=
          mr_task_handle_fetch_record task index_and_label a b rest hinv hcont
        refine ⟨g1, ?_⟩
        intro cbs trace task2 invocation hr
        have hreach1 : task_reachable cfg (mr_task_handle_fetch task index_and_label).1 :=
          task_reachable.handle_fetch task index_and_label h
        have hinv1 := task_reachable_inv cfg _ hreach1
        have hreach2 := task_reachable_invoke cfg cbs trace _ task2 _ invocation hreach1 hr
        refine ⟨hreach2, ?_⟩
        obtain ⟨task3, e3, _, _, _, _, ext, hext⟩ :=
          mr_task_invoke_some cfg cbs trace (mr_task_handle_fetch task index_and_label).1
            (mr_task_handle_fetch task index_and_label).2.2.1 hinv1 (by rw [g2, g7]; exact g4)
        rw [e3] at hr
        simp only [Option.some.injEq, Prod.mk.injEq] at hr
        rw [hr.1] at hext
        have hlen2 := fifo_contents_length task2.queue (task_reachable_inv cfg _ hreach2).1.1
        rw [hext, g5, List.length_append] at hlen2
        rw [hcont] at hlen
        simp only [List.length_cons] at hlen
        unfold mr_rb_get_data_size
        omega

/-- Witness of claim C32: the example task with one record queued; the read of
the dispatch returns 2. -/
theorem C32_whole_records_witness :
    task_reachable true task_example_queued ∧
    mr_fifo_get_data_size task_example_queued.queue = 2 ∧
    (mr_rb_read task_example_queued.queue 2).2.2 = 2 :=
  ⟨task_example_queued_reachable, by decide,
    (C32_whole_records true task_example_queued task_example_queued_reachable).2.2.2.1
      (by decide)⟩

/-- Claim C33.  In every fifo state reachable from `mr_fifo_init` by read, write
and write_force whose capacity is at least 1, the read index and the write
index are below the capacity, the storage has as many bytes as the capacity,
and every part of the storage that a read, a write or a forced write of any
size copies from or to lies inside the storage. -/
theorem C33_fifo_indices_in_range (fifo : mr_fifo) (h : fifo_reachable fifo)
    (hcap : 1 ≤ fifo.size) :
    fifo.read_index < fifo.size ∧ fifo.write_index < fifo.size ∧
    fifo.buffer.length = fifo.size ∧
    (∀ (size : Nat) (access : Nat × Nat), access ∈ mr_fifo_read_accesses fifo size →
      access.1 + access.2 ≤ fifo.buffer.length) ∧
    (∀ (size : Nat) (access : Nat × Nat), access ∈ mr_fifo_write_accesses fifo size →
      access.1 + access.2 ≤ fifo.buffer.length) ∧
    (∀ (size : Nat) (access : Nat × Nat), access ∈ mr_fifo_write_force_accesses fifo size →
      access.1 + access.2 ≤ fifo.buffer.length) := by
  have hwf := fifo_reachable_wf fifo h
  have hle := fifo_data_size_le fifo hwf
  obtain ⟨hb, _, h1, _, _⟩ := hwf
  obtain ⟨hr, hw⟩ := h1 (by omega)
  refine ⟨hr, hw, hb, ?_, ?_, ?_⟩
  · intro size access hmem
    unfold mr_fifo_read_accesses at hmem
    simp only [] at hmem
    split_ifs at hmem <;>
      simp only [List.mem_cons, List.mem_singleton, List.not_mem_nil, or_false] at hmem <;>
      (try rcases hmem with hmem | hmem) <;> (try subst hmem) <;> simp only [] <;> omega
  · intro size access hmem
    unfold mr_fifo_write_accesses mr_fifo_get_space_size at hmem
    simp only [] at hmem
    split_ifs at hmem <;>
      simp only [List.mem_cons, List.mem_singleton, List.not_mem_nil, or_false] at hmem <;>
      (try rcases hmem with hmem | hmem) <;> (try subst hmem) <;> simp only [] <;> omega
  · intro size access hmem
    unfold mr_fifo_write_force_accesses at hmem
    simp only [] at hmem
    split_ifs at hmem <;>
      simp only [List.mem_cons, List.mem_singleton, List.not_mem_nil, or_false] at hmem <;>
      (try rcases hmem with hmem | hmem) <;> (try subst hmem) <;> simp only [] <;> omega

/-- Witness of claim C33: the example fifo of capacity 4, read index 2 and write
index 3; a forced write of 6 bytes copies to the storage from offset 3 for one
byte and from offset 0 for three bytes. -/
theorem C33_fifo_indices_in_range_witness :
    fifo_reachable (mr_fifo_read (mr_fifo_write (mr_fifo_init [0, 0, 0, 0] 4) [7, 8, 9] 3).1 2).1 ∧
    mr_fifo_write_force_accesses
      (mr_fifo_read (mr_fifo_write (mr_fifo_init [0, 0, 0, 0] 4) [7, 8, 9] 3).1 2).1 6
      = [(3, 1), (0, 3)] ∧
    (0 : Nat) + 3 ≤ 4 :=
  ⟨fifo_reachable_example, by decide,
    (C33_fifo_indices_in_range _ fifo_reachable_example (by decide)).2.2.2.2.2 6 (0, 3)
      (by decide)⟩

/-- Claim C34.  In every reachable fifo state, for an input no longer than the
free space, `mr_fifo_write_force` and `mr_fifo_write` have the same result: the
same fifo afterwards (indices, mirror flags, storage) and the same count, which
is the length of the input; the unread contents afterwards are the old ones
followed by the input, so nothing is evicted. -/
theorem C34_write_force_agrees_with_write (fifo : mr_fifo) (buf : List Nat)
    (h : fifo_reachable fifo) (hfit : buf.length ≤ mr_fifo_get_space_size fifo) :
    mr_fifo_write_force fifo buf buf.length = mr_fifo_write fifo buf buf.length ∧
    (mr_fifo_write_force fifo buf buf.length).2 = buf.length ∧
    fifo_contents (mr_fifo_write_force fifo buf buf.length).1 = fifo_contents fifo ++ buf := by
  have hwf := fifo_reachable_wf fifo h
  have heq := mr_fifo_write_force_eq_write fifo buf hwf hfit
  obtain ⟨_, w2, _, w4⟩ := mr_fifo_write_wf_spec fifo buf hwf
  unfold mr_fifo_get_space_size at hfit
  have hk : (mr_fifo_write fifo buf buf.length).2 = buf.length := by rw [w2]; omega
  rw [hk, List.take_length] at w4
  rw [heq]
  exact ⟨rfl, hk, w4⟩

/-- Witness of claim C34: two bytes forced into the example fifo, which holds
one byte and has three free; the write wraps. -/
theorem C34_write_force_agrees_with_write_witness :
    fifo_reachable (mr_fifo_read (mr_fifo_write (mr_fifo_init [0, 0, 0, 0] 4) [7, 8, 9] 3).1 2).1 ∧
    fifo_contents (mr_fifo_write_force
        (mr_fifo_read (mr_fifo_write (mr_fifo_init [0, 0, 0, 0] 4) [7, 8, 9] 3).1 2).1
        [1, 2] 2).1 = [9, 1, 2] :=
  ⟨fifo_reachable_example,
    ((C34_write_force_agrees_with_write _ [1, 2] fifo_reachable_example (by decide)).2.2).trans
      (by decide)⟩

/-- Claim C35.  In every reachable task state the run list is in non-decreasing
order of the stored timeouts compared as plain unsigned numbers, the order
tested by the insertion loop of `mr_task_timing`, and no slot is in the list
twice. -/
theorem C35_run_list_sorted_raw (cfg : Bool) (task : mr_task) (h : task_reachable cfg task) :
    task.run.Pairwise
      (fun a b => (task.table.getD a default).timeout ≤ (task.table.getD b default).timeout) ∧
    task.run.Nodup ∧ task_run_sorted task :=
  ⟨task_reachable_run_sorted cfg task h, (task_reachable_run_inv cfg task h).1,
    task_reachable_run_sorted cfg task h⟩

/-- Witness of claim C35: slot 0 armed 5 ticks and slot 1 armed 20 ticks ahead
of tick 4294967286; the timeout of slot 1 has wrapped to 10 and slot 1 is
first in the run list. -/
theorem C35_run_list_sorted_raw_witness :
    task_reachable true task_example_wrap ∧ task_example_wrap.run = [1, 0] ∧
    task_example_wrap.run.Nodup :=
  ⟨task_example_wrap_reachable, by decide,
    (C35_run_list_sorted_raw true task_example_wrap task_example_wrap_reachable).2.1⟩

/-! ## Usage of the event queue -/

/-- A slot re-armed at the current tick with an interval of at most 2^31 + 1
is not due at this tick. -/
theorem task_rearmed_not_due (tick p : Nat) (ht : tick < 4294967296) (hp1 : p ≠ 0)
    (hp2 : p ≤ 2147483649) :
    ¬ (tick + 4294967296 - (tick + p) % 4294967296) % 4294967296 < 2147483647 := by
  omega

/-- Firing the due head of the run list takes one node out of the nodes that
are due: the fired node is not due afterwards when its interval is at most
2^31 + 1, and the other nodes keep their timing fields. -/
theorem mr_task_update_tick_fire_due (cfg : Bool) (task : mr_task) (node : Nat)
    (rest : List Nat) (curr_tick : Nat) (hinv : task_inv task) (hri : task_run_inv task)
    (ha : task.active = true) (hrun : task.run = node :: rest)
    (htick : task.tick = curr_tick) (hlt : curr_tick < 4294967296)
    (hdue : (curr_tick + 4294967296 - task_deadline task.table node) % 4294967296
      < 2147483647)
    (hint : (task.table.getD node default).interval ≤ 2147483649) :
    (task_run_due (mr_task_update_tick_fire cfg task node rest) curr_tick).length + 1
      = (task_run_due task curr_tick).length ∧
    node ∉ task_run_due (mr_task_update_tick_fire cfg task node rest) curr_tick ∧
    (∀ n ∈ (mr_task_update_tick_fire cfg task node rest).run,
      n ∈ task.run ∧
      ((mr_task_update_tick_fire cfg task node rest).table.getD n default).interval
        = (task.table.getD n default).interval) := by
  obtain ⟨_, _, _, f4, _, f6, f7, f8, f9, _⟩ :=
    mr_task_update_tick_fire_spec cfg task node rest hinv hri ha hrun
  have hlen : task.table.length = task.table_size := hinv.2.1.2.2.1
  have hhead : task_run_due task curr_tick
      = node :: rest.filter (fun n =>
          decide ((curr_tick + 4294967296 - task_deadline task.table n) % 4294967296
            < 2147483647)) := by
    unfold task_run_due
    rw [hrun, List.filter_cons_of_pos (by simpa using hdue)]
  by_cases hz : (task.table.getD node default).interval = 0
  · obtain ⟨e1, e2⟩ := f8 hz
    have hd : task_run_due (mr_task_update_tick_fire cfg task node rest) curr_tick
        = rest.filter (fun n =>
          decide ((curr_tick + 4294967296 - task_deadline task.table n) % 4294967296
            < 2147483647)) := by
      unfold task_run_due
      rw [e1, e2]
    refine ⟨by rw [hd, hhead]; rfl, ?_, ?_⟩
    · rw [hd]
      exact fun hm => f6 (List.mem_of_mem_filter hm)
    · intro n hn
      rw [e2] at hn
      exact ⟨by rw [hrun]; exact List.mem_cons_of_mem _ hn, by rw [e1]⟩
  · obtain ⟨e1, e2⟩ := f9 hz
    have hperm := mr_task_run_insert_perm (mr_task_update_tick_fire cfg task node rest).table
      node ((task.tick + (task.table.getD node default).interval) % 4294967296) rest
    rw [← e2] at hperm
    have hnd : ¬ (curr_tick + 4294967296
        - task_deadline (mr_task_update_tick_fire cfg task node rest).table node)
          % 4294967296 < 2147483647 := by
      unfold task_deadline
      rw [e1, table_getD_set_self _ _ _ (by omega)]
      simp only []
      rw [htick]
      exact task_rearmed_not_due curr_tick _ hlt hz hint
    have hd : ((mr_task_update_tick_fire cfg task node rest).run.filter (fun n =>
          decide ((curr_tick + 4294967296
            - task_deadline (mr_task_update_tick_fire cfg task node rest).table n)
              % 4294967296 < 2147483647))).Perm
        (rest.filter (fun n =>
          decide ((curr_tick + 4294967296 - task_deadline task.table n) % 4294967296
            < 2147483647))) := by
      refine (hperm.filter _).trans ?_
      rw [List.filter_cons_of_neg (by simpa using hnd)]
      apply List.Perm.of_eq
      apply List.filter_congr
      intro n hn
      have hne : node ≠ n := fun e => f6 (e ▸ hn)
      unfold task_deadline
      rw [e1, table_getD_set_ne _ _ _ _ hne]
    refine ⟨?_, ?_, ?_⟩
    · rw [hhead]
      unfold task_run_due
      rw [hd.length_eq]
      rfl
    · unfold task_run_due
      intro hm
      exact hnd (by simpa using (List.mem_filter.mp hm).2)
    · intro n hn
      have hmem := hperm.mem_iff.mp hn
      refine ⟨by rw [hrun]; exact hmem, ?_⟩
      by_cases hne : node = n
      · subst hne
        rw [e1, table_getD_set_self _ _ _ (by omega)]
      · rw [e1, table_getD_set_ne _ _ _ _ hne]

/-- The scan loop returns when it may make one iteration more than there are
due nodes, provided every interval in the run list is at most 2^31 + 1. -/
theorem mr_task_update_tick_loop_returns (cfg : Bool) (curr_tick : Nat)
    (hlt : curr_tick < 4294967296) (fuel : Nat) :
    ∀ task : mr_task, task_inv task → task_run_inv task → task.active = true →
      task.tick = curr_tick →
      (∀ n ∈ task.run, (task.table.getD n default).interval ≤ 2147483649) →
      (task_run_due task curr_tick).length < fuel →
      ∃ task2 : mr_task, mr_task_update_tick_loop cfg curr_tick fuel task = some task2 := by
  induction fuel with
  | zero => intro task _ _ _ _ _ hf; omega
  | succ fuel ih =>
    intro task hinv hri ha htick hint hf
    cases hrun : task.run with
    | nil => exact ⟨task, mr_task_update_tick_loop_nil cfg curr_tick fuel task hrun⟩
    | cons node rest =>
      by_cases hdue : (curr_tick + 4294967296 - task_deadline task.table node) % 4294967296
          < 2147483647
      · rw [mr_task_update_tick_loop_due cfg curr_tick fuel task node rest hrun hdue]
        obtain ⟨f1, f2, f3, f4, _⟩ :=
          mr_task_update_tick_fire_spec cfg task node rest hinv hri ha hrun
        obtain ⟨d1, _, d3⟩ := mr_task_update_tick_fire_due cfg task node rest curr_tick hinv hri
          ha hrun htick hlt hdue (hint node (by rw [hrun]; exact List.mem_cons_self _ _))
        refine ih _ f1 f2 f3 (by rw [f4, htick]) ?_ (by omega)
        intro n hn
        obtain ⟨m1, m2⟩ := d3 n hn
        rw [m2]
        exact hint n m1
      · exact ⟨task, mr_task_update_tick_loop_not_due cfg curr_tick fuel task node rest hrun
          (by omega)⟩

/-- A slot in the run list whose deadline is not due at the current tick stays
in the run list with its deadline while the scan loop runs, and no record
posted by the loop is for it. -/
theorem mr_task_update_tick_loop_pending (cfg : Bool) (curr_tick fuel : Nat)
    (task task2 : mr_task) (s : Nat) (hinv : task_inv task) (hri : task_run_inv task)
    (ha : task.active = true) (hs : s ∈ task.run)
    (hnot : 2147483647
      ≤ (curr_tick + 4294967296 - task_deadline task.table s) % 4294967296)
    (hr : mr_task_update_tick_loop cfg curr_tick fuel task = some task2) :
    s ∈ task2.run ∧ task2.table.getD s default = task.table.getD s default ∧
    ∃ ext : List Nat, fifo_contents task2.queue = fifo_contents task.queue ++ ext ∧
      ext.length % 2 = 0 ∧
      ∀ r ∈ task_queue_records ext, r.1 ≠ s ∧ r.2 = MR_TASK_EVENT_TIMING := by
  refine (mr_task_update_tick_loop_induct cfg curr_tick
    (fun t => s ∈ t.run ∧ t.table.getD s default = task.table.getD s default ∧
      ∃ ext : List Nat, fifo_contents t.queue = fifo_contents task.queue ++ ext ∧
        ext.length % 2 = 0 ∧
        ∀ r ∈ task_queue_records ext, r.1 ≠ s ∧ r.2 = MR_TASK_EVENT_TIMING)
    ?_ fuel task task2 hinv hri ha ⟨hs, rfl, [], by rw [List.append_nil], rfl, ?_⟩ hr).1
  · intro t node rest tinv tri ta trun tdue ⟨ps, pe, ext, pc, pl, pr⟩
    obtain ⟨_, _, _, _, _, f6, f7, f8, f9, f10, _⟩ :=
      mr_task_update_tick_fire_spec cfg t node rest tinv tri ta trun
    have hns : node ≠ s := by
      intro e
      rw [e] at tdue
      unfold task_deadline at tdue hnot
      rw [pe] at tdue
      omega
    have hsr : s ∈ rest := by
      rw [trun] at ps
      rcases List.mem_cons.mp ps with e | hm
      · exact absurd e.symm hns
      · exact hm
    have hn2 : node < 256 := by have := tinv.2.1.2.1; omega
    have hq : ∃ ext2 : List Nat,
        fifo_contents (mr_task_update_tick_fire cfg t node rest).queue
          = fifo_contents task.queue ++ ext2 ∧ ext2.length % 2 = 0 ∧
        ∀ r ∈ task_queue_records ext2, r.1 ≠ s ∧ r.2 = MR_TASK_EVENT_TIMING := by
      rw [f10]
      have hinv1 : task_inv { t with run := rest } := ⟨tinv.1, tinv.2.1, tinv.2.2⟩
      rcases mr_task_post_event_cases cfg { t with run := rest } node MR_TASK_EVENT_TIMING
        hinv1 f7 ta (by decide) with ⟨_, _, c, _⟩ | ⟨_, _, c⟩
      · refine ⟨ext ++ [MR_TASK_EVENT_TIMING, node], ?_, ?_, ?_⟩
        · rw [c]
          show fifo_contents t.queue ++ _ = _
          rw [pc, List.append_assoc]
        · rw [List.length_append]
          simp only [List.length_cons, List.length_nil]
          omega
        · intro r hm
          rw [task_queue_records_append (ext.length / 2) ext _ (by omega),
            task_queue_records_cons _ _ [] (by decide) hn2, List.mem_append] at hm
          rcases hm with hm | hm
          · exact pr r hm
          · simp only [task_queue_records, List.mem_singleton] at hm
            rw [hm]
            exact ⟨hns, rfl⟩
      · rw [c]
        exact ⟨ext, pc, pl, pr⟩
    by_cases hz : (t.table.getD node default).interval = 0
    · obtain ⟨e1, e2⟩ := f8 hz
      exact ⟨by rw [e2]; exact hsr, by rw [e1]; exact pe, hq⟩
    · obtain ⟨e1, e2⟩ := f9 hz
      refine ⟨?_, by rw [e1, table_getD_set_ne _ _ _ _ hns]; exact pe, hq⟩
      rw [e2]
      exact (mr_task_run_insert_perm _ _ _ _).mem_iff.mpr (List.mem_cons_of_mem _ hsr)
  · intro r hm
    simp [task_queue_records] at hm

/-- No early firing over a sequence of calls: a slot in the run list whose
deadline is `d` ticks after the tick `T0`, while the tick stands at `T0 + s`
and the deltas of the calls still to come keep the sum below `d <= 2^31`, is in
the run list with this deadline after the calls, and no record posted by them
is for it. -/
theorem mr_task_update_ticks_pending (cfg : Bool) (fuel index T0 d : Nat)
    (hd2 : d ≤ 2147483648) (queue0 : mr_fifo) (deltas : List Nat) :
    ∀ (task task2 : mr_task) (s : Nat) (ext : List Nat),
      task_inv task → task_run_inv task → task.active = true →
      task.tick = (T0 + s) % 4294967296 → index ∈ task.run →
      task_deadline task.table index = (T0 + d) % 4294967296 →
      s + deltas.sum < d →
      fifo_contents task.queue = fifo_contents queue0 ++ ext → ext.length % 2 = 0 →
      (∀ r ∈ task_queue_records ext, r.1 ≠ index) →
      mr_task_update_ticks cfg fuel deltas task = some task2 →
      index ∈ task2.run ∧ task_deadline task2.table index = (T0 + d) % 4294967296 ∧
      task2.tick = (T0 + (s + deltas.sum)) % 4294967296 ∧
      ∃ ext2 : List Nat, fifo_contents task2.queue = fifo_contents queue0 ++ ext2 ∧
        ∀ r ∈ task_queue_records ext2, r.1 ≠ index := by
  induction deltas with
  | nil =>
    intro task task2 s ext hinv hri ha htick hs hD hsum hc hl hrec hr
    simp only [mr_task_update_ticks, Option.some.injEq] at hr
    subst hr
    exact ⟨hs, hD, by simpa using htick, ext, hc, hrec⟩
  | cons delta deltas ih =>
    intro task task2 s ext hinv hri ha htick hs hD hsum hc hl hrec hr
    simp only [List.sum_cons] at hsum
    simp only [mr_task_update_ticks] at hr
    cases h1 : mr_task_update_tick cfg fuel task delta with
    | none => rw [h1] at hr; exact Option.noConfusion hr
    | some task1 =>
      rw [h1, Option.some_bind] at hr
      unfold mr_task_update_tick at h1
      rw [if_neg (by rw [ha]; decide)] at h1
      simp only [] at h1
      have hinv0 : task_inv { task with tick := (task.tick + delta) % 4294967296 } :=
        ⟨hinv.1, hinv.2.1, hinv.2.2⟩
      have hri0 : task_run_inv { task with tick := (task.tick + delta) % 4294967296 } :=
        ⟨hri.1, hri.2⟩
      have hnot : 2147483647 ≤ ((task.tick + delta) % 4294967296 + 4294967296
          - task_deadline task.table index) % 4294967296 := by
        rw [hD, htick]
        omega
      obtain ⟨q1, q2, ext1, q3, q4, q5⟩ :=
        mr_task_update_tick_loop_pending cfg _ fuel _ task1 index hinv0 hri0 ha hs hnot h1
      obtain ⟨_, i1, i2, i3⟩ := mr_task_update_tick_loop_induct cfg _ (fun _ => True)
        (fun _ _ _ _ _ _ _ _ _ => trivial) fuel _ task1 hinv0 hri0 ha trivial h1
      have htick1 := mr_task_update_tick_loop_tick cfg _ fuel _ task1 hinv0 hri0 ha h1
      have hc1 : fifo_contents task1.queue = fifo_contents queue0 ++ (ext ++ ext1) := by
        rw [q3]
        show fifo_contents task.queue ++ ext1 = _
        rw [hc, List.append_assoc]
      have hrec1 : ∀ r ∈ task_queue_records (ext ++ ext1), r.1 ≠ index := by
        intro r hm
        rw [task_queue_records_append (ext.length / 2) ext _ (by omega), List.mem_append] at hm
        rcases hm with hm | hm
        · exact hrec r hm
        · exact (q5 r hm).1
      have hres := ih task1 task2 (s + delta) (ext ++ ext1) i1 i2 i3
        (by rw [htick1]
            show (task.tick + delta) % 4294967296 = _
            rw [htick]; omega)
        q1 (by unfold task_deadline at hD ⊢; rw [q2]; exact hD)
        (by omega) hc1 (by rw [List.length_append]; omega) hrec1 hr
      obtain ⟨r1, r2, r3, r4⟩ := hres
      refine ⟨r1, r2, ?_, r4⟩
      rw [r3, List.sum_cons]
      congr 1
      omega

/-! ## The scan loop: termination, no early firing, expiry on a full queue -/

theorem task_example_full_armed_reachable (flag : mr_task_timing_flag) :
    task_reachable true (mr_task_timing task_example_full 0 5 flag).1 :=
  task_reachable.timing _ 0 5 flag (by decide) (by decide)
    (task_reachable.post_event _ 0 2 (by decide) (by decide)
      (task_reachable.post_event _ 0 1 (by decide) (by decide) (task_example_reachable true)))

/-- Claim C36.  For every reachable task state in which every slot of the run
list has an interval below `2^31 - 1`, and every `delta` with
`0 < delta < 2^31 - 1`, `mr_task_update_tick` returns when its scan loop is
given as many iterations as there are nodes in the run list at entry, plus
one.  The reason: in every state of the loop in which the head of the run list
is due and has such an interval, the state after the head has been fired has
one due node less, and the fired node is not among the due ones. -/
theorem C36_update_tick_terminates (cfg : Bool) (task : mr_task) (delta : Nat)
    (h : task_reachable cfg task)
    (hint : ∀ node ∈ task.run, (task.table.getD node default).interval < 2147483647)
    (hd1 : 0 < delta) (hd2 : delta < 2147483647) :
    (∃ task2 : mr_task,
      mr_task_update_tick cfg (task.run.length + 1) task delta = some task2) ∧
    (∀ (state : mr_task) (node : Nat) (rest : List Nat),
      task_inv state → task_run_inv state → state.active = true →
      state.run = node :: rest → state.tick < 4294967296 →
      (state.tick + 4294967296 - task_deadline state.table node) % 4294967296
        < 2147483647 →
      (state.table.getD node default).interval < 2147483647 →
      (task_run_due (mr_task_update_tick_fire cfg state node rest) state.tick).length + 1
        = (task_run_due state state.tick).length ∧
      node ∉ task_run_due (mr_task_update_tick_fire cfg state node rest) state.tick) := by
  have hinv := task_reachable_inv cfg task h
  have hri := task_reachable_run_inv cfg task h
  refine ⟨?_, ?_⟩
  · unfold mr_task_update_tick
    by_cases ha : task.active = false
    · rw [if_pos ha]
      exact ⟨task, rfl⟩
    · rw [if_neg ha]
      have ha2 : task.active = true := by
        cases hb : task.active with
        | true => rfl
        | false => exact absurd hb ha
      simp only []
      refine mr_task_update_tick_loop_returns cfg _ (Nat.mod_lt _ (by decide)) _ _
        ⟨hinv.1, hinv.2.1, hinv.2.2⟩ ⟨hri.1, hri.2⟩ ha2 rfl ?_ ?_
      · intro n hn
        exact Nat.le_of_lt (Nat.lt_of_lt_of_le (hint n hn) (by decide))
      · exact Nat.lt_succ_of_le (List.length_filter_le _ _)
  · intro state node rest sinv sri sa srun slt sdue sint
    obtain ⟨d1, d2, _⟩ := mr_task_update_tick_fire_due cfg state node rest state.tick sinv sri sa
      srun rfl slt sdue (by omega)
    exact ⟨d1, d2⟩

/-- Witness of claim C36: at tick 4294967000 slot 0 is armed periodically with
delay 100 and slot 1 with delay 200; the call with delta 250 returns within
three iterations. -/
theorem C36_update_tick_terminates_witness :
    task_reachable true (task_example_pair mr_task_timing_flag.MR_TASK_TIMING_FLAG_PERIODIC) ∧
    ∃ task2 : mr_task,
      mr_task_update_tick true 3
        (task_example_pair mr_task_timing_flag.MR_TASK_TIMING_FLAG_PERIODIC) 250 = some task2 :=
  ⟨task_example_pair_reachable _,
    (C36_update_tick_terminates true
      (task_example_pair mr_task_timing_flag.MR_TASK_TIMING_FLAG_PERIODIC) 250
      (task_example_pair_reachable _) (by decide) (by decide) (by decide)).1⟩

/-- Claim C37.  A slot of a reachable, started task is armed with delay `d`,
`1 <= d <= 2^31`, at the tick `T0`, in either mode, whatever else is armed.
After any sequence of `mr_task_update_tick` calls whose deltas (each within the
function's assertion) sum to less than `d`, the slot is still in the run list,
its timeout is `(T0 + d) mod 2^32`, and the records added to the event queue
since the arming include none for the slot.  `T0` is any tick, so the deadline
may lie past the wrap of the counter. -/
theorem C37_no_early_firing (cfg : Bool) (fuel : Nat) (task task2 : mr_task)
    (index d : Nat) (flag : mr_task_timing_flag) (deltas : List Nat)
    (h : task_reachable cfg task) (ha : task.active = true) (hi : index < task.table_size)
    (hd1 : 1 ≤ d) (hd2 : d ≤ 2147483648)
    (hdeltas : ∀ delta ∈ deltas, delta ≠ 0 ∧ delta < MR_UINT32_MAX / 2)
    (hsum : deltas.sum < d)
    (hr : mr_task_update_ticks cfg fuel deltas (mr_task_timing task index d flag).1
      = some task2) :
    index ∈ task2.run ∧
    (task2.table.getD index default).timeout = (task.tick + d) % 4294967296 ∧
    task2.tick = (task.tick + deltas.sum) % 4294967296 ∧
    ∃ ext : List Nat, fifo_contents task2.queue = fifo_contents task.queue ++ ext ∧
      ∀ r ∈ task_queue_records ext, r.1 ≠ index := by
  have hinv := task_reachable_inv cfg task h
  have hri := task_reachable_run_inv cfg task h
  have hlt := task_reachable_tick_lt cfg task h
  have hlen : task.table.length = task.table_size := hinv.2.1.2.2.1
  have hinv1 := task_inv_timing task index d flag hinv
  have hri1 := task_run_inv_timing task index d flag hri
  obtain ⟨f1, _, _, _, f5, _, f7, _, _⟩ := mr_task_timing_fields task index d flag
  have harm := mr_task_timing_arm task index d flag hi ha (by omega)
  have hmem : index ∈ (mr_task_timing task index d flag).1.run := by
    rw [harm]
    exact (mr_task_run_insert_perm _ _ _ _).mem_iff.mpr (List.mem_cons_self _ _)
  have hD : task_deadline (mr_task_timing task index d flag).1.table index
      = (task.tick + d) % 4294967296 := by
    unfold task_deadline
    rw [harm]
    show ((task.table.set index _).getD index default).timeout = _
    rw [table_getD_set_self _ _ _ (by omega)]
  obtain ⟨r1, r2, r3, r4⟩ := mr_task_update_ticks_pending cfg fuel index task.tick d hd2
    task.queue deltas _ task2 0 [] hinv1 hri1 (by rw [f1]; exact ha)
    (by rw [f5]; omega) hmem hD (by omega) (by rw [f7, List.append_nil]) rfl
    (by intro r hm; simp [task_queue_records] at hm) hr
  refine ⟨r1, r2, ?_, r4⟩
  rw [r3, Nat.zero_add]

/-- Witness of claim C37: at tick 4294967000, with slot 1 armed 3 ticks ahead,
slot 0 is armed 20 ticks ahead; after the deltas 5 and 7, during which slot 1
fires, slot 0 is in the run list with the timeout 4294967020. -/
theorem C37_no_early_firing_witness :
    task_reachable true
      (mr_task_timing task_example_high 1 3 mr_task_timing_flag.MR_TASK_TIMING_FLAG_ONESHOT).1 ∧
    fifo_contents
      ((mr_task_update_ticks true 3 [5, 7]
        (mr_task_timing
          (mr_task_timing task_example_high 1 3
            mr_task_timing_flag.MR_TASK_TIMING_FLAG_ONESHOT).1
          0 20 mr_task_timing_flag.MR_TASK_TIMING_FLAG_ONESHOT).1).getD task_example).queue
      = [MR_TASK_EVENT_TIMING, 1] ∧
    (((mr_task_update_ticks true 3 [5, 7]
        (mr_task_timing
          (mr_task_timing task_example_high 1 3
            mr_task_timing_flag.MR_TASK_TIMING_FLAG_ONESHOT).1
          0 20 mr_task_timing_flag.MR_TASK_TIMING_FLAG_ONESHOT).1).getD
        task_example).table.getD 0 default).timeout = 4294967020 :=
  ⟨task_reachable.timing _ 1 3 _ (by decide) (by decide) task_example_high_reachable,
    by decide,
    ((C37_no_early_firing true 3
      (mr_task_timing task_example_high 1 3 mr_task_timing_flag.MR_TASK_TIMING_FLAG_ONESHOT).1
      ((mr_task_update_ticks true 3 [5, 7]
        (mr_task_timing
          (mr_task_timing task_example_high 1 3
            mr_task_timing_flag.MR_TASK_TIMING_FLAG_ONESHOT).1
          0 20 mr_task_timing_flag.MR_TASK_TIMING_FLAG_ONESHOT).1).getD task_example)
      0 20 mr_task_timing_flag.MR_TASK_TIMING_FLAG_ONESHOT [5, 7]
      (task_reachable.timing _ 1 3 _ (by decide) (by decide) task_example_high_reachable)
      (by decide) (by decide) (by decide) (by decide) (by decide) (by decide)
      (by decide)).2.1).trans (by decide)⟩

/-- Claim C38.  A state of the scan loop of `mr_task_update_tick` whose event
queue is full and whose run list starts with `node`.  If `node` is due the loop
fires it.  Firing it posts the TIMING event, which fails: `mr_task_post_event`
returns `MR_ERR_BUSY` and leaves the task, the queue included, as it was.  The
timer state advances all the same: a one-shot slot is taken out of the run
list, a periodic slot is put back with the timeout `tick + interval` (mod
2^32) and its interval kept.  While the rest of the loop runs the queue stays
as it was, so the dropped event is not posted later in the call, and a
one-shot slot stays out of the run list. -/
theorem C38_expiry_on_full_queue (cfg : Bool) (task : mr_task) (node : Nat)
    (rest : List Nat) (hinv : task_inv task) (hri : task_run_inv task)
    (ha : task.active = true) (hrun : task.run = node :: rest)
    (hfull : mr_fifo_get_space_size task.queue = 0) :
    (∀ curr_tick fuel : Nat,
      (curr_tick + 4294967296 - task_deadline task.table node) % 4294967296 < 2147483647 →
      mr_task_update_tick_loop cfg curr_tick (fuel + 1) task
        = mr_task_update_tick_loop cfg curr_tick fuel
            (mr_task_update_tick_fire cfg task node rest)) ∧
    mr_task_post_event cfg { task with run := rest } (node % 256) MR_TASK_EVENT_TIMING
      = ({ task with run := rest }, mr_err_t.MR_ERR_BUSY) ∧
    (mr_task_update_tick_fire cfg task node rest).queue = task.queue ∧
    ((task.table.getD node default).interval = 0 →
      (mr_task_update_tick_fire cfg task node rest).run = rest ∧
      node ∉ (mr_task_update_tick_fire cfg task node rest).run ∧
      (mr_task_update_tick_fire cfg task node rest).table = task.table) ∧
    ((task.table.getD node default).interval ≠ 0 →
      node ∈ (mr_task_update_tick_fire cfg task node rest).run ∧
      ((mr_task_update_tick_fire cfg task node rest).table.getD node default).timeout
        = (task.tick + (task.table.getD node default).interval) % 4294967296 ∧
      ((mr_task_update_tick_fire cfg task node rest).table.getD node default).interval
        = (task.table.getD node default).interval) ∧
    (∀ (curr_tick fuel : Nat) (task2 : mr_task),
      mr_task_update_tick_loop cfg curr_tick fuel (mr_task_update_tick_fire cfg task node rest)
        = some task2 →
      task2.queue = task.queue ∧
      ((task.table.getD node default).interval = 0 → node ∉ task2.run)) := by
  obtain ⟨f1, f2, f3, f4, f5, f6, f7, f8, f9, f10, _⟩ :=
    mr_task_update_tick_fire_spec cfg task node rest hinv hri ha hrun
  have hlen : task.table.length = task.table_size := hinv.2.1.2.2.1
  have hn2 : node % 256 = node := Nat.mod_eq_of_lt (by have := hinv.2.1.2.1; omega)
  have hinv1 : task_inv { task with run := rest } := ⟨hinv.1, hinv.2.1, hinv.2.2⟩
  have hpost : mr_task_post_event cfg { task with run := rest } node MR_TASK_EVENT_TIMING
      = ({ task with run := rest }, mr_err_t.MR_ERR_BUSY) := by
    rcases mr_task_post_event_cases cfg { task with run := rest } node MR_TASK_EVENT_TIMING
      hinv1 f7 ha (by decide) with ⟨c, _⟩ | ⟨_, c1, c2⟩
    · have hfull2 : mr_fifo_get_space_size task.queue = 0 := hfull
      have c3 : 2 ≤ mr_fifo_get_space_size task.queue := c
      omega
    · exact Prod.ext c2 c1
  have hq : (mr_task_update_tick_fire cfg task node rest).queue = task.queue := by
    rw [f10, hpost]
  refine ⟨?_, by rw [hn2]; exact hpost, hq, ?_, ?_, ?_⟩
  · intro curr_tick fuel hdue
    exact mr_task_update_tick_loop_due cfg curr_tick fuel task node rest hrun hdue
  · intro hz
    obtain ⟨e1, e2⟩ := f8 hz
    exact ⟨e2, by rw [e2]; exact f6, e1⟩
  · intro hz
    obtain ⟨e1, e2⟩ := f9 hz
    refine ⟨?_, ?_, ?_⟩
    · rw [e2]
      exact (mr_task_run_insert_perm _ _ _ _).mem_iff.mpr (List.mem_cons_self _ _)
    · rw [e1, table_getD_set_self _ _ _ (by omega)]
    · rw [e1, table_getD_set_self _ _ _ (by omega)]
  · intro curr_tick fuel task2 hr
    have hP := (mr_task_update_tick_loop_induct cfg curr_tick
      (fun t => t.queue = task.queue) ?_ fuel _ task2 f1 f2 f3 hq hr).1
    · refine ⟨hP, ?_⟩
      intro hz
      obtain ⟨_, e2⟩ := f8 hz
      exact (mr_task_update_tick_loop_detached cfg curr_tick fuel _ task2 node f1 f2 f3
        (by rw [e2]; exact f6) hr).1
    · intro t n r tinv tri ta trun _ pq
      obtain ⟨_, _, _, _, _, _, g7, _, _, g10, _⟩ :=
        mr_task_update_tick_fire_spec cfg t n r tinv tri ta trun
      have tinv1 : task_inv { t with run := r } := ⟨tinv.1, tinv.2.1, tinv.2.2⟩
      rcases mr_task_post_event_cases cfg { t with run := r } n MR_TASK_EVENT_TIMING
        tinv1 g7 ta (by decide) with ⟨c, _⟩ | ⟨_, _, c2⟩
      · have c3 : 2 ≤ mr_fifo_get_space_size t.queue := c
        rw [pq] at c3
        omega
      · rw [g10, c2]
        exact pq

/-- Witness of claim C38: the example task with a full queue and slot 0 armed
periodically 5 ticks ahead, at tick 5: the slot is re-armed for tick 10 and the
queue keeps its two records. -/
theorem C38_expiry_on_full_queue_witness :
    mr_fifo_get_space_size
      (task_example_full_due mr_task_timing_flag.MR_TASK_TIMING_FLAG_PERIODIC).queue = 0 ∧
    (task_example_full_due mr_task_timing_flag.MR_TASK_TIMING_FLAG_PERIODIC).run = [0] ∧
    (mr_task_update_tick_fire true
      (task_example_full_due mr_task_timing_flag.MR_TASK_TIMING_FLAG_PERIODIC) 0 []).queue
      = (task_example_full_due mr_task_timing_flag.MR_TASK_TIMING_FLAG_PERIODIC).queue ∧
    ((mr_task_update_tick_fire true
      (task_example_full_due mr_task_timing_flag.MR_TASK_TIMING_FLAG_PERIODIC) 0 []).table.getD
        0 default).timeout = 10 :=
  ⟨by decide, by decide,
    (C38_expiry_on_full_queue true
      (task_example_full_due mr_task_timing_flag.MR_TASK_TIMING_FLAG_PERIODIC) 0 []
      ⟨(task_reachable_inv true _ (task_example_full_armed_reachable
          mr_task_timing_flag.MR_TASK_TIMING_FLAG_PERIODIC)).1,
        (task_reachable_inv true _ (task_example_full_armed_reachable
          mr_task_timing_flag.MR_TASK_TIMING_FLAG_PERIODIC)).2.1,
        (task_reachable_inv true _ (task_example_full_armed_reachable
          mr_task_timing_flag.MR_TASK_TIMING_FLAG_PERIODIC)).2.2⟩
      ⟨(task_reachable_run_inv true _ (task_example_full_armed_reachable
          mr_task_timing_flag.MR_TASK_TIMING_FLAG_PERIODIC)).1,
        (task_reachable_run_inv true _ (task_example_full_armed_reachable
          mr_task_timing_flag.MR_TASK_TIMING_FLAG_PERIODIC)).2⟩
      (by decide) (by decide) (by decide)).2.2.1,
    by decide⟩

/-! ## Timer device: the reload calculation -/

/-- Claim C39, evaluated at its failing input.  A timer counting at 1 MHz
(`config.freq = 1000000`, within `1..1000000`) whose counter holds 2 counts
(`information.max_cut = 2`, at least 1), and the timeout 3.  The period is 1
and `count` is 3, which is neither below `max_cut` nor a multiple of it.  The
search runs from `reload_min = 2` while `i < reload_max = 0`, so its body is
never executed and `reload_best` keeps its initial value 0: the function stores
the reload 0 and divides `count` by it.  The same happens for `max_cut = 10`
and the timeout 11. -/
theorem C39_timeout_calculate_divides_by_zero :
    1 ≤ timer_example.freq ∧ timer_example.freq ≤ 1000000 ∧ 1 ≤ timer_example.max_cut ∧
    3 / (1000000 / timer_example.freq) = 3 ∧
    ¬ 3 < timer_example.max_cut ∧ 3 % timer_example.max_cut ≠ 0 ∧
    3 / timer_example.max_cut + 1 = 2 ∧ 3 / 5 = 0 ∧
    mr_timer_reload_loop 3 (0 - 2) 2 2 0 = 0 ∧
    mr_timer_timeout_calculate timer_example 3 = none ∧
    mr_timer_timeout_calculate { timer_example with max_cut := 10 } 11 = none := by
  decide

/-! ## AVL tree: proofs -/

theorem mr_int8_eq (x : Int) (h1 : -128 ≤ x) (h2 : x ≤ 127) : mr_int8 x = x := by
  unfold mr_int8
  omega

theorem mr_avl_get_height_node (height : Int) (value : Nat) (left_child right_child : mr_avl) :
    mr_avl_get_height (mr_avl.node height value left_child right_child) = height := rfl

theorem mr_avl_get_height_null : mr_avl_get_height mr_avl.null = -1 := rfl

/-- With correct stored heights the height of a tree is at least -1. -/
theorem avl_height_ge (tree : mr_avl) (h : avl_heights tree) : -1 ≤ mr_avl_get_height tree := by
  cases tree with
  | null => simp [mr_avl_get_height]
  | node height value left_child right_child =>
    obtain ⟨h1, h2, h3⟩ := h
    have a := avl_height_ge left_child h1
    simp only [mr_avl_get_height]
    omega

/-- With correct stored heights the height of a tree is its rank less one. -/
theorem avl_height_rank (tree : mr_avl) (h : avl_heights tree) :
    mr_avl_get_height tree = (avl_rank tree : Int) - 1 := by
  induction tree with
  | null => simp [mr_avl_get_height, avl_rank]
  | node height value left_child right_child ihl ihr =>
    obtain ⟨h1, h2, h3⟩ := h
    have a := ihl h1
    have b := ihr h2
    simp only [mr_avl_get_height, avl_rank]
    rw [h3, a, b]
    push_cast
    omega

/-- A balanced tree of rank `k` has at least `2 ^ (k / 2) - 1` nodes. -/
theorem avl_rank_le_size (tree : mr_avl) (h : avl_heights tree) (hb : avl_balanced tree) :
    2 ^ (avl_rank tree / 2) ≤ (avl_values tree).length + 1 := by
  induction tree with
  | null => simp [avl_rank, avl_values]
  | node height value left_child right_child ihl ihr =>
    obtain ⟨h1, h2, _⟩ := h
    obtain ⟨b1, b2, b3, b4⟩ := hb
    have a := ihl h1 b1
    have b := ihr h2 b2
    rw [avl_height_rank left_child h1, avl_height_rank right_child h2] at b3 b4
    clear h1 h2 b1 b2 ihl ihr
    simp only [avl_rank, avl_values, List.length_append, List.length_cons]
    generalize avl_rank left_child = p at *
    generalize avl_rank right_child = q at *
    generalize (avl_values left_child).length = m at *
    generalize (avl_values right_child).length = n at *
    have hp : 2 ^ ((max p q + 1) / 2) ≤ 2 ^ (p / 2) + 2 ^ (q / 2) := by
      rcases Nat.even_or_odd (max p q) with he | ho
      · obtain ⟨k, hk⟩ := he
        have e1 : (max p q + 1) / 2 = k := by omega
        rw [e1]
        rcases le_total p q with hpq | hpq
        · have e2 : q / 2 = k := by omega
          rw [e2]; exact Nat.le_add_left _ _
        · have e2 : p / 2 = k := by omega
          rw [e2]; exact Nat.le_add_right _ _
      · obtain ⟨k, hk⟩ := ho
        have e1 : (max p q + 1) / 2 = k + 1 := by omega
        have e2 : p / 2 = k := by omega
        have e3 : q / 2 = k := by omega
        rw [e1, e2, e3, pow_succ]
        omega
    omega

/-- A binary search tree is a tree whose values are in strictly ascending
symmetric order. -/
theorem avl_bst_iff_sorted (tree : mr_avl) :
    avl_bst tree ↔ (avl_values tree).Pairwise (fun a b => a < b) := by
  induction tree with
  | null => simp [avl_bst, avl_values]
  | node height value left_child right_child ihl ihr =>
    simp only [avl_bst, avl_values, List.pairwise_append, List.pairwise_cons, ihl, ihr,
      List.mem_cons]
    constructor
    · rintro ⟨s1, s2, o1, o2⟩
      refine ⟨s1, ⟨o2, s2⟩, ?_⟩
      intro a ha b hb
      rcases hb with hb | hb
      · rw [hb]; exact o1 a ha
      · exact lt_trans (o1 a ha) (o2 b hb)
    · rintro ⟨s1, ⟨o2, s2⟩, o3⟩
      exact ⟨s1, s2, fun a ha => o3 a ha value (Or.inl rfl), o2⟩

/-- A strictly ascending list of numbers below `bound` has at most `bound`
elements. -/
theorem sorted_length_le (values : List Nat) (bound : Nat)
    (hs : values.Pairwise (fun a b => a < b)) (hb : ∀ x ∈ values, x < bound) :
    values.length ≤ bound := by
  have hnd : values.Nodup := hs.imp (fun h => Nat.ne_of_lt h)
  have hc := List.toFinset_card_of_nodup hnd
  have hsub : values.toFinset ⊆ Finset.range bound := by
    intro x hx
    exact Finset.mem_range.mpr (hb x (List.mem_toFinset.mp hx))
  have := Finset.card_le_card hsub
  rw [Finset.card_range] at this
  omega

/-- The height of a balanced search tree of 32-bit values is at most 64. -/
theorem avl_height_le (tree : mr_avl) (hs : avl_bst tree) (h : avl_heights tree)
    (hb : avl_balanced tree) (hv : ∀ x ∈ avl_values tree, x < 4294967296) :
    mr_avl_get_height tree ≤ 64 := by
  have h1 := avl_rank_le_size tree h hb
  have h2 := sorted_length_le _ _ ((avl_bst_iff_sorted tree).mp hs) hv
  rw [avl_height_rank tree h]
  by_contra hc
  have h3 : 33 ≤ avl_rank tree / 2 := by omega
  have h4 : 2 ^ 33 ≤ 2 ^ (avl_rank tree / 2) := Nat.pow_le_pow_right (by decide) h3
  have h5 : (2 : Nat) ^ 33 = 8589934592 := by norm_num
  omega

/-- The end of `mr_avl_insert` after an insertion into the left subtree.
`hl` is the height of the left subtree before the insertion; the subtree after
it, `left2`, has this height or, having grown, one more. -/
theorem mr_avl_insert_balance_left (value tvalue : Nat) (height hl : Int)
    (left2 right_child : mr_avl)
    (h1 : avl_heights left2) (b1 : avl_balanced left2)
    (h2 : avl_heights right_child) (b2 : avl_balanced right_child)
    (hbound : mr_avl_get_height left2 ≤ 100) (hbound2 : mr_avl_get_height right_child ≤ 100)
    (hl1 : -1 ≤ hl - mr_avl_get_height right_child)
    (hl2 : hl - mr_avl_get_height right_child ≤ 1)
    (hlt : value < tvalue)
    (hgrow : mr_avl_get_height left2 = hl ∨
      (mr_avl_get_height left2 = hl + 1 ∧ avl_grown value left2)) :
    ∃ tree2 : mr_avl,
      mr_avl_insert_balance value (mr_avl.node height tvalue left2 right_child) = some tree2 ∧
      avl_values tree2 = avl_values left2 ++ tvalue :: avl_values right_child ∧
      avl_heights tree2 ∧ avl_balanced tree2 ∧
      (mr_avl_get_height tree2 = max hl (mr_avl_get_height right_child) + 1 ∨
        (mr_avl_get_height tree2 = max hl (mr_avl_get_height right_child) + 2 ∧
          avl_grown value tree2)) ∧
      (mr_avl_get_height left2 = hl →
        tree2 = mr_avl.node (max hl (mr_avl_get_height right_child) + 1) tvalue left2
          right_child) := by
  have g1 := avl_height_ge left2 h1
  have g2 := avl_height_ge right_child h2
  by_cases hb : mr_avl_get_height left2 - mr_avl_get_height right_child ≤ 1
  · have c1 : ¬ mr_int8 (mr_avl_get_height left2 - mr_avl_get_height right_child) > 1 := by
      rw [mr_int8_eq _ (by omega) (by omega)]; omega
    have c2 : ¬ mr_int8 (mr_avl_get_height left2 - mr_avl_get_height right_child) < -1 := by
      rw [mr_int8_eq _ (by omega) (by omega)]; omega
    have e : mr_avl_insert_balance value (mr_avl.node height tvalue left2 right_child)
        = some (mr_avl.node
            (max (mr_avl_get_height left2) (mr_avl_get_height right_child) + 1)
            tvalue left2 right_child) := by
      unfold mr_avl_insert_balance
      simp only [mr_avl_get_balance]
      rw [if_neg c1, if_neg c2, mr_int8_eq _ (by omega) (by omega)]
    refine ⟨_, e, rfl, ⟨h1, h2, rfl⟩, ⟨b1, b2, by omega, hb⟩, ?_, ?_⟩
    · simp only [mr_avl_get_height_node, avl_grown]
      rcases hgrow with hg | ⟨hg, _⟩
      · left; omega
      · by_cases hc : hl < mr_avl_get_height right_child
        · left; omega
        · right
          exact ⟨by omega, Or.inr (Or.inl ⟨hlt, by omega⟩)⟩
    · intro hg
      rw [hg]
  · rcases hgrow with hg | ⟨hg, hgr⟩
    · omega
    · cases left2 with
      | null => exact absurd hgr (by simp [avl_grown])
      | node lh lv ll lr =>
        obtain ⟨hll, hlr, hlh⟩ := h1
        obtain ⟨bll, blr, bl1, bl2⟩ := b1
        have g3 := avl_height_ge ll hll
        have g4 := avl_height_ge lr hlr
        simp only [mr_avl_get_height_node, mr_avl_get_height_null] at hb hg g1 hbound
        have c1 : mr_int8 (lh - mr_avl_get_height right_child) > 1 := by
          rw [mr_int8_eq _ (by omega) (by omega)]; omega
        rcases hgr with ⟨e1, e2, e3⟩ | ⟨hv, hh⟩ | ⟨hv, hh⟩
        · subst e2 e3
          simp only [mr_avl_get_height_node, mr_avl_get_height_null] at hlh
          omega
        · have e : mr_avl_insert_balance value
              (mr_avl.node height tvalue (mr_avl.node lh lv ll lr) right_child)
              = some (mr_avl.node
                  (max (mr_avl_get_height ll)
                    (max (mr_avl_get_height lr) (mr_avl_get_height right_child) + 1) + 1)
                  lv ll
                  (mr_avl.node
                    (max (mr_avl_get_height lr) (mr_avl_get_height right_child) + 1)
                    tvalue lr right_child)) := by
            unfold mr_avl_insert_balance
            simp only [mr_avl_get_balance, mr_avl_get_height_node]
            rw [if_pos c1, if_pos hv]
            simp only [mr_avl_right_rotate, mr_avl_get_height_node]
            rw [mr_int8_eq (max (mr_avl_get_height lr) (mr_avl_get_height right_child) + 1)
              (by omega) (by omega), mr_int8_eq _ (by omega) (by omega)]
          refine ⟨_, e, ?_, ⟨hll, ⟨hlr, h2, rfl⟩, rfl⟩, ⟨bll, ⟨blr, b2, ?_, ?_⟩, ?_, ?_⟩, ?_, ?_⟩
          · simp only [avl_values, List.append_assoc, List.cons_append]
          · omega
          · omega
          · simp only [mr_avl_get_height_node, mr_avl_get_height_null]; omega
          · simp only [mr_avl_get_height_node, mr_avl_get_height_null]; omega
          · left
            simp only [mr_avl_get_height_node, mr_avl_get_height_null]; omega
          · intro hc
            simp only [mr_avl_get_height_node, mr_avl_get_height_null] at hc
            omega
        · cases lr with
          | null =>
            simp only [mr_avl_get_height_node, mr_avl_get_height_null] at hh
            omega
          | node lrh lrv lrl lrr =>
            obtain ⟨hlrl, hlrr, hlrh⟩ := hlr
            obtain ⟨blrl, blrr, blr1, blr2⟩ := blr
            have g5 := avl_height_ge lrl hlrl
            have g6 := avl_height_ge lrr hlrr
            simp only [mr_avl_get_height_node, mr_avl_get_height_null] at hh hlh bl1 bl2 g4
            have e : mr_avl_insert_balance value
                (mr_avl.node height tvalue (mr_avl.node lh lv ll (mr_avl.node lrh lrv lrl lrr))
                  right_child)
                = some (mr_avl.node
                    (max (max (mr_avl_get_height ll) (mr_avl_get_height lrl) + 1)
                      (max (mr_avl_get_height lrr) (mr_avl_get_height right_child) + 1) + 1)
                    lrv
                    (mr_avl.node (max (mr_avl_get_height ll) (mr_avl_get_height lrl) + 1)
                      lv ll lrl)
                    (mr_avl.node
                      (max (mr_avl_get_height lrr) (mr_avl_get_height right_child) + 1)
                      tvalue lrr right_child)) := by
              unfold mr_avl_insert_balance
              simp only [mr_avl_get_balance, mr_avl_get_height_node]
              rw [if_pos c1, if_neg (by omega), if_pos hv]
              simp only [mr_avl_left_rotate, mr_avl_right_rotate, mr_avl_get_height_node,
                Option.some_bind]
              rw [mr_int8_eq (max (mr_avl_get_height ll) (mr_avl_get_height lrl) + 1)
                  (by omega) (by omega),
                mr_int8_eq (max (mr_avl_get_height lrr) (mr_avl_get_height right_child) + 1)
                  (by omega) (by omega),
                mr_int8_eq _ (by omega) (by omega)]
            refine ⟨_, e, ?_, ⟨⟨hll, hlrl, rfl⟩, ⟨hlrr, h2, rfl⟩, rfl⟩,
              ⟨⟨bll, blrl, ?_, ?_⟩, ⟨blrr, b2, ?_, ?_⟩, ?_, ?_⟩, ?_, ?_⟩
            · simp only [avl_values, List.append_assoc, List.cons_append]
            · omega
            · omega
            · omega
            · omega
            · simp only [mr_avl_get_height_node, mr_avl_get_height_null]; omega
            · simp only [mr_avl_get_height_node, mr_avl_get_height_null]; omega
            · left
              simp only [mr_avl_get_height_node, mr_avl_get_height_null]; omega
            · intro hc
              simp only [mr_avl_get_height_node, mr_avl_get_height_null] at hc
              omega

/-- The end of `mr_avl_insert` after an insertion into the right subtree.
`hr` is the height of the right subtree before the insertion; the subtree
after it, `right2`, has this height or, having grown, one more. -/
theorem mr_avl_insert_balance_right (value tvalue : Nat) (height hr : Int)
    (left_child right2 : mr_avl)
    (h1 : avl_heights left_child) (b1 : avl_balanced left_child)
    (h2 : avl_heights right2) (b2 : avl_balanced right2)
    (hbound : mr_avl_get_height left_child ≤ 100) (hbound2 : mr_avl_get_height right2 ≤ 100)
    (hl1 : -1 ≤ mr_avl_get_height left_child - hr)
    (hl2 : mr_avl_get_height left_child - hr ≤ 1)
    (hlt : tvalue < value)
    (hgrow : mr_avl_get_height right2 = hr ∨
      (mr_avl_get_height right2 = hr + 1 ∧ avl_grown value right2)) :
    ∃ tree2 : mr_avl,
      mr_avl_insert_balance value (mr_avl.node height tvalue left_child right2) = some tree2 ∧
      avl_values tree2 = avl_values left_child ++ tvalue :: avl_values right2 ∧
      avl_heights tree2 ∧ avl_balanced tree2 ∧
      (mr_avl_get_height tree2 = max (mr_avl_get_height left_child) hr + 1 ∨
        (mr_avl_get_height tree2 = max (mr_avl_get_height left_child) hr + 2 ∧
          avl_grown value tree2)) ∧
      (mr_avl_get_height right2 = hr →
        tree2 = mr_avl.node (max (mr_avl_get_height left_child) hr + 1) tvalue left_child
          right2) := by
  have g1 := avl_height_ge left_child h1
  have g2 := avl_height_ge right2 h2
  by_cases hb : -1 ≤ mr_avl_get_height left_child - mr_avl_get_height right2
  · have c1 : ¬ mr_int8 (mr_avl_get_height left_child - mr_avl_get_height right2) > 1 := by
      rw [mr_int8_eq _ (by omega) (by omega)]; omega
    have c2 : ¬ mr_int8 (mr_avl_get_height left_child - mr_avl_get_height right2) < -1 := by
      rw [mr_int8_eq _ (by omega) (by omega)]; omega
    have e : mr_avl_insert_balance value (mr_avl.node height tvalue left_child right2)
        = some (mr_avl.node
            (max (mr_avl_get_height left_child) (mr_avl_get_height right2) + 1)
            tvalue left_child right2) := by
      unfold mr_avl_insert_balance
      simp only [mr_avl_get_balance]
      rw [if_neg c1, if_neg c2, mr_int8_eq _ (by omega) (by omega)]
    refine ⟨_, e, rfl, ⟨h1, h2, rfl⟩, ⟨b1, b2, hb, by omega⟩, ?_, ?_⟩
    · simp only [mr_avl_get_height_node, avl_grown]
      rcases hgrow with hg | ⟨hg, _⟩
      · left; omega
      · by_cases hc : hr < mr_avl_get_height left_child
        · left; omega
        · right
          exact ⟨by omega, Or.inr (Or.inr ⟨hlt, by omega⟩)⟩
    · intro hg
      rw [hg]
  · rcases hgrow with hg | ⟨hg, hgr⟩
    · omega
    · cases right2 with
      | null => exact absurd hgr (by simp [avl_grown])
      | node rh rv rl rr =>
        obtain ⟨hrl, hrr, hrh⟩ := h2
        obtain ⟨brl, brr, br1, br2⟩ := b2
        have g3 := avl_height_ge rl hrl
        have g4 := avl_height_ge rr hrr
        simp only [mr_avl_get_height_node] at hb hg g2 hbound2
        have c1 : ¬ mr_int8 (mr_avl_get_height left_child - rh) > 1 := by
          rw [mr_int8_eq _ (by omega) (by omega)]; omega
        have c2 : mr_int8 (mr_avl_get_height left_child - rh) < -1 := by
          rw [mr_int8_eq _ (by omega) (by omega)]; omega
        rcases hgr with ⟨e1, e2, e3⟩ | ⟨hv, hh⟩ | ⟨hv, hh⟩
        · subst e2 e3
          simp only [mr_avl_get_height_null] at hrh
          omega
        · cases rl with
          | null =>
            simp only [mr_avl_get_height_null] at hh
            omega
          | node rlh rlv rll rlr =>
            obtain ⟨hrll, hrlr, hrlh⟩ := hrl
            obtain ⟨brll, brlr, brl1, brl2⟩ := brl
            have g5 := avl_height_ge rll hrll
            have g6 := avl_height_ge rlr hrlr
            simp only [mr_avl_get_height_node] at hh hrh br1 br2 g3
            have e : mr_avl_insert_balance value
                (mr_avl.node height tvalue left_child
                  (mr_avl.node rh rv (mr_avl.node rlh rlv rll rlr) rr))
                = some (mr_avl.node
                    (max (max (mr_avl_get_height left_child) (mr_avl_get_height rll) + 1)
                      (max (mr_avl_get_height rlr) (mr_avl_get_height rr) + 1) + 1)
                    rlv
                    (mr_avl.node
                      (max (mr_avl_get_height left_child) (mr_avl_get_height rll) + 1)
                      tvalue left_child rll)
                    (mr_avl.node (max (mr_avl_get_height rlr) (mr_avl_get_height rr) + 1)
                      rv rlr rr)) := by
              unfold mr_avl_insert_balance
              simp only [mr_avl_get_balance, mr_avl_get_height_node]
              rw [if_neg c1, if_pos c2, if_neg (by omega), if_pos hv]
              simp only [mr_avl_left_rotate, mr_avl_right_rotate, mr_avl_get_height_node,
                Option.some_bind]
              rw [mr_int8_eq (max (mr_avl_get_height left_child) (mr_avl_get_height rll) + 1)
                  (by omega) (by omega),
                mr_int8_eq (max (mr_avl_get_height rlr) (mr_avl_get_height rr) + 1)
                  (by omega) (by omega),
                mr_int8_eq _ (by omega) (by omega)]
            refine ⟨_, e, ?_, ⟨⟨h1, hrll, rfl⟩, ⟨hrlr, hrr, rfl⟩, rfl⟩,
              ⟨⟨b1, brll, ?_, ?_⟩, ⟨brlr, brr, ?_, ?_⟩, ?_, ?_⟩, ?_, ?_⟩
            · simp only [avl_values, List.append_assoc, List.cons_append]
            · omega
            · omega
            · omega
            · omega
            · simp only [mr_avl_get_height_node]; omega
            · simp only [mr_avl_get_height_node]; omega
            · left
              simp only [mr_avl_get_height_node]; omega
            · intro hc
              simp only [mr_avl_get_height_node] at hc
              omega
        · have e : mr_avl_insert_balance value
              (mr_avl.node height tvalue left_child (mr_avl.node rh rv rl rr))
              = some (mr_avl.node
                  (max (max (mr_avl_get_height left_child) (mr_avl_get_height rl) + 1)
                    (mr_avl_get_height rr) + 1)
                  rv
                  (mr_avl.node
                    (max (mr_avl_get_height left_child) (mr_avl_get_height rl) + 1)
                    tvalue left_child rl)
                  rr) := by
            unfold mr_avl_insert_balance
            simp only [mr_avl_get_balance, mr_avl_get_height_node]
            rw [if_neg c1, if_pos c2, if_pos hv]
            simp only [mr_avl_left_rotate, mr_avl_get_height_node]
            rw [mr_int8_eq (max (mr_avl_get_height left_child) (mr_avl_get_height rl) + 1)
              (by omega) (by omega), mr_int8_eq _ (by omega) (by omega)]
          refine ⟨_, e, ?_, ⟨⟨h1, hrl, rfl⟩, hrr, rfl⟩, ⟨⟨b1, brl, ?_, ?_⟩, brr, ?_, ?_⟩, ?_, ?_⟩
          · simp only [avl_values, List.append_assoc, List.cons_append]
          · omega
          · omega
          · simp only [mr_avl_get_height_node]; omega
          · simp only [mr_avl_get_height_node]; omega
          · left
            simp only [mr_avl_get_height_node]; omega
          · intro hc
            simp only [mr_avl_get_height_node] at hc
            omega

/-- A node with sorted subtrees whose values lie on the right sides of the
node's value is a search tree, whatever its stored height. -/
theorem avl_values_sorted_node (value : Nat) (left_child right_child : mr_avl)
    (sl : avl_bst left_child) (sr : avl_bst right_child)
    (ol : ∀ x ∈ avl_values left_child, x < value)
    (or : ∀ x ∈ avl_values right_child, value < x) :
    (avl_values left_child ++ value :: avl_values right_child).Pairwise (fun a b => a < b) :=
  (avl_bst_iff_sorted (mr_avl.node 0 value left_child right_child)).mp ⟨sl, sr, ol, or⟩

/-- What `mr_avl_insert` of a fresh node does to a balanced search tree with
correct heights, as long as the heights fit the 8-bit height field. -/
theorem mr_avl_insert_spec (value : Nat) :
    ∀ tree : mr_avl, avl_bst tree → avl_heights tree → avl_balanced tree →
      mr_avl_get_height tree ≤ 99 →
      ∃ tree2 : mr_avl,
        mr_avl_insert (mr_avl_init value) tree = some tree2 ∧
        (value ∈ avl_values tree → tree2 = tree) ∧
        (∀ x, x ∈ avl_values tree2 ↔ x ∈ avl_values tree ∨ x = value) ∧
        avl_bst tree2 ∧ avl_heights tree2 ∧ avl_balanced tree2 ∧
        (mr_avl_get_height tree2 = mr_avl_get_height tree ∨
          (mr_avl_get_height tree2 = mr_avl_get_height tree + 1 ∧ avl_grown value tree2)) := by
  intro tree
  induction tree with
  | null =>
    intro _ _ _ _
    refine ⟨mr_avl_init value, rfl, ?_, ?_, ?_, ?_, ?_, ?_⟩
    · intro hm
      simp [avl_values] at hm
    · intro x
      simp [avl_values, mr_avl_init]
    · simp [avl_bst, avl_values, mr_avl_init]
    · simp [avl_heights, mr_avl_init, mr_avl_get_height]
    · simp [avl_balanced, mr_avl_init, mr_avl_get_height]
    · right
      simp [mr_avl_init, mr_avl_get_height, avl_grown]
  | node height tvalue left_child right_child ihl ihr =>
    intro hs hh hb hbound
    obtain ⟨sl, sr, ol, or⟩ := hs
    obtain ⟨hhl, hhr, hhh⟩ := hh
    obtain ⟨bl, br, b1, b2⟩ := hb
    have gl := avl_height_ge left_child hhl
    have gr := avl_height_ge right_child hhr
    simp only [mr_avl_get_height_node] at hbound
    by_cases hlt : value < tvalue
    · obtain ⟨left2, i1, i2, i3, i4, i5, i6, i7⟩ := ihl sl hhl bl (by omega)
      obtain ⟨tree2, r1, r2, r3, r4, r5, r6⟩ :=
        mr_avl_insert_balance_left value tvalue height (mr_avl_get_height left_child) left2
          right_child i5 i6 hhr br (by omega) (by omega) b1 b2 hlt i7
      have e : mr_avl_insert (mr_avl_init value)
          (mr_avl.node height tvalue left_child right_child) = some tree2 := by
        simp only [mr_avl_insert, mr_avl_init]
        rw [if_pos hlt]
        have i1b : mr_avl_insert (mr_avl.node 0 value mr_avl.null mr_avl.null) left_child
            = some left2 := i1
        rw [i1b, Option.some_bind]
        exact r1
      have ol2 : ∀ x ∈ avl_values left2, x < tvalue := by
        intro x hx
        rcases (i3 x).mp hx with hx1 | hx1
        · exact ol x hx1
        · rw [hx1]; exact hlt
      refine ⟨tree2, e, ?_, ?_, ?_, r3, r4, ?_⟩
      · intro hm
        simp only [avl_values, List.mem_append, List.mem_cons] at hm
        have hml : value ∈ avl_values left_child := by
          rcases hm with hm | hm | hm
          · exact hm
          · omega
          · have := or value hm
            omega
        have el := i2 hml
        rw [r6 (by rw [el]), el, hhh]
      · intro x
        rw [r2]
        simp only [avl_values, List.mem_append, List.mem_cons, i3 x]
        constructor
        · rintro ((hx | hx) | hx | hx)
          · exact Or.inl (Or.inl hx)
          · exact Or.inr hx
          · exact Or.inl (Or.inr (Or.inl hx))
          · exact Or.inl (Or.inr (Or.inr hx))
        · rintro ((hx | hx | hx) | hx)
          · exact Or.inl (Or.inl hx)
          · exact Or.inr (Or.inl hx)
          · exact Or.inr (Or.inr hx)
          · exact Or.inl (Or.inr hx)
      · rw [avl_bst_iff_sorted, r2]
        exact avl_values_sorted_node tvalue left2 right_child i4 sr ol2 or
      · simp only [mr_avl_get_height_node]
        rw [hhh]
        rcases r5 with r5 | ⟨r5, r5g⟩
        · exact Or.inl r5
        · exact Or.inr ⟨by omega, r5g⟩
    · by_cases hgt : value > tvalue
      · obtain ⟨right2, i1, i2, i3, i4, i5, i6, i7⟩ := ihr sr hhr br (by omega)
        obtain ⟨tree2, r1, r2, r3, r4, r5, r6⟩ :=
          mr_avl_insert_balance_right value tvalue height (mr_avl_get_height right_child)
            left_child right2 hhl bl i5 i6 (by omega) (by omega) b1 b2 hgt i7
        have e : mr_avl_insert (mr_avl_init value)
            (mr_avl.node height tvalue left_child right_child) = some tree2 := by
          simp only [mr_avl_insert, mr_avl_init]
          rw [if_neg hlt, if_pos hgt]
          have i1b : mr_avl_insert (mr_avl.node 0 value mr_avl.null mr_avl.null) right_child
              = some right2 := i1
          rw [i1b, Option.some_bind]
          exact r1
        have or2 : ∀ x ∈ avl_values right2, tvalue < x := by
          intro x hx
          rcases (i3 x).mp hx with hx1 | hx1
          · exact or x hx1
          · rw [hx1]; exact hgt
        refine ⟨tree2, e, ?_, ?_, ?_, r3, r4, ?_⟩
        · intro hm
          simp only [avl_values, List.mem_append, List.mem_cons] at hm
          have hmr : value ∈ avl_values right_child := by
            rcases hm with hm | hm | hm
            · have := ol value hm
              omega
            · omega
            · exact hm
          have er := i2 hmr
          rw [r6 (by rw [er]), er, hhh]
        · intro x
          rw [r2]
          simp only [avl_values, List.mem_append, List.mem_cons, i3 x]
          constructor
          · rintro (hx | hx | hx | hx)
            · exact Or.inl (Or.inl hx)
            · exact Or.inl (Or.inr (Or.inl hx))
            · exact Or.inl (Or.inr (Or.inr hx))
            · exact Or.inr hx
          · rintro ((hx | hx | hx) | hx)
            · exact Or.inl hx
            · exact Or.inr (Or.inl hx)
            · exact Or.inr (Or.inr (Or.inl hx))
            · exact Or.inr (Or.inr (Or.inr hx))
        · rw [avl_bst_iff_sorted, r2]
          exact avl_values_sorted_node tvalue left_child right2 sl i4 ol or2
        · simp only [mr_avl_get_height_node]
          rw [hhh]
          rcases r5 with r5 | ⟨r5, r5g⟩
          · exact Or.inl r5
          · exact Or.inr ⟨by omega, r5g⟩
      · have heq : value = tvalue := by omega
        have e : mr_avl_insert (mr_avl_init value)
            (mr_avl.node height tvalue left_child right_child)
            = some (mr_avl.node height tvalue left_child right_child) := by
          simp only [mr_avl_insert, mr_avl_init]
          rw [if_neg hlt, if_neg hgt]
        refine ⟨_, e, fun _ => rfl, ?_, ⟨sl, sr, ol, or⟩, ⟨hhl, hhr, hhh⟩, ⟨bl, br, b1, b2⟩,
          Or.inl rfl⟩
        intro x
        simp only [avl_values, List.mem_append, List.mem_cons]
        constructor
        · intro hx; exact Or.inl hx
        · rintro (hx | hx)
          · exact hx
          · rw [hx, heq]; exact Or.inr (Or.inl rfl)

/-- In a search tree `mr_avl_find` finds every value of the tree: it returns a
node that carries the value. -/
theorem mr_avl_find_spec (value : Nat) :
    ∀ tree : mr_avl, avl_bst tree → value ∈ avl_values tree →
      ∃ (height : Int) (left_child right_child : mr_avl),
        mr_avl_find tree value = mr_avl.node height value left_child right_child := by
  intro tree
  induction tree with
  | null =>
    intro _ hm
    simp [avl_values] at hm
  | node height tvalue left_child right_child ihl ihr =>
    intro hs hm
    obtain ⟨sl, sr, ol, or⟩ := hs
    simp only [avl_values, List.mem_append, List.mem_cons] at hm
    by_cases heq : tvalue = value
    · refine ⟨height, left_child, right_child, ?_⟩
      simp only [mr_avl_find]
      rw [if_pos heq, heq]
    · by_cases hlt : value < tvalue
      · have hml : value ∈ avl_values left_child := by
          rcases hm with hm | hm | hm
          · exact hm
          · omega
          · have := or value hm
            omega
        obtain ⟨h2, l2, r2, e⟩ := ihl sl hml
        refine ⟨h2, l2, r2, ?_⟩
        simp only [mr_avl_find]
        rw [if_neg heq, if_pos hlt, e]
      · have hmr : value ∈ avl_values right_child := by
          rcases hm with hm | hm | hm
          · have := ol value hm
            omega
          · omega
          · exact hm
        obtain ⟨h2, l2, r2, e⟩ := ihr sr hmr
        refine ⟨h2, l2, r2, ?_⟩
        simp only [mr_avl_find]
        rw [if_neg heq, if_neg hlt, if_pos (by omega), e]

/-! ## AVL tree: insertion -/

/-- The example tree: the root 20 of height 1 with the leaves 10 and 30. -/
theorem avl_example_eq :
    avl_example
      = mr_avl.node 1 20 (mr_avl.node 0 10 mr_avl.null mr_avl.null)
          (mr_avl.node 0 30 mr_avl.null mr_avl.null) := by
  decide

/-- The example tree is a balanced search tree with correct heights. -/
theorem avl_example_spec :
    avl_bst avl_example ∧ avl_heights avl_example ∧ avl_balanced avl_example ∧
    ∀ x ∈ avl_values avl_example, x < 4294967296 := by
  rw [avl_example_eq]
  simp [avl_bst, avl_heights, avl_balanced, avl_values, mr_avl_get_height]

/-- Claim C40.  Let `tree` be a binary search tree on `value` (32-bit values)
in which every node stores its correct height and has a balance factor of -1,
0 or 1.  Inserting a freshly initialised node with `mr_avl_insert` reads
through no null pointer and yields a tree that is again a binary search tree
with correct stored heights and balance factors -1, 0 or 1; its values are the
old values and the new one; it is the old tree if the value was present
already; and `mr_avl_find` of the value in it returns a node that carries the
value. -/
theorem C40_avl_insert_preserves (tree : mr_avl) (value : Nat)
    (hs : avl_bst tree) (hh : avl_heights tree) (hb : avl_balanced tree)
    (hv : ∀ x ∈ avl_values tree, x < 4294967296) (hvalue : value < 4294967296) :
    ∃ tree2 : mr_avl,
      mr_avl_insert (mr_avl_init value) tree = some tree2 ∧
      avl_bst tree2 ∧ avl_heights tree2 ∧ avl_balanced tree2 ∧
      (∀ x, x ∈ avl_values tree2 ↔ x ∈ avl_values tree ∨ x = value) ∧
      (value ∈ avl_values tree → tree2 = tree) ∧
      ∃ (height : Int) (left_child right_child : mr_avl),
        mr_avl_find tree2 value = mr_avl.node height value left_child right_child := by
  have hle := avl_height_le tree hs hh hb hv
  obtain ⟨tree2, i1, i2, i3, i4, i5, i6, _⟩ :=
    mr_avl_insert_spec value tree hs hh hb (by omega)
  exact ⟨tree2, i1, i4, i5, i6, i3, i2,
    mr_avl_find_spec value tree2 i4 ((i3 value).mpr (Or.inr rfl))⟩

/-- Witness of claim C40: the value 25 inserted into the example tree of the
values 10, 20 and 30. -/
theorem C40_avl_insert_preserves_witness :
    ∃ tree2 : mr_avl,
      mr_avl_insert (mr_avl_init 25) avl_example = some tree2 ∧
      avl_bst tree2 ∧ avl_heights tree2 ∧ avl_balanced tree2 ∧
      (∀ x, x ∈ avl_values tree2 ↔ x ∈ avl_values avl_example ∨ x = 25) ∧
      (25 ∈ avl_values avl_example → tree2 = avl_example) ∧
      ∃ (height : Int) (left_child right_child : mr_avl),
        mr_avl_find tree2 25 = mr_avl.node height 25 left_child right_child :=
  C40_avl_insert_preserves avl_example 25 avl_example_spec.1 avl_example_spec.2.1
    avl_example_spec.2.2.1 avl_example_spec.2.2.2 (by decide)

/-! ## Unit ticks with several armed slots, away from the wrap of the tick -/

/-- When the scan loop returns, the run list is empty or its head is not
due. -/
theorem mr_task_update_tick_loop_exit (cfg : Bool) (curr_tick fuel : Nat) :
    ∀ task task2 : mr_task,
      mr_task_update_tick_loop cfg curr_tick fuel task = some task2 →
      task2.run = [] ∨ ∃ node rest, task2.run = node :: rest ∧
        2147483647
          ≤ (curr_tick + 4294967296 - task_deadline task2.table node) % 4294967296 := by
  induction fuel with
  | zero =>
    intro task task2 hr
    simp [mr_task_update_tick_loop] at hr
  | succ fuel ih =>
    intro task task2 hr
    cases hrun : task.run with
    | nil =>
      rw [mr_task_update_tick_loop_nil cfg curr_tick fuel task hrun] at hr
      simp only [Option.some.injEq] at hr
      rw [← hr]; exact Or.inl hrun
    | cons node rest =>
      by_cases hdue : (curr_tick + 4294967296 - task_deadline task.table node) % 4294967296
          < 2147483647
      · rw [mr_task_update_tick_loop_due cfg curr_tick fuel task node rest hrun hdue] at hr
        exact ih _ task2 hr
      · rw [mr_task_update_tick_loop_not_due cfg curr_tick fuel task node rest hrun
          (by omega)] at hr
        simp only [Option.some.injEq] at hr
        rw [← hr]; exact Or.inr ⟨node, rest, hrun, by omega⟩

/-- The records for a slot in queue bytes extended by further bytes. -/
theorem task_records_of_append (s : Nat) (bytes more : List Nat)
    (hl : bytes.length % 2 = 0) :
    task_records_of s (bytes ++ more) = task_records_of s bytes ++ task_records_of s more := by
  unfold task_records_of
  rw [task_queue_records_append (bytes.length / 2) bytes more (by omega), List.filter_append]

/-- The records for a slot in the record of one expiry. -/
theorem task_records_of_timing (s node : Nat) (hn : node < 256) :
    task_records_of s [MR_TASK_EVENT_TIMING, node]
      = if node = s then [(s, MR_TASK_EVENT_TIMING)] else [] := by
  unfold task_records_of
  rw [task_queue_records_cons _ _ [] (by decide) hn]
  by_cases h : node = s
  · subst h
    simp [task_queue_records]
  · simp [task_queue_records, h]

/-- One unit tick on an active task whose timers are ahead of the tick and
clear of the wrap: the call returns, the timers are still ahead, and the
tracked periodic slot `s`, due in `r` ticks with `1 ≤ r ≤ p`, is one tick
nearer to its deadline without a record when `r ≥ 2`, and has expired once and
been re-armed `p` ticks ahead when `r = 1`. -/
theorem mr_task_update_tick_ahead (cfg : Bool) (fuel : Nat) (task : mr_task) (s p r h : Nat)
    (hinv : task_inv task) (hri : task_run_inv task) (hso : task_run_sorted task)
    (ha : task.active = true) (hah : task_run_ahead task (h + 1))
    (hs : s ∈ task.run) (hint : (task.table.getD s default).interval = p)
    (hD : task_deadline task.table s = task.tick + r) (hr1 : 1 ≤ r) (hr2 : r ≤ p)
    (hfuel : task.run.length < fuel)
    (hroom : 2 * task.run.length ≤ mr_fifo_get_space_size task.queue) :
    ∃ task2 : mr_task,
      mr_task_update_tick cfg fuel task 1 = some task2 ∧
      task_inv task2 ∧ task_run_inv task2 ∧ task_run_sorted task2 ∧ task2.active = true ∧
      task_run_ahead task2 h ∧
      task2.tick = task.tick + 1 ∧ task2.run.length ≤ task.run.length ∧
      task2.table_size = task.table_size ∧
      s ∈ task2.run ∧ (task2.table.getD s default).interval = p ∧
      ∃ ext : List Nat,
        fifo_contents task2.queue = fifo_contents task.queue ++ ext ∧
        ext.length % 2 = 0 ∧ ext.length ≤ 2 * task.run.length ∧
        mr_fifo_get_space_size task2.queue + ext.length
          = mr_fifo_get_space_size task.queue ∧
        ((2 ≤ r ∧ task_deadline task2.table s = task2.tick + (r - 1) ∧
            task_records_of s ext = []) ∨
          (r = 1 ∧ task_deadline task2.table s = task2.tick + p ∧
            task_records_of s ext = [(s, MR_TASK_EVENT_TIMING)])) := by
  obtain ⟨hah1, hah2⟩ := hah
  have hna : ¬ task.active = false := by rw [ha]; decide
  have hcurr : (task.tick + 1) % 4294967296 = task.tick + 1 := Nat.mod_eq_of_lt (by omega)
  have hloop : mr_task_update_tick cfg fuel task 1
      = mr_task_update_tick_loop cfg (task.tick + 1) fuel
          { task with tick := task.tick + 1 } := by
    rw [mr_task_update_tick, if_neg hna]
    simp only []
    rw [hcurr]
  have hinv0 : task_inv { task with tick := task.tick + 1 } := ⟨hinv.1, hinv.2.1, hinv.2.2⟩
  have hri0 : task_run_inv { task with tick := task.tick + 1 } := ⟨hri.1, hri.2⟩
  have hso0 : task_run_sorted { task with tick := task.tick + 1 } := hso
  have hdue0 : (task_run_due { task with tick := task.tick + 1 } (task.tick + 1)).length
      ≤ task.run.length := by
    unfold task_run_due
    exact List.length_filter_le _ _
  obtain ⟨task2, hr⟩ := mr_task_update_tick_loop_returns cfg (task.tick + 1) (by omega) fuel
    { task with tick := task.tick + 1 } hinv0 hri0 ha rfl
    (fun n hn => (hah2 n hn).2.2.2.1) (by omega)
  have hP := mr_task_update_tick_loop_induct cfg (task.tick + 1)
    (fun t => t.tick = task.tick + 1 ∧ t.run.length ≤ task.run.length ∧
      t.table_size = task.table_size ∧
      (∀ node ∈ t.run,
        task.tick + 1 ≤ task_deadline t.table node ∧
        task_deadline t.table node ≤ task.tick + 1 + 2147483649 ∧
        task_deadline t.table node < 4294967296 ∧
        (t.table.getD node default).interval ≤ 2147483649 ∧
        task.tick + 1 + h + (t.table.getD node default).interval < 4294967296) ∧
      s ∈ t.run ∧ (t.table.getD s default).interval = p ∧
      ∃ ext : List Nat,
        fifo_contents t.queue = fifo_contents task.queue ++ ext ∧
        ext.length % 2 = 0 ∧
        mr_fifo_get_space_size t.queue + ext.length = mr_fifo_get_space_size task.queue ∧
        ext.length + 2 * (task_run_due t (task.tick + 1)).length
          = 2 * (task_run_due { task with tick := task.tick + 1 } (task.tick + 1)).length ∧
        ((task_deadline t.table s = task.tick + r ∧ task_records_of s ext = []) ∨
          (r = 1 ∧ task_deadline t.table s = task.tick + 1 + p ∧
            task_records_of s ext = [(s, MR_TASK_EVENT_TIMING)])))
    ?_ fuel { task with tick := task.tick + 1 } task2 hinv0 hri0 ha ?_ hr
  · obtain ⟨⟨q1, q2, q2b, q3, q4, q5, ext, q6, q7, q8, q9, q10⟩, i1, i2, i3⟩ := hP
    have hso2 := task_run_sorted_update_tick_loop cfg (task.tick + 1) fuel _ task2 hinv0 hri0
      hso0 hr
    have hexit := mr_task_update_tick_loop_exit cfg (task.tick + 1) fuel _ task2 hr
    -- every node of the run list is after the tick at the return
    have hafter : ∀ node ∈ task2.run, task.tick + 1 < task_deadline task2.table node := by
      intro node hn
      rcases hexit with he | ⟨hd, rest, he, hnot⟩
      · rw [he] at hn
        exact absurd hn (List.not_mem_nil node)
      · have hhd : task.tick + 1 < task_deadline task2.table hd := by
          obtain ⟨b1, b2, b3, _⟩ := q3 hd (by rw [he]; exact List.mem_cons_self _ _)
          omega
        unfold task_run_sorted at hso2
        rw [he] at hn hso2
        rcases List.mem_cons.mp hn with e | hm
        · rw [e]; exact hhd
        · have := (List.pairwise_cons.mp hso2).1 node hm
          omega
    refine ⟨task2, by rw [hloop]; exact hr, i1, i2, hso2, i3, ?_, q1, q2, q2b, q4, q5, ext,
      q6, q7, by omega, q8, ?_⟩
    · refine ⟨by rw [q1]; omega, ?_⟩
      intro node hn
      obtain ⟨b1, b2, b3, b4, b5⟩ := q3 node hn
      have := hafter node hn
      rw [q1]
      exact ⟨this, by omega, b3, b4, by omega⟩
    · have hsa := hafter s q4
      rcases q10 with ⟨e1, e2⟩ | ⟨e0, e1, e2⟩
      · left
        exact ⟨by omega, by rw [e1, q1]; omega, e2⟩
      · right
        exact ⟨e0, by rw [e1, q1], e2⟩
  · -- a firing keeps the invariant
    intro t node rest tinv tri ta trun tdue
      ⟨p1, p2, p2b, p3, p4, p5, ext, p6, p7, p8, p9, p10⟩
    obtain ⟨_, _, _, f4, f5, f6, f7, f8, f9, f10, _⟩ :=
      mr_task_update_tick_fire_spec cfg t node rest tinv tri ta trun
    have hnode : node ∈ t.run := by rw [trun]; exact List.mem_cons_self _ _
    obtain ⟨n1, n2, n3, n4, n5⟩ := p3 node hnode
    obtain ⟨d1, _, d3⟩ := mr_task_update_tick_fire_due cfg t node rest (task.tick + 1) tinv
      tri ta trun p1 (by omega) tdue n4
    have hDn : task_deadline t.table node = task.tick + 1 := by omega
    have hlen : t.table.length = t.table_size := tinv.2.1.2.2.1
    have hn2 : node < 256 := by have := tinv.2.1.2.1; omega
    have hlenrun : t.run.length = rest.length + 1 := by rw [trun]; rfl
    -- the record is posted
    have hq : fifo_contents (mr_task_update_tick_fire cfg t node rest).queue
          = fifo_contents t.queue ++ [MR_TASK_EVENT_TIMING, node] ∧
        mr_fifo_get_space_size (mr_task_update_tick_fire cfg t node rest).queue + 2
          = mr_fifo_get_space_size t.queue := by
      rw [f10]
      rcases mr_task_post_event_cases cfg { t with run := rest } node MR_TASK_EVENT_TIMING
        ⟨tinv.1, tinv.2.1, tinv.2.2⟩ f7 ta (by decide) with ⟨_, _, c1, c2⟩ | ⟨hfull, _, _⟩
      · exact ⟨c1, c2⟩
      · have hfull2 : mr_fifo_get_space_size t.queue = 0 := hfull
        omega
    have hext : ∀ tail : List (Nat × Nat),
        task_records_of s [MR_TASK_EVENT_TIMING, node] = tail →
        ∀ before : List (Nat × Nat), task_records_of s ext = before →
        task_records_of s (ext ++ [MR_TASK_EVENT_TIMING, node]) = before ++ tail := by
      intro tail ht before hb
      rw [task_records_of_append s ext _ p7, ht, hb]
    have hrec := task_records_of_timing s node hn2
    by_cases hz : (t.table.getD node default).interval = 0
    · obtain ⟨e1, e2⟩ := f8 hz
      have hns : node ≠ s := by
        intro e
        rw [e, p5] at hz
        omega
      rw [if_neg hns] at hrec
      have hsr : s ∈ rest := by
        rw [trun] at p4
        rcases List.mem_cons.mp p4 with e | hm
        · exact absurd e.symm hns
        · exact hm
      refine ⟨by rw [f4]; exact p1, by rw [e2]; omega, by rw [f5]; exact p2b, ?_,
        by rw [e2]; exact hsr, by rw [e1]; exact p5, ext ++ [MR_TASK_EVENT_TIMING, node],
        by rw [hq.1, p6, List.append_assoc], ?_, ?_, ?_, ?_⟩
      · intro n hn
        rw [e2] at hn
        rw [e1]
        exact p3 n (by rw [trun]; exact List.mem_cons_of_mem _ hn)
      · rw [List.length_append]
        simp only [List.length_cons, List.length_nil]
        omega
      · rw [List.length_append]
        simp only [List.length_cons, List.length_nil]
        omega
      · rw [List.length_append]
        simp only [List.length_cons, List.length_nil]
        omega
      · rw [e1]
        rcases p10 with ⟨a1, a2⟩ | ⟨a0, a1, a2⟩
        · exact Or.inl ⟨a1, by rw [hext [] hrec [] a2]; rfl⟩
        · exact Or.inr ⟨a0, a1, by rw [hext [] hrec _ a2]; rfl⟩
    · obtain ⟨e1, e2⟩ := f9 hz
      have hperm := mr_task_run_insert_perm (mr_task_update_tick_fire cfg t node rest).table
        node ((t.tick + (t.table.getD node default).interval) % 4294967296) rest
      rw [← e2] at hperm
      have hnew : (t.tick + (t.table.getD node default).interval) % 4294967296
          = task.tick + 1 + (t.table.getD node default).interval := by
        rw [p1]
        exact Nat.mod_eq_of_lt (by omega)
      have hDself : task_deadline (mr_task_update_tick_fire cfg t node rest).table node
          = task.tick + 1 + (t.table.getD node default).interval := by
        unfold task_deadline
        rw [e1, table_getD_set_self _ _ _ (by omega)]
        exact hnew
      have hIself : ((mr_task_update_tick_fire cfg t node rest).table.getD node
          default).interval = (t.table.getD node default).interval := by
        rw [e1, table_getD_set_self _ _ _ (by omega)]
      have hother : ∀ n, node ≠ n →
          (mr_task_update_tick_fire cfg t node rest).table.getD n default
            = t.table.getD n default := by
        intro n hne
        rw [e1, table_getD_set_ne _ _ _ _ hne]
      refine ⟨by rw [f4]; exact p1, by rw [hperm.length_eq]; simp only [List.length_cons]; omega,
        by rw [f5]; exact p2b, ?_, ?_, ?_, ext ++ [MR_TASK_EVENT_TIMING, node],
        by rw [hq.1, p6, List.append_assoc], ?_, ?_, ?_, ?_⟩
      · intro n hn
        have hm : n ∈ t.run := by rw [trun]; exact hperm.mem_iff.mp hn
        by_cases hne : node = n
        · subst hne
          rw [hDself, hIself]
          exact ⟨by omega, by omega, by omega, n4, n5⟩
        · unfold task_deadline
          rw [hother n hne]
          exact p3 n hm
      · exact hperm.mem_iff.mpr (by rw [← trun]; exact p4)
      · by_cases hne : node = s
        · rw [← hne, hIself, hne]; exact p5
        · rw [hother s hne]; exact p5
      · rw [List.length_append]
        simp only [List.length_cons, List.length_nil]
        omega
      · rw [List.length_append]
        simp only [List.length_cons, List.length_nil]
        omega
      · rw [List.length_append]
        simp only [List.length_cons, List.length_nil]
        omega
      · by_cases hne : node = s
        · rw [if_pos hne] at hrec
          subst hne
          rcases p10 with ⟨a1, a2⟩ | ⟨a0, a1, a2⟩
          · right
            refine ⟨by omega, by rw [hDself, p5], ?_⟩
            rw [hext _ hrec [] a2]
            rfl
          · omega
        · rw [if_neg hne] at hrec
          unfold task_deadline
          rw [hother s hne]
          rcases p10 with ⟨a1, a2⟩ | ⟨a0, a1, a2⟩
          · exact Or.inl ⟨a1, by rw [hext [] hrec [] a2]; rfl⟩
          · exact Or.inr ⟨a0, a1, by rw [hext [] hrec _ a2]; rfl⟩
  · -- the invariant holds when the loop is entered
    refine ⟨rfl, Nat.le_refl _, rfl, ?_, hs, hint, [], by rw [List.append_nil], rfl, rfl,
      Nat.zero_add _, Or.inl ⟨hD, rfl⟩⟩
    intro node hn
    obtain ⟨b1, b2, b3, b4, b5⟩ := hah2 node hn
    show task.tick + 1 ≤ task_deadline task.table node ∧
      task_deadline task.table node ≤ task.tick + 1 + 2147483649 ∧
      task_deadline task.table node < 4294967296 ∧
      (task.table.getD node default).interval ≤ 2147483649 ∧
      task.tick + 1 + h + (task.table.getD node default).interval < 4294967296
    exact ⟨by omega, by omega, b3, b4, by omega⟩

/-- Unit ticks away from the wrap: on an active task whose timers are ahead of
the tick and clear of the wrap for `n + k` ticks, with the periodic slot `s`
just armed (its deadline is `p` ticks ahead), `n` calls
`mr_task_update_tick(task, 1)` return; afterwards the tick has advanced by
`n`, the timers are clear of the wrap for `k` ticks more, the slot is in the
run list with interval `p` and is due in `p - n mod p` ticks, and the records
appended to the queue hold `n / p` records for the slot, all
`MR_TASK_EVENT_TIMING`, provided the queue had room for one record for each
armed slot at each tick. -/
theorem mr_task_unit_ticks_ahead (cfg : Bool) (fuel s p : Nat) (hp1 : 1 ≤ p) (task : mr_task)
    (hinv : task_inv task) (hri : task_run_inv task) (hso : task_run_sorted task)
    (ha : task.active = true) (hs : s ∈ task.run)
    (hint : (task.table.getD s default).interval = p)
    (hD : task_deadline task.table s = task.tick + p)
    (hfuel : task.run.length < fuel) (n : Nat) :
    ∀ k : Nat, task_run_ahead task (n + k) →
      n * (2 * task.run.length) ≤ mr_fifo_get_space_size task.queue →
      ∃ task2 : mr_task,
        mr_task_unit_ticks cfg fuel n task = some task2 ∧
        task_inv task2 ∧ task_run_inv task2 ∧ task_run_sorted task2 ∧ task2.active = true ∧
        task_run_ahead task2 k ∧
        task2.tick = task.tick + n ∧ task2.run.length ≤ task.run.length ∧
        task2.table_size = task.table_size ∧
        s ∈ task2.run ∧ (task2.table.getD s default).interval = p ∧
        task_deadline task2.table s = task2.tick + (p - n % p) ∧
        ∃ ext : List Nat,
          fifo_contents task2.queue = fifo_contents task.queue ++ ext ∧
          ext.length % 2 = 0 ∧ ext.length ≤ n * (2 * task.run.length) ∧
          mr_fifo_get_space_size task2.queue + ext.length
            = mr_fifo_get_space_size task.queue ∧
          task_records_of s ext = List.replicate (n / p) (s, MR_TASK_EVENT_TIMING) := by
  induction n with
  | zero =>
    intro k hah _
    rw [Nat.zero_add] at hah
    refine ⟨task, rfl, hinv, hri, hso, ha, hah, rfl, Nat.le_refl _, rfl, hs, hint, ?_, [],
      by rw [List.append_nil], rfl, Nat.zero_le _, rfl, ?_⟩
    · rw [Nat.zero_mod, Nat.sub_zero]; exact hD
    · rw [Nat.zero_div]; rfl
  | succ n ih =>
    intro k hah hroom
    have hmul : (n + 1) * (2 * task.run.length)
        = n * (2 * task.run.length) + 2 * task.run.length := by
      rw [Nat.add_mul, Nat.one_mul]
    obtain ⟨tn, r1, r2, r3, r4, r5, r6, r7, r8, r8b, r9, r10, r11, ext, x1, x2, x3, x4, x5⟩ :=
      ih (k + 1) (by rw [show n + (k + 1) = n + 1 + k by omega]; exact hah) (by omega)
    have hmod : n % p < p := Nat.mod_lt n (by omega)
    obtain ⟨hc1, hc2⟩ := succ_div_mod n p (by omega)
    obtain ⟨t2, u1, u2, u3, u4, u5, u6, u7, u8, u8b, u9, u10, ext2, y1, y2, y3, y4, y5⟩ :=
      mr_task_update_tick_ahead cfg fuel tn s p (p - n % p) k r2 r3 r4 r5 r6 r9 r10 r11
        (by omega) (by omega) (by omega)
        (by have : 2 * tn.run.length ≤ 2 * task.run.length := by omega
            omega)
    have hrecs := task_records_of_append s ext ext2 x2
    refine ⟨t2, ?_, u2, u3, u4, u5, u6, by rw [u7, r7]; omega, by omega, u8b.trans r8b, u9,
      u10, ?_, ext ++ ext2, by rw [y1, x1, List.append_assoc],
      by rw [List.length_append]; omega, ?_, by rw [List.length_append]; omega, ?_⟩
    · rw [mr_task_unit_ticks, r1]
      exact u1
    · rcases y5 with ⟨a0, a1, _⟩ | ⟨a0, a1, _⟩
      · obtain ⟨_, em⟩ := hc1 (by omega)
        rw [a1, em]
        omega
      · obtain ⟨_, em⟩ := hc2 (by omega)
        rw [a1, em, Nat.sub_zero]
    · rw [List.length_append, hmul]
      have : 2 * tn.run.length ≤ 2 * task.run.length := by omega
      omega
    · rw [hrecs, x5]
      rcases y5 with ⟨a0, _, a2⟩ | ⟨a0, _, a2⟩
      · obtain ⟨ed, _⟩ := hc1 (by omega)
        rw [a2, ed, List.append_nil]
      · obtain ⟨ed, _⟩ := hc2 (by omega)
        rw [a2, ed, List.replicate_succ']

/-- The example task with the larger queue is reachable. -/
theorem task_example_wide_reachable (cfg : Bool) : task_reachable cfg task_example_wide :=
  task_reachable.start _
    (task_reachable.add task_example_blank task_example_table 2 8 (List.replicate 16 0)
      (by decide) (by decide) (by decide))

/-- Claim C23, as the code has it.  Periodic re-arm, in four parts.
First, whenever the scan loop of `mr_task_update_tick` finds the head `node`
of the run list due at the updated tick, on an active task satisfying the
invariants of reachable states, and the loop returns: if the interval `p` of
the node is not zero, the node is in the run list at the return, with interval
`p` and timeout `(updated tick + p) mod 2^32`; if the interval is zero, the
node is not in the run list and its timing fields are as before.  Second, a
slot that is not in the run list of a reachable task is not expired by
`mr_task_update_tick`: it stays out of the run list, its timing fields stay as
they are and no record is posted for it.  Third, with unit ticks and any
number of other slots armed, one-shot or periodic: a slot armed periodically
with interval `p ≥ 1` at tick `T0` on an active reachable task, the timers of
the run list being ahead of the tick and clear of the wrap of the tick counter
for `n` ticks (every deadline after the tick and at most `2^31 + 1` ticks
away, every interval at most `2^31 + 1`, and `T0 + n` plus any interval below
`2^32`), is, after `n` calls `mr_task_update_tick(task, 1)`, which all return,
in the run list with interval `p` and timeout `T0 + (n / p + 1) * p`, and
the records appended to the queue hold exactly `n / p` records for the slot,
all `MR_TASK_EVENT_TIMING`, the queue having room for one record for each
armed slot at each tick: the slot has expired exactly at the ticks
`T0 + k * p`.  Fourth, with unit ticks across the wrap of the tick counter:
the same holds modulo `2^32` for `1 ≤ p ≤ 2^31 + 1` wherever the tick stands,
when no other slot is armed. -/
theorem C23_periodic_rearm (cfg : Bool) :
    (∀ (task task2 : mr_task) (curr_tick fuel node : Nat) (rest : List Nat),
      task_inv task → task_run_inv task → task.active = true → task.tick = curr_tick →
      task.run = node :: rest →
      (curr_tick + 4294967296 - task_deadline task.table node) % 4294967296 < 2147483647 →
      mr_task_update_tick_loop cfg curr_tick fuel task = some task2 →
      ((task.table.getD node default).interval ≠ 0 →
        node ∈ task2.run ∧
        (task2.table.getD node default).interval = (task.table.getD node default).interval ∧
        task_deadline task2.table node
          = (curr_tick + (task.table.getD node default).interval) % 4294967296 ∧
        task2.tick = curr_tick) ∧
      ((task.table.getD node default).interval = 0 →
        node ∉ task2.run ∧
        task2.table.getD node default = task.table.getD node default)) ∧
    (∀ (task task2 : mr_task) (s fuel delta : Nat),
      task_reachable cfg task → s ∉ task.run →
      mr_task_update_tick cfg fuel task delta = some task2 →
      s ∉ task2.run ∧ task2.table.getD s default = task.table.getD s default ∧
      ∃ ext : List Nat, fifo_contents task2.queue = fifo_contents task.queue ++ ext ∧
        ∀ r ∈ task_queue_records ext, r.1 ≠ s) ∧
    (∀ (task : mr_task) (s p n : Nat),
      task_reachable cfg task → task.active = true → s < task.table_size → 1 ≤ p →
      task_run_ahead
        (mr_task_timing task s p mr_task_timing_flag.MR_TASK_TIMING_FLAG_PERIODIC).1 n →
      n * (2 * (mr_task_timing task s p
          mr_task_timing_flag.MR_TASK_TIMING_FLAG_PERIODIC).1.run.length)
        ≤ mr_fifo_get_space_size task.queue →
      ∃ task2 : mr_task,
        mr_task_unit_ticks cfg
            ((mr_task_timing task s p
              mr_task_timing_flag.MR_TASK_TIMING_FLAG_PERIODIC).1.run.length + 1) n
            (mr_task_timing task s p mr_task_timing_flag.MR_TASK_TIMING_FLAG_PERIODIC).1
          = some task2 ∧
        task2.tick = task.tick + n ∧
        s ∈ task2.run ∧
        (task2.table.getD s default).interval = p ∧
        task_deadline task2.table s = task.tick + (n / p + 1) * p ∧
        ∃ ext : List Nat,
          fifo_contents task2.queue = fifo_contents task.queue ++ ext ∧
          task_records_of s ext = List.replicate (n / p) (s, MR_TASK_EVENT_TIMING)) ∧
    (∀ (task : mr_task) (s p n : Nat),
      task_reachable cfg task → task.active = true → task.run = [] →
      s < task.table_size → 1 ≤ p → p ≤ 2147483649 →
      2 * (n / p) ≤ mr_fifo_get_space_size task.queue →
      ∃ task2 : mr_task,
        mr_task_unit_ticks cfg 2 n
            (mr_task_timing task s p mr_task_timing_flag.MR_TASK_TIMING_FLAG_PERIODIC).1
          = some task2 ∧
        task2.tick = (task.tick + n) % 4294967296 ∧
        task2.run = [s] ∧
        (task2.table.getD s default).interval = p ∧
        task_deadline task2.table s = (task.tick + (n / p + 1) * p) % 4294967296 ∧
        fifo_contents task2.queue = fifo_contents task.queue ++ task_timing_bytes s (n / p)) := by
  refine ⟨?_, ?_, ?_, ?_⟩
  · intro task task2 curr_tick fuel node rest hinv hri ha htick hrun hdue hr
    obtain ⟨fuel, rfl⟩ : ∃ f, fuel = f + 1 := by
      cases fuel with
      | zero => simp [mr_task_update_tick_loop] at hr
      | succ f => exact ⟨f, rfl⟩
    rw [mr_task_update_tick_loop_due cfg curr_tick fuel task node rest hrun hdue] at hr
    obtain ⟨f1, f2, f3, f4, _, f6, f7, f8, f9, _⟩ :=
      mr_task_update_tick_fire_spec cfg task node rest hinv hri ha hrun
    have hlen : task.table.length = task.table_size := hinv.2.1.2.2.1
    constructor
    · intro hp
      obtain ⟨e1, e2⟩ := f9 hp
      have eint : ((mr_task_update_tick_fire cfg task node rest).table.getD node
          default).interval = (task.table.getD node default).interval := by
        rw [e1, table_getD_set_self _ _ _ (by omega)]
      have edl : task_deadline (mr_task_update_tick_fire cfg task node rest).table node
          = (curr_tick + (task.table.getD node default).interval) % 4294967296 := by
        unfold task_deadline
        rw [e1, table_getD_set_self _ _ _ (by omega), htick]
      obtain ⟨r1, r2, r3, r4⟩ := mr_task_update_tick_loop_rearmed cfg curr_tick fuel _ task2
        node (task.table.getD node default).interval f1 f2 f3 (by rw [f4, htick])
        (by rw [e2]
            exact (mr_task_run_insert_perm _ _ _ _).mem_iff.mpr (List.mem_cons_self _ _))
        eint hp edl hr
      exact ⟨r2, r3, r4, r1⟩
    · intro hp
      obtain ⟨e1, e2⟩ := f8 hp
      obtain ⟨d1, d2, _⟩ := mr_task_update_tick_loop_detached cfg curr_tick fuel _ task2 node
        f1 f2 f3 (by rw [e2]; exact f6) hr
      exact ⟨d1, by rw [d2, e1]⟩
  · intro task task2 s fuel delta h hs hr
    have hinv := task_reachable_inv cfg task h
    have hri := task_reachable_run_inv cfg task h
    unfold mr_task_update_tick at hr
    split_ifs at hr with ha
    · simp only [Option.some.injEq] at hr
      rw [← hr]
      refine ⟨hs, rfl, [], by rw [List.append_nil], ?_⟩
      intro r hm
      simp [task_queue_records] at hm
    · obtain ⟨d1, d2, ext, d3, _, d5⟩ := mr_task_update_tick_loop_detached cfg _ fuel
        { task with tick := (task.tick + delta) % 4294967296 } task2 s
        ⟨hinv.1, hinv.2.1, hinv.2.2⟩ ⟨hri.1, hri.2⟩ (by simpa using ha) hs hr
      exact ⟨d1, d2, ext, d3, fun r hm => (d5 r hm).1⟩
  · intro task s p n h ha hs hp1 hah hroom
    have hinv := task_reachable_inv cfg task h
    have hri := task_reachable_run_inv cfg task h
    have hso := task_reachable_run_sorted cfg task h
    have hlen : task.table.length = task.table_size := hinv.2.1.2.2.1
    obtain ⟨g1, _, _, _, g5, _, g7, g8, _⟩ := mr_task_timing_fields task s p
      mr_task_timing_flag.MR_TASK_TIMING_FLAG_PERIODIC
    have hinv1 := task_inv_timing task s p
      mr_task_timing_flag.MR_TASK_TIMING_FLAG_PERIODIC hinv
    have hri1 := task_run_inv_timing task s p
      mr_task_timing_flag.MR_TASK_TIMING_FLAG_PERIODIC hri
    have hso1 := task_run_sorted_timing task s p
      mr_task_timing_flag.MR_TASK_TIMING_FLAG_PERIODIC hinv hri hso
    have harm := mr_task_timing_arm task s p
      mr_task_timing_flag.MR_TASK_TIMING_FLAG_PERIODIC hs ha (by omega)
    have hsr : s ∈ (mr_task_timing task s p
        mr_task_timing_flag.MR_TASK_TIMING_FLAG_PERIODIC).1.run := by
      rw [harm]
      exact (mr_task_run_insert_perm _ _ _ _).mem_iff.mpr (List.mem_cons_self _ _)
    have hint : ((mr_task_timing task s p
        mr_task_timing_flag.MR_TASK_TIMING_FLAG_PERIODIC).1.table.getD s default).interval
          = p := by
      rw [harm]
      show ((task.table.set s _).getD s default).interval = p
      rw [table_getD_set_self _ _ _ (by omega)]
      rfl
    have hD0 : task_deadline (mr_task_timing task s p
        mr_task_timing_flag.MR_TASK_TIMING_FLAG_PERIODIC).1.table s
          = (task.tick + p) % 4294967296 := by
      rw [harm]
      show ((task.table.set s _).getD s default).timeout = _
      rw [table_getD_set_self _ _ _ (by omega)]
    have hbound := (hah.2 s hsr).2.2.2.2
    rw [hint, g5] at hbound
    have hD : task_deadline (mr_task_timing task s p
        mr_task_timing_flag.MR_TASK_TIMING_FLAG_PERIODIC).1.table s
          = (mr_task_timing task s p
              mr_task_timing_flag.MR_TASK_TIMING_FLAG_PERIODIC).1.tick + p := by
      rw [hD0, g5]
      exact Nat.mod_eq_of_lt (by omega)
    obtain ⟨task2, u1, _, _, _, _, _, u7, _, _, u9, u10, u11, ext, x1, _, _, _, x5⟩ :=
      mr_task_unit_ticks_ahead cfg _ s p hp1 _ hinv1 hri1 hso1 (by rw [g1]; exact ha) hsr hint
        hD (Nat.lt_succ_self _) n 0 hah (by rw [g7]; exact hroom)
    rw [g5] at u7
    rw [g7] at x1
    refine ⟨task2, u1, u7, u9, u10, ?_, ext, x1, x5⟩
    rw [u11, u7]
    have hdm := Nat.div_add_mod n p
    have hmod : n % p < p := Nat.mod_lt n (by omega)
    have hmul : (n / p + 1) * p = p * (n / p) + p := by
      rw [Nat.add_mul, Nat.one_mul, Nat.mul_comm]
    rw [hmul]
    generalize p * (n / p) = A at hdm
    omega
  · intro task s p n h ha hrun hs hp1 hp2 hroom
    have hinv := task_reachable_inv cfg task h
    have ht := task_reachable_tick_lt cfg task h
    obtain ⟨a1, a2, a3, a4, a5, a6, a7, a8⟩ :=
      mr_task_timing_arm_alone task s p hinv ha hrun hs (by omega)
    obtain ⟨task2, u1, _, _, u4, _, u6, u7, u8, u9, _⟩ := mr_task_unit_ticks_single cfg
      (mr_task_timing task s p mr_task_timing_flag.MR_TASK_TIMING_FLAG_PERIODIC).1 s p
      a1 a2 a3 (by rw [a4]; exact hs) a5 hp1 hp2 (by rw [a6]; exact ht)
      (by rw [a7, a6]) n (by rw [a8]; exact hroom)
    rw [a6] at u7
    rw [a8] at u9
    refine ⟨task2, u1, u7, u4, u6, ?_, u9⟩
    rw [u8, u7]
    have hdm := Nat.div_add_mod n p
    have hmod : n % p < p := Nat.mod_lt n (by omega)
    have hmul : (n / p + 1) * p = p * (n / p) + p := by
      rw [Nat.add_mul, Nat.one_mul, Nat.mul_comm]
    rw [hmul]
    generalize p * (n / p) = A at hdm
    omega


/-- Witness of claim C23: the armed example task at the tick of its deadline
(slot 0, interval 7); slot 1, which is not armed, across a tick that expires
slot 0; slot 0 of the example task with the larger queue armed with interval 2
while slot 1 is armed with interval 3, after 4 unit ticks; and slot 0 of the
example task armed alone with interval 3, after 7 unit ticks. -/
theorem C23_periodic_rearm_witness :
    (0 ∈ ((mr_task_update_tick_loop true 7 2 task_example_due).getD task_example_due).run ∧
      (((mr_task_update_tick_loop true 7 2 task_example_due).getD
          task_example_due).table.getD 0 default).interval
        = (task_example_due.table.getD 0 default).interval ∧
      task_deadline
          ((mr_task_update_tick_loop true 7 2 task_example_due).getD task_example_due).table 0
        = (7 + (task_example_due.table.getD 0 default).interval) % 4294967296 ∧
      ((mr_task_update_tick_loop true 7 2 task_example_due).getD task_example_due).tick = 7) ∧
    (1 ∉ ((mr_task_update_tick true 2 task_example_armed 7).getD task_example_armed).run ∧
      ((mr_task_update_tick true 2 task_example_armed 7).getD
          task_example_armed).table.getD 1 default
        = task_example_armed.table.getD 1 default ∧
      ∃ ext : List Nat,
        fifo_contents
            ((mr_task_update_tick true 2 task_example_armed 7).getD task_example_armed).queue
          = fifo_contents task_example_armed.queue ++ ext ∧
        ∀ r ∈ task_queue_records ext, r.1 ≠ 1) ∧
    (∃ task2 : mr_task,
      mr_task_unit_ticks true
          ((mr_task_timing
            (mr_task_timing task_example_wide 1 3
              mr_task_timing_flag.MR_TASK_TIMING_FLAG_PERIODIC).1 0 2
            mr_task_timing_flag.MR_TASK_TIMING_FLAG_PERIODIC).1.run.length + 1) 4
          (mr_task_timing
            (mr_task_timing task_example_wide 1 3
              mr_task_timing_flag.MR_TASK_TIMING_FLAG_PERIODIC).1 0 2
            mr_task_timing_flag.MR_TASK_TIMING_FLAG_PERIODIC).1
        = some task2 ∧
      task2.tick
        = (mr_task_timing task_example_wide 1 3
            mr_task_timing_flag.MR_TASK_TIMING_FLAG_PERIODIC).1.tick + 4 ∧
      0 ∈ task2.run ∧
      (task2.table.getD 0 default).interval = 2 ∧
      task_deadline task2.table 0
        = (mr_task_timing task_example_wide 1 3
            mr_task_timing_flag.MR_TASK_TIMING_FLAG_PERIODIC).1.tick + (4 / 2 + 1) * 2 ∧
      ∃ ext : List Nat,
        fifo_contents task2.queue
          = fifo_contents (mr_task_timing task_example_wide 1 3
              mr_task_timing_flag.MR_TASK_TIMING_FLAG_PERIODIC).1.queue ++ ext ∧
        task_records_of 0 ext = List.replicate (4 / 2) (0, MR_TASK_EVENT_TIMING)) ∧
    (∃ task2 : mr_task,
      mr_task_unit_ticks true 2 7
          (mr_task_timing task_example 0 3
            mr_task_timing_flag.MR_TASK_TIMING_FLAG_PERIODIC).1
        = some task2 ∧
      task2.tick = (task_example.tick + 7) % 4294967296 ∧
      task2.run = [0] ∧
      (task2.table.getD 0 default).interval = 3 ∧
      task_deadline task2.table 0 = (task_example.tick + (7 / 3 + 1) * 3) % 4294967296 ∧
      fifo_contents task2.queue
        = fifo_contents task_example.queue ++ task_timing_bytes 0 (7 / 3)) :=
  ⟨((C23_periodic_rearm true).1 task_example_due
      ((mr_task_update_tick_loop true 7 2 task_example_due).getD task_example_due) 7 2 0 []
      ⟨(task_reachable_inv true _ (task_example_armed_reachable true)).1,
        (task_reachable_inv true _ (task_example_armed_reachable true)).2.1,
        (task_reachable_inv true _ (task_example_armed_reachable true)).2.2⟩
      ⟨(task_reachable_run_inv true task_example_armed (task_example_armed_reachable true)).1,
        (task_reachable_run_inv true task_example_armed
          (task_example_armed_reachable true)).2⟩
      (by decide) (by decide) (by decide) (by decide) (by decide)).1 (by decide),
    (C23_periodic_rearm true).2.1 task_example_armed
      ((mr_task_update_tick true 2 task_example_armed 7).getD task_example_armed) 1 2 7
      (task_example_armed_reachable true) (by decide) (by decide),
    (C23_periodic_rearm true).2.2.1
      (mr_task_timing task_example_wide 1 3
        mr_task_timing_flag.MR_TASK_TIMING_FLAG_PERIODIC).1 0 2 4
      (task_reachable.timing _ 1 3 _ (by decide) (by decide)
        (task_example_wide_reachable true))
      (by decide) (by decide) (by decide) ⟨by decide, by decide⟩ (by decide),
    (C23_periodic_rearm true).2.2.2 task_example 0 3 7 (task_example_reachable true)
      (by decide) (by decide) (by decide) (by decide) (by decide) (by decide)⟩

/-- Counterexamples to claim C23 as stated, with unit ticks.  First, an
interval above `2^31 + 1`: slot 0 of the example task armed periodically with
interval 2147483658 at tick 0 is treated as due by the first unit tick, at tick
1, where the event is posted and the slot re-armed; the re-armed slot is due
again at once, and the call does not return within 50 iterations.  Second,
another slot armed with its deadline on the other side of the wrap of the
tick counter: with slot 0 armed periodically with interval 5 at tick
4294967286 and slot 1 armed 20 ticks ahead, five unit ticks reach the deadline
of slot 0, tick 4294967291, and post nothing. -/
theorem C23_unit_ticks_not_periodic :
    task_reachable true task_example_huge ∧
    task_example_huge.tick = 0 ∧
    task_example_huge.run = [0] ∧
    (task_example_huge.table.getD 0 default).interval = 2147483658 ∧
    (1 + 4294967296 - task_deadline task_example_huge.table 0) % 4294967296 < 2147483647 ∧
    fifo_contents
        (mr_task_update_tick_fire true { task_example_huge with tick := 1 } 0 []).queue
      = [MR_TASK_EVENT_TIMING, 0] ∧
    mr_task_update_tick true 50 task_example_huge 1 = none ∧
    task_reachable true task_example_wrap_periodic ∧
    task_example_wrap_periodic.tick = 4294967286 ∧
    (task_example_wrap_periodic.table.getD 0 default).interval = 5 ∧
    (mr_task_unit_ticks true 3 5 task_example_wrap_periodic).map
        (fun task => (task.tick, task.run, fifo_contents task.queue))
      = some (4294967291, [1, 0], []) :=
  ⟨task_reachable.timing _ 0 2147483658 _ (by decide) (by decide)
      (task_example_reachable true),
    by decide, by decide, by decide, by decide, by decide, by decide,
    task_reachable.timing _ 1 20 _ (by decide) (by decide)
      (task_reachable.timing _ 0 5 _ (by decide) (by decide) task_example_late_reachable),
    by decide, by decide, by decide⟩

/-! ## Executions of the task functions: STATE_ENTER before the state call -/

/-- Deliveries do not matter to `task_sm_disciplined`. -/
theorem task_sm_disciplined_deliveries (q : Bool) (records : List (Nat × Nat))
    (rest : List task_sm_event) :
    task_sm_disciplined q (records.map (fun r => task_sm_event.deliver r.1 r.2) ++ rest)
      = task_sm_disciplined q rest := by
  induction records with
  | nil => rfl
  | cons r records ih => exact ih

/-- Deliveries are collected by `task_sm_enter_first`. -/
theorem task_sm_enter_first_deliveries (last : Option (Nat × Nat))
    (records : List (Nat × Nat)) :
    ∀ (delivered : List (Nat × Nat)) (rest : List task_sm_event),
      task_sm_enter_first last delivered
          (records.map (fun r => task_sm_event.deliver r.1 r.2) ++ rest)
        = task_sm_enter_first last (delivered ++ records) rest := by
  induction records with
  | nil =>
    intro delivered rest
    rw [List.append_nil]
    rfl
  | cons r records ih =>
    intro delivered rest
    have h := ih (delivered ++ [(r.1, r.2)]) rest
    rw [List.append_assoc] at h
    exact h

/-- The unread contents of the queue of a task are a whole number of
records. -/
theorem task_contents_even (task : mr_task) (h : task_inv task) :
    (fifo_contents task.queue).length = 2 * ((fifo_contents task.queue).length / 2) := by
  have hlen := fifo_contents_length task.queue h.1.1
  have hev : mr_fifo_get_data_size task.queue % 2 = 0 := h.1.2.2.1
  omega

/-- An element of a list is an element of the list extended at the tail. -/
theorem getElem?_append_some {α : Type} (l m : List α) (k : Nat) (x : α)
    (h : l[k]? = some x) : (l ++ m)[k]? = some x := by
  have hlt : k < l.length := by
    by_contra hge
    rw [List.getElem?_eq_none (by omega)] at h
    exact Option.noConfusion h
  rw [List.getElem?_append_left hlt]
  exact h

/-- The agreement of the scan with the task is kept when records are appended
to the queue and the state is not changed. -/
theorem task_sm_inv_extend (task task2 : mr_task) (last : Option (Nat × Nat))
    (delivered : List (Nat × Nat)) (ext : List Nat) (hinv : task_inv task)
    (hG : task_sm_inv task last delivered) (hsm : task2.sm = task.sm)
    (hsa : task2.sm_active = task.sm_active)
    (hc : fifo_contents task2.queue = fifo_contents task.queue ++ ext) :
    task_sm_inv task2 last delivered := by
  intro h2
  rw [hsa] at h2
  obtain ⟨owed, e1, e2, e3⟩ := hG h2
  refine ⟨owed, by rw [hsm]; exact e1, e2, ?_⟩
  rw [hsm, hc, task_queue_records_append _ _ _ (task_contents_even task hinv),
    ← List.append_assoc]
  exact getElem?_append_some _ _ _ _ e3

/-- What `mr_task_transition_state` does and the entry it leaves: either the
call is rejected, leaves no entry and does not change the task; or it leaves
one entry, the state is the new state afterwards, the state machine is active,
and, if the STATE_ENTER record has been accepted, it is the last of the
records in the queue, which `owed` counts. -/
theorem mr_task_transition_log_spec (cfg : Bool) (task : mr_task) (index : Nat)
    (hinv : task_inv task) :
    (mr_task_transition_log cfg task index = [] ∧
      (mr_task_transition_state cfg task index).1 = task) ∨
    (∃ owed : Nat,
      mr_task_transition_log cfg task index = [task_sm_event.transition index owed] ∧
      (mr_task_transition_state cfg task index).1.sm = index ∧
      (mr_task_transition_state cfg task index).1.sm_active = true ∧
      (owed ≠ 0 →
        (task_queue_records
            (fifo_contents (mr_task_transition_state cfg task index).1.queue))[owed - 1]?
          = some (index, MR_TASK_EVENT_SM_ENTER))) := by
  by_cases hi : index ≥ task.table_size
  · left
    unfold mr_task_transition_log mr_task_transition_state
    rw [if_pos hi, if_pos hi]
    exact ⟨rfl, rfl⟩
  by_cases ha : task.active = false
  · left
    unfold mr_task_transition_log mr_task_transition_state
    rw [if_neg hi, if_pos ha, if_neg hi, if_pos ha]
    exact ⟨rfl, rfl⟩
  right
  have hat : task.active = true := by simpa using ha
  have hfacts :
      task_inv (if task.sm_active = true then
          (mr_task_post_event cfg task task.sm MR_TASK_EVENT_SM_EXIT).1 else task) ∧
      (if task.sm_active = true then
          (mr_task_post_event cfg task task.sm MR_TASK_EVENT_SM_EXIT).1 else task).active
        = true ∧
      (if task.sm_active = true then
          (mr_task_post_event cfg task task.sm MR_TASK_EVENT_SM_EXIT).1 else task).table_size
        = task.table_size := by
    by_cases hsm : task.sm_active = true
    · rw [if_pos hsm]
      obtain ⟨f1, _, _, _, _, _, _, f8⟩ :=
        mr_task_post_event_fields cfg task task.sm MR_TASK_EVENT_SM_EXIT
      exact ⟨task_inv_post_event cfg task _ _ hinv (by decide), by rw [f1]; exact hat, f8⟩
    · rw [if_neg hsm]
      exact ⟨hinv, hat, rfl⟩
  have hts : mr_task_transition_state cfg task index
      = ({ (mr_task_post_event cfg
            { (if task.sm_active = true then
                (mr_task_post_event cfg task task.sm MR_TASK_EVENT_SM_EXIT).1 else task)
              with sm := index } index MR_TASK_EVENT_SM_ENTER).1 with sm_active := true },
          mr_err_t.MR_ERR_OK) := by
    unfold mr_task_transition_state
    rw [if_neg hi, if_neg ha]
  have htl : mr_task_transition_log cfg task index
      = [task_sm_event.transition index
          (if (mr_task_post_event cfg
                { (if task.sm_active = true then
                    (mr_task_post_event cfg task task.sm MR_TASK_EVENT_SM_EXIT).1 else task)
                  with sm := index } index MR_TASK_EVENT_SM_ENTER).2 = mr_err_t.MR_ERR_OK
            then mr_rb_get_data_size (mr_task_post_event cfg
                { (if task.sm_active = true then
                    (mr_task_post_event cfg task task.sm MR_TASK_EVENT_SM_EXIT).1 else task)
                  with sm := index } index MR_TASK_EVENT_SM_ENTER).1.queue / 2
            else 0)] := by
    unfold mr_task_transition_log
    rw [if_neg hi, if_neg ha]
  generalize (if task.sm_active = true then
    (mr_task_post_event cfg task task.sm MR_TASK_EVENT_SM_EXIT).1 else task) = t1
    at hfacts hts htl
  obtain ⟨h1, h2, h3⟩ := hfacts
  have hi1 : index < t1.table_size := by omega
  have hinv1 : task_inv { t1 with sm := index } := ⟨h1.1, h1.2.1, fun _ => hi1⟩
  obtain ⟨_, _, f3, _⟩ :=
    mr_task_post_event_fields cfg { t1 with sm := index } index MR_TASK_EVENT_SM_ENTER
  have hinv2 := task_inv_post_event cfg { t1 with sm := index } index MR_TASK_EVENT_SM_ENTER
    hinv1 (by decide)
  refine ⟨_, htl, by rw [hts]; exact f3, by rw [hts], ?_⟩
  intro howed
  rw [hts]
  show (task_queue_records (fifo_contents (mr_task_post_event cfg { t1 with sm := index }
    index MR_TASK_EVENT_SM_ENTER).1.queue))[_]? = _
  rcases mr_task_post_event_cases cfg { t1 with sm := index } index MR_TASK_EVENT_SM_ENTER
    hinv1 hi1 h2 (by decide) with ⟨_, c0, c1, _⟩ | ⟨_, c0, _⟩
  · rw [if_pos c0] at howed ⊢
    have hlen2 := fifo_contents_length _ hinv2.1.1
    have hev1 := task_contents_even t1 h1
    have hi2 : index < 256 := by have := h1.2.1.2.1; omega
    have hc1 : fifo_contents (mr_task_post_event cfg { t1 with sm := index } index
        MR_TASK_EVENT_SM_ENTER).1.queue
          = fifo_contents t1.queue ++ [MR_TASK_EVENT_SM_ENTER, index] := c1
    have hrl := task_queue_records_length ((fifo_contents t1.queue).length / 2)
      (fifo_contents t1.queue) hev1
    have hd : mr_rb_get_data_size (mr_task_post_event cfg { t1 with sm := index } index
        MR_TASK_EVENT_SM_ENTER).1.queue = (fifo_contents t1.queue).length + 2 := by
      show mr_fifo_get_data_size _ = _
      rw [← hlen2, hc1, List.length_append]
      rfl
    rw [hc1, task_queue_records_append _ _ _ hev1,
      task_queue_records_cons _ _ [] (by decide) hi2, hd]
    have hidx : ((fifo_contents t1.queue).length + 2) / 2 - 1
        = (task_queue_records (fifo_contents t1.queue)).length := by
      rw [hrl]; omega
    rw [hidx, List.getElem?_append_right (Nat.le_refl _), Nat.sub_self]
    rfl
  · rw [if_neg (by rw [c0]; decide)] at howed
    exact absurd rfl howed

/-- A call made by a callback inside the loop over the queued records, in an
execution where every transition is made outside that loop, leaves no entry
and does not change the state. -/
theorem mr_task_calls_log_queue_driven (cfg : Bool) :
    ∀ (calls : List mr_task_call) (task : mr_task) (rest : List task_sm_event),
      task_inv task →
      task_sm_disciplined true (mr_task_calls_log cfg task calls ++ rest) = true →
      mr_task_calls_log cfg task calls = [] ∧
      (calls.foldl (mr_task_do_call cfg) task).sm = task.sm ∧
      (calls.foldl (mr_task_do_call cfg) task).sm_active = task.sm_active := by
  intro calls
  induction calls with
  | nil =>
    intro task rest _ _
    exact ⟨rfl, rfl, rfl⟩
  | cons call calls ih =>
    intro task rest hinv hd
    have hstep := task_callback_step_do_call cfg task call hinv
    have hcases : mr_task_call_log cfg task call = [] ∧
        (mr_task_do_call cfg task call).sm = task.sm ∧
        (mr_task_do_call cfg task call).sm_active = task.sm_active := by
      cases call with
      | post_event index event =>
        obtain ⟨_, f2, f3, _⟩ :=
          mr_task_post_event_fields cfg task (index % 256) (event % 256)
        exact ⟨rfl, f3, f2⟩
      | timing index tick flag =>
        obtain ⟨_, f2, f3, _⟩ :=
          mr_task_timing_fields task (index % 256) (tick % 4294967296) flag
        exact ⟨rfl, f3, f2⟩
      | transition_state index =>
        rcases mr_task_transition_log_spec cfg task (index % 256) hinv with
          ⟨l1, l2⟩ | ⟨owed, l1, _⟩
        · refine ⟨l1, ?_, ?_⟩
          · show (mr_task_transition_state cfg task (index % 256)).1.sm = _
            rw [l2]
          · show (mr_task_transition_state cfg task (index % 256)).1.sm_active = _
            rw [l2]
        · have hl : mr_task_call_log cfg task (mr_task_call.transition_state index)
              = [task_sm_event.transition (index % 256) owed] := l1
          have hd2 : task_sm_disciplined true
              (mr_task_call_log cfg task (mr_task_call.transition_state index)
                ++ (mr_task_calls_log cfg
                    (mr_task_do_call cfg task (mr_task_call.transition_state index)) calls
                  ++ rest)) = true := by
            rw [← List.append_assoc]
            exact hd
          rw [hl] at hd2
          simp [task_sm_disciplined] at hd2
    obtain ⟨c1, c2, c3⟩ := hcases
    have hd2 : task_sm_disciplined true
        (mr_task_calls_log cfg (mr_task_do_call cfg task call) calls ++ rest) = true := by
      have hd3 : task_sm_disciplined true
          ((mr_task_call_log cfg task call
            ++ mr_task_calls_log cfg (mr_task_do_call cfg task call) calls) ++ rest)
            = true := hd
      rw [c1, List.nil_append] at hd3
      exact hd3
    obtain ⟨r1, r2, r3⟩ := ih (mr_task_do_call cfg task call) rest hstep.1 hd2
    refine ⟨?_, by rw [← c2]; exact r2, by rw [← c3]; exact r3⟩
    show mr_task_call_log cfg task call
      ++ mr_task_calls_log cfg (mr_task_do_call cfg task call) calls = []
    rw [c1, r1]
    rfl

/-- Calls made outside the loop over the queued records, in an execution
where every transition has its STATE_ENTER record accepted, keep the scan in
agreement with the task. -/
theorem mr_task_calls_log_free (cfg : Bool) :
    ∀ (calls : List mr_task_call) (task : mr_task) (last : Option (Nat × Nat))
      (delivered : List (Nat × Nat)) (rest : List task_sm_event),
      task_inv task → task_sm_inv task last delivered →
      task_sm_disciplined false (mr_task_calls_log cfg task calls ++ rest) = true →
      ∃ (last2 : Option (Nat × Nat)) (delivered2 : List (Nat × Nat)),
        task_sm_inv (calls.foldl (mr_task_do_call cfg) task) last2 delivered2 ∧
        task_sm_disciplined false rest = true ∧
        task_sm_enter_first last delivered (mr_task_calls_log cfg task calls ++ rest)
          = task_sm_enter_first last2 delivered2 rest := by
  intro calls
  induction calls with
  | nil =>
    intro task last delivered rest _ hG hd
    exact ⟨last, delivered, hG, hd, rfl⟩
  | cons call calls ih =>
    intro task last delivered rest hinv hG hd
    have hstep := task_callback_step_do_call cfg task call hinv
    have hd1 : task_sm_disciplined false
        (mr_task_call_log cfg task call
          ++ (mr_task_calls_log cfg (mr_task_do_call cfg task call) calls ++ rest))
          = true := by
      rw [← List.append_assoc]
      exact hd
    have hgoal : task_sm_enter_first last delivered
          (mr_task_calls_log cfg task (call :: calls) ++ rest)
        = task_sm_enter_first last delivered
          (mr_task_call_log cfg task call
            ++ (mr_task_calls_log cfg (mr_task_do_call cfg task call) calls ++ rest)) := by
      rw [← List.append_assoc]
      rfl
    rw [hgoal]
    have hplain : mr_task_call_log cfg task call = [] →
        (mr_task_do_call cfg task call).sm = task.sm →
        (mr_task_do_call cfg task call).sm_active = task.sm_active →
        ∃ (last2 : Option (Nat × Nat)) (delivered2 : List (Nat × Nat)),
          task_sm_inv ((call :: calls).foldl (mr_task_do_call cfg) task) last2 delivered2 ∧
          task_sm_disciplined false rest = true ∧
          task_sm_enter_first last delivered
              (mr_task_call_log cfg task call
                ++ (mr_task_calls_log cfg (mr_task_do_call cfg task call) calls ++ rest))
            = task_sm_enter_first last2 delivered2 rest := by
      intro c1 c2 c3
      obtain ⟨_, _, _, _, ext, c5⟩ := id hstep
      have hG2 := task_sm_inv_extend task (mr_task_do_call cfg task call) last delivered ext
        hinv hG c2 c3 c5
      rw [c1, List.nil_append] at hd1 ⊢
      exact ih (mr_task_do_call cfg task call) last delivered rest hstep.1 hG2 hd1
    cases call with
    | post_event index event =>
      obtain ⟨_, f2, f3, _⟩ :=
        mr_task_post_event_fields cfg task (index % 256) (event % 256)
      exact hplain rfl f3 f2
    | timing index tick flag =>
      obtain ⟨_, f2, f3, _⟩ :=
        mr_task_timing_fields task (index % 256) (tick % 4294967296) flag
      exact hplain rfl f3 f2
    | transition_state index =>
      rcases mr_task_transition_log_spec cfg task (index % 256) hinv with
        ⟨l1, l2⟩ | ⟨owed, l1, l2, l3, l4⟩
      · have e : mr_task_do_call cfg task (mr_task_call.transition_state index) = task := l2
        exact hplain l1 (by rw [e]) (by rw [e])
      · have hl : mr_task_call_log cfg task (mr_task_call.transition_state index)
            = [task_sm_event.transition (index % 256) owed] := l1
        rw [hl] at hd1 ⊢
        have hd2 : (decide (owed ≠ 0) && task_sm_disciplined false
            (mr_task_calls_log cfg
              (mr_task_do_call cfg task (mr_task_call.transition_state index)) calls
              ++ rest)) = true := hd1
        rw [Bool.and_eq_true, decide_eq_true_eq] at hd2
        have hG2 : task_sm_inv
            (mr_task_do_call cfg task (mr_task_call.transition_state index))
            (some (index % 256, owed)) [] := by
          intro _
          refine ⟨owed, ?_, hd2.1, ?_⟩
          · show some (index % 256, owed)
              = some ((mr_task_transition_state cfg task (index % 256)).1.sm, owed)
            rw [l2]
          · show ([] ++ task_queue_records (fifo_contents
              (mr_task_transition_state cfg task (index % 256)).1.queue))[owed - 1]?
                = some ((mr_task_transition_state cfg task (index % 256)).1.sm,
                    MR_TASK_EVENT_SM_ENTER)
            rw [List.nil_append, l2]
            exact l4 hd2.1
        exact ih _ (some (index % 256, owed)) [] rest hstep.1 hG2 hd2.2

/-- The invocation of a slot of the table is the invocation of its callback,
which makes the calls `mr_task_invoke_calls` lists. -/
theorem mr_task_invoke_eq_calls (cfg : Bool) (cbs : mr_task_callbacks)
    (trace : List mr_task_invocation) (task : mr_task) (index : Nat)
    (h : task_inv task) (hi : index < task.table_size) :
    mr_task_invoke cfg cbs trace task index
      = some ((mr_task_invoke_calls cbs trace task index).foldl (mr_task_do_call cfg) task,
          ⟨index, (task.table.getD index default).cb,
            (task.table.getD index default).args, task.event⟩) := by
  obtain ⟨_, ⟨_, _, hlen, hcb⟩, _⟩ := h
  have hlt : index < task.table.length := by omega
  have hget : task.table.get? index = some (task.table.getD index default) := by
    rw [List.get?_eq_getElem?, List.getD_eq_getElem?_getD, List.getElem?_eq_getElem hlt]
    rfl
  have hmem : task.table.getD index default ∈ task.table := by
    rw [List.getD_eq_getElem?_getD, List.getElem?_eq_getElem hlt]
    exact List.getElem_mem hlt
  have hnn := hcb _ hmem
  unfold mr_task_invoke mr_task_invoke_calls
  rw [hget]
  simp only []
  cases hc : (task.table.getD index default).cb with
  | null => exact absurd hc hnn
  | err_io_task_cb => rfl
  | user id => rfl

/-- One iteration of the loop of `mr_task_handle`, for the entries it
leaves. -/
theorem mr_task_handle_loop_log_unfold (cfg : Bool) (cbs : mr_task_callbacks)
    (fuel count : Nat) (index_and_label : List Nat) (task : mr_task)
    (trace : List mr_task_invocation) (a b : Nat) (rest : List Nat) (h : task_inv task)
    (hcount : 2 ≤ count) (hc : fifo_contents task.queue = a :: b :: rest) :
    mr_task_handle_loop_log cfg cbs (fuel + 1) count index_and_label task trace
      = task_sm_event.deliver b a
          :: (mr_task_calls_log cfg
                { task with queue := (mr_rb_read task.queue 2).1, event := a }
                (mr_task_invoke_calls cbs trace
                  { task with queue := (mr_rb_read task.queue 2).1, event := a } b)
              ++ mr_task_handle_loop_log cfg cbs fuel (count - 2)
                  (a :: b :: index_and_label.drop 2)
                  ((mr_task_invoke_calls cbs trace
                      { task with queue := (mr_rb_read task.queue 2).1, event := a }
                      b).foldl (mr_task_do_call cfg)
                    { task with queue := (mr_rb_read task.queue 2).1, event := a })
                  (trace ++ [⟨b, (task.table.getD b default).cb,
                    (task.table.getD b default).args, a⟩])) := by
  have h0 : ¬ count = 0 := by omega
  obtain ⟨i1, i2, _⟩ := task_fetched_spec task a b rest h hc
  rw [mr_task_handle_loop_log, if_neg h0,
    mr_task_handle_fetch_eq task index_and_label a b rest h hc]
  simp only [if_pos hcount]
  rw [mr_task_invoke_eq_calls cfg cbs trace
    { task with queue := (mr_rb_read task.queue 2).1, event := a } b i1 i2]

/-- The loop of `mr_task_handle` in an execution where every transition is
made outside it: the loop returns, the state is not changed, and its entries
are the deliveries of the records that were queued at its start, in order. -/
theorem mr_task_handle_loop_log_spec (cfg : Bool) (cbs : mr_task_callbacks) (fuel : Nat) :
    ∀ (snapshot : List Nat) (count : Nat) (index_and_label : List Nat) (task : mr_task)
      (trace : List mr_task_invocation) (later : List Nat) (rest : List task_sm_event),
      task_inv task → fifo_contents task.queue = snapshot ++ later →
      snapshot.length = count → count % 2 = 0 → count / 2 < fuel →
      task_sm_disciplined true
        (mr_task_handle_loop_log cfg cbs fuel count index_and_label task trace ++ rest)
        = true →
      ∃ (task2 : mr_task) (trace2 : List mr_task_invocation),
        mr_task_handle_loop cfg cbs fuel count index_and_label task trace
          = some (task2, trace2) ∧
        task_inv task2 ∧ task2.sm = task.sm ∧ task2.sm_active = task.sm_active ∧
        mr_task_handle_loop_log cfg cbs fuel count index_and_label task trace
          = (task_queue_records snapshot).map (fun r => task_sm_event.deliver r.1 r.2) := by
  induction fuel with
  | zero => intro _ count _ _ _ _ _ _ _ _ _ hf; omega
  | succ fuel ih =>
    intro snapshot count ial task trace later rest hinv hc hl hev hf hd
    match snapshot, hl with
    | [], hl =>
      simp only [List.length_nil] at hl
      subst hl
      refine ⟨task, trace, ?_, hinv, rfl, rfl, ?_⟩
      · rw [mr_task_handle_loop, if_pos rfl]
      · rw [mr_task_handle_loop_log, if_pos rfl]
        rfl
    | [_], hl =>
      simp only [List.length_singleton] at hl
      omega
    | a :: b :: snapshot2, hl =>
      simp only [List.length_cons] at hl
      have hc2 : fifo_contents task.queue = a :: b :: (snapshot2 ++ later) := hc
      obtain ⟨i1, i2, i3, i4, i5⟩ := task_fetched_spec task a b _ hinv hc2
      have hlog := mr_task_handle_loop_log_unfold cfg cbs fuel count ial task trace a b _ hinv
        (by omega) hc2
      have hloop := mr_task_handle_loop_unfold cfg cbs fuel count ial task trace a b _ hinv
        (by omega) hc2
      rw [mr_task_invoke_eq_calls cfg cbs trace
        { task with queue := (mr_rb_read task.queue 2).1, event := a } b i1 i2] at hloop
      simp only [Option.some_bind] at hloop
      rw [hlog] at hd ⊢
      rw [hloop]
      have hd1 : task_sm_disciplined true
          (mr_task_calls_log cfg
              { task with queue := (mr_rb_read task.queue 2).1, event := a }
              (mr_task_invoke_calls cbs trace
                { task with queue := (mr_rb_read task.queue 2).1, event := a } b)
            ++ (mr_task_handle_loop_log cfg cbs fuel (count - 2) (a :: b :: ial.drop 2)
                ((mr_task_invoke_calls cbs trace
                    { task with queue := (mr_rb_read task.queue 2).1, event := a }
                    b).foldl (mr_task_do_call cfg)
                  { task with queue := (mr_rb_read task.queue 2).1, event := a })
                (trace ++ [⟨b, (task.table.getD b default).cb,
                  (task.table.getD b default).args, a⟩])
              ++ rest)) = true := by
        rw [← List.append_assoc]
        exact hd
      obtain ⟨c1, c2, c3⟩ := mr_task_calls_log_queue_driven cfg _ _ _ i1 hd1
      rw [c1, List.nil_append] at hd1
      obtain ⟨s1, _, _, _, ext, s5⟩ := task_callback_step_calls cfg
        (mr_task_invoke_calls cbs trace
          { task with queue := (mr_rb_read task.queue 2).1, event := a } b)
        { task with queue := (mr_rb_read task.queue 2).1, event := a } i1
      obtain ⟨task3, trace3, e1, e2, e3, e4, e5⟩ := ih snapshot2 (count - 2) _ _ _
        (later ++ ext) rest s1
        (by rw [s5]; simp only []; rw [i5, List.append_assoc]) (by omega) (by omega)
        (by omega) hd1
      refine ⟨task3, trace3, e1, e2, by rw [e3, c2], by rw [e4, c3], ?_⟩
      rw [c1, List.nil_append, e5, task_queue_records_cons a b snapshot2 i3 i4]
      rfl

/-- A dispatch in an execution where every transition is made outside the
loop over the queued records and has its STATE_ENTER record accepted:
`mr_task_handle` returns, the state call it makes comes after the delivery of
the STATE_ENTER record of the last transition, and the scan is in agreement
with the task afterwards. -/
theorem mr_task_handle_log_spec (cfg : Bool) (cbs : mr_task_callbacks) (task : mr_task)
    (last : Option (Nat × Nat)) (delivered : List (Nat × Nat)) (rest : List task_sm_event)
    (hinv : task_inv task) (hG : task_sm_inv task last delivered)
    (hd : task_sm_disciplined false
      (mr_task_handle_log cfg cbs (mr_rb_get_data_size task.queue / 2 + 1) task ++ rest)
      = true) :
    ∃ (task2 : mr_task) (trace : List mr_task_invocation) (last2 : Option (Nat × Nat))
      (delivered2 : List (Nat × Nat)),
      mr_task_handle cfg cbs (mr_rb_get_data_size task.queue / 2 + 1) task
        = some (task2, trace) ∧
      task_sm_inv task2 last2 delivered2 ∧
      task_sm_disciplined false rest = true ∧
      (task_sm_enter_first last2 delivered2 rest = true →
        task_sm_enter_first last delivered
          (mr_task_handle_log cfg cbs (mr_rb_get_data_size task.queue / 2 + 1) task ++ rest)
          = true) := by
  by_cases ha : task.active = false
  · have hlog : mr_task_handle_log cfg cbs (mr_rb_get_data_size task.queue / 2 + 1) task
        = [] := by
      unfold mr_task_handle_log
      rw [if_pos ha]
    have hh : mr_task_handle cfg cbs (mr_rb_get_data_size task.queue / 2 + 1) task
        = some (task, []) := by
      unfold mr_task_handle
      rw [if_pos ha]
    rw [hlog] at hd ⊢
    exact ⟨task, [], last, delivered, hh, hG, hd, fun h => h⟩
  · have hlen := fifo_contents_length task.queue hinv.1.1
    have hev : mr_fifo_get_data_size task.queue % 2 = 0 := hinv.1.2.2.1
    have hcount : mr_rb_get_data_size task.queue = mr_fifo_get_data_size task.queue := rfl
    have hlogdef : mr_task_handle_log cfg cbs (mr_rb_get_data_size task.queue / 2 + 1) task
        = task_sm_event.dispatch
          :: (mr_task_handle_loop_log cfg cbs (mr_rb_get_data_size task.queue / 2 + 1)
                (mr_rb_get_data_size task.queue) [0, 0] task []
              ++ task_sm_event.drained
                :: ((mr_task_handle_loop cfg cbs (mr_rb_get_data_size task.queue / 2 + 1)
                      (mr_rb_get_data_size task.queue) [0, 0] task []).elim []
                    (fun r =>
                      if r.1.sm_active = true then
                        task_sm_event.active r.1.sm
                          :: mr_task_calls_log cfg { r.1 with event := MR_TASK_EVENT_SM }
                              (mr_task_invoke_calls cbs r.2
                                { r.1 with event := MR_TASK_EVENT_SM } r.1.sm)
                      else []))) := by
      unfold mr_task_handle_log
      rw [if_neg ha]
      simp only []
      generalize mr_task_handle_loop cfg cbs (mr_rb_get_data_size task.queue / 2 + 1)
        (mr_rb_get_data_size task.queue) [0, 0] task [] = r
      cases r <;> rfl
    have hd1 : task_sm_disciplined true
        (mr_task_handle_loop_log cfg cbs (mr_rb_get_data_size task.queue / 2 + 1)
            (mr_rb_get_data_size task.queue) [0, 0] task []
          ++ (task_sm_event.drained
                :: ((mr_task_handle_loop cfg cbs (mr_rb_get_data_size task.queue / 2 + 1)
                      (mr_rb_get_data_size task.queue) [0, 0] task []).elim []
                    (fun r =>
                      if r.1.sm_active = true then
                        task_sm_event.active r.1.sm
                          :: mr_task_calls_log cfg { r.1 with event := MR_TASK_EVENT_SM }
                              (mr_task_invoke_calls cbs r.2
                                { r.1 with event := MR_TASK_EVENT_SM } r.1.sm)
                      else []))
              ++ rest)) = true := by
      rw [hlogdef] at hd
      rw [← List.append_assoc]
      exact hd
    obtain ⟨task1, trace1, hl, inv1, sm1, sa1, elog⟩ :=
      mr_task_handle_loop_log_spec cfg cbs (mr_rb_get_data_size task.queue / 2 + 1)
        (fifo_contents task.queue) (mr_rb_get_data_size task.queue) [0, 0] task [] [] _ hinv
        (by rw [List.append_nil]) (by rw [hcount]; exact hlen) (by rw [hcount]; exact hev)
        (by omega) hd1
    rw [hlogdef, hl, elog]
    rw [hl, elog, task_sm_disciplined_deliveries] at hd1
    simp only [Option.elim] at hd1 ⊢
    have hna : ¬ task.active = false := ha
    by_cases hsm : task1.sm_active = true
    · rw [if_pos hsm] at hd1 ⊢
      have hinv1 : task_inv { task1 with event := MR_TASK_EVENT_SM } :=
        ⟨inv1.1, inv1.2.1, inv1.2.2⟩
      have hinvoke := mr_task_invoke_eq_calls cfg cbs trace1
        { task1 with event := MR_TASK_EVENT_SM } task1.sm hinv1 (inv1.2.2 hsm)
      have hh : mr_task_handle cfg cbs (mr_rb_get_data_size task.queue / 2 + 1) task
          = some ((mr_task_invoke_calls cbs trace1 { task1 with event := MR_TASK_EVENT_SM }
                task1.sm).foldl (mr_task_do_call cfg)
                { task1 with event := MR_TASK_EVENT_SM },
              trace1 ++ [⟨task1.sm, (task1.table.getD task1.sm default).cb,
                (task1.table.getD task1.sm default).args, MR_TASK_EVENT_SM⟩]) := by
        unfold mr_task_handle
        rw [if_neg hna]
        simp only [hl, if_pos hsm, hinvoke]
      obtain ⟨owed, g1, g2, g3⟩ := hG (by rw [← sa1]; exact hsm)
      have hG1 : task_sm_inv { task1 with event := MR_TASK_EVENT_SM } last
          (delivered ++ task_queue_records (fifo_contents task.queue)) := by
        intro _
        refine ⟨owed, ?_, g2, ?_⟩
        · show last = some (task1.sm, owed)
          rw [sm1]; exact g1
        · show ((delivered ++ task_queue_records (fifo_contents task.queue))
            ++ task_queue_records (fifo_contents task1.queue))[owed - 1]?
              = some (task1.sm, MR_TASK_EVENT_SM_ENTER)
          rw [sm1]
          exact getElem?_append_some _ _ _ _ g3
      have hentered : task_sm_entered last
          (delivered ++ task_queue_records (fifo_contents task.queue)) task1.sm = true := by
        rw [g1, sm1]
        unfold task_sm_entered
        simp only []
        rw [decide_eq_true_eq]
        exact ⟨trivial, g2, g3⟩
      have hd2 : task_sm_disciplined false
          (mr_task_calls_log cfg { task1 with event := MR_TASK_EVENT_SM }
              (mr_task_invoke_calls cbs trace1 { task1 with event := MR_TASK_EVENT_SM }
                task1.sm)
            ++ rest) = true := hd1
      obtain ⟨last2, delivered2, r1, r2, r3⟩ := mr_task_calls_log_free cfg _ _ last
        (delivered ++ task_queue_records (fifo_contents task.queue)) rest hinv1 hG1 hd2
      refine ⟨_, _, last2, delivered2, hh, r1, r2, ?_⟩
      intro hrest
      have hscan : task_sm_enter_first last delivered
          (task_sm_event.dispatch
            :: ((task_queue_records (fifo_contents task.queue)).map
                  (fun r => task_sm_event.deliver r.1 r.2)
                ++ task_sm_event.drained
                  :: task_sm_event.active task1.sm
                    :: mr_task_calls_log cfg { task1 with event := MR_TASK_EVENT_SM }
                        (mr_task_invoke_calls cbs trace1
                          { task1 with event := MR_TASK_EVENT_SM } task1.sm))
            ++ rest)
          = (task_sm_entered last
              (delivered ++ task_queue_records (fifo_contents task.queue)) task1.sm
            && task_sm_enter_first last
              (delivered ++ task_queue_records (fifo_contents task.queue))
              (mr_task_calls_log cfg { task1 with event := MR_TASK_EVENT_SM }
                  (mr_task_invoke_calls cbs trace1
                    { task1 with event := MR_TASK_EVENT_SM } task1.sm)
                ++ rest)) := by
        show task_sm_enter_first last delivered
          (((task_queue_records (fifo_contents task.queue)).map
                (fun r => task_sm_event.deliver r.1 r.2)
              ++ task_sm_event.drained
                :: task_sm_event.active task1.sm
                  :: mr_task_calls_log cfg { task1 with event := MR_TASK_EVENT_SM }
                      (mr_task_invoke_calls cbs trace1
                        { task1 with event := MR_TASK_EVENT_SM } task1.sm))
            ++ rest) = _
        rw [List.append_assoc, task_sm_enter_first_deliveries]
        rfl
      rw [hscan, hentered, r3, hrest]
      rfl
    · rw [if_neg hsm] at hd1 ⊢
      have hh : mr_task_handle cfg cbs (mr_rb_get_data_size task.queue / 2 + 1) task
          = some (task1, trace1) := by
        unfold mr_task_handle
        rw [if_neg hna]
        simp only [hl, if_neg hsm]
      have hG1 : task_sm_inv task1 last
          (delivered ++ task_queue_records (fifo_contents task.queue)) :=
        fun h => absurd h hsm
      have hd2 : task_sm_disciplined false rest = true := hd1
      refine ⟨task1, trace1, last, _, hh, hG1, hd2, ?_⟩
      intro hrest
      have hscan : task_sm_enter_first last delivered
          (task_sm_event.dispatch
            :: ((task_queue_records (fifo_contents task.queue)).map
                  (fun r => task_sm_event.deliver r.1 r.2)
                ++ [task_sm_event.drained])
            ++ rest)
          = task_sm_enter_first last
              (delivered ++ task_queue_records (fifo_contents task.queue)) rest := by
        show task_sm_enter_first last delivered
          (((task_queue_records (fifo_contents task.queue)).map
                (fun r => task_sm_event.deliver r.1 r.2)
              ++ [task_sm_event.drained])
            ++ rest) = _
        rw [List.append_assoc, task_sm_enter_first_deliveries]
        rfl
      rw [hscan]
      exact hrest

/-- The state and the records queued are kept by `mr_task_update_tick`, which
only appends records. -/
theorem mr_task_update_tick_sm (cfg : Bool) (fuel : Nat) (task task2 : mr_task) (tick : Nat)
    (h : task_reachable cfg task)
    (hr : mr_task_update_tick cfg fuel task tick = some task2) :
    task2.sm = task.sm ∧ task2.sm_active = task.sm_active ∧
    ∃ ext : List Nat, fifo_contents task2.queue = fifo_contents task.queue ++ ext := by
  have hinv := task_reachable_inv cfg task h
  have hri := task_reachable_run_inv cfg task h
  unfold mr_task_update_tick at hr
  split_ifs at hr with ha
  · simp only [Option.some.injEq] at hr
    rw [← hr]
    exact ⟨rfl, rfl, [], by rw [List.append_nil]⟩
  · have hinv0 : task_inv { task with tick := (task.tick + tick) % 4294967296 } :=
      ⟨hinv.1, hinv.2.1, hinv.2.2⟩
    have hri0 : task_run_inv { task with tick := (task.tick + tick) % 4294967296 } :=
      ⟨hri.1, hri.2⟩
    have hat : task.active = true := by simpa using ha
    obtain ⟨_, _, ext, d3, _⟩ := mr_task_update_tick_loop_detached cfg _ fuel
      { task with tick := (task.tick + tick) % 4294967296 } task2 task.table_size
      hinv0 hri0 hat (fun hm => Nat.lt_irrefl _ (hri.2 _ hm)) hr
    obtain ⟨⟨p1, p2⟩, _⟩ := mr_task_update_tick_loop_induct cfg _
      (fun t => t.sm = task.sm ∧ t.sm_active = task.sm_active) (by
        intro t node rest tinv tri ta trun _ ⟨q1, q2⟩
        obtain ⟨_, _, _, _, _, _, _, _, _, _, f11, f12, _⟩ :=
          mr_task_update_tick_fire_spec cfg t node rest tinv tri ta trun
        exact ⟨by rw [f11]; exact q1, by rw [f12]; exact q2⟩)
      fuel { task with tick := (task.tick + tick) % 4294967296 } task2 hinv0 hri0 hat
      ⟨rfl, rfl⟩ hr
    exact ⟨p1, p2, ext, d3⟩

/-- One call of the application in an execution where every transition is made
outside the loop over the queued records and has its STATE_ENTER record
accepted: the task stays reachable and the scan in agreement with it. -/
theorem mr_task_api_step_spec (cfg : Bool) (task task2 : mr_task) (api : mr_task_api)
    (entries : List task_sm_event) (last : Option (Nat × Nat))
    (delivered : List (Nat × Nat)) (rest : List task_sm_event)
    (hreach : task_reachable cfg task) (hG : task_sm_inv task last delivered)
    (hstep : mr_task_api_step cfg task api = some (task2, entries))
    (hd : task_sm_disciplined false (entries ++ rest) = true) :
    task_reachable cfg task2 ∧
    ∃ (last2 : Option (Nat × Nat)) (delivered2 : List (Nat × Nat)),
      task_sm_inv task2 last2 delivered2 ∧
      task_sm_disciplined false rest = true ∧
      (task_sm_enter_first last2 delivered2 rest = true →
        task_sm_enter_first last delivered (entries ++ rest) = true) := by
  have hinv := task_reachable_inv cfg task hreach
  cases api with
  | start =>
    simp only [mr_task_api_step, Option.some.injEq, Prod.mk.injEq] at hstep
    obtain ⟨e1, e2⟩ := hstep
    subst e1 e2
    exact ⟨task_reachable.start task hreach, last, delivered, hG, hd, fun h => h⟩
  | stop =>
    simp only [mr_task_api_step, Option.some.injEq, Prod.mk.injEq] at hstep
    obtain ⟨e1, e2⟩ := hstep
    subst e1 e2
    exact ⟨task_reachable.stop task hreach, last, delivered, hG, hd, fun h => h⟩
  | call made =>
    simp only [mr_task_api_step, Option.some.injEq, Prod.mk.injEq] at hstep
    obtain ⟨e1, e2⟩ := hstep
    subst e1 e2
    have hlist : mr_task_calls_log cfg task [made] = mr_task_call_log cfg task made := by
      show mr_task_call_log cfg task made ++ [] = _
      rw [List.append_nil]
    obtain ⟨last2, delivered2, r1, r2, r3⟩ := mr_task_calls_log_free cfg [made] task last
      delivered rest hinv hG (by rw [hlist]; exact hd)
    rw [hlist] at r3
    exact ⟨task_reachable_calls cfg [made] task hreach, last2, delivered2, r1, r2,
      fun h => by rw [r3]; exact h⟩
  | update_tick fuel tick =>
    simp only [mr_task_api_step] at hstep
    split_ifs at hstep with hassert
    cases hu : mr_task_update_tick cfg fuel task tick with
    | none =>
      rw [hu] at hstep
      exact Option.noConfusion hstep
    | some task3 =>
      rw [hu] at hstep
      simp only [Option.map_some', Option.some.injEq, Prod.mk.injEq] at hstep
      obtain ⟨e1, e2⟩ := hstep
      subst e1 e2
      obtain ⟨u1, u2, ext, u3⟩ := mr_task_update_tick_sm cfg fuel task task3 tick hreach hu
      exact ⟨task_reachable.update_tick task fuel tick task3 hassert hreach hu, last,
        delivered, task_sm_inv_extend task task3 last delivered ext hinv hG u1 u2 u3, hd,
        fun h => h⟩
  | handle cbs =>
    simp only [mr_task_api_step] at hstep
    cases hh : mr_task_handle cfg cbs (mr_rb_get_data_size task.queue / 2 + 1) task with
    | none =>
      rw [hh] at hstep
      exact Option.noConfusion hstep
    | some r =>
      rw [hh] at hstep
      simp only [Option.map_some', Option.some.injEq, Prod.mk.injEq] at hstep
      obtain ⟨e1, e2⟩ := hstep
      subst e1 e2
      obtain ⟨task3, trace, last2, delivered2, h1, h2, h3, h4⟩ :=
        mr_task_handle_log_spec cfg cbs task last delivered rest hinv hG hd
      rw [hh, Option.some.injEq] at h1
      rw [h1]
      exact ⟨task_reachable_handle cfg cbs _ task task3 trace hreach (by rw [hh, h1]),
        last2, delivered2, h2, h3, h4⟩

/-- STATE_ENTER before the state call, along an execution: from a reachable
task with which the scan is in agreement, an execution in which every
transition is made outside the loop over the queued records and has its
STATE_ENTER record accepted delivers the STATE_ENTER record of the last
transition before every state call. -/
theorem mr_task_run_enter_first (cfg : Bool) :
    ∀ (apis : List mr_task_api) (task task2 : mr_task) (last : Option (Nat × Nat))
      (delivered : List (Nat × Nat)) (log : List task_sm_event),
      task_reachable cfg task → task_sm_inv task last delivered →
      mr_task_run cfg task apis = some (task2, log) →
      task_sm_disciplined false log = true →
      task_sm_enter_first last delivered log = true ∧ task_reachable cfg task2 := by
  intro apis
  induction apis with
  | nil =>
    intro task task2 last delivered log hreach hG hrun hd
    simp only [mr_task_run, Option.some.injEq, Prod.mk.injEq] at hrun
    obtain ⟨e1, e2⟩ := hrun
    subst e1 e2
    exact ⟨rfl, hreach⟩
  | cons api apis ih =>
    intro task task2 last delivered log hreach hG hrun hd
    simp only [mr_task_run] at hrun
    cases hstep : mr_task_api_step cfg task api with
    | none =>
      rw [hstep] at hrun
      exact Option.noConfusion hrun
    | some r =>
      rw [hstep, Option.some_bind] at hrun
      cases hrest : mr_task_run cfg r.1 apis with
      | none =>
        rw [hrest] at hrun
        exact Option.noConfusion hrun
      | some r2 =>
        rw [hrest] at hrun
        simp only [Option.map_some', Option.some.injEq, Prod.mk.injEq] at hrun
        obtain ⟨e1, e2⟩ := hrun
        subst e1 e2
        obtain ⟨s1, last2, delivered2, s2, s3, s4⟩ := mr_task_api_step_spec cfg task r.1 api
          r.2 last delivered r2.2 hreach hG hstep hd
        obtain ⟨t1, t2⟩ := ih r.1 r2.1 last2 delivered2 r2.2 s1 s2 hrest s3
        exact ⟨s4 t1, t2⟩

/-- The invocations shown by entries put one after the other. -/
theorem task_sm_invocations_append (a b : List task_sm_event) :
    task_sm_invocations (a ++ b) = task_sm_invocations a ++ task_sm_invocations b := by
  induction a with
  | nil => rfl
  | cons e a ih =>
    cases e with
    | dispatch => exact ih
    | drained => exact ih
    | deliver index event =>
      show (index, event) :: task_sm_invocations (a ++ b) = _
      rw [ih]
      rfl
    | active index =>
      show (index, MR_TASK_EVENT_SM) :: task_sm_invocations (a ++ b) = _
      rw [ih]
      rfl
    | transition index owed => exact ih

/-- The entries of calls made on the task show no invocation. -/
theorem task_sm_invocations_calls (cfg : Bool) :
    ∀ (calls : List mr_task_call) (task : mr_task),
      task_sm_invocations (mr_task_calls_log cfg task calls) = [] := by
  intro calls
  induction calls with
  | nil => intro task; rfl
  | cons call calls ih =>
    intro task
    show task_sm_invocations (mr_task_call_log cfg task call
      ++ mr_task_calls_log cfg (mr_task_do_call cfg task call) calls) = []
    rw [task_sm_invocations_append, ih, List.append_nil]
    cases call with
    | post_event index event => rfl
    | timing index tick flag => rfl
    | transition_state index =>
      show task_sm_invocations (mr_task_transition_log cfg task (index % 256)) = []
      unfold mr_task_transition_log
      split_ifs <;> rfl

/-- The entries of the loop of `mr_task_handle` show the invocations the loop
makes, for any callbacks. -/
theorem mr_task_handle_loop_log_invocations (cfg : Bool) (cbs : mr_task_callbacks)
    (fuel : Nat) :
    ∀ (snapshot : List Nat) (count : Nat) (index_and_label : List Nat) (task : mr_task)
      (trace : List mr_task_invocation) (later : List Nat),
      task_inv task → fifo_contents task.queue = snapshot ++ later →
      snapshot.length = count → count % 2 = 0 → count / 2 < fuel →
      ∃ (task2 : mr_task) (more : List mr_task_invocation),
        mr_task_handle_loop cfg cbs fuel count index_and_label task trace
          = some (task2, trace ++ more) ∧
        task_inv task2 ∧
        task_sm_invocations
            (mr_task_handle_loop_log cfg cbs fuel count index_and_label task trace)
          = more.map (fun v => (v.index, v.event)) := by
  induction fuel with
  | zero => intro _ count _ _ _ _ _ _ _ _ hf; omega
  | succ fuel ih =>
    intro snapshot count ial task trace later hinv hc hl hev hf
    match snapshot, hl with
    | [], hl =>
      simp only [List.length_nil] at hl
      subst hl
      refine ⟨task, [], ?_, hinv, ?_⟩
      · rw [mr_task_handle_loop, if_pos rfl, List.append_nil]
      · rw [mr_task_handle_loop_log, if_pos rfl]
        rfl
    | [_], hl =>
      simp only [List.length_singleton] at hl
      omega
    | a :: b :: snapshot2, hl =>
      simp only [List.length_cons] at hl
      have hc2 : fifo_contents task.queue = a :: b :: (snapshot2 ++ later) := hc
      obtain ⟨i1, i2, i3, i4, i5⟩ := task_fetched_spec task a b _ hinv hc2
      have hlog := mr_task_handle_loop_log_unfold cfg cbs fuel count ial task trace a b _ hinv
        (by omega) hc2
      have hloop := mr_task_handle_loop_unfold cfg cbs fuel count ial task trace a b _ hinv
        (by omega) hc2
      rw [mr_task_invoke_eq_calls cfg cbs trace
        { task with queue := (mr_rb_read task.queue 2).1, event := a } b i1 i2] at hloop
      simp only [Option.some_bind] at hloop
      obtain ⟨s1, _, _, _, ext, s5⟩ := task_callback_step_calls cfg
        (mr_task_invoke_calls cbs trace
          { task with queue := (mr_rb_read task.queue 2).1, event := a } b)
        { task with queue := (mr_rb_read task.queue 2).1, event := a } i1
      obtain ⟨task3, more, e1, e2, e3⟩ := ih snapshot2 (count - 2) (a :: b :: ial.drop 2)
        ((mr_task_invoke_calls cbs trace
            { task with queue := (mr_rb_read task.queue 2).1, event := a } b).foldl
          (mr_task_do_call cfg) { task with queue := (mr_rb_read task.queue 2).1, event := a })
        (trace ++ [⟨b, (task.table.getD b default).cb, (task.table.getD b default).args, a⟩])
        (later ++ ext) s1
        (by rw [s5]; simp only []; rw [i5, List.append_assoc]) (by omega) (by omega)
        (by omega)
      refine ⟨task3, ⟨b, (task.table.getD b default).cb, (task.table.getD b default).args, a⟩
        :: more, ?_, e2, ?_⟩
      · rw [hloop, e1, List.append_assoc]
        rfl
      · rw [hlog]
        show (b, a) :: task_sm_invocations _ = _
        rw [task_sm_invocations_append, task_sm_invocations_calls, List.nil_append, e3]
        rfl

/-- The entries of a dispatch show the invocations `mr_task_handle` makes, for
any callbacks: every delivery and the state call, with slot and event code,
in order. -/
theorem mr_task_handle_log_invocations (cfg : Bool) (cbs : mr_task_callbacks)
    (task : mr_task) (hinv : task_inv task) :
    ∃ (task2 : mr_task) (trace : List mr_task_invocation),
      mr_task_handle cfg cbs (mr_rb_get_data_size task.queue / 2 + 1) task
        = some (task2, trace) ∧
      task_sm_invocations
          (mr_task_handle_log cfg cbs (mr_rb_get_data_size task.queue / 2 + 1) task)
        = trace.map (fun v => (v.index, v.event)) := by
  by_cases ha : task.active = false
  · refine ⟨task, [], ?_, ?_⟩
    · unfold mr_task_handle
      rw [if_pos ha]
    · unfold mr_task_handle_log
      rw [if_pos ha]
      rfl
  · have hlen := fifo_contents_length task.queue hinv.1.1
    have hev : mr_fifo_get_data_size task.queue % 2 = 0 := hinv.1.2.2.1
    have hcount : mr_rb_get_data_size task.queue = mr_fifo_get_data_size task.queue := rfl
    obtain ⟨task1, more, hl, inv1, elog⟩ :=
      mr_task_handle_loop_log_invocations cfg cbs (mr_rb_get_data_size task.queue / 2 + 1)
        (fifo_contents task.queue) (mr_rb_get_data_size task.queue) [0, 0] task [] [] hinv
        (by rw [List.append_nil]) (by rw [hcount]; exact hlen) (by rw [hcount]; exact hev)
        (by omega)
    rw [List.nil_append] at hl
    have hna : ¬ task.active = false := ha
    by_cases hsm : task1.sm_active = true
    · have hinv1 : task_inv { task1 with event := MR_TASK_EVENT_SM } :=
        ⟨inv1.1, inv1.2.1, inv1.2.2⟩
      have hinvoke := mr_task_invoke_eq_calls cfg cbs more
        { task1 with event := MR_TASK_EVENT_SM } task1.sm hinv1 (inv1.2.2 hsm)
      refine ⟨(mr_task_invoke_calls cbs more { task1 with event := MR_TASK_EVENT_SM }
          task1.sm).foldl (mr_task_do_call cfg) { task1 with event := MR_TASK_EVENT_SM },
        more ++ [⟨task1.sm, (task1.table.getD task1.sm default).cb,
          (task1.table.getD task1.sm default).args, MR_TASK_EVENT_SM⟩], ?_, ?_⟩
      · unfold mr_task_handle
        rw [if_neg hna]
        simp only [hl, if_pos hsm, hinvoke]
      · unfold mr_task_handle_log
        rw [if_neg hna]
        simp only [hl, if_pos hsm]
        show task_sm_invocations (_ ++ _) = _
        rw [task_sm_invocations_append, elog, List.map_append]
        congr 1
        show (task1.sm, MR_TASK_EVENT_SM) :: task_sm_invocations _ = _
        rw [task_sm_invocations_calls]
        rfl
    · refine ⟨task1, more, ?_, ?_⟩
      · unfold mr_task_handle
        rw [if_neg hna]
        simp only [hl, if_neg hsm]
      · unfold mr_task_handle_log
        rw [if_neg hna]
        simp only [hl, if_neg hsm]
        show task_sm_invocations (_ ++ _) = _
        rw [task_sm_invocations_append, elog]
        exact List.append_nil _

/-- The state machine of a task just added is not active, so the scan
`task_sm_enter_first` starts in agreement with it. -/
theorem task_sm_inv_add (task : mr_task) (table : List mr_task_table)
    (table_size queue_size : Nat) (pool : List Nat) (object_add : mr_err_t) :
    task_sm_inv (mr_task_add task table table_size queue_size (some pool) object_add).1
      none [] :=
  fun h => Bool.noConfusion h

/-- With any callbacks, `mr_task_handle` returns on a reachable task when it
is granted one iteration more than there are records in the queue. -/
theorem mr_task_handle_returns (cfg : Bool) (cbs : mr_task_callbacks) (task : mr_task)
    (h : task_reachable cfg task) :
    ∃ r : mr_task × List mr_task_invocation,
      mr_task_handle cfg cbs (mr_rb_get_data_size task.queue / 2 + 1) task = some r := by
  have hinv := task_reachable_inv cfg task h
  by_cases ha : task.active = false
  · refine ⟨(task, []), ?_⟩
    unfold mr_task_handle
    rw [if_pos ha]
  · obtain ⟨task1, queue_driven, posted, l1, l2, _, _, _, l6, l7, _⟩ :=
      mr_task_handle_loop_snapshot cfg cbs (mr_rb_get_data_size task.queue / 2 + 1) task hinv
        (by omega)
    obtain ⟨c1, c2⟩ := mr_task_handle_sm_call cfg cbs
      (mr_rb_get_data_size task.queue / 2 + 1) task task1 queue_driven posted
      (by simpa using ha) l7 l6 l1 l2
    by_cases hsm : task1.sm_active = true
    · obtain ⟨task2, _, e, _⟩ := c1 hsm
      exact ⟨_, e⟩
    · exact ⟨_, (c2 hsm).1⟩

/-- An execution without a call of `mr_task_update_tick` returns. -/
theorem mr_task_run_returns (cfg : Bool) :
    ∀ (apis : List mr_task_api) (task : mr_task), task_reachable cfg task →
      (∀ api ∈ apis, ∀ fuel tick : Nat, api ≠ mr_task_api.update_tick fuel tick) →
      ∃ r : mr_task × List task_sm_event,
        mr_task_run cfg task apis = some r ∧ task_reachable cfg r.1 := by
  intro apis
  induction apis with
  | nil =>
    intro task h _
    exact ⟨(task, []), rfl, h⟩
  | cons api apis ih =>
    intro task h hno
    have hstep : ∃ r : mr_task × List task_sm_event,
        mr_task_api_step cfg task api = some r ∧ task_reachable cfg r.1 := by
      cases api with
      | start => exact ⟨_, rfl, task_reachable.start task h⟩
      | stop => exact ⟨_, rfl, task_reachable.stop task h⟩
      | call made => exact ⟨_, rfl, task_reachable_calls cfg [made] task h⟩
      | update_tick fuel tick =>
        exact absurd rfl (hno _ (List.mem_cons_self _ _) fuel tick)
      | handle cbs =>
        obtain ⟨r, e⟩ := mr_task_handle_returns cfg cbs task h
        refine ⟨(r.1, mr_task_handle_log cfg cbs
          (mr_rb_get_data_size task.queue / 2 + 1) task), ?_, ?_⟩
        · simp only [mr_task_api_step]
          rw [e]
          rfl
        · exact task_reachable_handle cfg cbs _ task r.1 r.2 h e
    obtain ⟨r, e1, e2⟩ := hstep
    obtain ⟨r2, e3, e4⟩ := ih r.1 e2 (fun api hm => hno api (List.mem_cons_of_mem _ hm))
    refine ⟨(r2.1, r.2 ++ r2.2), ?_, e4⟩
    simp only [mr_task_run]
    rw [e1, Option.some_bind, e3]
    rfl

/-- Claim C15, as the code has it.  STATE_ENTER precedes STATE_ACTIVE in every
execution whose transitions are made outside the loop over the queued records
of `mr_task_handle` and have their STATE_ENTER record accepted by the queue.
An execution is a sequence of calls of the application on a task that has been
added: `mr_task_start`, `mr_task_stop`, `mr_task_post_event`, `mr_task_timing`,
`mr_task_transition_state`, `mr_task_update_tick` and `mr_task_handle`, the
callbacks being free to call `mr_task_post_event`, `mr_task_timing` and
`mr_task_transition_state` in every invocation; events may be posted and
timers armed at any point.  First, if in an execution that returns every call
of `mr_task_transition_state` that changes the state is made by the
application between two dispatches or by the callback that `mr_task_handle`
invokes with `MR_TASK_EVENT_SM`, and finds room in the queue for its
STATE_ENTER record, then at every invocation of a slot with
`MR_TASK_EVENT_SM` the last transition has made this slot the current state
and the STATE_ENTER record of that transition has been delivered to the slot
before: it stood in place `owed` of the queue when the transition returned,
and the delivery number `owed` since then is this slot with STATE_ENTER; the
task at the end is a reachable state.  Second, an execution without a call of
`mr_task_update_tick` returns, for any callbacks.  Third, the entries of a
dispatch are what `mr_task_handle` does: for any callbacks, on every reachable
state, `mr_task_handle` returns and the deliveries and the state call among
its entries are, slot and event code, the invocations it makes, in order. -/
theorem C15_enter_before_active (cfg : Bool) (task0 : mr_task) (table : List mr_task_table)
    (table_size queue_size : Nat) (pool : List Nat)
    (hsize : table_size ≠ 0 ∧ table_size ≤ 255) (htable : table.length = table_size)
    (hpool : pool.length = queue_size * 2) (apis : List mr_task_api) :
    (∀ (task : mr_task) (log : List task_sm_event),
      mr_task_run cfg
          (mr_task_add task0 table table_size queue_size (some pool) mr_err_t.MR_ERR_OK).1
          apis
        = some (task, log) →
      task_sm_disciplined false log = true →
      task_sm_enter_first none [] log = true ∧ task_reachable cfg task) ∧
    ((∀ api ∈ apis, ∀ fuel tick : Nat, api ≠ mr_task_api.update_tick fuel tick) →
      ∃ r : mr_task × List task_sm_event,
        mr_task_run cfg
            (mr_task_add task0 table table_size queue_size (some pool) mr_err_t.MR_ERR_OK).1
            apis
          = some r) ∧
    (∀ (cbs : mr_task_callbacks) (state : mr_task), task_reachable cfg state →
      ∃ (task2 : mr_task) (trace : List mr_task_invocation),
        mr_task_handle cfg cbs (mr_rb_get_data_size state.queue / 2 + 1) state
          = some (task2, trace) ∧
        task_sm_invocations
            (mr_task_handle_log cfg cbs (mr_rb_get_data_size state.queue / 2 + 1) state)
          = trace.map (fun v => (v.index, v.event))) := by
  have hreach : task_reachable cfg
      (mr_task_add task0 table table_size queue_size (some pool) mr_err_t.MR_ERR_OK).1 :=
    task_reachable.add task0 table table_size queue_size pool hsize htable hpool
  refine ⟨?_, ?_, ?_⟩
  · intro task log hrun hd
    exact mr_task_run_enter_first cfg apis _ task none [] log hreach
      (task_sm_inv_add task0 table table_size queue_size pool mr_err_t.MR_ERR_OK) hrun hd
  · intro hno
    obtain ⟨r, e, _⟩ := mr_task_run_returns cfg apis _ hreach hno
    exact ⟨r, e⟩
  · intro cbs state hstate
    exact mr_task_handle_log_invocations cfg cbs state (task_reachable_inv cfg state hstate)

/-- Witness of claim C15: the example task is started, changes to state 0 and
gets event 7 for slot 1 before the first dispatch, which delivers STATE_ENTER
to slot 0, event 7 to slot 1 and then calls state 0; the callback of state 0
changes to state 1 in that call, and the second dispatch delivers STATE_EXIT
to slot 0 and STATE_ENTER to slot 1 before it calls state 1. -/
theorem C15_enter_before_active_witness :
    (2 ≠ 0 ∧ 2 ≤ 255) ∧ task_example_table.length = 2 ∧ [0, 0, 0, 0].length = 2 * 2 ∧
    (mr_task_run true
        (mr_task_add task_example_blank task_example_table 2 2 (some [0, 0, 0, 0])
          mr_err_t.MR_ERR_OK).1 task_example_sm_calls).map (fun r => r.2)
      = some [task_sm_event.transition 0 1, task_sm_event.dispatch,
          task_sm_event.deliver 0 MR_TASK_EVENT_SM_ENTER, task_sm_event.deliver 1 7,
          task_sm_event.drained, task_sm_event.active 0, task_sm_event.transition 1 2,
          task_sm_event.dispatch, task_sm_event.deliver 0 MR_TASK_EVENT_SM_EXIT,
          task_sm_event.deliver 1 MR_TASK_EVENT_SM_ENTER, task_sm_event.drained,
          task_sm_event.active 1] ∧
    task_sm_disciplined false
        [task_sm_event.transition 0 1, task_sm_event.dispatch,
          task_sm_event.deliver 0 MR_TASK_EVENT_SM_ENTER, task_sm_event.deliver 1 7,
          task_sm_event.drained, task_sm_event.active 0, task_sm_event.transition 1 2,
          task_sm_event.dispatch, task_sm_event.deliver 0 MR_TASK_EVENT_SM_EXIT,
          task_sm_event.deliver 1 MR_TASK_EVENT_SM_ENTER, task_sm_event.drained,
          task_sm_event.active 1] = true ∧
    (task_sm_enter_first none []
        [task_sm_event.transition 0 1, task_sm_event.dispatch,
          task_sm_event.deliver 0 MR_TASK_EVENT_SM_ENTER, task_sm_event.deliver 1 7,
          task_sm_event.drained, task_sm_event.active 0, task_sm_event.transition 1 2,
          task_sm_event.dispatch, task_sm_event.deliver 0 MR_TASK_EVENT_SM_EXIT,
          task_sm_event.deliver 1 MR_TASK_EVENT_SM_ENTER, task_sm_event.drained,
          task_sm_event.active 1] = true ∧
      task_reachable true
        ((mr_task_run true
          (mr_task_add task_example_blank task_example_table 2 2 (some [0, 0, 0, 0])
            mr_err_t.MR_ERR_OK).1 task_example_sm_calls).getD (task_example_blank, [])).1) :=
  ⟨by decide, by decide, by decide, by decide, by decide,
    (C15_enter_before_active true task_example_blank task_example_table 2 2 [0, 0, 0, 0]
      (by decide) (by decide) (by decide) task_example_sm_calls).1
      ((mr_task_run true
        (mr_task_add task_example_blank task_example_table 2 2 (some [0, 0, 0, 0])
          mr_err_t.MR_ERR_OK).1 task_example_sm_calls).getD (task_example_blank, [])).1
      [task_sm_event.transition 0 1, task_sm_event.dispatch,
        task_sm_event.deliver 0 MR_TASK_EVENT_SM_ENTER, task_sm_event.deliver 1 7,
        task_sm_event.drained, task_sm_event.active 0, task_sm_event.transition 1 2,
        task_sm_event.dispatch, task_sm_event.deliver 0 MR_TASK_EVENT_SM_EXIT,
        task_sm_event.deliver 1 MR_TASK_EVENT_SM_ENTER, task_sm_event.drained,
        task_sm_event.active 1]
      (by decide) (by decide)⟩

/-- Counterexamples to claim C15 as stated.  First, a transition made inside a
callback that is invoked for a queued record: the example task has event 5
queued for slot 0, whose callback changes to state 1 on event 5; the dispatch
invokes slot 0 with event 5 and then slot 1 with `MR_TASK_EVENT_SM`, while the
STATE_ENTER record of slot 1 is still in the queue.  Second, a transition
made with the queue full: the STATE_ENTER record is dropped, the dispatch
delivers the two queued events and then `MR_TASK_EVENT_SM` to slot 1, and the
queue is empty afterwards.  The two executions, from `mr_task_add` on, with
the entries they leave: in both the state call to slot 1 comes without the
delivery of STATE_ENTER (`task_sm_enter_first` is false), one having its
transition inside the loop over the queued records and the other having it
with no room for the record (`task_sm_disciplined` is false). -/
theorem C15_active_without_enter :
    task_reachable true task_example_queued ∧
    (mr_task_handle true task_example_transit 2 task_example_queued).map
        (fun r => (r.2, fifo_contents r.1.queue))
      = some ([⟨0, mr_task_cb.user 0, 10, 5⟩,
          ⟨1, mr_task_cb.err_io_task_cb, 11, MR_TASK_EVENT_SM⟩],
          [MR_TASK_EVENT_SM_ENTER, 1]) ∧
    task_reachable true (mr_task_transition_state true task_example_full 1).1 ∧
    (mr_task_handle true task_example_callbacks 3
        (mr_task_transition_state true task_example_full 1).1).map
        (fun r => (r.2, fifo_contents r.1.queue))
      = some ([⟨0, mr_task_cb.user 0, 10, 1⟩, ⟨0, mr_task_cb.user 0, 10, 2⟩,
          ⟨1, mr_task_cb.err_io_task_cb, 11, MR_TASK_EVENT_SM⟩], []) ∧
    (mr_task_run true
        (mr_task_add task_example_blank task_example_table 2 2 (some [0, 0, 0, 0])
          mr_err_t.MR_ERR_OK).1
        [mr_task_api.start, mr_task_api.call (mr_task_call.post_event 0 5),
          mr_task_api.handle task_example_transit]).map
        (fun r => (r.2, task_sm_disciplined false r.2, task_sm_enter_first none [] r.2))
      = some ([task_sm_event.dispatch, task_sm_event.deliver 0 5,
          task_sm_event.transition 1 1, task_sm_event.drained, task_sm_event.active 1],
          false, false) ∧
    (mr_task_run true
        (mr_task_add task_example_blank task_example_table 2 2 (some [0, 0, 0, 0])
          mr_err_t.MR_ERR_OK).1
        [mr_task_api.start, mr_task_api.call (mr_task_call.post_event 0 1),
          mr_task_api.call (mr_task_call.post_event 0 2),
          mr_task_api.call (mr_task_call.transition_state 1),
          mr_task_api.handle task_example_callbacks]).map
        (fun r => (r.2, task_sm_disciplined false r.2, task_sm_enter_first none [] r.2))
      = some ([task_sm_event.transition 1 0, task_sm_event.dispatch,
          task_sm_event.deliver 0 1, task_sm_event.deliver 0 2, task_sm_event.drained,
          task_sm_event.active 1], false, false) :=
  ⟨task_example_queued_reachable, by decide,
    task_reachable.transition_state _ 1 (by decide)
      (task_reachable.post_event _ 0 2 (by decide) (by decide)
        (task_reachable.post_event _ 0 1 (by decide) (by decide) (task_example_reachable true))),
    by decide, by decide, by decide⟩

end MrLibrary
